import Mathlib

/-!
Open3D `TriangleMesh`: a shallow embedding of the mesh algorithms.

The definitions below follow `src/Open3D/Geometry/TriangleMesh.cpp`.

Conventions of the embedding.

* Coordinates are exact rationals (`ℚ`); `Eigen::Vector3d` is a triple of them.
* A vertex or triangle index is a natural number.  The source stores indices as
  `int`; a negative index lies outside every array, so a well-formed mesh never
  holds one.  Reading an array outside its bounds is undefined in the source; the
  embedding reads a default value there, and a theorem about an operation that
  reads the vertices through the triangle indices assumes a well-formed mesh.
* `std::vector` is `List`; `a[k] = x` is `List.set`, `resize` is `resize`.
  The compaction loops of the source work in place and are embedded in place.
* `std::unordered_set<int>` stored on the mesh is `Finset ℕ`; a local one is a
  duplicate-free list.
* `std::unordered_map` is an association list in order of first insertion.  Where
  the source iterates over a hash container, the iteration order is a parameter
  (`order`) and the theorems hold for every order.
* `sqrt` (inside `Eigen`'s `norm`) is a parameter `root`; the theorems on areas
  need at most `root 0 = 0`.
* A loop whose termination is not structural has a bound on its iterations and
  returns `none` when the bound is reached; the theorems show that it is not.
-/

namespace Open3D

abbrev Vector3d := ℚ × ℚ × ℚ
abbrev Vector3i := ℕ × ℕ × ℕ
abbrev Vector2i := ℕ × ℕ

/-- The data members of `TriangleMesh`. -/
structure TriangleMesh where
  vertices_ : List Vector3d
  vertex_normals_ : List Vector3d
  vertex_colors_ : List Vector3d
  triangles_ : List Vector3i
  triangle_normals_ : List Vector3d
  adjacency_list_ : List (Finset ℕ)
  deriving DecidableEq

/-- Every triangle index is in `[0, vertex count)`. -/
def WellFormed (m : TriangleMesh) : Prop :=
  ∀ t ∈ m.triangles_,
    t.1 < m.vertices_.length ∧ t.2.1 < m.vertices_.length ∧ t.2.2 < m.vertices_.length

instance (m : TriangleMesh) : Decidable (WellFormed m) := by
  unfold WellFormed; infer_instance

/-- `std::vector::resize(k)` with fill value `d`. -/
def resize {α : Type} (l : List α) (k : ℕ) (d : α) : List α :=
  l.take k ++ List.replicate (k - l.length) d

/-- Modelled from the spec: the header declaring `HasVertexNormals` is absent; a
parallel array is present iff its length equals the length of its parent. -/
def HasVertexNormals (m : TriangleMesh) : Bool :=
  m.vertex_normals_.length == m.vertices_.length

/-- Modelled from the spec: the header declaring `HasVertexColors` is absent; a
parallel array is present iff its length equals the length of its parent. -/
def HasVertexColors (m : TriangleMesh) : Bool :=
  m.vertex_colors_.length == m.vertices_.length

/-- Modelled from the spec: the header declaring `HasTriangleNormals` is absent; a
parallel array is present iff its length equals the length of its parent. -/
def HasTriangleNormals (m : TriangleMesh) : Bool :=
  m.triangle_normals_.length == m.triangles_.length

/-- Modelled from the spec: the header declaring `HasAdjacencyList` is absent; the
adjacency is present iff it has one entry per vertex. -/
def HasAdjacencyList (m : TriangleMesh) : Bool :=
  m.adjacency_list_.length == m.vertices_.length

/-! ## ComputeAdjacencyList -/

/-- The statement `adjacency_list_[i].insert(v)`. -/
def adjInsert (adj : List (Finset ℕ)) (i v : ℕ) : List (Finset ℕ) :=
  adj.set i (insert v (adj.getD i ∅))

/-- The body of the loop of `ComputeAdjacencyList` for one triangle. -/
def adjTriangle (adj : List (Finset ℕ)) (t : Vector3i) : List (Finset ℕ) :=
  let adj := adjInsert adj t.1 t.2.1
  let adj := adjInsert adj t.1 t.2.2
  let adj := adjInsert adj t.2.1 t.1
  let adj := adjInsert adj t.2.1 t.2.2
  let adj := adjInsert adj t.2.2 t.1
  adjInsert adj t.2.2 t.2.1

/-- `TriangleMesh::ComputeAdjacencyList`. -/
def ComputeAdjacencyList (m : TriangleMesh) : TriangleMesh :=
  { m with adjacency_list_ :=
      m.triangles_.foldl adjTriangle (resize [] m.vertices_.length ∅) }

/-! ## RemoveDuplicatedVertices -/

/-- `find` on an `unordered_map`. -/
def mapFind {κ ν : Type} [DecidableEq κ] : List (κ × ν) → κ → Option ν
  | [], _ => none
  | (k, v) :: rest, key => if k = key then some v else mapFind rest key

/-- The assignment `map[key] = v` on an `unordered_map`. -/
def mapSet {κ ν : Type} [DecidableEq κ] : List (κ × ν) → κ → ν → List (κ × ν)
  | [], key, v => [(key, v)]
  | (k, w) :: rest, key, v =>
    if k = key then (k, v) :: rest else (k, w) :: mapSet rest key v

/-- Loop state of `RemoveDuplicatedVertices`. -/
structure DupVertState where
  vertices_ : List Vector3d
  vertex_normals_ : List Vector3d
  vertex_colors_ : List Vector3d
  point_to_old_index : List (Vector3d × ℕ)
  index_old_to_new : List ℤ
  k : ℕ

/-- One iteration (old index `i`) of the loop of `RemoveDuplicatedVertices`. -/
def dupVertStep (has_vert_normal has_vert_color : Bool) (s : DupVertState) (i : ℕ) :
    DupVertState :=
  let coord := s.vertices_.getD i default
  match mapFind s.point_to_old_index coord with
  | none =>
    { vertices_ := s.vertices_.set s.k (s.vertices_.getD i default)
      vertex_normals_ :=
        if has_vert_normal then s.vertex_normals_.set s.k (s.vertex_normals_.getD i default)
        else s.vertex_normals_
      vertex_colors_ :=
        if has_vert_color then s.vertex_colors_.set s.k (s.vertex_colors_.getD i default)
        else s.vertex_colors_
      point_to_old_index := mapSet s.point_to_old_index coord i
      index_old_to_new := s.index_old_to_new.set i (s.k : ℤ)
      k := s.k + 1 }
  | some j =>
    { s with index_old_to_new := s.index_old_to_new.set i (s.index_old_to_new.getD j 0) }

/-- The remapping `triangle(c) = index_old_to_new[triangle(c)]` of all triangles. -/
def remapTriangles (index_old_to_new : List ℤ) (ts : List Vector3i) : List Vector3i :=
  ts.map fun t =>
    ((index_old_to_new.getD t.1 0).toNat,
     (index_old_to_new.getD t.2.1 0).toNat,
     (index_old_to_new.getD t.2.2 0).toNat)

/-- The loop of `RemoveDuplicatedVertices`, run over all old indices. -/
def dupVertLoop (m : TriangleMesh) : DupVertState :=
  (List.range m.vertices_.length).foldl
    (dupVertStep (HasVertexNormals m) (HasVertexColors m))
    { vertices_ := m.vertices_
      vertex_normals_ := m.vertex_normals_
      vertex_colors_ := m.vertex_colors_
      point_to_old_index := []
      index_old_to_new := List.replicate m.vertices_.length 0
      k := 0 }

/-- `TriangleMesh::RemoveDuplicatedVertices`. -/
def RemoveDuplicatedVertices (m : TriangleMesh) : TriangleMesh :=
  let has_vert_normal := HasVertexNormals m
  let has_vert_color := HasVertexColors m
  let old_vertex_num := m.vertices_.length
  let s := dupVertLoop m
  let m1 : TriangleMesh :=
    { m with
      vertices_ := resize s.vertices_ s.k default
      vertex_normals_ :=
        if has_vert_normal then resize s.vertex_normals_ s.k default else s.vertex_normals_
      vertex_colors_ :=
        if has_vert_color then resize s.vertex_colors_ s.k default else s.vertex_colors_ }
  if s.k < old_vertex_num then
    let m2 := { m1 with triangles_ := remapTriangles s.index_old_to_new m1.triangles_ }
    if HasAdjacencyList m2 then ComputeAdjacencyList m2 else m2
  else m1

/-! ## RemoveDuplicatedTriangles -/

/-- The key `index` computed for a triangle in `RemoveDuplicatedTriangles`. -/
def triangleKey (t : Vector3i) : Vector3i :=
  if t.1 ≤ t.2.1 then
    if t.1 ≤ t.2.2 then (t.1, t.2.1, t.2.2) else (t.2.2, t.1, t.2.1)
  else
    if t.2.1 ≤ t.2.2 then (t.2.1, t.2.2, t.1) else (t.2.2, t.1, t.2.1)

/-- Loop state of `RemoveDuplicatedTriangles`. -/
structure DupTriState where
  triangles_ : List Vector3i
  triangle_normals_ : List Vector3d
  triangle_to_old_index : List (Vector3i × ℕ)
  k : ℕ

/-- One iteration (old index `i`) of the loop of `RemoveDuplicatedTriangles`. -/
def dupTriStep (has_tri_normal : Bool) (s : DupTriState) (i : ℕ) : DupTriState :=
  let index := triangleKey (s.triangles_.getD i default)
  match mapFind s.triangle_to_old_index index with
  | none =>
    { triangles_ := s.triangles_.set s.k (s.triangles_.getD i default)
      triangle_normals_ :=
        if has_tri_normal then
          s.triangle_normals_.set s.k (s.triangle_normals_.getD i default)
        else s.triangle_normals_
      triangle_to_old_index := mapSet s.triangle_to_old_index index i
      k := s.k + 1 }
  | some _ => s

/-- The loop of `RemoveDuplicatedTriangles`, run over all old indices. -/
def dupTriLoop (m : TriangleMesh) : DupTriState :=
  (List.range m.triangles_.length).foldl (dupTriStep (HasTriangleNormals m))
    { triangles_ := m.triangles_
      triangle_normals_ := m.triangle_normals_
      triangle_to_old_index := []
      k := 0 }

/-- `TriangleMesh::RemoveDuplicatedTriangles`. -/
def RemoveDuplicatedTriangles (m : TriangleMesh) : TriangleMesh :=
  let has_tri_normal := HasTriangleNormals m
  let old_triangle_num := m.triangles_.length
  let s := dupTriLoop m
  let m1 : TriangleMesh :=
    { m with
      triangles_ := resize s.triangles_ s.k default
      triangle_normals_ :=
        if has_tri_normal then resize s.triangle_normals_ s.k default
        else s.triangle_normals_ }
  if s.k < old_triangle_num && HasAdjacencyList m1 then ComputeAdjacencyList m1 else m1

/-! ## RemoveUnreferencedVertices -/

/-- The first loop of `RemoveUnreferencedVertices`: mark the referenced vertices. -/
def markReferenced (m : TriangleMesh) : List Bool :=
  m.triangles_.foldl
    (fun vertex_has_reference t =>
      ((vertex_has_reference.set t.1 true).set t.2.1 true).set t.2.2 true)
    (List.replicate m.vertices_.length false)

/-- Loop state of `RemoveUnreferencedVertices`. -/
structure UnrefState where
  vertices_ : List Vector3d
  vertex_normals_ : List Vector3d
  vertex_colors_ : List Vector3d
  index_old_to_new : List ℤ
  k : ℕ

/-- One iteration (old index `i`) of the second loop of `RemoveUnreferencedVertices`. -/
def unrefStep (vertex_has_reference : List Bool) (has_vert_normal has_vert_color : Bool)
    (s : UnrefState) (i : ℕ) : UnrefState :=
  if vertex_has_reference.getD i false then
    { vertices_ := s.vertices_.set s.k (s.vertices_.getD i default)
      vertex_normals_ :=
        if has_vert_normal then s.vertex_normals_.set s.k (s.vertex_normals_.getD i default)
        else s.vertex_normals_
      vertex_colors_ :=
        if has_vert_color then s.vertex_colors_.set s.k (s.vertex_colors_.getD i default)
        else s.vertex_colors_
      index_old_to_new := s.index_old_to_new.set i (s.k : ℤ)
      k := s.k + 1 }
  else
    { s with index_old_to_new := s.index_old_to_new.set i (-1) }

/-- The second loop of `RemoveUnreferencedVertices`, run over all old indices. -/
def unrefLoop (m : TriangleMesh) : UnrefState :=
  (List.range m.vertices_.length).foldl
    (unrefStep (markReferenced m) (HasVertexNormals m) (HasVertexColors m))
    { vertices_ := m.vertices_
      vertex_normals_ := m.vertex_normals_
      vertex_colors_ := m.vertex_colors_
      index_old_to_new := List.replicate m.vertices_.length 0
      k := 0 }

/-- `TriangleMesh::RemoveUnreferencedVertices`. -/
def RemoveUnreferencedVertices (m : TriangleMesh) : TriangleMesh :=
  let has_vert_normal := HasVertexNormals m
  let has_vert_color := HasVertexColors m
  let old_vertex_num := m.vertices_.length
  let s := unrefLoop m
  let m1 : TriangleMesh :=
    { m with
      vertices_ := resize s.vertices_ s.k default
      vertex_normals_ :=
        if has_vert_normal then resize s.vertex_normals_ s.k default else s.vertex_normals_
      vertex_colors_ :=
        if has_vert_color then resize s.vertex_colors_ s.k default else s.vertex_colors_ }
  if s.k < old_vertex_num then
    let m2 := { m1 with triangles_ := remapTriangles s.index_old_to_new m1.triangles_ }
    if HasAdjacencyList m2 then ComputeAdjacencyList m2 else m2
  else m1

/-! ## RemoveDegenerateTriangles -/

/-- Loop state of `RemoveDegenerateTriangles`. -/
structure DegTriState where
  triangles_ : List Vector3i
  triangle_normals_ : List Vector3d
  k : ℕ

/-- One iteration (old index `i`) of the loop of `RemoveDegenerateTriangles`. -/
def degTriStep (has_tri_normal : Bool) (s : DegTriState) (i : ℕ) : DegTriState :=
  let triangle := s.triangles_.getD i default
  if triangle.1 ≠ triangle.2.1 ∧ triangle.2.1 ≠ triangle.2.2 ∧ triangle.2.2 ≠ triangle.1 then
    { triangles_ := s.triangles_.set s.k (s.triangles_.getD i default)
      triangle_normals_ :=
        if has_tri_normal then
          s.triangle_normals_.set s.k (s.triangle_normals_.getD i default)
        else s.triangle_normals_
      k := s.k + 1 }
  else s

/-- The loop of `RemoveDegenerateTriangles`, run over all old indices. -/
def degTriLoop (m : TriangleMesh) : DegTriState :=
  (List.range m.triangles_.length).foldl (degTriStep (HasTriangleNormals m))
    { triangles_ := m.triangles_
      triangle_normals_ := m.triangle_normals_
      k := 0 }

/-- `TriangleMesh::RemoveDegenerateTriangles`. -/
def RemoveDegenerateTriangles (m : TriangleMesh) : TriangleMesh :=
  let has_tri_normal := HasTriangleNormals m
  let old_triangle_num := m.triangles_.length
  let s := degTriLoop m
  let m1 : TriangleMesh :=
    { m with
      triangles_ := resize s.triangles_ s.k default
      triangle_normals_ :=
        if has_tri_normal then resize s.triangle_normals_ s.k default
        else s.triangle_normals_ }
  if s.k < old_triangle_num && HasAdjacencyList m1 then ComputeAdjacencyList m1 else m1

/-! ## Edge map, areas, Euler characteristic -/

/-- The lambda `AddEdge` of `GetEdgeToTrianglesMap`:
`trias_per_edge[(min, max)].push_back(tidx)`. -/
def AddEdge (trias_per_edge : List (Vector2i × List ℕ)) (vidx0 vidx1 tidx : ℕ) :
    List (Vector2i × List ℕ) :=
  let min0 := min vidx0 vidx1
  let max0 := max vidx0 vidx1
  let edge : Vector2i := (min0, max0)
  mapSet trias_per_edge edge (((mapFind trias_per_edge edge).getD []) ++ [tidx])

/-- `TriangleMesh::GetEdgeToTrianglesMap`. -/
def GetEdgeToTrianglesMap (m : TriangleMesh) : List (Vector2i × List ℕ) :=
  (List.range m.triangles_.length).foldl
    (fun trias_per_edge tidx =>
      let triangle := m.triangles_.getD tidx default
      let trias_per_edge := AddEdge trias_per_edge triangle.1 triangle.2.1 tidx
      let trias_per_edge := AddEdge trias_per_edge triangle.2.1 triangle.2.2 tidx
      AddEdge trias_per_edge triangle.2.2 triangle.1 tidx)
    []

/-- Component-wise difference of two points. -/
def vsub (a b : Vector3d) : Vector3d := (a.1 - b.1, a.2.1 - b.2.1, a.2.2 - b.2.2)

/-- `Eigen`'s `cross`. -/
def cross (x y : Vector3d) : Vector3d :=
  (x.2.1 * y.2.2 - x.2.2 * y.2.1, x.2.2 * y.1 - x.1 * y.2.2, x.1 * y.2.1 - x.2.1 * y.1)

/-- `Eigen`'s `squaredNorm`. -/
def squaredNorm (x : Vector3d) : ℚ := x.1 * x.1 + x.2.1 * x.2.1 + x.2.2 * x.2.2

/-- `ComputeTriangleArea`; `root` stands for the square root inside `norm()`. -/
def ComputeTriangleArea (root : ℚ → ℚ) (p0 p1 p2 : Vector3d) : ℚ :=
  let x := vsub p0 p1
  let y := vsub p0 p2
  (1 / 2) * root (squaredNorm (cross x y))

/-- `TriangleMesh::GetTriangleArea`. -/
def GetTriangleArea (root : ℚ → ℚ) (m : TriangleMesh) (triangle_idx : ℕ) : ℚ :=
  let triangle := m.triangles_.getD triangle_idx default
  let vertex0 := m.vertices_.getD triangle.1 default
  let vertex1 := m.vertices_.getD triangle.2.1 default
  let vertex2 := m.vertices_.getD triangle.2.2 default
  ComputeTriangleArea root vertex0 vertex1 vertex2

/-- `TriangleMesh::GetSurfaceArea()`. -/
def GetSurfaceArea (root : ℚ → ℚ) (m : TriangleMesh) : ℚ :=
  (List.range m.triangles_.length).foldl
    (fun surface_area tidx => surface_area + GetTriangleArea root m tidx) 0

/-- The array `triangle_areas` filled by `GetSurfaceArea(triangle_areas)`. -/
def GetTriangleAreas (root : ℚ → ℚ) (m : TriangleMesh) : List ℚ :=
  (List.range m.triangles_.length).map (GetTriangleArea root m)

/-- `TriangleMesh::EulerPoincareCharacteristic`. -/
def EulerPoincareCharacteristic (m : TriangleMesh) : ℤ :=
  let edges : Finset Vector2i :=
    m.triangles_.foldl
      (fun edges triangle =>
        let edges := insert (min triangle.1 triangle.2.1, max triangle.1 triangle.2.1) edges
        let edges := insert (min triangle.1 triangle.2.2, max triangle.1 triangle.2.2) edges
        insert (min triangle.2.1 triangle.2.2, max triangle.2.1 triangle.2.2) edges)
      ∅
  let E : ℤ := edges.card
  let V : ℤ := m.vertices_.length
  let F : ℤ := m.triangles_.length
  V + F - E

/-- The test of `IsEdgeManifold` and `GetNonManifoldEdges` on one entry of the map. -/
def edgeIsNonManifold (allow_boundary_edges : Bool) (kv : Vector2i × List ℕ) : Bool :=
  (allow_boundary_edges && (decide (kv.2.length < 1) || decide (kv.2.length > 2))) ||
    (!allow_boundary_edges && kv.2.length != 2)

/-- `TriangleMesh::IsEdgeManifold`: false as soon as one entry fails the test, so
the iteration order over the map does not matter. -/
def IsEdgeManifold (m : TriangleMesh) (allow_boundary_edges : Bool) : Bool :=
  (GetEdgeToTrianglesMap m).all fun kv => !edgeIsNonManifold allow_boundary_edges kv

/-! ## RemoveNonManifoldEdges -/

/-- The comparison `area < min_area`, where `none` is the initial value
`numeric_limits<double>::max()` of `min_area`, above every area. -/
def belowMin (area : ℚ) : Option ℚ → Bool
  | none => true
  | some min_area => decide (area < min_area)

/-- The search for the triangle of smallest positive area among `tris`; the result
is `(min_tidx, min_area)`, where `none` stands for the initial values `-1` and
`numeric_limits<double>::max()`. -/
def findSmallest (triangle_areas : List ℚ) (tris : List ℕ) : Option ℕ × Option ℚ :=
  tris.foldl
    (fun (r : Option ℕ × Option ℚ) tidx =>
      let area := triangle_areas.getD tidx 0
      if area > 0 ∧ belowMin area r.2 = true then (some tidx, some area) else r)
    (none, none)

/-- The loop `while (n_triangles_to_delete > 0)`, run `n` times; `none` when
`min_tidx` is still `-1` at the write `triangle_areas[min_tidx] = -1`. -/
def markSmallest : ℕ → List ℕ → List ℚ → Option (List ℚ)
  | 0, _, triangle_areas => some triangle_areas
  | n + 1, tris, triangle_areas =>
    match (findSmallest triangle_areas tris).1 with
    | none => none
    | some min_tidx => markSmallest n tris (triangle_areas.set min_tidx (-1))

/-- The body of the loop over the entries of `edges_to_triangles`; the state is
`(mesh_is_edge_manifold, triangle_areas)`. -/
def edgeStep (st : Bool × List ℚ) (kv : Vector2i × List ℕ) : Option (Bool × List ℚ) :=
  let n_edge_triangle_refs := kv.2.length
  if n_edge_triangle_refs = 1 ∨ n_edge_triangle_refs = 2 then some st
  else
    let n_triangles := (kv.2.filter fun tidx => decide (st.2.getD tidx 0 > 0)).length
    let n_triangles_to_delete := n_triangles - 2
    match markSmallest n_triangles_to_delete kv.2 st.2 with
    | none => none
    | some triangle_areas => some (false, triangle_areas)

/-- The loop over all entries of `edges_to_triangles`. -/
def edgeLoop : List (Vector2i × List ℕ) → Bool × List ℚ → Option (Bool × List ℚ)
  | [], st => some st
  | kv :: rest, st =>
    match edgeStep st kv with
    | none => none
    | some st1 => edgeLoop rest st1

/-- State of the loop that deletes the marked triangles. -/
structure CompactState where
  triangles_ : List Vector3i
  triangle_areas : List ℚ
  triangle_normals_ : List Vector3d
  to_tidx : ℕ

/-- One iteration (`from_tidx`) of the loop that deletes the marked triangles. -/
def compactStep (has_tri_normal : Bool) (s : CompactState) (from_tidx : ℕ) : CompactState :=
  if s.triangle_areas.getD from_tidx 0 > 0 then
    { triangles_ := s.triangles_.set s.to_tidx (s.triangles_.getD from_tidx default)
      triangle_areas := s.triangle_areas.set s.to_tidx (s.triangle_areas.getD from_tidx 0)
      triangle_normals_ :=
        if has_tri_normal then
          s.triangle_normals_.set s.to_tidx (s.triangle_normals_.getD from_tidx default)
        else s.triangle_normals_
      to_tidx := s.to_tidx + 1 }
  else s

/-- The deletion of the marked triangles at the end of one pass. -/
def deleteMarked (m : TriangleMesh) (triangle_areas : List ℚ) : TriangleMesh × List ℚ :=
  let has_tri_normal := HasTriangleNormals m
  let s := (List.range m.triangles_.length).foldl (compactStep has_tri_normal)
    { triangles_ := m.triangles_
      triangle_areas := triangle_areas
      triangle_normals_ := m.triangle_normals_
      to_tidx := 0 }
  ({ m with
      triangles_ := resize s.triangles_ s.to_tidx default
      triangle_normals_ :=
        if has_tri_normal then resize s.triangle_normals_ s.to_tidx default
        else s.triangle_normals_ },
    resize s.triangle_areas s.to_tidx 0)

/-- The loop `while (!mesh_is_edge_manifold)` of `RemoveNonManifoldEdges`, with a
bound on the number of passes; `none` when the bound is reached or a pass writes
outside `triangle_areas`. -/
def nonManifoldLoop (order : List (Vector2i × List ℕ) → List (Vector2i × List ℕ)) :
    ℕ → TriangleMesh → List ℚ → Option TriangleMesh
  | 0, _, _ => none
  | fuel + 1, m, triangle_areas =>
    match edgeLoop (order (GetEdgeToTrianglesMap m)) (true, triangle_areas) with
    | none => none
    | some st =>
      let r := deleteMarked m st.2
      if st.1 then some r.1 else nonManifoldLoop order fuel r.1 r.2

/-- `TriangleMesh::RemoveNonManifoldEdges`; `order` is the iteration order of the
edge map and the number of passes is bounded by the triangle count plus one. -/
def RemoveNonManifoldEdges (root : ℚ → ℚ)
    (order : List (Vector2i × List ℕ) → List (Vector2i × List ℕ)) (m : TriangleMesh) :
    Option TriangleMesh :=
  nonManifoldLoop order (m.triangles_.length + 1) m (GetTriangleAreas root m)

/-! ## Orientation -/

/-- The lambda `CreateOrderedEdge` of `OrientTriangleHelper`. -/
def CreateOrderedEdge (vidx0 vidx1 : ℕ) : Vector2i := (min vidx0 vidx1, max vidx0 vidx1)

/-- `insert` on an `unordered_set<int>` kept as a duplicate-free list. -/
def setInsert (s : List ℕ) (x : ℕ) : List ℕ := if x ∈ s then s else s ++ [x]

/-- The state that `OrientTriangleHelper` changes inside its main loop.  `triangles`
is the array behind the reference `triangles`; for `OrientTriangles` it is the array
that the callback `swap` writes. -/
structure OrientState where
  triangles : List Vector3i
  edge_to_orientation : List (Vector2i × Vector2i)
  unvisited_triangles : List ℕ
  triangle_queue : List ℕ

/-- The lambda `VerifyAndAdd` of `OrientTriangleHelper`. -/
def VerifyAndAdd (edge_to_orientation : List (Vector2i × Vector2i)) (vidx0 vidx1 : ℕ) :
    Bool × List (Vector2i × Vector2i) :=
  let key := CreateOrderedEdge vidx0 vidx1
  match mapFind edge_to_orientation key with
  | some d => if d.1 = vidx0 then (false, edge_to_orientation) else (true, edge_to_orientation)
  | none => (true, mapSet edge_to_orientation key (vidx0, vidx1))

/-- The test `exist && edge_to_orientation.at(key)(0) == vidx`. -/
def sameDirection (edge_to_orientation : List (Vector2i × Vector2i)) (key : Vector2i)
    (vidx : ℕ) : Bool :=
  match mapFind edge_to_orientation key with
  | some d => d.1 == vidx
  | none => false

/-- The first loop of `OrientTriangleHelper`: the map `adjacent_triangles`. -/
def buildAdjacentTriangles (triangles : List Vector3i) : List (Vector2i × List ℕ) :=
  (List.range triangles.length).foldl
    (fun adjacent_triangles tidx =>
      let triangle := triangles.getD tidx default
      let vidx0 := triangle.1
      let vidx1 := triangle.2.1
      let vidx2 := triangle.2.2
      let add := fun (a : List (Vector2i × List ℕ)) (key : Vector2i) =>
        mapSet a key (setInsert ((mapFind a key).getD []) tidx)
      add (add (add adjacent_triangles (CreateOrderedEdge vidx0 vidx1))
        (CreateOrderedEdge vidx1 vidx2)) (CreateOrderedEdge vidx2 vidx0))
    []

/-- The lambda `AddTriangleNbsToQueue` of `OrientTriangleHelper`. -/
def AddTriangleNbsToQueue (order : List ℕ → List ℕ)
    (adjacent_triangles : List (Vector2i × List ℕ)) (triangle_queue : List ℕ)
    (edge : Vector2i) : List ℕ :=
  triangle_queue ++ order ((mapFind adjacent_triangles edge).getD [])

/-- The block "one flip is allowed" of `OrientTriangleHelper` for the triangle
`tidx` with corners `vidx0, vidx1, vidx2`: the local corners after the
`std::swap`, and the triangle array after the callback `swap`. -/
def orientFlip (swap : List Vector3i → ℕ → ℕ → ℕ → List Vector3i)
    (edge_to_orientation : List (Vector2i × Vector2i)) (triangles : List Vector3i)
    (tidx vidx0 vidx1 vidx2 : ℕ) : (ℕ × ℕ × ℕ) × List Vector3i :=
  if sameDirection edge_to_orientation (CreateOrderedEdge vidx0 vidx1) vidx0 then
    ((vidx1, vidx0, vidx2), swap triangles tidx 0 1)
  else if sameDirection edge_to_orientation (CreateOrderedEdge vidx1 vidx2) vidx1 then
    ((vidx0, vidx2, vidx1), swap triangles tidx 1 2)
  else if sameDirection edge_to_orientation (CreateOrderedEdge vidx2 vidx0) vidx2 then
    ((vidx2, vidx1, vidx0), swap triangles tidx 2 0)
  else ((vidx0, vidx1, vidx2), triangles)

/-- The three calls of `VerifyAndAdd` on the corners `w`, each followed by
`return false` when it fails: the Boolean is `false` when the source returns false,
and the map is `edge_to_orientation` at that point. -/
def verifyThree (edge_to_orientation : List (Vector2i × Vector2i)) (w : ℕ × ℕ × ℕ) :
    Bool × List (Vector2i × Vector2i) :=
  let r01 := VerifyAndAdd edge_to_orientation w.1 w.2.1
  if !r01.1 then (false, r01.2)
  else
    let r12 := VerifyAndAdd r01.2 w.2.1 w.2.2
    if !r12.1 then (false, r12.2)
    else VerifyAndAdd r12.2 w.2.2 w.1

/-- The part of the main loop of `OrientTriangleHelper` that handles a triangle
`tidx` just removed from `unvisited_triangles`.  The Boolean is `false` when the
source executes `return false`. -/
def orientVisit (swap : List Vector3i → ℕ → ℕ → ℕ → List Vector3i)
    (order : List ℕ → List ℕ) (adjacent_triangles : List (Vector2i × List ℕ))
    (s : OrientState) (tidx : ℕ) : Bool × OrientState :=
  let triangle := s.triangles.getD tidx default
  let vidx0 := triangle.1
  let vidx1 := triangle.2.1
  let vidx2 := triangle.2.2
  let key01 := CreateOrderedEdge vidx0 vidx1
  let key12 := CreateOrderedEdge vidx1 vidx2
  let key20 := CreateOrderedEdge vidx2 vidx0
  let exist01 := (mapFind s.edge_to_orientation key01).isSome
  let exist12 := (mapFind s.edge_to_orientation key12).isSome
  let exist20 := (mapFind s.edge_to_orientation key20).isSome
  let enqueue := fun (q : List ℕ) =>
    AddTriangleNbsToQueue order adjacent_triangles
      (AddTriangleNbsToQueue order adjacent_triangles
        (AddTriangleNbsToQueue order adjacent_triangles q key01) key12) key20
  if !(exist01 || exist12 || exist20) then
    let eo := mapSet s.edge_to_orientation key01 (vidx0, vidx1)
    let eo := mapSet eo key12 (vidx1, vidx2)
    let eo := mapSet eo key20 (vidx2, vidx0)
    (true, { s with edge_to_orientation := eo, triangle_queue := enqueue s.triangle_queue })
  else
    let flipped := orientFlip swap s.edge_to_orientation s.triangles tidx vidx0 vidx1 vidx2
    let r := verifyThree s.edge_to_orientation flipped.1
    if !r.1 then (false, { s with triangles := flipped.2, edge_to_orientation := r.2 })
    else
      (true, { s with triangles := flipped.2, edge_to_orientation := r.2,
                      triangle_queue := enqueue s.triangle_queue })

/-- The choice of `tidx` at the top of the main loop of `OrientTriangleHelper`:
`*unvisited_triangles.begin()` when the queue is empty, else the front of the
queue. -/
def nextTriangle (order : List ℕ → List ℕ) (unvisited_triangles triangle_queue : List ℕ) :
    ℕ :=
  match triangle_queue with
  | [] => (order unvisited_triangles).headD 0
  | x :: _ => x

/-- The main loop `while (!unvisited_triangles.empty())` of `OrientTriangleHelper`,
with a bound on the number of iterations; `none` when the bound is reached.
`order` gives the iteration order of an `unordered_set<int>`. -/
def orientLoop (swap : List Vector3i → ℕ → ℕ → ℕ → List Vector3i)
    (order : List ℕ → List ℕ) (adjacent_triangles : List (Vector2i × List ℕ)) :
    ℕ → OrientState → Option (Bool × List Vector3i)
  | 0, _ => none
  | fuel + 1, s =>
    if s.unvisited_triangles.isEmpty then some (true, s.triangles)
    else
      let tidx := nextTriangle order s.unvisited_triangles s.triangle_queue
      let s1 := { s with triangle_queue := s.triangle_queue.tail }
      if tidx ∈ s1.unvisited_triangles then
        let s2 := { s1 with unvisited_triangles := s1.unvisited_triangles.erase tidx }
        match orientVisit swap order adjacent_triangles s2 tidx with
        | (false, s3) => some (false, s3.triangles)
        | (true, s3) => orientLoop swap order adjacent_triangles fuel s3
      else orientLoop swap order adjacent_triangles fuel s1

/-- A number of iterations that the main loop of `OrientTriangleHelper` never
exceeds on `n` triangles. -/
def orientFuel (n : ℕ) : ℕ := n * (3 * n + 1) + 1

/-- `OrientTriangleHelper`; the result is the returned Boolean and the triangle
array as the callback left it. -/
def OrientTriangleHelper (swap : List Vector3i → ℕ → ℕ → ℕ → List Vector3i)
    (order : List ℕ → List ℕ) (triangles : List Vector3i) :
    Option (Bool × List Vector3i) :=
  orientLoop swap order (buildAdjacentTriangles triangles) (orientFuel triangles.length)
    { triangles := triangles
      edge_to_orientation := []
      unvisited_triangles := List.range triangles.length
      triangle_queue := [] }

/-- The callback `NoOp` of `IsOrientable`. -/
def NoOp (triangles : List Vector3i) (_ _ _ : ℕ) : List Vector3i := triangles

/-- Component `c` of a triangle. -/
def comp (t : Vector3i) (c : ℕ) : ℕ :=
  match c with
  | 0 => t.1
  | 1 => t.2.1
  | _ => t.2.2

/-- Write `v` to component `c` of a triangle. -/
def setComp (t : Vector3i) (c : ℕ) (v : ℕ) : Vector3i :=
  match c with
  | 0 => (v, t.2.1, t.2.2)
  | 1 => (t.1, v, t.2.2)
  | _ => (t.1, t.2.1, v)

/-- The callback `SwapTriangleOrder` of `OrientTriangles`:
`std::swap(triangles_[tidx](idx0), triangles_[tidx](idx1))`. -/
def SwapTriangleOrder (triangles : List Vector3i) (tidx idx0 idx1 : ℕ) : List Vector3i :=
  let t := triangles.getD tidx default
  triangles.set tidx (setComp (setComp t idx0 (comp t idx1)) idx1 (comp t idx0))

/-- `TriangleMesh::IsOrientable`. -/
def IsOrientable (order : List ℕ → List ℕ) (m : TriangleMesh) : Option Bool :=
  (OrientTriangleHelper NoOp order m.triangles_).map fun r => r.1

/-- `TriangleMesh::OrientTriangles`: the returned Boolean and the mesh afterwards. -/
def OrientTriangles (order : List ℕ → List ℕ) (m : TriangleMesh) :
    Option (Bool × TriangleMesh) :=
  (OrientTriangleHelper SwapTriangleOrder order m.triangles_).map fun r =>
    (r.1, { m with triangles_ := r.2 })

/-! ## Definitions used in the statements and in the proofs -/

/-- Triangle `t` holds `u` and `v` at two different corner positions. -/
def cornerPair (t : Vector3i) (u v : ℕ) : Prop :=
  (u = t.1 ∧ v = t.2.1) ∨ (u = t.1 ∧ v = t.2.2) ∨ (u = t.2.1 ∧ v = t.1) ∨
  (u = t.2.1 ∧ v = t.2.2) ∨ (u = t.2.2 ∧ v = t.1) ∨ (u = t.2.2 ∧ v = t.2.1)

instance (t : Vector3i) (u v : ℕ) : Decidable (cornerPair t u v) := by
  unfold cornerPair; infer_instance

/-- A small well-formed mesh used to instantiate the theorems: a fan of three
triangles around the edge `(0, 1)`, one further triangle, one degenerate triangle
and a duplicated vertex. -/
def sampleMesh : TriangleMesh :=
  { vertices_ := [(0, 0, 0), (1, 0, 0), (0, 1, 0), (0, 2, 0), (0, 3, 0), (1, 0, 0), (0, -1, 0)]
    vertex_normals_ := []
    vertex_colors_ := [(1, 0, 0), (2, 0, 0), (3, 0, 0), (4, 0, 0), (5, 0, 0), (6, 0, 0), (7, 0, 0)]
    triangles_ := [(0, 1, 2), (0, 1, 3), (0, 1, 4), (1, 0, 6), (0, 0, 1), (5, 0, 2)]
    triangle_normals_ := [(1, 0, 0), (2, 0, 0), (3, 0, 0), (4, 0, 0), (5, 0, 0), (6, 0, 0)]
    adjacency_list_ := [] }

/-- Invariant of an in-place forward compaction of one array: `a0` is the array at
the start of the loop, `a` the array when the loop index is `i`, and `ki` the old
indices kept so far, in increasing order.  The part from `i` on is still the
original, and the first `ki.length` entries are the kept entries. -/
def ArrInv {α : Type} (d : α) (a0 a : List α) (i : ℕ) (ki : List ℕ) : Prop :=
  a.length = a0.length ∧ (∀ j, i ≤ j → a.getD j d = a0.getD j d) ∧
    a.take ki.length = ki.map fun j => a0.getD j d

/-- The indices below `i` that satisfy `p`, in increasing order. -/
def keptBelow (p : ℕ → Bool) (i : ℕ) : List ℕ := (List.range i).filter p

/-- The invariant `ArrInv` for a parallel array that is compacted only when it is
present (`has`); an absent array is left as it is. -/
def OptArrInv {α : Type} (has : Bool) (d : α) (a0 a : List α) (i : ℕ) (ki : List ℕ) : Prop :=
  if has then ArrInv d a0 a i ki else a = a0

/-- The three indices of a triangle are pairwise distinct. -/
def NonDegenerate (t : Vector3i) : Prop := t.1 ≠ t.2.1 ∧ t.2.1 ≠ t.2.2 ∧ t.2.2 ≠ t.1

instance (t : Vector3i) : Decidable (NonDegenerate t) := by
  unfold NonDegenerate; infer_instance

/-- The old indices of the triangles kept by `RemoveDegenerateTriangles`. -/
def degKept (m : TriangleMesh) : List ℕ :=
  keptBelow (fun j => decide (NonDegenerate (m.triangles_.getD j default))) m.triangles_.length

/-- Loop invariant of `RemoveDegenerateTriangles` at loop index `i`. -/
def DegInv (m : TriangleMesh) (i : ℕ) (s : DegTriState) : Prop :=
  let ki := keptBelow (fun j => decide (NonDegenerate (m.triangles_.getD j default))) i
  ArrInv default m.triangles_ s.triangles_ i ki ∧
    OptArrInv (HasTriangleNormals m) default m.triangle_normals_ s.triangle_normals_ i ki ∧
    s.k = ki.length

/-- Triangle `j` is the first one with its key: no earlier triangle has the same
`triangleKey`. -/
def dupTriFirst (m : TriangleMesh) (j : ℕ) : Bool :=
  decide (triangleKey (m.triangles_.getD j default) ∉ (m.triangles_.take j).map triangleKey)

/-- The old indices of the triangles kept by `RemoveDuplicatedTriangles`. -/
def dupTriKept (m : TriangleMesh) : List ℕ := keptBelow (dupTriFirst m) m.triangles_.length

/-- Loop invariant of `RemoveDuplicatedTriangles` at loop index `i`. -/
def DupTriInv (m : TriangleMesh) (i : ℕ) (s : DupTriState) : Prop :=
  let ki := keptBelow (dupTriFirst m) i
  ArrInv default m.triangles_ s.triangles_ i ki ∧
    OptArrInv (HasTriangleNormals m) default m.triangle_normals_ s.triangle_normals_ i ki ∧
    s.k = ki.length ∧
    ∀ key, mapFind s.triangle_to_old_index key = none ↔
      key ∉ (m.triangles_.take i).map triangleKey

/-- Vertex index `j` occurs as a corner of triangle `t`. -/
def IsCorner (t : Vector3i) (j : ℕ) : Prop := j = t.1 ∨ j = t.2.1 ∨ j = t.2.2

instance (t : Vector3i) (j : ℕ) : Decidable (IsCorner t j) := by
  unfold IsCorner; infer_instance

/-- The old indices of the vertices kept by `RemoveUnreferencedVertices`. -/
def unrefKept (m : TriangleMesh) : List ℕ :=
  keptBelow (fun j => (markReferenced m).getD j false) m.vertices_.length

/-- The new index that `RemoveUnreferencedVertices` gives to a referenced old
index `j`: the number of referenced indices below `j`. -/
def unrefNew (m : TriangleMesh) (j : ℕ) : ℕ :=
  (keptBelow (fun j => (markReferenced m).getD j false) j).length

/-- The triangles after the remapping of `RemoveUnreferencedVertices`. -/
def unrefTriangles (m : TriangleMesh) : List Vector3i :=
  m.triangles_.map fun t => (unrefNew m t.1, unrefNew m t.2.1, unrefNew m t.2.2)

/-- Loop invariant of the second loop of `RemoveUnreferencedVertices`. -/
def UnrefInv (m : TriangleMesh) (i : ℕ) (s : UnrefState) : Prop :=
  let ki := keptBelow (fun j => (markReferenced m).getD j false) i
  ArrInv default m.vertices_ s.vertices_ i ki ∧
    OptArrInv (HasVertexNormals m) default m.vertex_normals_ s.vertex_normals_ i ki ∧
    OptArrInv (HasVertexColors m) default m.vertex_colors_ s.vertex_colors_ i ki ∧
    s.k = ki.length ∧
    s.index_old_to_new.length = m.vertices_.length ∧
    ∀ j, j < i → s.index_old_to_new.getD j 0 =
      if (markReferenced m).getD j false then (unrefNew m j : ℤ) else -1

/-- The index of the first entry of a list that equals `c` (the length of the list
when there is none). -/
def firstIndexOf {α : Type} [DecidableEq α] : List α → α → ℕ
  | [], _ => 0
  | x :: rest, c => if x = c then 0 else firstIndexOf rest c + 1

/-- Vertex `j` is the first one with its coordinates. -/
def dupVertFirst (m : TriangleMesh) (j : ℕ) : Bool :=
  decide (m.vertices_.getD j default ∉ m.vertices_.take j)

/-- The old indices of the vertices kept by `RemoveDuplicatedVertices`. -/
def dupVertKept (m : TriangleMesh) : List ℕ := keptBelow (dupVertFirst m) m.vertices_.length

/-- The new index that `RemoveDuplicatedVertices` gives to the old index `j`: the
number of kept vertices before the first vertex with the coordinates of vertex `j`. -/
def dupVertNew (m : TriangleMesh) (j : ℕ) : ℕ :=
  (keptBelow (dupVertFirst m) (firstIndexOf m.vertices_ (m.vertices_.getD j default))).length

/-- The triangles after the remapping of `RemoveDuplicatedVertices`. -/
def dupVertTriangles (m : TriangleMesh) : List Vector3i :=
  m.triangles_.map fun t => (dupVertNew m t.1, dupVertNew m t.2.1, dupVertNew m t.2.2)

/-- Loop invariant of `RemoveDuplicatedVertices` at loop index `i`. -/
def DupVertInv (m : TriangleMesh) (i : ℕ) (s : DupVertState) : Prop :=
  let ki := keptBelow (dupVertFirst m) i
  ArrInv default m.vertices_ s.vertices_ i ki ∧
    OptArrInv (HasVertexNormals m) default m.vertex_normals_ s.vertex_normals_ i ki ∧
    OptArrInv (HasVertexColors m) default m.vertex_colors_ s.vertex_colors_ i ki ∧
    s.k = ki.length ∧
    s.index_old_to_new.length = m.vertices_.length ∧
    (∀ c, mapFind s.point_to_old_index c =
      if c ∈ m.vertices_.take i then some (firstIndexOf m.vertices_ c) else none) ∧
    ∀ j, j < i → s.index_old_to_new.getD j 0 = (dupVertNew m j : ℤ)

/-- The indices of the first occurrences in a list of points: index `i` is kept
when no earlier index holds the same coordinates. -/
def firstOccurrences (vs : List Vector3d) : List ℕ :=
  (List.range vs.length).filter fun i =>
    decide (∀ j, j < i → vs.getD j default ≠ vs.getD i default)

/-- The number of sides of triangle `t` whose end points are the edge `e`. -/
def sideHits (t : Vector3i) (e : Vector2i) : ℕ :=
  (if (min t.1 t.2.1, max t.1 t.2.1) = e then 1 else 0) +
    (if (min t.2.1 t.2.2, max t.2.1 t.2.2) = e then 1 else 0) +
    (if (min t.2.2 t.1, max t.2.2 t.1) = e then 1 else 0)

/-- The indices below `i` of the triangles incident to the edge `e`, in increasing
order, each index once for every side of the triangle that is `e`. -/
def incident (ts : List Vector3i) (e : Vector2i) : ℕ → List ℕ
  | 0 => []
  | i + 1 => incident ts e i ++ List.replicate (sideHits (ts.getD i default) e) i

/-- The number of sides equal to `e` over all triangles of a list. -/
def edgeCount (ts : List Vector3i) (e : Vector2i) : ℕ := (ts.map fun t => sideHits t e).sum

/-- Invariant of the loop of `GetEdgeToTrianglesMap` at loop index `i`. -/
def EdgeMapInv (ts : List Vector3i) (i : ℕ) (mp : List (Vector2i × List ℕ)) : Prop :=
  (mp.map Prod.fst).Nodup ∧ (∀ e, (mapFind mp e).getD [] = incident ts e i) ∧
    ∀ e l, mapFind mp e = some l → l ≠ []

/-- The number of entries of `l` (with repetitions) whose area is positive. -/
def posCount (A : List ℚ) (l : List ℕ) : ℕ :=
  (l.filter fun tidx => decide (A.getD tidx 0 > 0)).length

/-- The step function folded by `findSmallest`. -/
def smallestStep (A : List ℚ) (r : Option ℕ × Option ℚ) (tidx : ℕ) : Option ℕ × Option ℚ :=
  if A.getD tidx 0 > 0 ∧ belowMin (A.getD tidx 0) r.2 = true then
    (some tidx, some (A.getD tidx 0))
  else r

/-- The areas `A` belong to the triangles of `m`: one entry per triangle, and an
entry that is positive is the area of its triangle. -/
def AreaInv (root : ℚ → ℚ) (m : TriangleMesh) (A : List ℚ) : Prop :=
  A.length = m.triangles_.length ∧
    ∀ i, i < m.triangles_.length → 0 < A.getD i 0 → A.getD i 0 = GetTriangleArea root m i

/-- What a pass of `RemoveNonManifoldEdges` keeps true of its state
`(mesh_is_edge_manifold, triangle_areas)`; `A0` is `triangle_areas` at the start of
the pass. -/
def PassInv (A0 : List ℚ) (st : Bool × List ℚ) : Prop :=
  st.2.length = A0.length ∧
    (∀ i, st.2.getD i 0 = A0.getD i 0 ∨ st.2.getD i 0 = -1) ∧
    (st.1 = true → st.2 = A0) ∧
    (st.1 = false → ∃ i, i < A0.length ∧ st.2.getD i 0 ≤ 0)

/-- An entry of the edge map as the passes of `RemoveNonManifoldEdges` need it: a
non-empty list of triangle indices in which a non-degenerate triangle occurs at most
once. -/
def GoodEntry (ts : List Vector3i) (kv : Vector2i × List ℕ) : Prop :=
  kv.2 ≠ [] ∧ (∀ x ∈ kv.2, x < ts.length) ∧
    ∀ x, NonDegenerate (ts.getD x default) → kv.2.count x ≤ 1

/-- The old indices of the triangles that the deletion loop of
`RemoveNonManifoldEdges` keeps for the areas `A`. -/
def nmKept (A : List ℚ) (n : ℕ) : List ℕ := keptBelow (fun j => decide (A.getD j 0 > 0)) n

/-- Invariant of the deletion loop of `RemoveNonManifoldEdges` at loop index `i`. -/
def CompactInv (m : TriangleMesh) (A : List ℚ) (i : ℕ) (s : CompactState) : Prop :=
  ArrInv default m.triangles_ s.triangles_ i (nmKept A i) ∧
    ArrInv 0 A s.triangle_areas i (nmKept A i) ∧
    OptArrInv (HasTriangleNormals m) default m.triangle_normals_ s.triangle_normals_ i
      (nmKept A i) ∧
    s.to_tidx = (nmKept A i).length

/-- The mesh after the deletion loop of `RemoveNonManifoldEdges` for the areas `A`. -/
def nmMesh (m : TriangleMesh) (A : List ℚ) : TriangleMesh :=
  { m with
    triangles_ := (nmKept A m.triangles_.length).map fun j => m.triangles_.getD j default
    triangle_normals_ :=
      if HasTriangleNormals m then
        (nmKept A m.triangles_.length).map fun j => m.triangle_normals_.getD j default
      else m.triangle_normals_ }
/-- What `RemoveNonManifoldEdges` guarantees of its result `r` for the input `m`:
only triangles are deleted, every edge of `r` has one or two incident triangles,
and every triangle of `r` has a positive area. -/
def NonManifoldResult (root : ℚ → ℚ) (m r : TriangleMesh) : Prop :=
  r.vertices_ = m.vertices_ ∧ r.vertex_normals_ = m.vertex_normals_ ∧
    r.vertex_colors_ = m.vertex_colors_ ∧ r.adjacency_list_ = m.adjacency_list_ ∧
    (∀ t ∈ r.triangles_, t ∈ m.triangles_) ∧
    (∀ kv ∈ GetEdgeToTrianglesMap r, kv.2.length = 1 ∨ kv.2.length = 2) ∧
    ∀ i, i < r.triangles_.length → 0 < GetTriangleArea root r i

/-- The set `edges` built by `EulerPoincareCharacteristic` for a list of triangles. -/
def eulerEdges (ts : List Vector3i) : Finset Vector2i :=
  ts.foldl
    (fun edges triangle =>
      let edges := insert (min triangle.1 triangle.2.1, max triangle.1 triangle.2.1) edges
      let edges := insert (min triangle.1 triangle.2.2, max triangle.1 triangle.2.2) edges
      insert (min triangle.2.1 triangle.2.2, max triangle.2.1 triangle.2.2) edges)
    ∅

/-- Two triangles that share an edge, every vertex stored twice: the second triangle
uses the second copies of the shared vertices. -/
def duplicatedPairMesh : TriangleMesh :=
  { vertices_ := [(0, 0, 0), (1, 0, 0), (0, 1, 0), (0, 0, 0), (1, 0, 0), (1, 1, 0)]
    vertex_normals_ := []
    vertex_colors_ := []
    triangles_ := [(0, 1, 2), (4, 3, 5)]
    triangle_normals_ := []
    adjacency_list_ := [] }

/-- One triangle stored twice, the second time with the opposite winding. -/
def reversedPairMesh : TriangleMesh :=
  { vertices_ := [(0, 0, 0), (1, 0, 0), (0, 1, 0)]
    vertex_normals_ := []
    vertex_colors_ := []
    triangles_ := [(0, 1, 2), (0, 2, 1)]
    triangle_normals_ := []
    adjacency_list_ := [] }

/-- The three directed edges of a triangle, in the direction the triangle traverses
them. -/
def dirEdges (t : Vector3i) : List Vector2i := [(t.1, t.2.1), (t.2.1, t.2.2), (t.2.2, t.1)]

/-- The key of a directed edge in the maps of `OrientTriangleHelper`. -/
def edgeKey (d : Vector2i) : Vector2i := CreateOrderedEdge d.1 d.2

/-- The effect on `edge_to_orientation` of the successful handling of a triangle
with corners `w`: other keys are untouched; for a directed edge of `w` either the
key was absent and now holds that directed edge, or the key was present, holds what
it held, and that is not the directed edge of `w`. -/
def Recorded (eo eo' : List (Vector2i × Vector2i)) (w : Vector3i) : Prop :=
  (∀ e, (∀ d ∈ dirEdges w, edgeKey d ≠ e) → mapFind eo' e = mapFind eo e) ∧
    ∀ d ∈ dirEdges w,
      (mapFind eo (edgeKey d) = none ∧ mapFind eo' (edgeKey d) = some d) ∨
        ∃ d', mapFind eo (edgeKey d) = some d' ∧ d'.1 ≠ d.1 ∧
          mapFind eo' (edgeKey d) = some d'

/-- Invariant of the main loop of `OrientTriangleHelper` on `n` triangles without
degenerate triangles.  A triangle is visited when its index is no longer in
`unvisited_triangles`.  Every stored direction belongs to its key and is the
direction of a visited triangle; no two visited triangles traverse an edge in the
stored direction; every edge of a visited triangle has a stored direction. -/
def OrientInv (n : ℕ) (s : OrientState) : Prop :=
  s.triangles.length = n ∧ s.unvisited_triangles.Nodup ∧
    (∀ i ∈ s.unvisited_triangles, i < n) ∧
    (∀ i, i < n → NonDegenerate (s.triangles.getD i default)) ∧
    (∀ e d, mapFind s.edge_to_orientation e = some d →
      edgeKey d = e ∧ ∃ i, i < n ∧ i ∉ s.unvisited_triangles ∧
        d ∈ dirEdges (s.triangles.getD i default)) ∧
    (∀ i j d, i < n → i ∉ s.unvisited_triangles → j < n → j ∉ s.unvisited_triangles →
      d ∈ dirEdges (s.triangles.getD i default) →
      d ∈ dirEdges (s.triangles.getD j default) →
      mapFind s.edge_to_orientation (edgeKey d) = some d → i = j) ∧
    ∀ i, i < n → i ∉ s.unvisited_triangles →
      ∀ d ∈ dirEdges (s.triangles.getD i default),
        ∃ d', mapFind s.edge_to_orientation (edgeKey d) = some d'

/-- Two triangles that share the edge `(1, 2)` and traverse it in the same
direction. -/
def twoTriangleMesh : TriangleMesh :=
  { vertices_ := [(0, 0, 0), (1, 0, 0), (0, 1, 0), (1, 1, 0)]
    vertex_normals_ := []
    vertex_colors_ := []
    triangles_ := [(0, 1, 2), (1, 2, 3)]
    triangle_normals_ := []
    adjacency_list_ := [] }

/-! ## GetNonManifoldEdges -/

/-- `TriangleMesh::GetNonManifoldEdges`; `order` is the order in which the loop
meets the entries of the `unordered_map`. -/
def GetNonManifoldEdges (order : List (Vector2i × List ℕ) → List (Vector2i × List ℕ))
    (m : TriangleMesh) (allow_boundary_edges : Bool) : List Vector2i :=
  let edges := GetEdgeToTrianglesMap m
  (order edges).foldl
    (fun non_manifold_edges kv =>
      if edgeIsNonManifold allow_boundary_edges kv then non_manifold_edges ++ [kv.1]
      else non_manifold_edges)
    []

/-- The triangles incident to the edge `e`: the indices of the triangles that have
`e` as a side, every triangle once. -/
def incidentTriangles (ts : List Vector3i) (e : Vector2i) : List ℕ :=
  (List.range ts.length).filter fun t => decide (1 ≤ sideHits (ts.getD t default) e)

/-- The distinct undirected edges of a list of triangles: the unordered pairs of
vertex indices that are a side of some triangle. -/
def undirectedEdges (ts : List Vector3i) : Finset (Sym2 ℕ) :=
  (ts.flatMap fun t => [s(t.1, t.2.1), s(t.2.1, t.2.2), s(t.2.2, t.1)]).toFinset

/-- A triangle with a repeated index next to a proper triangle: the side `(0, 1)`
of the first triangle occurs twice. -/
def foldedMesh : TriangleMesh :=
  { vertices_ := [(0, 0, 0), (1, 0, 0), (0, 1, 0)]
    vertex_normals_ := []
    vertex_colors_ := []
    triangles_ := [(0, 0, 1), (0, 1, 2)]
    triangle_normals_ := []
    adjacency_list_ := [] }

/-- One triangle whose three corners lie on a line: its area is zero, and each of
its three edges has exactly one incident triangle. -/
def flatMesh : TriangleMesh :=
  { vertices_ := [(0, 0, 0), (1, 0, 0), (2, 0, 0)]
    vertex_normals_ := []
    vertex_colors_ := []
    triangles_ := [(0, 1, 2)]
    triangle_normals_ := []
    adjacency_list_ := [] }

/-- Three triangles `(0, 1, c)` around the edge `(0, 1)`, with apexes `2`, `3`, `4`
at growing distance, hence of growing area. -/
def fanMesh : TriangleMesh :=
  { vertices_ := [(0, 0, 0), (1, 0, 0), (0, 1, 0), (0, 2, 0), (0, 3, 0)]
    vertex_normals_ := []
    vertex_colors_ := []
    triangles_ := [(0, 1, 2), (0, 1, 3), (0, 1, 4)]
    triangle_normals_ := []
    adjacency_list_ := [] }

/-- The adjacency list of `r` is not stale: it is absent (its length is not the
number of vertices), or it is the list that `ComputeAdjacencyList` builds for `r`. -/
def AdjacencyFresh (r : TriangleMesh) : Prop :=
  r.adjacency_list_.length ≠ r.vertices_.length ∨
    r.adjacency_list_ = (ComputeAdjacencyList r).adjacency_list_

instance (r : TriangleMesh) : Decidable (AdjacencyFresh r) := by
  unfold AdjacencyFresh; infer_instance

/-- Triangle `t'` is `t`, or `t` with two of its corners exchanged. -/
def SwapOf (t t' : Vector3i) : Prop :=
  t' = t ∨ t' = (t.2.1, t.1, t.2.2) ∨ t' = (t.1, t.2.2, t.2.1) ∨ t' = (t.2.2, t.2.1, t.1)

instance (t t' : Vector3i) : Decidable (SwapOf t t') := by
  unfold SwapOf; infer_instance

/-- The multiset of the three vertex indices of a triangle. -/
def cornerMultiset (t : Vector3i) : Multiset ℕ := {t.1, t.2.1, t.2.2}

/-- Invariant of the map `adjacent_triangles` while it is built, at loop index `i`:
every set holds triangle indices below `i`, each once. -/
def AdjTrianglesInv (i : ℕ) (a : List (Vector2i × List ℕ)) : Prop :=
  ∀ key, ((mapFind a key).getD []).Nodup ∧ ∀ x ∈ (mapFind a key).getD [], x < i

/-- Invariant of the main loop of `OrientTriangleHelper` with the callback
`SwapTriangleOrder`, relative to the triangle array `T0` at the start: the array
keeps its length, an unvisited triangle is still as in `T0`, and every triangle is
its original with at most one exchange of two corners. -/
def SwapInv (T0 : List Vector3i) (s : OrientState) : Prop :=
  s.triangles.length = T0.length ∧ s.unvisited_triangles.Nodup ∧
    (∀ i ∈ s.unvisited_triangles,
      i < T0.length ∧ s.triangles.getD i default = T0.getD i default) ∧
    ∀ i, SwapOf (T0.getD i default) (s.triangles.getD i default)

/-- A quantity that every iteration of the main loop of `OrientTriangleHelper`
on `n` triangles makes smaller. -/
def orientMeasure (n : ℕ) (s : OrientState) : ℕ :=
  s.unvisited_triangles.length * (3 * n + 1) + s.triangle_queue.length

/-- The triangles `(a, b, c)` for the apexes `c` of a list: a fan around the edge
with the end points `a` and `b`. -/
def fanTriangles (a b : ℕ) (cs : List ℕ) : List Vector3i := cs.map fun c => (a, b, c)

/-- Invariant of the loop `while (n_triangles_to_delete > 0)` on the triangle list
`tris` of one edge: `A0` are the areas at the start, `D` the triangles marked so
far, `A` the areas now.  Every marked triangle is smaller than every unmarked one. -/
def MarkInv (A0 : List ℚ) (tris : List ℕ) (D : Finset ℕ) (A : List ℚ) : Prop :=
  D ⊆ tris.toFinset ∧ A.length = A0.length ∧ (∀ i ∈ D, A.getD i 0 = -1) ∧
    (∀ i, i ∉ D → A.getD i 0 = A0.getD i 0) ∧
    ∀ i ∈ D, ∀ j ∈ tris, j ∉ D → A0.getD i 0 < A0.getD j 0

/-! ## GetNonManifoldVertices -/

/-- The statement `vert_to_triangles[vidx].emplace(tidx)`. -/
def vertInsert (vert_to_triangles : List (List ℕ)) (vidx tidx : ℕ) : List (List ℕ) :=
  vert_to_triangles.set vidx (setInsert (vert_to_triangles.getD vidx []) tidx)

/-- The first loop of `GetNonManifoldVertices`: for every vertex the set of the
triangles it is a corner of. -/
def vertToTriangles (m : TriangleMesh) : List (List ℕ) :=
  (List.range m.triangles_.length).foldl
    (fun vert_to_triangles tidx =>
      let tria := m.triangles_.getD tidx default
      vertInsert (vertInsert (vertInsert vert_to_triangles tria.1 tidx) tria.2.1 tidx)
        tria.2.2 tidx)
    (List.replicate m.vertices_.length [])

/-- The statement `edges[u].emplace(v)`. -/
def linkInsert (edges : List (ℕ × List ℕ)) (u v : ℕ) : List (ℕ × List ℕ) :=
  mapSet edges u (setInsert ((mapFind edges u).getD []) v)

/-- The body of the loop "collect edges and vertices" of `GetNonManifoldVertices`
for the triangle `tidx` around the vertex `vidx`. -/
def linkStep (triangles_ : List Vector3i) (vidx : ℕ) (edges : List (ℕ × List ℕ))
    (tidx : ℕ) : List (ℕ × List ℕ) :=
  let triangle := triangles_.getD tidx default
  if triangle.1 ≠ vidx ∧ triangle.2.1 ≠ vidx then
    linkInsert (linkInsert edges triangle.1 triangle.2.1) triangle.2.1 triangle.1
  else if triangle.1 ≠ vidx ∧ triangle.2.2 ≠ vidx then
    linkInsert (linkInsert edges triangle.1 triangle.2.2) triangle.2.2 triangle.1
  else if triangle.2.1 ≠ vidx ∧ triangle.2.2 ≠ vidx then
    linkInsert (linkInsert edges triangle.2.1 triangle.2.2) triangle.2.2 triangle.2.1
  else edges

/-- The read `edges[vert]` of an `unordered_map`: the map afterwards and the set
found; a missing key is inserted with an empty set. -/
def mapIndex (edges : List (ℕ × List ℕ)) (vert : ℕ) : List (ℕ × List ℕ) × List ℕ :=
  match mapFind edges vert with
  | some nbs => (edges, nbs)
  | none => (mapSet edges vert [], [])

/-- The loop `for (auto nb : edges[vert])` of the search; the state is
`(next, visited)`. -/
def visitNbs (nbs : List ℕ) (st : List ℕ × List ℕ) : List ℕ × List ℕ :=
  nbs.foldl
    (fun (st : List ℕ × List ℕ) nb =>
      if nb ∈ st.2 then st else (st.1 ++ [nb], st.2 ++ [nb]))
    st

/-- State of the loop `while (!next.empty())` of `GetNonManifoldVertices`. -/
structure LinkSearch where
  edges : List (ℕ × List ℕ)
  next : List ℕ
  visited : List ℕ

/-- The loop `while (!next.empty())`, with a bound on the number of iterations;
`none` when the bound is reached. -/
def linkSearch (order : List ℕ → List ℕ) : ℕ → LinkSearch → Option LinkSearch
  | 0, _ => none
  | fuel + 1, s =>
    match s.next with
    | [] => some s
    | vert :: rest =>
      let r := mapIndex s.edges vert
      let st := visitNbs (order r.2) (rest, s.visited)
      linkSearch order fuel { edges := r.1, next := st.1, visited := st.2 }

/-- The body of the loop over the vertices of `GetNonManifoldVertices` for a vertex
`vidx` with the non-empty triangle set `triangles`: `some true` when `vidx` is
pushed to `non_manifold_verts`; `none` when `edges` is empty, where the source
dereferences `edges.begin()` of an empty map.  The search never needs more than
one iteration for every key of `edges`. -/
def vertexIsNonManifold (order : List ℕ → List ℕ) (triangles_ : List Vector3i)
    (vidx : ℕ) (triangles : List ℕ) : Option Bool :=
  let edges := (order triangles).foldl (linkStep triangles_ vidx) []
  match order (edges.map Prod.fst) with
  | [] => none
  | start :: _ =>
    match linkSearch order (edges.length + 1)
        { edges := edges, next := [start], visited := [start] } with
    | none => none
    | some s => some (s.visited.length != s.edges.length)

/-- `TriangleMesh::GetNonManifoldVertices`; `order` is the iteration order of the
hash sets and of the keys of the hash map. -/
def GetNonManifoldVertices (order : List ℕ → List ℕ) (m : TriangleMesh) :
    Option (List ℕ) :=
  let vert_to_triangles := vertToTriangles m
  (List.range m.vertices_.length).foldl
    (fun (acc : Option (List ℕ)) vidx =>
      match acc with
      | none => none
      | some non_manifold_verts =>
        let triangles := vert_to_triangles.getD vidx []
        if triangles.length = 0 then some non_manifold_verts
        else
          match vertexIsNonManifold order m.triangles_ vidx triangles with
          | none => none
          | some true => some (non_manifold_verts ++ [vidx])
          | some false => some non_manifold_verts)
    (some [])

/-- `TriangleMesh::IsVertexManifold`. -/
def IsVertexManifold (order : List ℕ → List ℕ) (m : TriangleMesh) : Option Bool :=
  (GetNonManifoldVertices order m).map fun l => l.isEmpty

/-- Two triangles that share the vertex `0` and nothing else. -/
def bowtieMesh : TriangleMesh :=
  { vertices_ := [(0, 0, 0), (1, 0, 0), (1, 1, 0), (-1, 0, 0), (-1, -1, 0)]
    vertex_normals_ := []
    vertex_colors_ := []
    triangles_ := [(0, 1, 2), (0, 3, 4)]
    triangle_normals_ := []
    adjacency_list_ := [] }

/-- In the link graph of the vertex `v`, `a` and `b` are joined: some triangle has
the three corners `v`, `a`, `b`. -/
def LinkAdj (ts : List Vector3i) (v a b : ℕ) : Prop :=
  ∃ t ∈ ts, t = (v, a, b) ∨ t = (v, b, a) ∨ t = (a, v, b) ∨ t = (b, v, a) ∨
    t = (a, b, v) ∨ t = (b, a, v)

/-- The vertex `a` belongs to the link graph of `v`. -/
def LinkVertex (ts : List Vector3i) (v a : ℕ) : Prop := ∃ b, LinkAdj ts v a b

/-- The link graph of `v` is a single connected component. -/
def LinkConnected (ts : List Vector3i) (v : ℕ) : Prop :=
  ∀ a b, LinkVertex ts v a → LinkVertex ts v b → Relation.ReflTransGen (LinkAdj ts v) a b

/-- The two vertices that `linkStep` joins for the triangle `t` around the vertex
`v`; `none` when no branch of its `if` chain is taken. -/
def linkPair (t : Vector3i) (v : ℕ) : Option (ℕ × ℕ) :=
  if t.1 ≠ v ∧ t.2.1 ≠ v then some (t.1, t.2.1)
  else if t.1 ≠ v ∧ t.2.2 ≠ v then some (t.1, t.2.2)
  else if t.2.1 ≠ v ∧ t.2.2 ≠ v then some (t.2.1, t.2.2)
  else none

/-- The vertex `w` is in the set `edges[u]`. -/
def MapAdj (E : List (ℕ × List ℕ)) (u w : ℕ) : Prop := w ∈ (mapFind E u).getD []

/-- The map `edges` is a map of sets whose keys are the vertices with a non-empty
set. -/
def MapOK (E : List (ℕ × List ℕ)) : Prop :=
  (E.map Prod.fst).Nodup ∧ (∀ a, ((mapFind E a).getD []).Nodup) ∧
    ∀ a, a ∈ E.map Prod.fst ↔ ∃ b, MapAdj E a b

/-- Invariant of the loop "collect edges and vertices" around the vertex `v` after
the triangles `P`: `edges` joins exactly the pairs of the triangles of `P`. -/
def LinkInv (ts : List Vector3i) (v : ℕ) (P : List ℕ) (E : List (ℕ × List ℕ)) : Prop :=
  MapOK E ∧
    ∀ a b, MapAdj E a b ↔
      ∃ tidx ∈ P, ∃ p, linkPair (ts.getD tidx default) v = some p ∧ ((a, b) = p ∨ (b, a) = p)

/-- Invariant of the loop `while (!next.empty())` on the map `E`, started at the
vertex `start`: the visited vertices are keys of `E` that can be reached from
`start`, the queue holds visited vertices, and every neighbour of a visited vertex
that has left the queue is visited. -/
def SearchInv (E : List (ℕ × List ℕ)) (start : ℕ) (s : LinkSearch) : Prop :=
  s.edges = E ∧ s.visited.Nodup ∧ (∀ x ∈ s.next, x ∈ s.visited) ∧
    (∀ x ∈ s.visited, Relation.ReflTransGen (MapAdj E) start x) ∧ start ∈ s.visited ∧
    (∀ x ∈ s.visited, x ∉ s.next → ∀ w, MapAdj E x w → w ∈ s.visited) ∧
    ∀ x ∈ s.visited, x ∈ E.map Prod.fst

/-! ## Filters -/

/-- `TriangleMesh::FilterScope`. -/
inductive FilterScope where
  | All
  | Color
  | Normal
  | Vertex
  deriving DecidableEq

/-- Division of an `Eigen::Vector3d` by a scalar. -/
def vdiv (v : Vector3d) (c : ℚ) : Vector3d := (v.1 / c, v.2.1 / c, v.2.2 / c)

/-- The value `prev + strength * (prev * nb_size - sum)` written by `FilterSharpen`. -/
def sharpenValue (strength : ℚ) (prev : Vector3d) (nb_size : ℚ) (sum : Vector3d) : Vector3d :=
  prev + strength • (nb_size • prev - sum)

/-- The value `prev + lambda * (q - prev)` written by `FilterSmoothLaplacian`, where
`q` is `sum / total_weight`. -/
def laplacianValue (lambda : ℚ) (prev q : Vector3d) : Vector3d :=
  prev + lambda • (q - prev)

/-- The body of the loop over the vertices of `FilterSharpen` for the vertex `vidx`;
`m` holds the arrays that the loop writes. -/
def sharpenStep (strength : ℚ) (filter_vertex filter_normal filter_color : Bool)
    (prev_vertices prev_vertex_normals prev_vertex_colors : List Vector3d)
    (m : TriangleMesh) (vidx : ℕ) : TriangleMesh :=
  let nbs := m.adjacency_list_.getD vidx ∅
  let vertex_sum : Vector3d :=
    if filter_vertex then nbs.sum fun nbidx => prev_vertices.getD nbidx default else 0
  let normal_sum : Vector3d :=
    if filter_normal then nbs.sum fun nbidx => prev_vertex_normals.getD nbidx default else 0
  let color_sum : Vector3d :=
    if filter_color then nbs.sum fun nbidx => prev_vertex_colors.getD nbidx default else 0
  let nb_size : ℚ := nbs.card
  let vertex := sharpenValue strength (prev_vertices.getD vidx default) nb_size vertex_sum
  let normal := sharpenValue strength (prev_vertex_normals.getD vidx default) nb_size normal_sum
  let color := sharpenValue strength (prev_vertex_colors.getD vidx default) nb_size color_sum
  let m : TriangleMesh :=
    if filter_vertex then { m with vertices_ := m.vertices_.set vidx vertex } else m
  let m : TriangleMesh :=
    if filter_normal then { m with vertex_normals_ := m.vertex_normals_.set vidx normal }
    else m
  if filter_color then { m with vertex_colors_ := m.vertex_colors_.set vidx color } else m

/-- One iteration of the outer loop of `FilterSharpen`: the copies `prev_...` are
taken, then every vertex is written. -/
def sharpenIter (strength : ℚ) (filter_vertex filter_normal filter_color : Bool)
    (m : TriangleMesh) : TriangleMesh :=
  (List.range m.vertices_.length).foldl
    (sharpenStep strength filter_vertex filter_normal filter_color
      m.vertices_ m.vertex_normals_ m.vertex_colors_) m

/-- `TriangleMesh::FilterSharpen`. -/
def FilterSharpen (m : TriangleMesh) (number_of_iterations : ℤ) (strength : ℚ)
    (scope : FilterScope) : TriangleMesh :=
  let m := if !HasAdjacencyList m then ComputeAdjacencyList m else m
  let filter_vertex := scope == FilterScope.All || scope == FilterScope.Vertex
  let filter_normal :=
    (scope == FilterScope.All || scope == FilterScope.Normal) && HasVertexNormals m
  let filter_color :=
    (scope == FilterScope.All || scope == FilterScope.Color) && HasVertexColors m
  Nat.iterate (sharpenIter strength filter_vertex filter_normal filter_color)
    number_of_iterations.toNat m

/-- The body of the loop over the vertices of `FilterSmoothSimple`. -/
def smoothSimpleStep (filter_vertex filter_normal filter_color : Bool)
    (prev_vertices prev_vertex_normals prev_vertex_colors : List Vector3d)
    (m : TriangleMesh) (vidx : ℕ) : TriangleMesh :=
  let nbs := m.adjacency_list_.getD vidx ∅
  let vertex_sum : Vector3d :=
    if filter_vertex then nbs.sum fun nbidx => prev_vertices.getD nbidx default else 0
  let normal_sum : Vector3d :=
    if filter_normal then nbs.sum fun nbidx => prev_vertex_normals.getD nbidx default else 0
  let color_sum : Vector3d :=
    if filter_color then nbs.sum fun nbidx => prev_vertex_colors.getD nbidx default else 0
  let nb_size : ℚ := nbs.card
  let vertex := vdiv (prev_vertices.getD vidx default + vertex_sum) (1 + nb_size)
  let normal := vdiv (prev_vertex_normals.getD vidx default + normal_sum) (1 + nb_size)
  let color := vdiv (prev_vertex_colors.getD vidx default + color_sum) (1 + nb_size)
  let m : TriangleMesh :=
    if filter_vertex then { m with vertices_ := m.vertices_.set vidx vertex } else m
  let m : TriangleMesh :=
    if filter_normal then { m with vertex_normals_ := m.vertex_normals_.set vidx normal }
    else m
  if filter_color then { m with vertex_colors_ := m.vertex_colors_.set vidx color } else m

/-- One iteration of the outer loop of `FilterSmoothSimple`. -/
def smoothSimpleIter (filter_vertex filter_normal filter_color : Bool)
    (m : TriangleMesh) : TriangleMesh :=
  (List.range m.vertices_.length).foldl
    (smoothSimpleStep filter_vertex filter_normal filter_color
      m.vertices_ m.vertex_normals_ m.vertex_colors_) m

/-- `TriangleMesh::FilterSmoothSimple`. -/
def FilterSmoothSimple (m : TriangleMesh) (number_of_iterations : ℤ)
    (scope : FilterScope) : TriangleMesh :=
  let m := if !HasAdjacencyList m then ComputeAdjacencyList m else m
  let filter_vertex := scope == FilterScope.All || scope == FilterScope.Vertex
  let filter_normal :=
    (scope == FilterScope.All || scope == FilterScope.Normal) && HasVertexNormals m
  let filter_color :=
    (scope == FilterScope.All || scope == FilterScope.Color) && HasVertexColors m
  Nat.iterate (smoothSimpleIter filter_vertex filter_normal filter_color)
    number_of_iterations.toNat m

/-- The quotient `sum / total_weight` of `FilterSmoothLaplacian`; `none` when
`total_weight` is zero, where the quotient of the source is not a number. -/
def divWeight (sum : Vector3d) (total_weight : ℚ) : Option Vector3d :=
  if total_weight = 0 then none else some (vdiv sum total_weight)

/-- The weight `1. / (dist + 1e-12)` of the neighbour `nbidx` of `vidx` in
`FilterSmoothLaplacian`; `root` is the square root inside `norm()`. -/
def laplacianWeight (root : ℚ → ℚ) (prev_vertices : List Vector3d) (vidx nbidx : ℕ) : ℚ :=
  let diff := prev_vertices.getD vidx default - prev_vertices.getD nbidx default
  let dist := root (squaredNorm diff)
  1 / (dist + 1 / 1000000000000)

/-- The body of the loop over the vertices of `FilterSmoothLaplacian`; `none` when a
quotient by a zero `total_weight` is written. -/
def laplacianStep (root : ℚ → ℚ) (lambda : ℚ)
    (filter_vertex filter_normal filter_color : Bool)
    (prev_vertices prev_vertex_normals prev_vertex_colors : List Vector3d)
    (m : TriangleMesh) (vidx : ℕ) : Option TriangleMesh :=
  let nbs := m.adjacency_list_.getD vidx ∅
  let weight := laplacianWeight root prev_vertices vidx
  let total_weight : ℚ := nbs.sum weight
  let vertex_sum : Vector3d :=
    if filter_vertex then nbs.sum fun nbidx => weight nbidx • prev_vertices.getD nbidx default
    else 0
  let normal_sum : Vector3d :=
    if filter_normal then
      nbs.sum fun nbidx => weight nbidx • prev_vertex_normals.getD nbidx default
    else 0
  let color_sum : Vector3d :=
    if filter_color then
      nbs.sum fun nbidx => weight nbidx • prev_vertex_colors.getD nbidx default
    else 0
  let pv := prev_vertices.getD vidx default
  let pn := prev_vertex_normals.getD vidx default
  let pc := prev_vertex_colors.getD vidx default
  let m1 : Option TriangleMesh :=
    if filter_vertex then
      (divWeight vertex_sum total_weight).map fun q =>
        { m with vertices_ := m.vertices_.set vidx (laplacianValue lambda pv q) }
    else some m
  let m2 : Option TriangleMesh :=
    m1.bind fun m =>
      if filter_normal then
        (divWeight normal_sum total_weight).map fun q =>
          { m with vertex_normals_ := m.vertex_normals_.set vidx (laplacianValue lambda pn q) }
      else some m
  m2.bind fun m =>
    if filter_color then
      (divWeight color_sum total_weight).map fun q =>
        { m with vertex_colors_ := m.vertex_colors_.set vidx (laplacianValue lambda pc q) }
    else some m

/-- One iteration of the outer loop of `FilterSmoothLaplacian`. -/
def laplacianIter (root : ℚ → ℚ) (lambda : ℚ)
    (filter_vertex filter_normal filter_color : Bool) (m : TriangleMesh) :
    Option TriangleMesh :=
  (List.range m.vertices_.length).foldl
    (fun (acc : Option TriangleMesh) vidx =>
      acc.bind fun s =>
        laplacianStep root lambda filter_vertex filter_normal filter_color
          m.vertices_ m.vertex_normals_ m.vertex_colors_ s vidx)
    (some m)

/-- `TriangleMesh::FilterSmoothLaplacian`; `none` when a vertex is written with a
quotient by a zero total weight. -/
def FilterSmoothLaplacian (root : ℚ → ℚ) (m : TriangleMesh) (number_of_iterations : ℤ)
    (lambda : ℚ) (scope : FilterScope) : Option TriangleMesh :=
  let m := if !HasAdjacencyList m then ComputeAdjacencyList m else m
  let filter_vertex := scope == FilterScope.All || scope == FilterScope.Vertex
  let filter_normal :=
    (scope == FilterScope.All || scope == FilterScope.Normal) && HasVertexNormals m
  let filter_color :=
    (scope == FilterScope.All || scope == FilterScope.Color) && HasVertexColors m
  Nat.iterate
    (fun (acc : Option TriangleMesh) =>
      acc.bind (laplacianIter root lambda filter_vertex filter_normal filter_color))
    number_of_iterations.toNat (some m)

/-- A single vertex and no triangle. -/
def pointMesh : TriangleMesh :=
  { vertices_ := [(1, 2, 3)]
    vertex_normals_ := []
    vertex_colors_ := []
    triangles_ := []
    triangle_normals_ := []
    adjacency_list_ := [] }

/-- Write `g i` to every position `i < n` of an array, in increasing order of `i`. -/
def setAll (g : ℕ → Vector3d) (n : ℕ) (l : List Vector3d) : List Vector3d :=
  (List.range n).foldl (fun l i => l.set i (g i)) l

/-- The first statement of the filters: the adjacency list is computed when it is
absent. -/
def ensureAdjacency (m : TriangleMesh) : TriangleMesh :=
  if !HasAdjacencyList m then ComputeAdjacencyList m else m

/-- The value that one iteration of `FilterSharpen` writes at position `i` of a
channel whose values before the iteration are `prev`. -/
def sharpenNew (strength : ℚ) (adj : List (Finset ℕ)) (prev : List Vector3d) (i : ℕ) :
    Vector3d :=
  prev.getD i default +
    strength • (((adj.getD i ∅).card : ℚ) • prev.getD i default -
      (adj.getD i ∅).sum fun n => prev.getD n default)

/-- The value that one iteration of `FilterSmoothSimple` writes at position `i` of a
channel whose values before the iteration are `prev`. -/
def smoothSimpleNew (adj : List (Finset ℕ)) (prev : List Vector3d) (i : ℕ) : Vector3d :=
  vdiv (prev.getD i default + (adj.getD i ∅).sum fun n => prev.getD n default)
    (1 + ((adj.getD i ∅).card : ℚ))
/-- The channels that a filter of scope `scope` leaves alone are the same in `r` and
in `m`, an absent normal or colour channel is the same in both, and so are the
triangles and the triangle normals. -/
def FilterFrame (scope : FilterScope) (m r : TriangleMesh) : Prop :=
  (scope = FilterScope.Vertex →
    r.vertex_normals_ = m.vertex_normals_ ∧ r.vertex_colors_ = m.vertex_colors_) ∧
  (scope = FilterScope.Normal →
    r.vertices_ = m.vertices_ ∧ r.vertex_colors_ = m.vertex_colors_) ∧
  (scope = FilterScope.Color →
    r.vertices_ = m.vertices_ ∧ r.vertex_normals_ = m.vertex_normals_) ∧
  (HasVertexNormals m = false → r.vertex_normals_ = m.vertex_normals_) ∧
  (HasVertexColors m = false → r.vertex_colors_ = m.vertex_colors_) ∧
  r.triangles_ = m.triangles_ ∧ r.triangle_normals_ = m.triangle_normals_

/-- What the iterations of a filter with the flags `fv`, `fn`, `fc` keep of the mesh
`m`: the lengths of the three channels, the channels whose flag is off, the
adjacency list and the triangles. -/
def IterKeeps (fv fn fc : Bool) (m r : TriangleMesh) : Prop :=
  r.vertices_.length = m.vertices_.length ∧
  r.vertex_normals_.length = m.vertex_normals_.length ∧
  r.vertex_colors_.length = m.vertex_colors_.length ∧
  (fv = false → r.vertices_ = m.vertices_) ∧
  (fn = false → r.vertex_normals_ = m.vertex_normals_) ∧
  (fc = false → r.vertex_colors_ = m.vertex_colors_) ∧
  r.adjacency_list_ = m.adjacency_list_ ∧ r.triangles_ = m.triangles_ ∧
  r.triangle_normals_ = m.triangle_normals_

/-! ## ComputeTriangleNormals, ComputeVertexNormals -/

/-- `TriangleMesh::ComputeTriangleNormals`.  `NormalizeNormals` is declared in a
header that is absent; it is a parameter. -/
def ComputeTriangleNormals (NormalizeNormals : TriangleMesh → TriangleMesh)
    (m : TriangleMesh) (normalized : Bool) : TriangleMesh :=
  let m : TriangleMesh :=
    { m with triangle_normals_ := resize m.triangle_normals_ m.triangles_.length default }
  let m := (List.range m.triangles_.length).foldl
    (fun (m : TriangleMesh) i =>
      let triangle := m.triangles_.getD i default
      let v01 := vsub (m.vertices_.getD triangle.2.1 default) (m.vertices_.getD triangle.1 default)
      let v02 := vsub (m.vertices_.getD triangle.2.2 default) (m.vertices_.getD triangle.1 default)
      { m with triangle_normals_ := m.triangle_normals_.set i (cross v01 v02) })
    m
  if normalized then NormalizeNormals m else m

/-- The statement `vertex_normals_[vidx] += n`. -/
def addNormal (vertex_normals_ : List Vector3d) (vidx : ℕ) (n : Vector3d) : List Vector3d :=
  vertex_normals_.set vidx (vertex_normals_.getD vidx default + n)

/-- The body of the loop over the triangles in `ComputeVertexNormals`: the normal of
the triangle `i` is added to the normal of each of its three corners. -/
def vertexNormalStep (m : TriangleMesh) (i : ℕ) : TriangleMesh :=
  let triangle := m.triangles_.getD i default
  let n := m.triangle_normals_.getD i default
  let vn := addNormal m.vertex_normals_ triangle.1 n
  let vn := addNormal vn triangle.2.1 n
  let vn := addNormal vn triangle.2.2 n
  { m with vertex_normals_ := vn }

/-- `TriangleMesh::ComputeVertexNormals`. -/
def ComputeVertexNormals (NormalizeNormals : TriangleMesh → TriangleMesh)
    (m : TriangleMesh) (normalized : Bool) : TriangleMesh :=
  let m :=
    if HasTriangleNormals m == false then ComputeTriangleNormals NormalizeNormals m false
    else m
  let m : TriangleMesh :=
    { m with vertex_normals_ := resize m.vertex_normals_ m.vertices_.length 0 }
  let m := (List.range m.triangles_.length).foldl vertexNormalStep m
  if normalized then NormalizeNormals m else m

/-- One triangle in the plane `z = 0` whose three vertices already hold the normal
`(1, 1, 1)`. -/
def staleNormalsMesh : TriangleMesh :=
  { vertices_ := [(0, 0, 0), (1, 0, 0), (0, 1, 0)]
    vertex_normals_ := [(1, 1, 1), (1, 1, 1), (1, 1, 1)]
    vertex_colors_ := []
    triangles_ := [(0, 1, 2)]
    triangle_normals_ := []
    adjacency_list_ := [] }

/-- The triangle normal that `ComputeVertexNormals` adds for the triangle `i`: the
stored one when the triangle normals are present, else the cross product
`(v1 - v0) x (v2 - v0)`. -/
def usedTriangleNormal (m : TriangleMesh) (i : ℕ) : Vector3d :=
  if HasTriangleNormals m then m.triangle_normals_.getD i default
  else
    cross
      (vsub (m.vertices_.getD (m.triangles_.getD i default).2.1 default)
        (m.vertices_.getD (m.triangles_.getD i default).1 default))
      (vsub (m.vertices_.getD (m.triangles_.getD i default).2.2 default)
        (m.vertices_.getD (m.triangles_.getD i default).1 default))

/-- The number of corners of the triangle `t` that are the vertex `v`. -/
def cornerCount (t : Vector3i) (v : ℕ) : ℕ :=
  (if t.1 = v then 1 else 0) + (if t.2.1 = v then 1 else 0) + (if t.2.2 = v then 1 else 0)

/-- The sum, over the first `k` triangles and over their corners that are `v`, of
the triangle normal used for the triangle. -/
def normalSum (m : TriangleMesh) (v : ℕ) (k : ℕ) : Vector3d :=
  ((List.range k).map fun i =>
    (cornerCount (m.triangles_.getD i default) v : ℚ) • usedTriangleNormal m i).sum

/-! ## GetSelfIntersectingTriangles, IsSelfIntersecting -/

/-- The test `check if neighbour triangle` of `GetSelfIntersectingTriangles`: the
two triangles have a vertex index in common. -/
def sharesVertex (tria_p tria_q : Vector3i) : Bool :=
  decide (tria_p.1 = tria_q.1 ∨ tria_p.1 = tria_q.2.1 ∨ tria_p.1 = tria_q.2.2 ∨
    tria_p.2.1 = tria_q.1 ∨ tria_p.2.1 = tria_q.2.1 ∨ tria_p.2.1 = tria_q.2.2 ∨
    tria_p.2.2 = tria_q.1 ∨ tria_p.2.2 = tria_q.2.1 ∨ tria_p.2.2 = tria_q.2.2)

/-- The type of `IntersectingTriangleTriangle3d`, which is declared outside the
sources at hand and is a parameter of the model. -/
abbrev TrianglePredicate : Type :=
  Vector3d → Vector3d → Vector3d → Vector3d → Vector3d → Vector3d → Bool

/-- The inner loop of `GetSelfIntersectingTriangles` over the indices `tidx1` of a
list; `none` when `triangles_[tidx1]` is read at an index that is not below the
triangle count. -/
def selfIntersectInner (P : TrianglePredicate) (m : TriangleMesh) (tidx0 : ℕ)
    (tria_p : Vector3i) : List ℕ → List Vector2i → Option (List Vector2i)
  | [], acc => some acc
  | tidx1 :: rest, acc =>
    match m.triangles_[tidx1]? with
    | none => none
    | some tria_q =>
      if sharesVertex tria_p tria_q then selfIntersectInner P m tidx0 tria_p rest acc
      else if P (m.vertices_.getD tria_p.1 default) (m.vertices_.getD tria_p.2.1 default)
          (m.vertices_.getD tria_p.2.2 default) (m.vertices_.getD tria_q.1 default)
          (m.vertices_.getD tria_q.2.1 default) (m.vertices_.getD tria_q.2.2 default) then
        selfIntersectInner P m tidx0 tria_p rest (acc ++ [(tidx0, tidx1)])
      else selfIntersectInner P m tidx0 tria_p rest acc

/-- The outer loop `for (tidx0 = 0; tidx0 < bound; ++tidx0)` of
`GetSelfIntersectingTriangles`, from `tidx0` on; `none` when `triangles_[tidx0]` is
read at an index that is not below the triangle count.  The first argument bounds
the number of iterations; as a read at the triangle count fails, the triangle count
plus one is never exhausted. -/
def selfIntersectOuter (P : TrianglePredicate) (m : TriangleMesh) (bound : ℕ) :
    ℕ → ℕ → List Vector2i → Option (List Vector2i)
  | 0, _, _ => none
  | fuel + 1, tidx0, acc =>
    if tidx0 < bound then
      match m.triangles_[tidx0]? with
      | none => none
      | some tria_p =>
        match selfIntersectInner P m tidx0 tria_p
            (List.range' (tidx0 + 1) (m.triangles_.length - (tidx0 + 1))) acc with
        | none => none
        | some acc1 => selfIntersectOuter P m bound fuel (tidx0 + 1) acc1
    else some acc

/-- `TriangleMesh::GetSelfIntersectingTriangles`.  The bound of the outer loop is
`triangles_.size() - 1` in `size_t` arithmetic, that is modulo `2 ^ 64`. -/
def GetSelfIntersectingTriangles (P : TrianglePredicate) (m : TriangleMesh) :
    Option (List Vector2i) :=
  selfIntersectOuter P m ((m.triangles_.length + 2 ^ 64 - 1) % 2 ^ 64)
    (m.triangles_.length + 1) 0 []

/-- `TriangleMesh::IsSelfIntersecting`. -/
def IsSelfIntersecting (P : TrianglePredicate) (m : TriangleMesh) : Option Bool :=
  (GetSelfIntersectingTriangles P m).map fun l => !l.isEmpty

/-- The pair `(i, j)` of triangle indices is reported: the triangles have no vertex
index in common and the predicate holds on their corner coordinates. -/
def intersectingPair (P : TrianglePredicate) (m : TriangleMesh) (i j : ℕ) : Bool :=
  !sharesVertex (m.triangles_.getD i default) (m.triangles_.getD j default) &&
    P (m.vertices_.getD (m.triangles_.getD i default).1 default)
      (m.vertices_.getD (m.triangles_.getD i default).2.1 default)
      (m.vertices_.getD (m.triangles_.getD i default).2.2 default)
      (m.vertices_.getD (m.triangles_.getD j default).1 default)
      (m.vertices_.getD (m.triangles_.getD j default).2.1 default)
      (m.vertices_.getD (m.triangles_.getD j default).2.2 default)

/-- The pairs reported for the first triangle `i`, by increasing second index. -/
def intersectingRow (P : TrianglePredicate) (m : TriangleMesh) (i : ℕ) : List Vector2i :=
  ((List.range' (i + 1) (m.triangles_.length - (i + 1))).filter
    fun j => intersectingPair P m i j).map fun j => (i, j)

/-- The lexicographic order on pairs of triangle indices. -/
def lexLt (a b : Vector2i) : Prop := a.1 < b.1 ∨ (a.1 = b.1 ∧ a.2 < b.2)

/-- A mesh without vertices and triangles. -/
def emptyMesh : TriangleMesh :=
  { vertices_ := []
    vertex_normals_ := []
    vertex_colors_ := []
    triangles_ := []
    triangle_normals_ := []
    adjacency_list_ := [] }

/-- One triangle that uses the vertex `0` twice. -/
def pinchedMesh : TriangleMesh :=
  { vertices_ := [(0, 0, 0), (1, 0, 0)]
    vertex_normals_ := []
    vertex_colors_ := []
    triangles_ := [(0, 0, 1)]
    triangle_normals_ := []
    adjacency_list_ := [] }

/-! ## Orientation: reversal choices -/

/-- The three directed edges of the triangle `t` after it is reversed when `r` is
true, and as it is otherwise. -/
def orientedEdges (r : Bool) (t : Vector3i) : List Vector2i :=
  if r then [(t.2.1, t.1), (t.2.2, t.2.1), (t.1, t.2.2)] else dirEdges t

/-- The choice `τ` of the triangles to reverse makes the triangles `T` consistently
oriented: afterwards no directed edge is used by two different triangles, so two
triangles that share an edge traverse it in opposite directions. -/
def Consistent (T : List Vector3i) (τ : ℕ → Bool) : Prop :=
  ∀ i, i < T.length → ∀ j, j < T.length → i ≠ j →
    ∀ d ∈ orientedEdges (τ i) (T.getD i default), d ∉ orientedEdges (τ j) (T.getD j default)

/-- Every direction stored in `edge_to_orientation` belongs to its key and is a
directed edge of a visited triangle (one that is not in `U`) after the reversals
`τ`. -/
def StoredInv (T : List Vector3i) (τ : ℕ → Bool) (U : List ℕ)
    (eo : List (Vector2i × Vector2i)) : Prop :=
  ∀ e d, mapFind eo e = some d →
    edgeKey d = e ∧ ∃ i, i < T.length ∧ i ∉ U ∧ d ∈ orientedEdges (τ i) (T.getD i default)

/-- Modelled from the spec: the unit box mesh of the concrete scenario, 8 vertices
and 12 triangles, every face split along a diagonal. -/
def boxMesh : TriangleMesh :=
  { vertices_ := [(0, 0, 0), (1, 0, 0), (0, 0, 1), (1, 0, 1), (0, 1, 0), (1, 1, 0), (0, 1, 1),
      (1, 1, 1)]
    vertex_normals_ := []
    vertex_colors_ := []
    triangles_ := [(4, 7, 5), (4, 6, 7), (0, 2, 4), (2, 6, 4), (0, 1, 2), (1, 3, 2), (1, 5, 7),
      (1, 7, 3), (2, 3, 7), (2, 7, 6), (0, 4, 1), (1, 4, 5)]
    triangle_normals_ := []
    adjacency_list_ := [] }

/-- Some edge of the triangle `x` has a stored direction in `edge_to_orientation`. -/
def HasStoredKey (T : List Vector3i) (eo : List (Vector2i × Vector2i)) (x : ℕ) : Prop :=
  ∃ d ∈ dirEdges (T.getD x default), ∃ d', mapFind eo (edgeKey d) = some d'

/-- The choice of reversals `τ` with the choice for every triangle of `U` inverted. -/
def flipUnvisited (τ : ℕ → Bool) (U : List ℕ) : ℕ → Bool :=
  fun i => if i ∈ U then !τ i else τ i

/-- Invariant of the main loop of `OrientTriangleHelper` with the callback `NoOp` on
triangles `T` that admit a consistent choice of reversals: the stored directions
are those of the visited triangles under some consistent choice, every edge of a
visited triangle has a stored direction, an unvisited triangle with a stored edge is
in the queue, and an unvisited triangle in the queue has a stored edge. -/
def OrientableInv (T : List Vector3i) (s : OrientState) : Prop :=
  s.triangles = T ∧ s.unvisited_triangles.Nodup ∧
    (∀ i ∈ s.unvisited_triangles, i < T.length) ∧
    (∃ τ, Consistent T τ ∧ StoredInv T τ s.unvisited_triangles s.edge_to_orientation) ∧
    (∀ i, i < T.length → i ∉ s.unvisited_triangles →
      ∀ d ∈ dirEdges (T.getD i default),
        ∃ d', mapFind s.edge_to_orientation (edgeKey d) = some d') ∧
    (∀ j ∈ s.unvisited_triangles, HasStoredKey T s.edge_to_orientation j →
      j ∈ s.triangle_queue) ∧
    ∀ x ∈ s.triangle_queue, x ∈ s.unvisited_triangles →
      HasStoredKey T s.edge_to_orientation x

/-- After the reversals `τ`, the triangles `i` and `j` traverse the edge `e` in
opposite directions. -/
def TraversedOpposite (T : List Vector3i) (τ : ℕ → Bool) (e : Vector2i) (i j : ℕ) : Prop :=
  ((e.1, e.2) ∈ orientedEdges (τ i) (T.getD i default) ∧
      (e.2, e.1) ∈ orientedEdges (τ j) (T.getD j default)) ∨
    ((e.2, e.1) ∈ orientedEdges (τ i) (T.getD i default) ∧
      (e.1, e.2) ∈ orientedEdges (τ j) (T.getD j default))

instance (T : List Vector3i) (τ : ℕ → Bool) (e : Vector2i) (i j : ℕ) :
    Decidable (TraversedOpposite T τ e i j) := by
  unfold TraversedOpposite; infer_instance

/-! ## SamplePointsUniformly -/

/-- Modelled from the spec: the data members of `PointCloud`, whose header is
absent: positions, normals and colours. -/
structure PointCloud where
  points_ : List Vector3d
  normals_ : List Vector3d
  colors_ : List Vector3d

/-- The value of `std::make_shared<PointCloud>()`: a cloud without points. -/
def emptyCloud : PointCloud := { points_ := [], normals_ := [], colors_ := [] }

/-- The loop "triangle areas to cdf" over `n` triangles, in place in
`triangle_areas`. -/
def areasToCdf (triangle_areas : List ℚ) (surface_area : ℚ) (n : ℕ) : List ℚ :=
  (List.range (n - 1)).foldl
    (fun (triangle_areas : List ℚ) i =>
      triangle_areas.set (i + 1)
        (triangle_areas.getD (i + 1) 0 / surface_area + triangle_areas.getD i 0))
    (triangle_areas.set 0 (triangle_areas.getD 0 0 / surface_area))

/-- The conversion `size_t n = std::round(x)` for `x ≥ 0`: the nearest integer, a
half rounded up.  A negative `x`, which the conversion leaves undefined, gives 0. -/
def roundToSize (x : ℚ) : ℕ := Int.toNat ⌊x + 1 / 2⌋

/-- The weights `a`, `b`, `c` of uniform sampling, for `s = sqrt(r1)` and `r2`. -/
def baryWeights (s r2 : ℚ) : ℚ × ℚ × ℚ := (1 - s, s * (1 - r2), s * r2)

/-- The combination `a * values[triangle(0)] + b * values[triangle(1)] +
c * values[triangle(2)]`. -/
def baryPoint (w : ℚ × ℚ × ℚ) (values : List Vector3d) (triangle : Vector3i) : Vector3d :=
  w.1 • values.getD triangle.1 default + w.2.1 • values.getD triangle.2.1 default +
    w.2.2 • values.getD triangle.2.2 default

/-- The weights drawn for the point `point_idx`: `dist` is the sequence of the
values of `dist(mt)`, of which every point takes two, and `root` is the square
root. -/
def drawWeights (root : ℚ → ℚ) (dist : ℕ → ℚ) (point_idx : ℕ) : ℚ × ℚ × ℚ :=
  baryWeights (root (dist (2 * point_idx))) (dist (2 * point_idx + 1))

/-- The body of the loop `while (point_idx < n)` of `SamplePointsUniformly` for the
triangle `tidx`. -/
def sampleWrite (root : ℚ → ℚ) (dist : ℕ → ℚ) (input : TriangleMesh) (tidx : ℕ)
    (pcd : PointCloud) (point_idx : ℕ) : PointCloud :=
  let w := drawWeights root dist point_idx
  let triangle := input.triangles_.getD tidx default
  { points_ := pcd.points_.set point_idx (baryPoint w input.vertices_ triangle)
    normals_ :=
      if HasVertexNormals input then
        pcd.normals_.set point_idx (baryPoint w input.vertex_normals_ triangle)
      else pcd.normals_
    colors_ :=
      if HasVertexColors input then
        pcd.colors_.set point_idx (baryPoint w input.vertex_colors_ triangle)
      else pcd.colors_ }

/-- The body of the loop over the triangles of `SamplePointsUniformly`; the state is
the cloud and `point_idx`.  The loop `while (point_idx < n)` runs for the indices
from `point_idx` up to `n - 1`. -/
def sampleTriangle (root : ℚ → ℚ) (dist : ℕ → ℚ) (input : TriangleMesh)
    (number_of_points : ℕ) (cdf : List ℚ) (st : PointCloud × ℕ) (tidx : ℕ) :
    PointCloud × ℕ :=
  let n := roundToSize (cdf.getD tidx 0 * number_of_points)
  ((List.range' st.2 (n - st.2)).foldl (sampleWrite root dist input tidx) st.1, max st.2 n)

/-- The overload of `SamplePointsUniformly` that takes the triangle areas and the
surface area. -/
def SamplePointsUniformlyWithAreas (root : ℚ → ℚ) (dist : ℕ → ℚ) (input : TriangleMesh)
    (number_of_points : ℕ) (triangle_areas : List ℚ) (surface_area : ℚ) : PointCloud :=
  let cdf := areasToCdf triangle_areas surface_area input.triangles_.length
  let pcd : PointCloud :=
    { points_ := resize [] number_of_points default
      normals_ := if HasVertexNormals input then resize [] number_of_points default else []
      colors_ := if HasVertexColors input then resize [] number_of_points default else [] }
  ((List.range input.triangles_.length).foldl
    (sampleTriangle root dist input number_of_points cdf) (pcd, 0)).1

/-- `SamplePointsUniformly(input, number_of_points)`. -/
def SamplePointsUniformly (root : ℚ → ℚ) (dist : ℕ → ℚ) (input : TriangleMesh)
    (number_of_points : ℕ) : PointCloud :=
  if number_of_points ≤ 0 then emptyCloud
  else if input.triangles_.length = 0 then emptyCloud
  else
    SamplePointsUniformlyWithAreas root dist input number_of_points
      (GetTriangleAreas root input) (GetSurfaceArea root input)

/-- The value `cdf[t]` of the specification: the sum of the areas of the triangles
`0..t` divided by the total area. -/
def cdfSpec (triangle_areas : List ℚ) (surface_area : ℚ) (t : ℕ) : ℚ :=
  ((List.range (t + 1)).map fun i => triangle_areas.getD i 0).sum / surface_area

/-- The number of points drawn from the triangles before `t`: none before the first
triangle, and `round(cdf[t - 1] * N)` otherwise. -/
def drawnBefore (triangle_areas : List ℚ) (surface_area : ℚ) (number_of_points : ℕ)
    (t : ℕ) : ℕ :=
  match t with
  | 0 => 0
  | k + 1 => roundToSize (cdfSpec triangle_areas surface_area k * number_of_points)

/-! ## SamplePointsPoissonDisk -/

/-- Modelled from the spec: `PointCloud::HasNormals`, whose header is absent; the
normals are present iff the cloud has points and as many normals. -/
def HasNormals (pcl : PointCloud) : Bool :=
  decide (pcl.points_.length > 0) && (pcl.normals_.length == pcl.points_.length)

/-- Modelled from the spec: `PointCloud::HasColors`, whose header is absent; the
colours are present iff the cloud has points and as many colours. -/
def HasColors (pcl : PointCloud) : Bool :=
  decide (pcl.points_.length > 0) && (pcl.colors_.length == pcl.points_.length)

/-- The lambda `WeightFcn` of `SamplePointsPoissonDisk`; `pow` stands for
`std::pow` and `root` for the square root. -/
def WeightFcn (root : ℚ → ℚ) (pow : ℚ → ℚ → ℚ) (r_min r_max alpha : ℚ) (d2 : ℚ) : ℚ :=
  let d := root d2
  let d := if d < r_min then r_min else d
  pow (1 - d / r_max) alpha

/-- The lambda `ComputePointWeight`: the array `weights` afterwards.  `nbsOf p` is
the result of the radius query around the candidate `p`, as pairs of an index and a
squared distance. -/
def ComputePointWeight (weightFcn : ℚ → ℚ) (nbsOf : ℕ → List (ℕ × ℚ)) (weights : List ℚ)
    (deleted : List Bool) (pidx0 : ℕ) : List ℚ :=
  weights.set pidx0
    ((nbsOf pidx0).foldl
      (fun weight nb =>
        if pidx0 = nb.1 ∨ deleted.getD nb.1 false = true then weight
        else weight + weightFcn nb.2)
      0)

/-- The state of the sample elimination. -/
structure PoissonState where
  weights : List ℚ
  deleted : List Bool
  queue : List (ℕ × ℚ)
  current_number_of_points : ℕ

/-- The loop "init weights and priority queue"; the state is `(weights, queue)`. -/
def poissonInit (weightFcn : ℚ → ℚ) (nbsOf : ℕ → List (ℕ × ℚ)) (n : ℕ) : PoissonState :=
  let r := (List.range n).foldl
    (fun (st : List ℚ × List (ℕ × ℚ)) pidx0 =>
      let weights := ComputePointWeight weightFcn nbsOf st.1 (List.replicate n false) pidx0
      (weights, st.2 ++ [(pidx0, weights.getD pidx0 0)]))
    (List.replicate n 0, [])
  { weights := r.1, deleted := List.replicate n false, queue := r.2,
    current_number_of_points := n }

/-- The entry `queue.top()` of the priority queue: an entry of largest weight.
`heapOrder` fixes which one is taken among entries of equal weight. -/
def queueTop (heapOrder : List (ℕ × ℚ) → List (ℕ × ℚ)) (queue : List (ℕ × ℚ)) :
    Option (ℕ × ℚ) :=
  (heapOrder queue).foldl
    (fun (best : Option (ℕ × ℚ)) e =>
      match best with
      | none => some e
      | some b => if b.2 < e.2 then some e else some b)
    none

/-- The loop `for (int nb : nbs)` that follows a deletion: every neighbour gets its
weight recomputed and is pushed again; the state is `(weights, queue)`. -/
def reweight (weightFcn : ℚ → ℚ) (nbsOf : ℕ → List (ℕ × ℚ)) (deleted : List Bool)
    (nbs : List (ℕ × ℚ)) (st : List ℚ × List (ℕ × ℚ)) : List ℚ × List (ℕ × ℚ) :=
  nbs.foldl
    (fun (st : List ℚ × List (ℕ × ℚ)) nb =>
      let weights := ComputePointWeight weightFcn nbsOf st.1 deleted nb.1
      (weights, st.2 ++ [(nb.1, weights.getD nb.1 0)]))
    st

/-- One iteration of the loop "sample elimination"; `none` when `queue.top()` is
taken from an empty queue. -/
def poissonStep (weightFcn : ℚ → ℚ) (nbsOf : ℕ → List (ℕ × ℚ))
    (heapOrder : List (ℕ × ℚ) → List (ℕ × ℚ)) (s : PoissonState) : Option PoissonState :=
  match queueTop heapOrder s.queue with
  | none => none
  | some e =>
    let queue := s.queue.erase e
    if s.deleted.getD e.1 false = true ∨ e.2 ≠ s.weights.getD e.1 0 then
      some { s with queue := queue }
    else
      let deleted := s.deleted.set e.1 true
      let r := reweight weightFcn nbsOf deleted (nbsOf e.1) (s.weights, queue)
      some { weights := r.1, deleted := deleted, queue := r.2,
             current_number_of_points := s.current_number_of_points - 1 }

/-- The loop `while (current_number_of_points > number_of_points)`, with a bound on
the number of iterations; `none` when the bound is reached or an iteration takes the
top of an empty queue. -/
def poissonLoop (weightFcn : ℚ → ℚ) (nbsOf : ℕ → List (ℕ × ℚ))
    (heapOrder : List (ℕ × ℚ) → List (ℕ × ℚ)) (number_of_points : ℕ) :
    ℕ → PoissonState → Option PoissonState
  | 0, _ => none
  | fuel + 1, s =>
    if s.current_number_of_points > number_of_points then
      match poissonStep weightFcn nbsOf heapOrder s with
      | none => none
      | some s1 => poissonLoop weightFcn nbsOf heapOrder number_of_points fuel s1
    else some s

/-- A number of iterations that the sample elimination on `n` candidates never
exceeds: every iteration removes a queue entry, and the entries are the `n` initial
ones and those pushed after a deletion. -/
def poissonFuel (nbsOf : ℕ → List (ℕ × ℚ)) (n : ℕ) : ℕ :=
  n + (Finset.range n).sum (fun p => (nbsOf p).length) + 1

/-- State of the loop "update pcl". -/
structure CloudCompactState where
  points_ : List Vector3d
  normals_ : List Vector3d
  colors_ : List Vector3d
  next_free : ℕ

/-- One iteration (`idx`) of the loop "update pcl". -/
def cloudCompactStep (has_vert_normal has_vert_color : Bool) (deleted : List Bool)
    (s : CloudCompactState) (idx : ℕ) : CloudCompactState :=
  if !deleted.getD idx false then
    { points_ := s.points_.set s.next_free (s.points_.getD idx default)
      normals_ :=
        if has_vert_normal then s.normals_.set s.next_free (s.normals_.getD idx default)
        else s.normals_
      colors_ :=
        if has_vert_color then s.colors_.set s.next_free (s.colors_.getD idx default)
        else s.colors_
      next_free := s.next_free + 1 }
  else s

/-- The part "update pcl" of `SamplePointsPoissonDisk`. -/
def cloudCompact (pcl : PointCloud) (deleted : List Bool) : PointCloud :=
  let has_vert_normal := HasNormals pcl
  let has_vert_color := HasColors pcl
  let s := (List.range pcl.points_.length).foldl
    (cloudCompactStep has_vert_normal has_vert_color deleted)
    { points_ := pcl.points_, normals_ := pcl.normals_, colors_ := pcl.colors_,
      next_free := 0 }
  { points_ := resize s.points_ s.next_free default
    normals_ := if has_vert_normal then resize s.normals_ s.next_free default else s.normals_
    colors_ := if has_vert_color then resize s.colors_ s.next_free default else s.colors_ }

/-- The candidate cloud of `SamplePointsPoissonDisk`: `init_factor * number_of_points`
uniform samples, or a copy of `pcl_init`. -/
def poissonCandidates (root : ℚ → ℚ) (dist : ℕ → ℚ) (input : TriangleMesh)
    (number_of_points : ℕ) (init_factor : ℚ) (pcl_init : Option PointCloud) : PointCloud :=
  match pcl_init with
  | none =>
    SamplePointsUniformlyWithAreas root dist input
      (Int.toNat ⌊init_factor * number_of_points⌋) (GetTriangleAreas root input)
      (GetSurfaceArea root input)
  | some p => { points_ := p.points_, normals_ := p.normals_, colors_ := p.colors_ }

/-- The weight function that `SamplePointsPoissonDisk` sets up for `n` candidates. -/
def poissonWeightFcn (root : ℚ → ℚ) (pow : ℚ → ℚ → ℚ) (surface_area : ℚ)
    (number_of_points n : ℕ) : ℚ → ℚ :=
  let alpha : ℚ := 8
  let beta : ℚ := 1 / 2
  let gamma : ℚ := 3 / 2
  let ratio : ℚ := (number_of_points : ℚ) / (n : ℚ)
  let r_max := 2 * root ((surface_area / number_of_points) / (2 * root 3))
  let r_min := r_max * beta * (1 - pow ratio gamma)
  WeightFcn root pow r_min r_max alpha

/-- The radius `r_max` of `SamplePointsPoissonDisk`. -/
def poissonRadius (root : ℚ → ℚ) (surface_area : ℚ) (number_of_points : ℕ) : ℚ :=
  2 * root ((surface_area / number_of_points) / (2 * root 3))

/-- The radius query `kdtree.SearchRadius(pcl->points_[p], r_max, nbs, dists2)` around
the candidate `p`; `search points query radius` stands for
`KDTreeFlann::SearchRadius` on the tree built from `points`. -/
def poissonNbs (root : ℚ → ℚ) (search : List Vector3d → Vector3d → ℚ → List (ℕ × ℚ))
    (surface_area : ℚ) (number_of_points : ℕ) (pcl : PointCloud) : ℕ → List (ℕ × ℚ) :=
  fun p =>
    search pcl.points_ (pcl.points_.getD p default)
      (poissonRadius root surface_area number_of_points)

/-- The test `pcl_init != nullptr && pcl_init->points_.size() < number_of_points`. -/
def tooFewCandidates (pcl_init : Option PointCloud) (number_of_points : ℕ) : Bool :=
  match pcl_init with
  | none => false
  | some p => decide (p.points_.length < number_of_points)

/-- `SamplePointsPoissonDisk`.  `search points query radius` stands for
`KDTreeFlann::SearchRadius` on the tree built from `points`, `pcl_init = none` for a
null pointer; the result is `none` when the elimination takes the top of an empty
queue. -/
def SamplePointsPoissonDisk (root : ℚ → ℚ) (pow : ℚ → ℚ → ℚ) (dist : ℕ → ℚ)
    (search : List Vector3d → Vector3d → ℚ → List (ℕ × ℚ))
    (heapOrder : List (ℕ × ℚ) → List (ℕ × ℚ)) (input : TriangleMesh)
    (number_of_points : ℕ) (init_factor : ℚ) (pcl_init : Option PointCloud) :
    Option PointCloud :=
  if number_of_points ≤ 0 then some emptyCloud
  else if input.triangles_.length = 0 then some emptyCloud
  else if pcl_init.isNone = true ∧ init_factor < 1 then some emptyCloud
  else if tooFewCandidates pcl_init number_of_points = true then some emptyCloud
  else
    let surface_area := GetSurfaceArea root input
    let pcl := poissonCandidates root dist input number_of_points init_factor pcl_init
    let weightFcn :=
      poissonWeightFcn root pow surface_area number_of_points pcl.points_.length
    let nbsOf := poissonNbs root search surface_area number_of_points pcl
    match poissonLoop weightFcn nbsOf heapOrder number_of_points
        (poissonFuel nbsOf pcl.points_.length)
        (poissonInit weightFcn nbsOf pcl.points_.length) with
    | none => none
    | some s => some (cloudCompact pcl s.deleted)

/-- The sum over the candidates that are not deleted of `g`. -/
def liveSum (deleted : List Bool) (n : ℕ) (g : ℕ → ℕ) : ℕ :=
  (Finset.range n).sum fun p => if deleted.getD p false = true then 0 else g p

/-- Invariant of the sample elimination on `n` candidates: the arrays have `n`
entries, `current_number_of_points` counts the candidates that are not deleted,
every queue entry names a candidate, and every candidate that is not deleted has an
entry with its current weight in the queue. -/
def PoissonInv (n : ℕ) (s : PoissonState) : Prop :=
  s.weights.length = n ∧ s.deleted.length = n ∧
    s.current_number_of_points = liveSum s.deleted n (fun _ => 1) ∧
    (∀ e ∈ s.queue, e.1 < n) ∧
    ∀ p, p < n → s.deleted.getD p false = false → (p, s.weights.getD p 0) ∈ s.queue

/-- The quantity that every iteration of the sample elimination lowers by one. -/
def poissonMeasure (nbsOf : ℕ → List (ℕ × ℚ)) (n : ℕ) (s : PoissonState) : ℕ :=
  s.queue.length + liveSum s.deleted n (fun p => (nbsOf p).length)

/-- A radius query that returns every point of the tree at squared distance 1. -/
def allNeighbours (points : List Vector3d) (_ : Vector3d) (_ : ℚ) : List (ℕ × ℚ) :=
  (List.range points.length).map fun i => (i, 1)

/-! ## FilterSmoothLaplacian with a value for every quotient -/

/-- The body of the loop over the vertices of `FilterSmoothLaplacian` when every
quotient `sum / total_weight` has a value: `quot` is the division of the source, which
also returns a value for a zero `total_weight` (not a number in the source), after
which the loop goes on. -/
def laplacianStepTotal (quot : Vector3d → ℚ → Vector3d) (root : ℚ → ℚ) (lambda : ℚ)
    (filter_vertex filter_normal filter_color : Bool)
    (prev_vertices prev_vertex_normals prev_vertex_colors : List Vector3d)
    (m : TriangleMesh) (vidx : ℕ) : TriangleMesh :=
  let nbs := m.adjacency_list_.getD vidx ∅
  let weight := laplacianWeight root prev_vertices vidx
  let total_weight : ℚ := nbs.sum weight
  let vertex_sum : Vector3d :=
    if filter_vertex then nbs.sum fun nbidx => weight nbidx • prev_vertices.getD nbidx default
    else 0
  let normal_sum : Vector3d :=
    if filter_normal then
      nbs.sum fun nbidx => weight nbidx • prev_vertex_normals.getD nbidx default
    else 0
  let color_sum : Vector3d :=
    if filter_color then
      nbs.sum fun nbidx => weight nbidx • prev_vertex_colors.getD nbidx default
    else 0
  let vertex := laplacianValue lambda (prev_vertices.getD vidx default)
    (quot vertex_sum total_weight)
  let normal := laplacianValue lambda (prev_vertex_normals.getD vidx default)
    (quot normal_sum total_weight)
  let color := laplacianValue lambda (prev_vertex_colors.getD vidx default)
    (quot color_sum total_weight)
  let m : TriangleMesh :=
    if filter_vertex then { m with vertices_ := m.vertices_.set vidx vertex } else m
  let m : TriangleMesh :=
    if filter_normal then { m with vertex_normals_ := m.vertex_normals_.set vidx normal }
    else m
  if filter_color then { m with vertex_colors_ := m.vertex_colors_.set vidx color } else m

/-- One iteration of the outer loop of `FilterSmoothLaplacian`, every quotient having
a value. -/
def laplacianIterTotal (quot : Vector3d → ℚ → Vector3d) (root : ℚ → ℚ) (lambda : ℚ)
    (filter_vertex filter_normal filter_color : Bool) (m : TriangleMesh) : TriangleMesh :=
  (List.range m.vertices_.length).foldl
    (fun (s : TriangleMesh) vidx =>
      laplacianStepTotal quot root lambda filter_vertex filter_normal filter_color
        m.vertices_ m.vertex_normals_ m.vertex_colors_ s vidx)
    m

/-- `TriangleMesh::FilterSmoothLaplacian` as the source runs it, without stopping at
a zero total weight: the division is `quot`, of which nothing is assumed. -/
def FilterSmoothLaplacianTotal (quot : Vector3d → ℚ → Vector3d) (root : ℚ → ℚ)
    (m : TriangleMesh) (number_of_iterations : ℤ) (lambda : ℚ) (scope : FilterScope) :
    TriangleMesh :=
  let m := if !HasAdjacencyList m then ComputeAdjacencyList m else m
  let filter_vertex := scope == FilterScope.All || scope == FilterScope.Vertex
  let filter_normal :=
    (scope == FilterScope.All || scope == FilterScope.Normal) && HasVertexNormals m
  let filter_color :=
    (scope == FilterScope.All || scope == FilterScope.Color) && HasVertexColors m
  Nat.iterate (laplacianIterTotal quot root lambda filter_vertex filter_normal filter_color)
    number_of_iterations.toNat m

/-! # Theorems -/

/-! ## General facts on lists -/

theorem getD_set {α : Type} (l : List α) (i j : ℕ) (x d : α) :
    (l.set i x).getD j d = if i = j ∧ i < l.length then x else l.getD j d := by
  simp only [List.getD_eq_getElem?_getD, List.getElem?_set]
  by_cases h : i = j
  · subst h
    by_cases h2 : i < l.length
    · simp [h2]
    · simp [h2, List.getElem?_eq_none (Nat.le_of_not_lt h2)]
  · simp [h]

theorem resize_nil {α : Type} (n : ℕ) (d : α) : resize ([] : List α) n d = List.replicate n d := by
  simp [resize]

theorem resize_length {α : Type} (l : List α) (d : α) : resize l l.length d = l := by
  simp [resize]

theorem resize_le {α : Type} (l : List α) (k : ℕ) (d : α) (h : k ≤ l.length) :
    resize l k d = l.take k := by
  simp [resize, Nat.sub_eq_zero_of_le h]

/-! ## Adjacency -/

theorem cornerPair_symm (t : Vector3i) (u v : ℕ) : cornerPair t u v → cornerPair t v u := by
  unfold cornerPair
  rintro (⟨h1, h2⟩ | ⟨h1, h2⟩ | ⟨h1, h2⟩ | ⟨h1, h2⟩ | ⟨h1, h2⟩ | ⟨h1, h2⟩) <;> simp [h1, h2]

theorem adjInsert_length (adj : List (Finset ℕ)) (i v : ℕ) :
    (adjInsert adj i v).length = adj.length := by
  simp [adjInsert]

theorem mem_adjInsert (adj : List (Finset ℕ)) (i x u v : ℕ) (hi : i < adj.length) :
    v ∈ (adjInsert adj i x).getD u ∅ ↔ v ∈ adj.getD u ∅ ∨ (u = i ∧ v = x) := by
  unfold adjInsert
  rw [getD_set]
  by_cases h : i = u
  · subst h
    simp [hi]
    tauto
  · have h' : ¬ u = i := fun e => h e.symm
    simp [h, h']

theorem adjTriangle_length (adj : List (Finset ℕ)) (t : Vector3i) :
    (adjTriangle adj t).length = adj.length := by
  simp [adjTriangle, adjInsert_length]

theorem mem_adjTriangle (adj : List (Finset ℕ)) (t : Vector3i) (u v : ℕ)
    (h0 : t.1 < adj.length) (h1 : t.2.1 < adj.length) (h2 : t.2.2 < adj.length) :
    v ∈ (adjTriangle adj t).getD u ∅ ↔ v ∈ adj.getD u ∅ ∨ cornerPair t u v := by
  unfold adjTriangle cornerPair
  simp only []
  rw [mem_adjInsert _ _ _ _ _ (by simpa [adjInsert_length] using h2),
    mem_adjInsert _ _ _ _ _ (by simpa [adjInsert_length] using h2),
    mem_adjInsert _ _ _ _ _ (by simpa [adjInsert_length] using h1),
    mem_adjInsert _ _ _ _ _ (by simpa [adjInsert_length] using h1),
    mem_adjInsert _ _ _ _ _ (by simpa [adjInsert_length] using h0),
    mem_adjInsert _ _ _ _ _ h0]
  tauto

theorem foldl_adjTriangle_length (ts : List Vector3i) (adj : List (Finset ℕ)) :
    (ts.foldl adjTriangle adj).length = adj.length := by
  induction ts generalizing adj with
  | nil => rfl
  | cons t ts ih => simp [List.foldl_cons, ih, adjTriangle_length]

theorem mem_foldl_adjTriangle (ts : List Vector3i) (adj : List (Finset ℕ)) (u v : ℕ)
    (h : ∀ t ∈ ts, t.1 < adj.length ∧ t.2.1 < adj.length ∧ t.2.2 < adj.length) :
    v ∈ (ts.foldl adjTriangle adj).getD u ∅ ↔
      v ∈ adj.getD u ∅ ∨ ∃ t ∈ ts, cornerPair t u v := by
  induction ts generalizing adj with
  | nil => simp
  | cons t ts ih =>
    have ht := h t (List.mem_cons_self _ _)
    rw [List.foldl_cons, ih]
    · rw [mem_adjTriangle _ _ _ _ ht.1 ht.2.1 ht.2.2]
      simp only [List.mem_cons, exists_eq_or_imp]
      tauto
    · intro t' ht'
      rw [adjTriangle_length]
      exact h t' (List.mem_cons_of_mem _ ht')

theorem mem_computeAdjacency (m : TriangleMesh) (hwf : WellFormed m) (u v : ℕ) :
    v ∈ (ComputeAdjacencyList m).adjacency_list_.getD u ∅ ↔
      ∃ t ∈ m.triangles_, cornerPair t u v := by
  unfold ComputeAdjacencyList
  simp only []
  rw [mem_foldl_adjTriangle]
  · simp [resize_nil, List.getD_eq_getElem?_getD, List.getElem?_replicate]
    intro h
    split at h <;> simp at h
  · intro t ht
    simpa [resize_nil] using hwf t ht

/-- C3: after `ComputeAdjacencyList` on a well-formed mesh the adjacency is
symmetric: `v` is a neighbour of `u` if and only if `u` is a neighbour of `v`. -/
theorem adjacency_symmetric (m : TriangleMesh) (hwf : WellFormed m) (u v : ℕ) :
    v ∈ (ComputeAdjacencyList m).adjacency_list_.getD u ∅ ↔
      u ∈ (ComputeAdjacencyList m).adjacency_list_.getD v ∅ := by
  rw [mem_computeAdjacency m hwf, mem_computeAdjacency m hwf]
  constructor
  · rintro ⟨t, ht, h⟩
    exact ⟨t, ht, cornerPair_symm t u v h⟩
  · rintro ⟨t, ht, h⟩
    exact ⟨t, ht, cornerPair_symm t v u h⟩

/-- C4: after `ComputeAdjacencyList` on a well-formed mesh the adjacency has one
entry per vertex, `v` is a neighbour of `u` exactly when some triangle holds `u` and
`v` at two different corners, the result does not depend on the adjacency held
before, every other member of the mesh is untouched, and a second call changes
nothing. -/
theorem computeAdjacencyList_spec (m : TriangleMesh) (hwf : WellFormed m) :
    (ComputeAdjacencyList m).adjacency_list_.length = m.vertices_.length ∧
    (∀ u v, v ∈ (ComputeAdjacencyList m).adjacency_list_.getD u ∅ ↔
      ∃ t ∈ m.triangles_, cornerPair t u v) ∧
    (∀ adj0, ComputeAdjacencyList { m with adjacency_list_ := adj0 } =
      ComputeAdjacencyList m) ∧
    (ComputeAdjacencyList m).vertices_ = m.vertices_ ∧
    (ComputeAdjacencyList m).triangles_ = m.triangles_ ∧
    ComputeAdjacencyList (ComputeAdjacencyList m) = ComputeAdjacencyList m := by
  refine ⟨?_, mem_computeAdjacency m hwf, ?_, rfl, rfl, ?_⟩
  · simp [ComputeAdjacencyList, foldl_adjTriangle_length, resize_nil]
  · intro adj0
    rfl
  · rfl

theorem adjacency_symmetric_witness :
    WellFormed sampleMesh ∧
    (1 ∈ (ComputeAdjacencyList sampleMesh).adjacency_list_.getD 0 ∅ ↔
      0 ∈ (ComputeAdjacencyList sampleMesh).adjacency_list_.getD 1 ∅) :=
  ⟨by decide, adjacency_symmetric sampleMesh (by decide) 0 1⟩

theorem computeAdjacencyList_spec_witness :
    WellFormed sampleMesh ∧
    (ComputeAdjacencyList sampleMesh).adjacency_list_.length = sampleMesh.vertices_.length :=
  ⟨by decide, (computeAdjacencyList_spec sampleMesh (by decide)).1⟩

/-! ## In-place compaction -/

theorem foldl_range_inv {σ : Type} (step : σ → ℕ → σ) (init : σ) (Inv : ℕ → σ → Prop)
    (n : ℕ) (h0 : Inv 0 init)
    (hstep : ∀ i, i < n → ∀ s, Inv i s → Inv (i + 1) (step s i)) :
    Inv n ((List.range n).foldl step init) := by
  induction n with
  | zero => simpa using h0
  | succ n ih =>
    rw [List.range_succ, List.foldl_append]
    simp only [List.foldl_cons, List.foldl_nil]
    exact hstep n (Nat.lt_succ_self n) _
      (ih (fun i hi s hs => hstep i (Nat.lt_succ_of_lt hi) s hs))

theorem keptBelow_zero (p : ℕ → Bool) : keptBelow p 0 = [] := rfl

theorem keptBelow_succ (p : ℕ → Bool) (i : ℕ) :
    keptBelow p (i + 1) = keptBelow p i ++ (if p i then [i] else []) := by
  unfold keptBelow
  rw [List.range_succ, List.filter_append]
  by_cases h : p i <;> simp [h]

theorem keptBelow_length_le (p : ℕ → Bool) (i : ℕ) : (keptBelow p i).length ≤ i := by
  unfold keptBelow
  calc ((List.range i).filter p).length ≤ (List.range i).length := List.length_filter_le _ _
    _ = i := List.length_range i

theorem mem_keptBelow (p : ℕ → Bool) (i j : ℕ) : j ∈ keptBelow p i ↔ j < i ∧ p j = true := by
  simp [keptBelow]

theorem keptBelow_nodup (p : ℕ → Bool) (i : ℕ) : (keptBelow p i).Nodup :=
  (List.nodup_range i).filter _

theorem keptBelow_all (p : ℕ → Bool) (i : ℕ) (h : ∀ j, j < i → p j = true) :
    keptBelow p i = List.range i := by
  unfold keptBelow
  rw [List.filter_eq_self]
  intro a ha
  exact h a (List.mem_range.mp ha)

theorem map_getD_range {α : Type} (l : List α) (d : α) :
    (List.range l.length).map (fun j => l.getD j d) = l := by
  apply List.ext_getElem
  · simp
  · intro n h1 h2
    simp [List.getD_eq_getElem?_getD, List.getElem?_eq_getElem h2]

theorem ArrInv_init {α : Type} (d : α) (a0 : List α) : ArrInv d a0 a0 0 [] := by
  refine ⟨rfl, fun _ _ => rfl, ?_⟩
  simp

theorem ArrInv_skip {α : Type} (d : α) (a0 a : List α) (i : ℕ) (ki : List ℕ)
    (h : ArrInv d a0 a i ki) : ArrInv d a0 a (i + 1) ki :=
  ⟨h.1, fun j hj => h.2.1 j (Nat.le_of_succ_le hj), h.2.2⟩

theorem ArrInv_keep {α : Type} (d : α) (a0 a : List α) (i : ℕ) (ki : List ℕ)
    (h : ArrInv d a0 a i ki) (hk : ki.length ≤ i) (hi : i < a0.length) :
    ArrInv d a0 (a.set ki.length (a.getD i d)) (i + 1) (ki ++ [i]) := by
  obtain ⟨hlen, htail, hhead⟩ := h
  have hkl : ki.length < a.length := by omega
  refine ⟨by simp [hlen], ?_, ?_⟩
  · intro j hj
    rw [getD_set, if_neg (by omega)]
    exact htail j (by omega)
  · have h1 : (a.set ki.length (a.getD i d)).take ki.length = a.take ki.length := by
      rw [List.set_take, List.set_eq_of_length_le]
      simp
    have h2 : (a.set ki.length (a.getD i d))[ki.length]? = some (a.getD i d) := by
      rw [List.getElem?_set]
      simp [hkl]
    rw [List.length_append, List.length_singleton, List.take_succ, h1, h2, hhead,
      htail i (Nat.le_refl i)]
    simp

theorem ArrInv_final {α : Type} (d : α) (a0 a : List α) (i : ℕ) (ki : List ℕ)
    (h : ArrInv d a0 a i ki) (hk : ki.length ≤ a0.length) :
    resize a ki.length d = ki.map fun j => a0.getD j d := by
  rw [resize_le _ _ _ (by rw [h.1]; exact hk)]
  exact h.2.2

theorem OptArrInv_init {α : Type} (has : Bool) (d : α) (a0 : List α) :
    OptArrInv has d a0 a0 0 [] := by
  unfold OptArrInv
  split
  · exact ArrInv_init d a0
  · rfl

theorem OptArrInv_skip {α : Type} (has : Bool) (d : α) (a0 a : List α) (i : ℕ) (ki : List ℕ)
    (h : OptArrInv has d a0 a i ki) : OptArrInv has d a0 a (i + 1) ki := by
  unfold OptArrInv at *
  split
  · rename_i hh
    rw [if_pos hh] at h
    exact ArrInv_skip d a0 a i ki h
  · rename_i hh
    rw [if_neg hh] at h
    exact h

theorem OptArrInv_keep {α : Type} (has : Bool) (d : α) (a0 a : List α) (i : ℕ) (ki : List ℕ)
    (h : OptArrInv has d a0 a i ki) (hk : ki.length ≤ i) (hi : has = true → i < a0.length) :
    OptArrInv has d a0 (if has then a.set ki.length (a.getD i d) else a) (i + 1)
      (ki ++ [i]) := by
  unfold OptArrInv at *
  by_cases hh : has = true
  · rw [if_pos hh] at h
    rw [if_pos hh, if_pos hh]
    exact ArrInv_keep d a0 a i ki h hk (hi hh)
  · rw [if_neg hh] at h
    rw [if_neg hh, if_neg hh]
    exact h

theorem OptArrInv_final {α : Type} (has : Bool) (d : α) (a0 a : List α) (i : ℕ) (ki : List ℕ)
    (h : OptArrInv has d a0 a i ki) (hk : has = true → ki.length ≤ a0.length) :
    (if has then resize a ki.length d else a) =
      if has then ki.map (fun j => a0.getD j d) else a0 := by
  unfold OptArrInv at h
  by_cases hh : has = true
  · rw [if_pos hh] at h
    rw [if_pos hh, if_pos hh]
    exact ArrInv_final d a0 a i ki h (hk hh)
  · rw [if_neg hh] at h
    rw [if_neg hh, if_neg hh]
    exact h

theorem map_keptBelow_eq_filter {α : Type} (l : List α) (d : α) (q : α → Bool) (i : ℕ)
    (hi : i ≤ l.length) :
    (keptBelow (fun j => q (l.getD j d)) i).map (fun j => l.getD j d) = (l.take i).filter q := by
  induction i with
  | zero => simp [keptBelow_zero]
  | succ i ih =>
    have hlt : i < l.length := hi
    rw [keptBelow_succ, List.map_append, ih (Nat.le_of_succ_le hi), List.take_succ,
      List.filter_append, List.getElem?_eq_getElem hlt]
    have : l.getD i d = l[i] := by
      simp [List.getD_eq_getElem?_getD, List.getElem?_eq_getElem hlt]
    rw [this]
    by_cases h : q l[i] = true
    · rw [if_pos h]
      simp only [List.map_cons, List.map_nil, this, Option.toList_some, List.filter_cons, h,
        if_true, List.filter_nil]
    · rw [if_neg h]
      simp only [List.map_nil, Option.toList_some, List.filter_cons, h, List.filter_nil,
        Bool.false_eq_true, if_false]

/-! ## RemoveDegenerateTriangles -/

theorem degTriLoop_inv (m : TriangleMesh) : DegInv m m.triangles_.length (degTriLoop m) := by
  unfold degTriLoop
  apply foldl_range_inv (degTriStep (HasTriangleNormals m)) _ (DegInv m)
  · exact ⟨ArrInv_init _ _, OptArrInv_init _ _ _, rfl⟩
  · intro i hi s hs
    obtain ⟨h1, h2, h3⟩ := hs
    unfold DegInv
    simp only []
    rw [keptBelow_succ]
    have hread : s.triangles_.getD i default = m.triangles_.getD i default :=
      h1.2.1 i (Nat.le_refl i)
    have hkl := keptBelow_length_le
      (fun j => decide (NonDegenerate (m.triangles_.getD j default))) i
    unfold degTriStep
    simp only []
    rw [hread]
    by_cases hp : NonDegenerate (m.triangles_.getD i default)
    · have hp' := hp
      unfold NonDegenerate at hp'
      rw [if_pos hp']
      simp only [hp, decide_True, if_true]
      rw [h3, ← hread]
      refine ⟨ArrInv_keep _ _ _ _ _ h1 hkl hi, OptArrInv_keep _ _ _ _ _ _ h2 hkl ?_, by simp⟩
      intro hh
      simp only [HasTriangleNormals, beq_iff_eq] at hh
      omega
    · have hp' := hp
      unfold NonDegenerate at hp'
      rw [if_neg hp']
      simp only [hp, decide_False, Bool.false_eq_true, if_false, List.append_nil]
      exact ⟨ArrInv_skip _ _ _ _ _ h1, OptArrInv_skip _ _ _ _ _ _ h2, h3⟩

theorem RemoveDegenerateTriangles_eq (m : TriangleMesh) :
    RemoveDegenerateTriangles m =
      (let m1 : TriangleMesh :=
        { m with
          triangles_ := (degKept m).map fun j => m.triangles_.getD j default
          triangle_normals_ :=
            if HasTriangleNormals m then
              (degKept m).map fun j => m.triangle_normals_.getD j default
            else m.triangle_normals_ }
      if (degKept m).length < m.triangles_.length && HasAdjacencyList m1 then
        ComputeAdjacencyList m1
      else m1) := by
  obtain ⟨h1, h2, h3⟩ := degTriLoop_inv m
  have hkl : (degKept m).length ≤ m.triangles_.length := keptBelow_length_le _ _
  unfold RemoveDegenerateTriangles
  simp only []
  rw [h3]
  have e1 := ArrInv_final _ _ _ _ _ h1 hkl
  have e2 := OptArrInv_final _ _ _ _ _ _ h2 (by
    intro hh
    simp only [HasTriangleNormals, beq_iff_eq] at hh
    rw [hh]; exact hkl)
  unfold degKept at *
  rw [e1, e2]
/-! ## Association lists -/

theorem mapFind_mapSet {κ ν : Type} [DecidableEq κ] (l : List (κ × ν)) (k k' : κ) (v : ν) :
    mapFind (mapSet l k v) k' = if k = k' then some v else mapFind l k' := by
  induction l with
  | nil => simp [mapSet, mapFind]
  | cons kv rest ih =>
    obtain ⟨a, w⟩ := kv
    unfold mapSet
    by_cases h : a = k
    · subst h
      by_cases h2 : a = k' <;> simp [mapFind, h2]
    · by_cases h2 : k = k'
      · subst h2
        simp [mapFind, h, ih]
      · simp [mapFind, h, h2, ih]

theorem take_succ_of_lt {α : Type} (l : List α) (d : α) (i : ℕ) (hi : i < l.length) :
    l.take (i + 1) = l.take i ++ [l.getD i d] := by
  rw [List.take_succ, List.getElem?_eq_getElem hi]
  simp [List.getD_eq_getElem?_getD, List.getElem?_eq_getElem hi]

/-! ## RemoveDuplicatedTriangles -/

theorem dupTriLoop_inv (m : TriangleMesh) :
    DupTriInv m m.triangles_.length (dupTriLoop m) := by
  unfold dupTriLoop
  apply foldl_range_inv (dupTriStep (HasTriangleNormals m)) _ (DupTriInv m)
  · exact ⟨ArrInv_init _ _, OptArrInv_init _ _ _, rfl, by simp [mapFind]⟩
  · intro i hi s hs
    obtain ⟨h1, h2, h3, h4⟩ := hs
    unfold DupTriInv
    simp only []
    rw [keptBelow_succ]
    have hread : s.triangles_.getD i default = m.triangles_.getD i default :=
      h1.2.1 i (Nat.le_refl i)
    have hkl := keptBelow_length_le (dupTriFirst m) i
    have htake := take_succ_of_lt m.triangles_ default i hi
    unfold dupTriStep
    simp only []
    rw [hread]
    cases hf : mapFind s.triangle_to_old_index (triangleKey (m.triangles_.getD i default)) with
    | none =>
      have hp : dupTriFirst m i = true := by
        unfold dupTriFirst
        exact decide_eq_true ((h4 _).mp hf)
      simp only [hp, if_true]
      rw [h3, ← hread]
      refine ⟨ArrInv_keep _ _ _ _ _ h1 hkl hi, OptArrInv_keep _ _ _ _ _ _ h2 hkl ?_, by simp, ?_⟩
      · intro hh
        simp only [HasTriangleNormals, beq_iff_eq] at hh
        omega
      · intro key
        rw [mapFind_mapSet, htake, hread]
        simp only [List.map_append, List.map_cons, List.map_nil, List.mem_append,
          List.mem_singleton]
        by_cases hk : triangleKey (m.triangles_.getD i default) = key
        · rw [if_pos hk]
          constructor
          · intro h; exact Option.noConfusion h
          · intro h; exact absurd (Or.inr hk.symm) h
        · have hk' : ¬ key = triangleKey (m.triangles_.getD i default) := fun e => hk e.symm
          rw [if_neg hk, h4 key]
          constructor
          · intro h h'
            rcases h' with h' | h'
            · exact h h'
            · exact hk' h'
          · intro h h'
            exact h (Or.inl h')
    | some j =>
      have hp : dupTriFirst m i = false := by
        unfold dupTriFirst
        apply decide_eq_false
        intro hcon
        rw [(h4 _).mpr hcon] at hf
        exact Option.noConfusion hf
      simp only [hp, Bool.false_eq_true, if_false, List.append_nil]
      refine ⟨ArrInv_skip _ _ _ _ _ h1, OptArrInv_skip _ _ _ _ _ _ h2, h3, ?_⟩
      intro key
      rw [h4 key, htake]
      have hin : triangleKey (m.triangles_.getD i default) ∈
          (m.triangles_.take i).map triangleKey := by
        by_contra hcon
        rw [(h4 _).mpr hcon] at hf
        exact Option.noConfusion hf
      constructor
      · intro hk hk2
        simp only [List.map_append, List.map_cons, List.map_nil, List.mem_append,
          List.mem_singleton] at hk2
        rcases hk2 with hk2 | hk2
        · exact hk hk2
        · exact hk (hk2 ▸ hin)
      · intro hk hk2
        apply hk
        simp only [List.map_append, List.mem_append]
        exact Or.inl hk2

theorem RemoveDuplicatedTriangles_eq (m : TriangleMesh) :
    RemoveDuplicatedTriangles m =
      (let m1 : TriangleMesh :=
        { m with
          triangles_ := (dupTriKept m).map fun j => m.triangles_.getD j default
          triangle_normals_ :=
            if HasTriangleNormals m then
              (dupTriKept m).map fun j => m.triangle_normals_.getD j default
            else m.triangle_normals_ }
      if (dupTriKept m).length < m.triangles_.length && HasAdjacencyList m1 then
        ComputeAdjacencyList m1
      else m1) := by
  obtain ⟨h1, h2, h3, _⟩ := dupTriLoop_inv m
  have hkl : (dupTriKept m).length ≤ m.triangles_.length := keptBelow_length_le _ _
  unfold RemoveDuplicatedTriangles
  simp only []
  rw [h3]
  have e1 := ArrInv_final _ _ _ _ _ h1 hkl
  have e2 := OptArrInv_final _ _ _ _ _ _ h2 (by
    intro hh
    simp only [HasTriangleNormals, beq_iff_eq] at hh
    rw [hh]; exact hkl)
  unfold dupTriKept at *
  rw [e1, e2]
/-! ## RemoveUnreferencedVertices -/

theorem markStep_length (a : List Bool) (t : Vector3i) :
    (((a.set t.1 true).set t.2.1 true).set t.2.2 true).length = a.length := by
  simp

theorem markStep_getD (a : List Bool) (t : Vector3i) (j : ℕ)
    (h0 : t.1 < a.length) (h1 : t.2.1 < a.length) (h2 : t.2.2 < a.length) :
    (((a.set t.1 true).set t.2.1 true).set t.2.2 true).getD j false = true ↔
      a.getD j false = true ∨ IsCorner t j := by
  rw [getD_set, getD_set, getD_set]
  unfold IsCorner
  simp only [List.length_set]
  by_cases e2 : t.2.2 = j
  · subst e2; simp [h2]
  · by_cases e1 : t.2.1 = j
    · subst e1; simp [e2, h1]
    · by_cases e0 : t.1 = j
      · subst e0; simp [e2, e1, h0]
      · have e0' : ¬ j = t.1 := fun e => e0 e.symm
        have e1' : ¬ j = t.2.1 := fun e => e1 e.symm
        have e2' : ¬ j = t.2.2 := fun e => e2 e.symm
        simp [e0, e1, e2, e0', e1', e2']

theorem markFold_length (ts : List Vector3i) (a : List Bool) :
    (ts.foldl (fun vertex_has_reference t =>
      ((vertex_has_reference.set t.1 true).set t.2.1 true).set t.2.2 true) a).length =
      a.length := by
  induction ts generalizing a with
  | nil => rfl
  | cons t ts ih => simp [List.foldl_cons, ih]

theorem markFold_getD (ts : List Vector3i) (a : List Bool) (j : ℕ)
    (h : ∀ t ∈ ts, t.1 < a.length ∧ t.2.1 < a.length ∧ t.2.2 < a.length) :
    (ts.foldl (fun vertex_has_reference t =>
      ((vertex_has_reference.set t.1 true).set t.2.1 true).set t.2.2 true) a).getD j false
        = true ↔
      a.getD j false = true ∨ ∃ t ∈ ts, IsCorner t j := by
  induction ts generalizing a with
  | nil => simp
  | cons t ts ih =>
    have ht := h t (List.mem_cons_self _ _)
    rw [List.foldl_cons, ih]
    · rw [markStep_getD a t j ht.1 ht.2.1 ht.2.2]
      simp only [List.mem_cons, exists_eq_or_imp]
      tauto
    · intro t' ht'
      rw [markStep_length]
      exact h t' (List.mem_cons_of_mem _ ht')

theorem markReferenced_length (m : TriangleMesh) :
    (markReferenced m).length = m.vertices_.length := by
  unfold markReferenced
  rw [markFold_length]
  simp

theorem markReferenced_getD (m : TriangleMesh) (hwf : WellFormed m) (j : ℕ) :
    (markReferenced m).getD j false = true ↔ ∃ t ∈ m.triangles_, IsCorner t j := by
  unfold markReferenced
  rw [markFold_getD]
  · have : (List.replicate m.vertices_.length false).getD j false = false := by
      rw [List.getD_eq_getElem?_getD, List.getElem?_replicate]
      split <;> rfl
    rw [this]
    simp
  · intro t ht
    simpa using hwf t ht

theorem unrefLoop_inv (m : TriangleMesh) : UnrefInv m m.vertices_.length (unrefLoop m) := by
  unfold unrefLoop
  apply foldl_range_inv
    (unrefStep (markReferenced m) (HasVertexNormals m) (HasVertexColors m)) _ (UnrefInv m)
  · refine ⟨ArrInv_init _ _, OptArrInv_init _ _ _, OptArrInv_init _ _ _, rfl, by simp, ?_⟩
    intro j hj
    exact absurd hj (Nat.not_lt_zero j)
  · intro i hi s hs
    obtain ⟨h1, h2, h3, h4, h5, h6⟩ := hs
    unfold UnrefInv
    simp only []
    rw [keptBelow_succ]
    have hkl := keptBelow_length_le (fun j => (markReferenced m).getD j false) i
    unfold unrefStep
    by_cases hp : (markReferenced m).getD i false = true
    · rw [if_pos hp]
      simp only [hp, if_true]
      rw [h4]
      refine ⟨ArrInv_keep _ _ _ _ _ h1 hkl hi, OptArrInv_keep _ _ _ _ _ _ h2 hkl ?_,
        OptArrInv_keep _ _ _ _ _ _ h3 hkl ?_, by simp, by simp [h5], ?_⟩
      · intro hh
        simp only [HasVertexNormals, beq_iff_eq] at hh
        omega
      · intro hh
        simp only [HasVertexColors, beq_iff_eq] at hh
        omega
      · intro j hj
        rw [getD_set]
        by_cases e : i = j
        · subst e
          rw [if_pos ⟨rfl, by omega⟩, if_pos hp]
          rfl
        · rw [if_neg (fun h => e h.1)]
          exact h6 j (by omega)
    · rw [if_neg hp]
      simp only [hp, Bool.false_eq_true, if_false, List.append_nil]
      refine ⟨ArrInv_skip _ _ _ _ _ h1, OptArrInv_skip _ _ _ _ _ _ h2,
        OptArrInv_skip _ _ _ _ _ _ h3, h4, by simp [h5], ?_⟩
      intro j hj
      rw [getD_set]
      by_cases e : i = j
      · subst e
        rw [if_pos ⟨rfl, by omega⟩, if_neg hp]
      · rw [if_neg (fun h => e h.1)]
        exact h6 j (by omega)

theorem unref_remap (m : TriangleMesh) (hwf : WellFormed m) :
    remapTriangles (unrefLoop m).index_old_to_new m.triangles_ = unrefTriangles m := by
  obtain ⟨_, _, _, _, _, h6⟩ := unrefLoop_inv m
  unfold remapTriangles unrefTriangles
  apply List.map_congr_left
  intro t ht
  have hw := hwf t ht
  have r0 := (markReferenced_getD m hwf t.1).mpr ⟨t, ht, Or.inl rfl⟩
  have r1 := (markReferenced_getD m hwf t.2.1).mpr ⟨t, ht, Or.inr (Or.inl rfl)⟩
  have r2 := (markReferenced_getD m hwf t.2.2).mpr ⟨t, ht, Or.inr (Or.inr rfl)⟩
  rw [h6 _ hw.1, h6 _ hw.2.1, h6 _ hw.2.2, if_pos r0, if_pos r1, if_pos r2]
  simp

theorem RemoveUnreferencedVertices_eq (m : TriangleMesh) (hwf : WellFormed m) :
    RemoveUnreferencedVertices m =
      (let m1 : TriangleMesh :=
        { m with
          vertices_ := (unrefKept m).map fun j => m.vertices_.getD j default
          vertex_normals_ :=
            if HasVertexNormals m then
              (unrefKept m).map fun j => m.vertex_normals_.getD j default
            else m.vertex_normals_
          vertex_colors_ :=
            if HasVertexColors m then
              (unrefKept m).map fun j => m.vertex_colors_.getD j default
            else m.vertex_colors_ }
      if (unrefKept m).length < m.vertices_.length then
        let m2 := { m1 with triangles_ := unrefTriangles m }
        if HasAdjacencyList m2 then ComputeAdjacencyList m2 else m2
      else m1) := by
  obtain ⟨h1, h2, h3, h4, _, _⟩ := unrefLoop_inv m
  have hkl : (unrefKept m).length ≤ m.vertices_.length := keptBelow_length_le _ _
  unfold RemoveUnreferencedVertices
  simp only []
  rw [unref_remap m hwf, h4]
  have e1 := ArrInv_final _ _ _ _ _ h1 hkl
  have e2 := OptArrInv_final _ _ _ _ _ _ h2 (by
    intro hh
    simp only [HasVertexNormals, beq_iff_eq] at hh
    rw [hh]; exact hkl)
  have e3 := OptArrInv_final _ _ _ _ _ _ h3 (by
    intro hh
    simp only [HasVertexColors, beq_iff_eq] at hh
    rw [hh]; exact hkl)
  unfold unrefKept at *
  rw [e1, e2, e3]

/-! ## RemoveDuplicatedVertices -/

theorem firstIndexOf_lt_of_mem_take {α : Type} [DecidableEq α] (l : List α) (c : α) (i : ℕ)
    (h : c ∈ l.take i) : firstIndexOf l c < i := by
  induction l generalizing i with
  | nil => simp at h
  | cons x rest ih =>
    cases i with
    | zero => simp at h
    | succ i =>
      unfold firstIndexOf
      by_cases hx : x = c
      · rw [if_pos hx]; omega
      · rw [if_neg hx]
        rw [List.take_succ_cons, List.mem_cons] at h
        rcases h with h | h
        · exact absurd h.symm hx
        · have := ih i h
          omega

theorem firstIndexOf_getD_of_not_mem_take {α : Type} [DecidableEq α] (l : List α) (d : α)
    (i : ℕ) (hi : i < l.length) (h : l.getD i d ∉ l.take i) :
    firstIndexOf l (l.getD i d) = i := by
  induction l generalizing i with
  | nil => simp at hi
  | cons x rest ih =>
    cases i with
    | zero => simp [firstIndexOf]
    | succ i =>
      rw [List.getD_cons_succ] at h ⊢
      rw [List.take_succ_cons, List.mem_cons, not_or] at h
      unfold firstIndexOf
      rw [if_neg (fun e => h.1 e.symm), ih i (by simpa using hi) h.2]

theorem getD_firstIndexOf {α : Type} [DecidableEq α] (l : List α) (d c : α) (h : c ∈ l) :
    l.getD (firstIndexOf l c) d = c := by
  induction l with
  | nil => simp at h
  | cons x rest ih =>
    unfold firstIndexOf
    by_cases hx : x = c
    · rw [if_pos hx]; simpa using hx
    · rw [if_neg hx, List.getD_cons_succ]
      rw [List.mem_cons] at h
      rcases h with h | h
      · exact absurd h.symm hx
      · exact ih h

theorem dupVertLoop_inv (m : TriangleMesh) :
    DupVertInv m m.vertices_.length (dupVertLoop m) := by
  unfold dupVertLoop
  apply foldl_range_inv
    (dupVertStep (HasVertexNormals m) (HasVertexColors m)) _ (DupVertInv m)
  · refine ⟨ArrInv_init _ _, OptArrInv_init _ _ _, OptArrInv_init _ _ _, rfl, by simp, ?_, ?_⟩
    · intro c
      simp [mapFind]
    · intro j hj
      exact absurd hj (Nat.not_lt_zero j)
  · intro i hi s hs
    obtain ⟨h1, h2, h3, h4, h5, h6, h7⟩ := hs
    unfold DupVertInv
    simp only []
    rw [keptBelow_succ]
    have hread : s.vertices_.getD i default = m.vertices_.getD i default :=
      h1.2.1 i (Nat.le_refl i)
    have hkl := keptBelow_length_le (dupVertFirst m) i
    have htake := take_succ_of_lt m.vertices_ default i hi
    unfold dupVertStep
    simp only []
    rw [hread]
    cases hf : mapFind s.point_to_old_index (m.vertices_.getD i default) with
    | none =>
      have hnot : m.vertices_.getD i default ∉ m.vertices_.take i := by
        intro hcon
        rw [h6, if_pos hcon] at hf
        exact Option.noConfusion hf
      have hp : dupVertFirst m i = true := by
        unfold dupVertFirst
        exact decide_eq_true hnot
      have hidx := firstIndexOf_getD_of_not_mem_take m.vertices_ default i hi hnot
      simp only [hp, if_true]
      rw [h4, ← hread]
      refine ⟨ArrInv_keep _ _ _ _ _ h1 hkl hi, OptArrInv_keep _ _ _ _ _ _ h2 hkl ?_,
        OptArrInv_keep _ _ _ _ _ _ h3 hkl ?_, by simp, by simp [h5], ?_, ?_⟩
      · intro hh
        simp only [HasVertexNormals, beq_iff_eq] at hh
        omega
      · intro hh
        simp only [HasVertexColors, beq_iff_eq] at hh
        omega
      · intro c
        rw [mapFind_mapSet, htake, hread, h6 c]
        simp only [List.mem_append, List.mem_singleton]
        by_cases hc : m.vertices_.getD i default = c
        · rw [if_pos hc, if_pos (Or.inr hc.symm), ← hc, hidx]
        · rw [if_neg hc]
          by_cases hc2 : c ∈ m.vertices_.take i
          · rw [if_pos hc2, if_pos (Or.inl hc2)]
          · rw [if_neg hc2, if_neg]
            rintro (h | h)
            · exact hc2 h
            · exact hc h.symm
      · intro j hj
        rw [getD_set]
        by_cases e : i = j
        · subst e
          rw [if_pos ⟨rfl, by omega⟩]
          unfold dupVertNew
          rw [hidx]
        · rw [if_neg (fun h => e h.1)]
          exact h7 j (by omega)
    | some j =>
      have hin : m.vertices_.getD i default ∈ m.vertices_.take i := by
        by_contra hcon
        rw [h6, if_neg hcon] at hf
        exact Option.noConfusion hf
      have hj : j = firstIndexOf m.vertices_ (m.vertices_.getD i default) := by
        rw [h6, if_pos hin] at hf
        exact (Option.some.inj hf).symm
      have hjlt : j < i := hj ▸ firstIndexOf_lt_of_mem_take _ _ _ hin
      have hp : dupVertFirst m i = false := by
        unfold dupVertFirst
        exact decide_eq_false (fun h => h hin)
      simp only [hp, Bool.false_eq_true, if_false, List.append_nil]
      refine ⟨ArrInv_skip _ _ _ _ _ h1, OptArrInv_skip _ _ _ _ _ _ h2,
        OptArrInv_skip _ _ _ _ _ _ h3, h4, by simp [h5], ?_, ?_⟩
      · intro c
        rw [h6 c, htake]
        simp only [List.mem_append, List.mem_singleton]
        by_cases hc2 : c ∈ m.vertices_.take i
        · rw [if_pos hc2, if_pos (Or.inl hc2)]
        · rw [if_neg hc2, if_neg]
          rintro (h | h)
          · exact hc2 h
          · exact hc2 (h ▸ hin)
      · intro j' hj'
        rw [getD_set]
        by_cases e : i = j'
        · subst e
          rw [if_pos ⟨rfl, by omega⟩, h7 j hjlt]
          have hmem : m.vertices_.getD i default ∈ m.vertices_ := List.mem_of_mem_take hin
          have : m.vertices_.getD j default = m.vertices_.getD i default := by
            rw [hj]; exact getD_firstIndexOf _ _ _ hmem
          unfold dupVertNew
          rw [this]
        · rw [if_neg (fun h => e h.1)]
          exact h7 j' (by omega)

theorem dupVert_remap (m : TriangleMesh) (hwf : WellFormed m) :
    remapTriangles (dupVertLoop m).index_old_to_new m.triangles_ = dupVertTriangles m := by
  obtain ⟨_, _, _, _, _, _, h7⟩ := dupVertLoop_inv m
  unfold remapTriangles dupVertTriangles
  apply List.map_congr_left
  intro t ht
  have hw := hwf t ht
  rw [h7 _ hw.1, h7 _ hw.2.1, h7 _ hw.2.2]
  simp

theorem RemoveDuplicatedVertices_eq (m : TriangleMesh) (hwf : WellFormed m) :
    RemoveDuplicatedVertices m =
      (let m1 : TriangleMesh :=
        { m with
          vertices_ := (dupVertKept m).map fun j => m.vertices_.getD j default
          vertex_normals_ :=
            if HasVertexNormals m then
              (dupVertKept m).map fun j => m.vertex_normals_.getD j default
            else m.vertex_normals_
          vertex_colors_ :=
            if HasVertexColors m then
              (dupVertKept m).map fun j => m.vertex_colors_.getD j default
            else m.vertex_colors_ }
      if (dupVertKept m).length < m.vertices_.length then
        let m2 := { m1 with triangles_ := dupVertTriangles m }
        if HasAdjacencyList m2 then ComputeAdjacencyList m2 else m2
      else m1) := by
  obtain ⟨h1, h2, h3, h4, _, _, _⟩ := dupVertLoop_inv m
  have hkl : (dupVertKept m).length ≤ m.vertices_.length := keptBelow_length_le _ _
  unfold RemoveDuplicatedVertices
  simp only []
  rw [dupVert_remap m hwf, h4]
  have e1 := ArrInv_final _ _ _ _ _ h1 hkl
  have e2 := OptArrInv_final _ _ _ _ _ _ h2 (by
    intro hh
    simp only [HasVertexNormals, beq_iff_eq] at hh
    rw [hh]; exact hkl)
  have e3 := OptArrInv_final _ _ _ _ _ _ h3 (by
    intro hh
    simp only [HasVertexColors, beq_iff_eq] at hh
    rw [hh]; exact hkl)
  unfold dupVertKept at *
  rw [e1, e2, e3]

/-! ## Positions inside the list of kept indices -/

theorem keptBelow_eq_range_of_length (p : ℕ → Bool) (n : ℕ)
    (h : ¬ (keptBelow p n).length < n) : keptBelow p n = List.range n := by
  have hle := keptBelow_length_le p n
  have he : ((List.range n).filter p).length = (List.range n).length := by
    rw [List.length_range]
    unfold keptBelow at h hle
    omega
  unfold keptBelow
  rw [List.filter_eq_self]
  exact List.filter_length_eq_length.mp he

theorem keptBelow_all_of_length (p : ℕ → Bool) (n : ℕ)
    (h : ¬ (keptBelow p n).length < n) (j : ℕ) (hj : j < n) : p j = true := by
  have e := keptBelow_eq_range_of_length p n h
  have : j ∈ keptBelow p n := by rw [e]; exact List.mem_range.mpr hj
  exact ((mem_keptBelow p n j).mp this).2

theorem keptBelow_length_mono (p : ℕ → Bool) (i n : ℕ) (h : i ≤ n) :
    (keptBelow p i).length ≤ (keptBelow p n).length := by
  induction n with
  | zero =>
    have : i = 0 := by omega
    rw [this]
  | succ n ih =>
    by_cases e : i = n + 1
    · rw [e]
    · have := ih (by omega)
      rw [keptBelow_succ, List.length_append]
      omega

theorem keptBelow_pos (p : ℕ → Bool) (n j : ℕ) (hj : j < n) (hp : p j = true) :
    (keptBelow p j).length < (keptBelow p n).length ∧
      (keptBelow p n).getD (keptBelow p j).length 0 = j := by
  induction n with
  | zero => omega
  | succ n ih =>
    rw [keptBelow_succ]
    by_cases e : j = n
    · subst e
      rw [if_pos hp]
      constructor
      · simp
      · rw [List.getD_append_right _ _ _ _ (Nat.le_refl _)]
        simp
    · obtain ⟨h1, h2⟩ := ih (by omega)
      constructor
      · rw [List.length_append]; omega
      · rw [List.getD_append _ _ _ _ h1]
        exact h2

theorem keptBelow_getD (p : ℕ → Bool) (n j' : ℕ) (hj' : j' < (keptBelow p n).length) :
    (keptBelow p n).getD j' 0 < n ∧ p ((keptBelow p n).getD j' 0) = true ∧
      (keptBelow p ((keptBelow p n).getD j' 0)).length = j' := by
  induction n with
  | zero => simp [keptBelow_zero] at hj'
  | succ n ih =>
    rw [keptBelow_succ] at hj' ⊢
    by_cases e : j' < (keptBelow p n).length
    · rw [List.getD_append _ _ _ _ e]
      obtain ⟨h1, h2, h3⟩ := ih e
      exact ⟨by omega, h2, h3⟩
    · by_cases hp : p n = true
      · rw [if_pos hp] at hj' ⊢
        simp only [List.length_append, List.length_singleton] at hj'
        have e2 : j' = (keptBelow p n).length := by omega
        rw [List.getD_append_right _ _ _ _ (by omega), e2]
        simp [hp]
      · rw [if_neg hp] at hj'
        simp only [List.append_nil] at hj'
        exact absurd hj' e

theorem getD_map_kept {α : Type} (l : List α) (d : α) (ki : List ℕ) (x : ℕ)
    (hx : x < ki.length) :
    (ki.map fun j => l.getD j d).getD x d = l.getD (ki.getD x 0) d := by
  simp [List.getD_eq_getElem?_getD, List.getElem?_eq_getElem hx]

/-! ## First occurrences -/

theorem firstIndexOf_lt_length {α : Type} [DecidableEq α] (l : List α) (c : α) (h : c ∈ l) :
    firstIndexOf l c < l.length := by
  have : c ∈ l.take l.length := by simpa using h
  exact firstIndexOf_lt_of_mem_take l c l.length this

theorem firstIndexOf_not_mem_take {α : Type} [DecidableEq α] (l : List α) (c : α) :
    c ∉ l.take (firstIndexOf l c) := by
  intro h
  have := firstIndexOf_lt_of_mem_take l c _ h
  omega

theorem firstOcc_mem {α κ : Type} [DecidableEq κ] (f : α → κ) (l : List α) (d : α)
    (p : ℕ → Bool)
    (hp : ∀ j, p j = true ↔ f (l.getD j d) ∉ (l.take j).map f) (i : ℕ)
    (hi : i ≤ l.length) (x : κ) :
    x ∈ ((keptBelow p i).map fun j => l.getD j d).map f ↔ x ∈ (l.take i).map f := by
  induction i with
  | zero => simp [keptBelow_zero]
  | succ i ih =>
    have hlt : i < l.length := hi
    have ih' := ih (Nat.le_of_succ_le hi)
    rw [keptBelow_succ, take_succ_of_lt l d i hlt]
    simp only [List.map_append, List.mem_append, List.map_cons, List.map_nil,
      List.mem_singleton]
    rw [← ih']
    by_cases h : p i = true
    · rw [if_pos h]
      simp only [List.map_cons, List.map_nil, List.mem_singleton]
    · rw [if_neg h]
      simp only [List.map_nil, List.not_mem_nil, or_false]
      have hin : f (l.getD i d) ∈ (l.take i).map f := by
        by_contra hcon
        exact h ((hp i).mpr hcon)
      constructor
      · intro hx; exact Or.inl hx
      · rintro (hx | hx)
        · exact hx
        · rw [ih', hx]; exact hin

theorem firstOcc_nodup {α κ : Type} [DecidableEq κ] (f : α → κ) (l : List α) (d : α)
    (p : ℕ → Bool)
    (hp : ∀ j, p j = true ↔ f (l.getD j d) ∉ (l.take j).map f) (i : ℕ)
    (hi : i ≤ l.length) :
    (((keptBelow p i).map fun j => l.getD j d).map f).Nodup := by
  induction i with
  | zero => simp [keptBelow_zero]
  | succ i ih =>
    have hlt : i < l.length := hi
    have ih' := ih (Nat.le_of_succ_le hi)
    rw [keptBelow_succ]
    by_cases h : p i = true
    · rw [if_pos h]
      simp only [List.map_append, List.map_cons, List.map_nil]
      rw [List.nodup_append]
      refine ⟨ih', List.nodup_singleton _, ?_⟩
      intro x hx1 hx2
      rw [List.mem_singleton] at hx2
      have hnot := (hp i).mp h
      apply hnot
      rw [← hx2, ← firstOcc_mem f l d p hp i (Nat.le_of_succ_le hi)]
      exact hx1
    · rw [if_neg h]
      simpa using ih'

theorem firstOcc_all {α κ : Type} [DecidableEq κ] (f : α → κ) (l : List α) (d : α)
    (p : ℕ → Bool)
    (hp : ∀ j, p j = true ↔ f (l.getD j d) ∉ (l.take j).map f)
    (hnd : (l.map f).Nodup) (j : ℕ) (hj : j < l.length) : p j = true := by
  rw [hp j]
  intro hmem
  rw [List.mem_map] at hmem
  obtain ⟨y, hy, hfy⟩ := hmem
  rw [List.mem_take_iff_getElem] at hy
  obtain ⟨a, ha, hay⟩ := hy
  have ha1 : a < j := by omega
  have ha2 : a < l.length := by omega
  have h1 : (l.map f)[a]? = some (f y) := by
    rw [List.getElem?_map, List.getElem?_eq_getElem ha2, hay]; rfl
  have h2 : (l.map f)[j]? = some (f (l.getD j d)) := by
    rw [List.getElem?_map, List.getElem?_eq_getElem hj]
    simp [List.getD_eq_getElem?_getD, List.getElem?_eq_getElem hj]
  have hne := List.nodup_iff_getElem?_ne_getElem?.mp hnd a j ha1 (by simpa using hj)
  apply hne
  rw [h1, h2, hfy]
/-! ## Fixed points and results of the triangle clean-ups -/

theorem computeAdjacencyList_vertices (m : TriangleMesh) :
    (ComputeAdjacencyList m).vertices_ = m.vertices_ := rfl

theorem computeAdjacencyList_triangles (m : TriangleMesh) :
    (ComputeAdjacencyList m).triangles_ = m.triangles_ := rfl

theorem wellFormed_of_eq (m m' : TriangleMesh) (hv : m'.vertices_.length = m.vertices_.length)
    (ht : ∀ t ∈ m'.triangles_, t ∈ m.triangles_) (hwf : WellFormed m) : WellFormed m' := by
  intro t h
  rw [hv]
  exact hwf t (ht t h)

theorem opt_map_range {α : Type} (has : Bool) (d : α) (l : List α) (n : ℕ)
    (h : has = true → l.length = n) :
    (if has then (List.range n).map (fun j => l.getD j d) else l) = l := by
  by_cases hh : has = true
  · rw [if_pos hh, ← h hh]
    exact map_getD_range l d
  · rw [if_neg hh]

theorem degTri_fields (m : TriangleMesh) :
    (RemoveDegenerateTriangles m).vertices_ = m.vertices_ ∧
    (RemoveDegenerateTriangles m).triangles_ =
      (degKept m).map (fun j => m.triangles_.getD j default) := by
  rw [RemoveDegenerateTriangles_eq]
  simp only []
  split_ifs <;> exact ⟨rfl, rfl⟩

theorem degTri_triangles (m : TriangleMesh) :
    (RemoveDegenerateTriangles m).triangles_ =
      m.triangles_.filter fun t => decide (NonDegenerate t) := by
  rw [(degTri_fields m).2]
  unfold degKept
  rw [map_keptBelow_eq_filter m.triangles_ default (fun t => decide (NonDegenerate t))
    m.triangles_.length (Nat.le_refl _)]
  simp

theorem degTri_fixed (m : TriangleMesh) (h : ∀ t ∈ m.triangles_, NonDegenerate t) :
    RemoveDegenerateTriangles m = m := by
  have hk : degKept m = List.range m.triangles_.length := by
    unfold degKept
    apply keptBelow_all
    intro j hj
    apply decide_eq_true
    apply h
    rw [List.getD_eq_getElem?_getD, List.getElem?_eq_getElem hj]
    exact List.getElem_mem _
  rw [RemoveDegenerateTriangles_eq]
  simp only []
  rw [hk, map_getD_range, opt_map_range _ _ _ _ (by
    intro hh
    simpa [HasTriangleNormals] using hh)]
  simp

theorem degTri_clean (m : TriangleMesh) :
    ∀ t ∈ (RemoveDegenerateTriangles m).triangles_, NonDegenerate t := by
  intro t ht
  rw [degTri_triangles, List.mem_filter] at ht
  exact of_decide_eq_true ht.2

theorem degTri_idem (m : TriangleMesh) :
    RemoveDegenerateTriangles (RemoveDegenerateTriangles m) = RemoveDegenerateTriangles m :=
  degTri_fixed _ (degTri_clean m)

theorem degTri_wf (m : TriangleMesh) (hwf : WellFormed m) :
    WellFormed (RemoveDegenerateTriangles m) := by
  apply wellFormed_of_eq m _ _ _ hwf
  · rw [(degTri_fields m).1]
  · intro t ht
    rw [degTri_triangles] at ht
    exact List.mem_of_mem_filter ht

theorem dupTriFirst_eq (m : TriangleMesh) (j : ℕ) :
    dupTriFirst m j = true ↔
      triangleKey (m.triangles_.getD j default) ∉ (m.triangles_.take j).map triangleKey := by
  unfold dupTriFirst
  exact decide_eq_true_iff

theorem dupTri_fields (m : TriangleMesh) :
    (RemoveDuplicatedTriangles m).vertices_ = m.vertices_ ∧
    (RemoveDuplicatedTriangles m).triangles_ =
      (dupTriKept m).map (fun j => m.triangles_.getD j default) := by
  rw [RemoveDuplicatedTriangles_eq]
  simp only []
  split_ifs <;> exact ⟨rfl, rfl⟩

theorem dupTri_fixed (m : TriangleMesh) (h : (m.triangles_.map triangleKey).Nodup) :
    RemoveDuplicatedTriangles m = m := by
  have hk : dupTriKept m = List.range m.triangles_.length := by
    unfold dupTriKept
    apply keptBelow_all
    intro j hj
    exact firstOcc_all triangleKey m.triangles_ default _ (dupTriFirst_eq m) h j hj
  rw [RemoveDuplicatedTriangles_eq]
  simp only []
  rw [hk, map_getD_range, opt_map_range _ _ _ _ (by
    intro hh
    simpa [HasTriangleNormals] using hh)]
  simp

theorem dupTri_clean (m : TriangleMesh) :
    ((RemoveDuplicatedTriangles m).triangles_.map triangleKey).Nodup := by
  rw [(dupTri_fields m).2]
  exact firstOcc_nodup triangleKey m.triangles_ default _ (dupTriFirst_eq m) _ (Nat.le_refl _)

theorem dupTri_idem (m : TriangleMesh) :
    RemoveDuplicatedTriangles (RemoveDuplicatedTriangles m) = RemoveDuplicatedTriangles m :=
  dupTri_fixed _ (dupTri_clean m)

theorem mem_map_kept {α : Type} (l : List α) (d : α) (p : ℕ → Bool) (x : α)
    (h : x ∈ (keptBelow p l.length).map (fun j => l.getD j d)) : x ∈ l := by
  rw [List.mem_map] at h
  obtain ⟨j, hj, hx⟩ := h
  have hlt := ((mem_keptBelow p _ j).mp hj).1
  rw [← hx, List.getD_eq_getElem?_getD, List.getElem?_eq_getElem hlt]
  exact List.getElem_mem _

theorem dupTri_wf (m : TriangleMesh) (hwf : WellFormed m) :
    WellFormed (RemoveDuplicatedTriangles m) := by
  apply wellFormed_of_eq m _ _ _ hwf
  · rw [(dupTri_fields m).1]
  · intro t ht
    rw [(dupTri_fields m).2] at ht
    exact mem_map_kept _ _ _ _ ht

/-! ## Results of RemoveDuplicatedVertices -/

theorem dupVertFirst_eq (m : TriangleMesh) (j : ℕ) :
    dupVertFirst m j = true ↔
      id (m.vertices_.getD j default) ∉ (m.vertices_.take j).map id := by
  unfold dupVertFirst
  rw [List.map_id]
  exact decide_eq_true_iff

theorem dupVert_vertex_fields (m : TriangleMesh) :
    (RemoveDuplicatedVertices m).vertices_ =
      (dupVertKept m).map (fun j => m.vertices_.getD j default) ∧
    (RemoveDuplicatedVertices m).vertex_normals_ =
      (if HasVertexNormals m then
        (dupVertKept m).map (fun j => m.vertex_normals_.getD j default)
      else m.vertex_normals_) ∧
    (RemoveDuplicatedVertices m).vertex_colors_ =
      (if HasVertexColors m then
        (dupVertKept m).map (fun j => m.vertex_colors_.getD j default)
      else m.vertex_colors_) := by
  obtain ⟨h1, h2, h3, h4, _, _, _⟩ := dupVertLoop_inv m
  have hkl : (dupVertKept m).length ≤ m.vertices_.length := keptBelow_length_le _ _
  have e1 := ArrInv_final _ _ _ _ _ h1 hkl
  have e2 := OptArrInv_final _ _ _ _ _ _ h2 (by
    intro hh
    simp only [HasVertexNormals, beq_iff_eq] at hh
    rw [hh]; exact hkl)
  have e3 := OptArrInv_final _ _ _ _ _ _ h3 (by
    intro hh
    simp only [HasVertexColors, beq_iff_eq] at hh
    rw [hh]; exact hkl)
  unfold dupVertKept
  rw [← e1, ← e2, ← e3, ← h4]
  unfold RemoveDuplicatedVertices
  simp only []
  split_ifs <;> exact ⟨rfl, rfl, rfl⟩

theorem dupVert_triangles (m : TriangleMesh) (hwf : WellFormed m) :
    (RemoveDuplicatedVertices m).triangles_ =
      if (dupVertKept m).length < m.vertices_.length then dupVertTriangles m
      else m.triangles_ := by
  rw [RemoveDuplicatedVertices_eq m hwf]
  simp only []
  split_ifs <;> rfl

theorem dupVert_all_first (m : TriangleMesh) (h : m.vertices_.Nodup) (j : ℕ)
    (hj : j < m.vertices_.length) : dupVertFirst m j = true :=
  firstOcc_all id m.vertices_ default _ (dupVertFirst_eq m) (by simpa using h) j hj

theorem dupVert_fixed (m : TriangleMesh) (hwf : WellFormed m) (h : m.vertices_.Nodup) :
    RemoveDuplicatedVertices m = m := by
  have hk : dupVertKept m = List.range m.vertices_.length := by
    unfold dupVertKept
    exact keptBelow_all _ _ (dupVert_all_first m h)
  rw [RemoveDuplicatedVertices_eq m hwf]
  simp only []
  rw [hk, map_getD_range,
    opt_map_range _ _ _ _ (by intro hh; simpa [HasVertexNormals] using hh),
    opt_map_range _ _ _ _ (by intro hh; simpa [HasVertexColors] using hh)]
  simp

theorem dupVert_clean (m : TriangleMesh) : (RemoveDuplicatedVertices m).vertices_.Nodup := by
  rw [(dupVert_vertex_fields m).1]
  have := firstOcc_nodup id m.vertices_ default _ (dupVertFirst_eq m) _ (Nat.le_refl _)
  simpa using this

theorem dupVertNew_spec (m : TriangleMesh) (j : ℕ) (hj : j < m.vertices_.length) :
    dupVertNew m j < (dupVertKept m).length ∧
      ((dupVertKept m).map fun i => m.vertices_.getD i default).getD (dupVertNew m j) default =
        m.vertices_.getD j default := by
  have hmem : m.vertices_.getD j default ∈ m.vertices_ := by
    rw [List.getD_eq_getElem?_getD, List.getElem?_eq_getElem hj]
    exact List.getElem_mem _
  have hf := firstIndexOf_lt_length m.vertices_ _ hmem
  have hp : dupVertFirst m (firstIndexOf m.vertices_ (m.vertices_.getD j default)) = true := by
    unfold dupVertFirst
    apply decide_eq_true
    rw [getD_firstIndexOf _ _ _ hmem]
    exact firstIndexOf_not_mem_take _ _
  obtain ⟨h1, h2⟩ := keptBelow_pos (dupVertFirst m) m.vertices_.length _ hf hp
  unfold dupVertNew dupVertKept
  refine ⟨h1, ?_⟩
  rw [getD_map_kept _ _ _ _ h1, h2]
  exact getD_firstIndexOf _ _ _ hmem

theorem dupVert_wf (m : TriangleMesh) (hwf : WellFormed m) :
    WellFormed (RemoveDuplicatedVertices m) := by
  intro t ht
  rw [(dupVert_vertex_fields m).1, List.length_map]
  rw [dupVert_triangles m hwf] at ht
  by_cases hk : (dupVertKept m).length < m.vertices_.length
  · rw [if_pos hk] at ht
    unfold dupVertTriangles at ht
    rw [List.mem_map] at ht
    obtain ⟨t0, ht0, rfl⟩ := ht
    have hw := hwf t0 ht0
    exact ⟨(dupVertNew_spec m _ hw.1).1, (dupVertNew_spec m _ hw.2.1).1,
      (dupVertNew_spec m _ hw.2.2).1⟩
  · rw [if_neg hk] at ht
    have hle : (dupVertKept m).length ≤ m.vertices_.length := keptBelow_length_le _ _
    have : (dupVertKept m).length = m.vertices_.length := by omega
    rw [this]
    exact hwf t ht

theorem dupVert_idem (m : TriangleMesh) (hwf : WellFormed m) :
    RemoveDuplicatedVertices (RemoveDuplicatedVertices m) = RemoveDuplicatedVertices m :=
  dupVert_fixed _ (dupVert_wf m hwf) (dupVert_clean m)

theorem firstOccurrences_eq (m : TriangleMesh) :
    firstOccurrences m.vertices_ = dupVertKept m := by
  unfold firstOccurrences dupVertKept keptBelow
  apply List.filter_congr
  intro i hi
  have hi' := List.mem_range.mp hi
  unfold dupVertFirst
  apply decide_eq_decide.mpr
  rw [List.mem_take_iff_getElem]
  constructor
  · rintro h ⟨a, ha, hae⟩
    have ha1 : a < i := by omega
    have ha2 : a < m.vertices_.length := by omega
    apply h a ha1
    rw [← hae, List.getD_eq_getElem?_getD, List.getElem?_eq_getElem ha2]
    rfl
  · intro h j hj hje
    apply h
    have hj2 : j < m.vertices_.length := by omega
    refine ⟨j, by omega, ?_⟩
    rw [← hje, List.getD_eq_getElem?_getD, List.getElem?_eq_getElem hj2]
    rfl

/-- C7: after `RemoveDuplicatedVertices` the vertex list is the sequence of first
occurrences of the coordinate triples of the input, in their original order; it
holds no coordinate triple twice and every coordinate triple of the input; vertex
normals and colours, when present, are those of the first-seen instances. -/
theorem removeDuplicatedVertices_first_occurrences (m : TriangleMesh) :
    (RemoveDuplicatedVertices m).vertices_ =
      (firstOccurrences m.vertices_).map (fun j => m.vertices_.getD j default) ∧
    (RemoveDuplicatedVertices m).vertices_.Nodup ∧
    (∀ c, c ∈ (RemoveDuplicatedVertices m).vertices_ ↔ c ∈ m.vertices_) ∧
    (HasVertexNormals m = true →
      (RemoveDuplicatedVertices m).vertex_normals_ =
        (firstOccurrences m.vertices_).map (fun j => m.vertex_normals_.getD j default)) ∧
    (HasVertexColors m = true →
      (RemoveDuplicatedVertices m).vertex_colors_ =
        (firstOccurrences m.vertices_).map (fun j => m.vertex_colors_.getD j default)) := by
  obtain ⟨e1, e2, e3⟩ := dupVert_vertex_fields m
  rw [firstOccurrences_eq]
  refine ⟨e1, dupVert_clean m, ?_, ?_, ?_⟩
  · intro c
    rw [e1]
    have := firstOcc_mem id m.vertices_ default _ (dupVertFirst_eq m) _ (Nat.le_refl _) c
    simpa [dupVertKept] using this
  · intro hh
    rw [e2, if_pos hh]
  · intro hh
    rw [e3, if_pos hh]

theorem removeDuplicatedVertices_first_occurrences_witness :
    HasVertexColors sampleMesh = true ∧
      (RemoveDuplicatedVertices sampleMesh).vertex_colors_ =
        (firstOccurrences sampleMesh.vertices_).map
          (fun j => sampleMesh.vertex_colors_.getD j default) :=
  ⟨by decide, (removeDuplicatedVertices_first_occurrences sampleMesh).2.2.2.2 (by decide)⟩

theorem foldl_add_congr (f g : ℕ → ℚ) (n : ℕ) (h : ∀ i, i < n → f i = g i) (a : ℚ) :
    (List.range n).foldl (fun s i => s + f i) a = (List.range n).foldl (fun s i => s + g i) a := by
  induction n with
  | zero => rfl
  | succ n ih =>
    rw [List.range_succ, List.foldl_append, List.foldl_append,
      ih (fun i hi => h i (Nat.lt_succ_of_lt hi))]
    simp only [List.foldl_cons, List.foldl_nil]
    rw [h n (Nat.lt_succ_self n)]

theorem dupVert_triangles_length (m : TriangleMesh) (hwf : WellFormed m) :
    (RemoveDuplicatedVertices m).triangles_.length = m.triangles_.length := by
  rw [dupVert_triangles m hwf]
  split_ifs
  · simp [dupVertTriangles]
  · rfl

theorem dupVert_corner (m : TriangleMesh) (hwf : WellFormed m) (tidx : ℕ)
    (ht : tidx < m.triangles_.length) :
    (RemoveDuplicatedVertices m).vertices_.getD
        ((RemoveDuplicatedVertices m).triangles_.getD tidx default).1 default =
      m.vertices_.getD (m.triangles_.getD tidx default).1 default ∧
    (RemoveDuplicatedVertices m).vertices_.getD
        ((RemoveDuplicatedVertices m).triangles_.getD tidx default).2.1 default =
      m.vertices_.getD (m.triangles_.getD tidx default).2.1 default ∧
    (RemoveDuplicatedVertices m).vertices_.getD
        ((RemoveDuplicatedVertices m).triangles_.getD tidx default).2.2 default =
      m.vertices_.getD (m.triangles_.getD tidx default).2.2 default := by
  have hmem : m.triangles_.getD tidx default ∈ m.triangles_ := by
    rw [List.getD_eq_getElem?_getD, List.getElem?_eq_getElem ht]
    exact List.getElem_mem _
  have hw := hwf _ hmem
  rw [(dupVert_vertex_fields m).1, dupVert_triangles m hwf]
  by_cases hk : (dupVertKept m).length < m.vertices_.length
  · rw [if_pos hk]
    have e : (dupVertTriangles m).getD tidx default =
        (dupVertNew m (m.triangles_.getD tidx default).1,
         dupVertNew m (m.triangles_.getD tidx default).2.1,
         dupVertNew m (m.triangles_.getD tidx default).2.2) := by
      unfold dupVertTriangles
      rw [List.getD_eq_getElem?_getD, List.getElem?_map, List.getElem?_eq_getElem ht,
        List.getD_eq_getElem?_getD, List.getElem?_eq_getElem ht]
      rfl
    rw [e]
    exact ⟨(dupVertNew_spec m _ hw.1).2, (dupVertNew_spec m _ hw.2.1).2,
      (dupVertNew_spec m _ hw.2.2).2⟩
  · rw [if_neg hk]
    have hr := keptBelow_eq_range_of_length (dupVertFirst m) m.vertices_.length hk
    unfold dupVertKept
    rw [hr, map_getD_range]
    exact ⟨rfl, rfl, rfl⟩

/-- C8: `RemoveDuplicatedVertices` keeps the triangle count and the coordinates of
the three corners of every triangle of a well-formed mesh, so the area of every
triangle and the surface area are unchanged. -/
theorem removeDuplicatedVertices_preserves_area (root : ℚ → ℚ) (m : TriangleMesh)
    (hwf : WellFormed m) :
    (RemoveDuplicatedVertices m).triangles_.length = m.triangles_.length ∧
    (∀ tidx, tidx < m.triangles_.length →
      (RemoveDuplicatedVertices m).vertices_.getD
          ((RemoveDuplicatedVertices m).triangles_.getD tidx default).1 default =
        m.vertices_.getD (m.triangles_.getD tidx default).1 default ∧
      (RemoveDuplicatedVertices m).vertices_.getD
          ((RemoveDuplicatedVertices m).triangles_.getD tidx default).2.1 default =
        m.vertices_.getD (m.triangles_.getD tidx default).2.1 default ∧
      (RemoveDuplicatedVertices m).vertices_.getD
          ((RemoveDuplicatedVertices m).triangles_.getD tidx default).2.2 default =
        m.vertices_.getD (m.triangles_.getD tidx default).2.2 default) ∧
    (∀ tidx, tidx < m.triangles_.length →
      GetTriangleArea root (RemoveDuplicatedVertices m) tidx = GetTriangleArea root m tidx) ∧
    GetSurfaceArea root (RemoveDuplicatedVertices m) = GetSurfaceArea root m := by
  have harea : ∀ tidx, tidx < m.triangles_.length →
      GetTriangleArea root (RemoveDuplicatedVertices m) tidx = GetTriangleArea root m tidx := by
    intro tidx ht
    obtain ⟨h0, h1, h2⟩ := dupVert_corner m hwf tidx ht
    unfold GetTriangleArea
    simp only []
    rw [h0, h1, h2]
  refine ⟨dupVert_triangles_length m hwf, dupVert_corner m hwf, harea, ?_⟩
  unfold GetSurfaceArea
  rw [dupVert_triangles_length m hwf]
  exact foldl_add_congr _ _ _ harea 0

theorem removeDuplicatedVertices_preserves_area_witness :
    WellFormed sampleMesh ∧
      GetSurfaceArea id (RemoveDuplicatedVertices sampleMesh) = GetSurfaceArea id sampleMesh :=
  ⟨by decide, (removeDuplicatedVertices_preserves_area id sampleMesh (by decide)).2.2.2⟩

/-! ## Results of RemoveUnreferencedVertices -/

theorem unref_vertex_fields (m : TriangleMesh) :
    (RemoveUnreferencedVertices m).vertices_ =
      (unrefKept m).map (fun j => m.vertices_.getD j default) ∧
    (RemoveUnreferencedVertices m).vertex_normals_ =
      (if HasVertexNormals m then
        (unrefKept m).map (fun j => m.vertex_normals_.getD j default)
      else m.vertex_normals_) ∧
    (RemoveUnreferencedVertices m).vertex_colors_ =
      (if HasVertexColors m then
        (unrefKept m).map (fun j => m.vertex_colors_.getD j default)
      else m.vertex_colors_) := by
  obtain ⟨h1, h2, h3, h4, _, _⟩ := unrefLoop_inv m
  have hkl : (unrefKept m).length ≤ m.vertices_.length := keptBelow_length_le _ _
  have e1 := ArrInv_final _ _ _ _ _ h1 hkl
  have e2 := OptArrInv_final _ _ _ _ _ _ h2 (by
    intro hh
    simp only [HasVertexNormals, beq_iff_eq] at hh
    rw [hh]; exact hkl)
  have e3 := OptArrInv_final _ _ _ _ _ _ h3 (by
    intro hh
    simp only [HasVertexColors, beq_iff_eq] at hh
    rw [hh]; exact hkl)
  unfold unrefKept
  rw [← e1, ← e2, ← e3, ← h4]
  unfold RemoveUnreferencedVertices
  simp only []
  split_ifs <;> exact ⟨rfl, rfl, rfl⟩

theorem unref_triangles (m : TriangleMesh) (hwf : WellFormed m) :
    (RemoveUnreferencedVertices m).triangles_ =
      if (unrefKept m).length < m.vertices_.length then unrefTriangles m
      else m.triangles_ := by
  rw [RemoveUnreferencedVertices_eq m hwf]
  simp only []
  split_ifs <;> rfl

theorem unrefNew_spec (m : TriangleMesh) (j : ℕ) (hj : j < m.vertices_.length)
    (hp : (markReferenced m).getD j false = true) :
    unrefNew m j < (unrefKept m).length ∧ (unrefKept m).getD (unrefNew m j) 0 = j :=
  keptBelow_pos (fun j => (markReferenced m).getD j false) m.vertices_.length j hj hp

theorem unref_wf (m : TriangleMesh) (hwf : WellFormed m) :
    WellFormed (RemoveUnreferencedVertices m) := by
  intro t ht
  rw [(unref_vertex_fields m).1, List.length_map]
  rw [unref_triangles m hwf] at ht
  by_cases hk : (unrefKept m).length < m.vertices_.length
  · rw [if_pos hk] at ht
    unfold unrefTriangles at ht
    rw [List.mem_map] at ht
    obtain ⟨t0, ht0, rfl⟩ := ht
    have hw := hwf t0 ht0
    have r0 := (markReferenced_getD m hwf t0.1).mpr ⟨t0, ht0, Or.inl rfl⟩
    have r1 := (markReferenced_getD m hwf t0.2.1).mpr ⟨t0, ht0, Or.inr (Or.inl rfl)⟩
    have r2 := (markReferenced_getD m hwf t0.2.2).mpr ⟨t0, ht0, Or.inr (Or.inr rfl)⟩
    exact ⟨(unrefNew_spec m _ hw.1 r0).1, (unrefNew_spec m _ hw.2.1 r1).1,
      (unrefNew_spec m _ hw.2.2 r2).1⟩
  · rw [if_neg hk] at ht
    have hle : (unrefKept m).length ≤ m.vertices_.length := keptBelow_length_le _ _
    have : (unrefKept m).length = m.vertices_.length := by omega
    rw [this]
    exact hwf t ht

theorem unref_fixed (m : TriangleMesh) (hwf : WellFormed m)
    (h : ∀ j, j < m.vertices_.length → (markReferenced m).getD j false = true) :
    RemoveUnreferencedVertices m = m := by
  have hk : unrefKept m = List.range m.vertices_.length := by
    unfold unrefKept
    exact keptBelow_all _ _ h
  rw [RemoveUnreferencedVertices_eq m hwf]
  simp only []
  rw [hk, map_getD_range,
    opt_map_range _ _ _ _ (by intro hh; simpa [HasVertexNormals] using hh),
    opt_map_range _ _ _ _ (by intro hh; simpa [HasVertexColors] using hh)]
  simp

theorem unref_clean (m : TriangleMesh) (hwf : WellFormed m) (j' : ℕ)
    (hj' : j' < (RemoveUnreferencedVertices m).vertices_.length) :
    (markReferenced (RemoveUnreferencedVertices m)).getD j' false = true := by
  by_cases hk : (unrefKept m).length < m.vertices_.length
  · rw [markReferenced_getD _ (unref_wf m hwf), unref_triangles m hwf, if_pos hk]
    rw [(unref_vertex_fields m).1, List.length_map] at hj'
    obtain ⟨h1, h2, h3⟩ :=
      keptBelow_getD (fun j => (markReferenced m).getD j false) m.vertices_.length j' hj'
    obtain ⟨t, ht, hc⟩ := (markReferenced_getD m hwf _).mp h2
    refine ⟨(unrefNew m t.1, unrefNew m t.2.1, unrefNew m t.2.2), ?_, ?_⟩
    · unfold unrefTriangles
      exact List.mem_map.mpr ⟨t, ht, rfl⟩
    · unfold IsCorner at hc ⊢
      simp only []
      rcases hc with hc | hc | hc
      · left; rw [← hc]; exact h3.symm
      · right; left; rw [← hc]; exact h3.symm
      · right; right; rw [← hc]; exact h3.symm
  · have hall := keptBelow_all_of_length _ _ hk
    rw [unref_fixed m hwf hall] at hj' ⊢
    exact hall j' hj'

theorem unref_idem (m : TriangleMesh) (hwf : WellFormed m) :
    RemoveUnreferencedVertices (RemoveUnreferencedVertices m) =
      RemoveUnreferencedVertices m :=
  unref_fixed _ (unref_wf m hwf) (unref_clean m hwf)

/-! ## The edge map -/

theorem mapSet_keys {κ ν : Type} [DecidableEq κ] (l : List (κ × ν)) (k : κ) (v : ν) :
    (mapSet l k v).map Prod.fst =
      if k ∈ l.map Prod.fst then l.map Prod.fst else l.map Prod.fst ++ [k] := by
  induction l with
  | nil => simp [mapSet]
  | cons kv rest ih =>
    obtain ⟨a, w⟩ := kv
    unfold mapSet
    by_cases h : a = k
    · subst h
      simp
    · have h' : ¬ k = a := fun e => h e.symm
      rw [if_neg h]
      simp only [List.map_cons, List.mem_cons, h', false_or, ih]
      split_ifs <;> simp

theorem mapSet_keys_nodup {κ ν : Type} [DecidableEq κ] (l : List (κ × ν)) (k : κ) (v : ν)
    (h : (l.map Prod.fst).Nodup) : ((mapSet l k v).map Prod.fst).Nodup := by
  rw [mapSet_keys]
  split_ifs with hk
  · exact h
  · rw [List.nodup_append]
    refine ⟨h, List.nodup_singleton _, ?_⟩
    intro x hx hx2
    rw [List.mem_singleton] at hx2
    exact hk (hx2 ▸ hx)

theorem mapFind_of_mem {κ ν : Type} [DecidableEq κ] (l : List (κ × ν))
    (h : (l.map Prod.fst).Nodup) (kv : κ × ν) (hm : kv ∈ l) : mapFind l kv.1 = some kv.2 := by
  induction l with
  | nil => simp at hm
  | cons x rest ih =>
    obtain ⟨a, w⟩ := x
    rw [List.map_cons, List.nodup_cons] at h
    unfold mapFind
    rw [List.mem_cons] at hm
    rcases hm with hm | hm
    · subst hm
      simp
    · have hne : ¬ a = kv.1 := by
        intro e
        apply h.1
        rw [e]
        exact List.mem_map.mpr ⟨kv, hm, rfl⟩
      rw [if_neg hne]
      exact ih h.2 hm

theorem mem_of_mapFind {κ ν : Type} [DecidableEq κ] (l : List (κ × ν)) (k : κ) (v : ν)
    (h : mapFind l k = some v) : (k, v) ∈ l := by
  induction l with
  | nil => simp [mapFind] at h
  | cons x rest ih =>
    obtain ⟨a, w⟩ := x
    unfold mapFind at h
    by_cases e : a = k
    · rw [if_pos e] at h
      have := Option.some.inj h
      subst e; subst this
      exact List.mem_cons_self _ _
    · rw [if_neg e] at h
      exact List.mem_cons_of_mem _ (ih h)

theorem incident_succ (ts : List Vector3i) (e : Vector2i) (i : ℕ) :
    incident ts e (i + 1) =
      incident ts e i ++ List.replicate (sideHits (ts.getD i default) e) i := rfl

theorem addEdge_inv (mp : List (Vector2i × List ℕ)) (a b tidx : ℕ)
    (h1 : (mp.map Prod.fst).Nodup) (h3 : ∀ e l, mapFind mp e = some l → l ≠ []) :
    ((AddEdge mp a b tidx).map Prod.fst).Nodup ∧
    (∀ e, (mapFind (AddEdge mp a b tidx) e).getD [] =
      (mapFind mp e).getD [] ++ List.replicate (if (min a b, max a b) = e then 1 else 0) tidx) ∧
    ∀ e l, mapFind (AddEdge mp a b tidx) e = some l → l ≠ [] := by
  unfold AddEdge
  simp only []
  refine ⟨mapSet_keys_nodup _ _ _ h1, ?_, ?_⟩
  · intro e
    rw [mapFind_mapSet]
    by_cases he : (min a b, max a b) = e
    · rw [if_pos he, if_pos he, he]
      rfl
    · rw [if_neg he, if_neg he]
      simp
  · intro e l
    rw [mapFind_mapSet]
    by_cases he : (min a b, max a b) = e
    · rw [if_pos he]
      intro hl
      rw [← Option.some.inj hl]
      simp
    · rw [if_neg he]
      exact h3 e l

theorem edgeMap_inv (m : TriangleMesh) :
    EdgeMapInv m.triangles_ m.triangles_.length (GetEdgeToTrianglesMap m) := by
  unfold GetEdgeToTrianglesMap
  apply foldl_range_inv _ _ (EdgeMapInv m.triangles_)
  · refine ⟨by simp, ?_, ?_⟩
    · intro e; simp [mapFind, incident]
    · intro e l h; simp [mapFind] at h
  · intro i _ mp hs
    obtain ⟨h1, h2, h3⟩ := hs
    simp only []
    obtain ⟨a1, a2, a3⟩ := addEdge_inv mp (m.triangles_.getD i default).1
      (m.triangles_.getD i default).2.1 i h1 h3
    obtain ⟨b1, b2, b3⟩ := addEdge_inv _ (m.triangles_.getD i default).2.1
      (m.triangles_.getD i default).2.2 i a1 a3
    obtain ⟨c1, c2, c3⟩ := addEdge_inv _ (m.triangles_.getD i default).2.2
      (m.triangles_.getD i default).1 i b1 b3
    refine ⟨c1, ?_, c3⟩
    intro e
    rw [c2, b2, a2, h2, incident_succ]
    unfold sideHits
    simp only [List.append_assoc, List.replicate_add]

theorem edgeMap_mem (m : TriangleMesh) (kv : Vector2i × List ℕ) :
    kv ∈ GetEdgeToTrianglesMap m ↔
      kv.2 = incident m.triangles_ kv.1 m.triangles_.length ∧ kv.2 ≠ [] := by
  obtain ⟨h1, h2, h3⟩ := edgeMap_inv m
  constructor
  · intro hm
    have hf := mapFind_of_mem _ h1 kv hm
    have := h2 kv.1
    rw [hf] at this
    exact ⟨this, h3 _ _ hf⟩
  · rintro ⟨he, hne⟩
    have := h2 kv.1
    cases hf : mapFind (GetEdgeToTrianglesMap m) kv.1 with
    | none =>
      rw [hf] at this
      exact absurd (he.trans this.symm) hne
    | some l =>
      rw [hf] at this
      have hl : l = kv.2 := by rw [he]; exact this
      have := mem_of_mapFind _ _ _ hf
      rw [hl] at this
      exact this

theorem incident_length (ts : List Vector3i) (e : Vector2i) (i : ℕ) (hi : i ≤ ts.length) :
    (incident ts e i).length = edgeCount (ts.take i) e := by
  induction i with
  | zero => simp [incident, edgeCount]
  | succ i ih =>
    have hlt : i < ts.length := hi
    rw [incident_succ, List.length_append, ih (Nat.le_of_succ_le hi),
      take_succ_of_lt ts default i hlt]
    unfold edgeCount
    simp

theorem incident_lt (ts : List Vector3i) (e : Vector2i) (i x : ℕ)
    (hx : x ∈ incident ts e i) : x < i := by
  induction i with
  | zero => simp [incident] at hx
  | succ i ih =>
    rw [incident_succ, List.mem_append] at hx
    rcases hx with hx | hx
    · have := ih hx; omega
    · rw [List.mem_replicate] at hx
      omega

theorem incident_count (ts : List Vector3i) (e : Vector2i) (i x : ℕ) :
    (incident ts e i).count x = if x < i then sideHits (ts.getD x default) e else 0 := by
  induction i with
  | zero => simp [incident]
  | succ i ih =>
    rw [incident_succ, List.count_append, ih, List.count_replicate]
    by_cases h1 : x < i
    · have : ¬ i = x := by omega
      have h2 : x < i + 1 := by omega
      simp [h1, h2, this]
    · by_cases h3 : i = x
      · subst h3
        simp
      · have h2 : ¬ x < i + 1 := by omega
        simp [h1, h2, h3]

theorem sideHits_le_one (t : Vector3i) (e : Vector2i) (h : NonDegenerate t) :
    sideHits t e ≤ 1 := by
  obtain ⟨a, b, c⟩ := t
  obtain ⟨x, y⟩ := e
  unfold NonDegenerate at h
  simp only [ne_eq] at h
  unfold sideHits
  simp only [Prod.mk.injEq]
  split_ifs <;> omega

theorem edgeCount_filter_le (ts : List Vector3i) (q : Vector3i → Bool) (e : Vector2i) :
    edgeCount (ts.filter q) e ≤ edgeCount ts e := by
  unfold edgeCount
  apply List.Sublist.sum_le_sum
  · exact List.Sublist.map _ (List.filter_sublist _)
  · intro a _
    exact Nat.zero_le a

/-! ## RemoveNonManifoldEdges: marking the smallest triangles -/

theorem findSmallest_eq (A : List ℚ) (l : List ℕ) :
    findSmallest A l = l.foldl (smallestStep A) (none, none) := rfl

theorem smallest_fold (A : List ℚ) (L l : List ℕ) (r : Option ℕ × Option ℚ)
    (hsub : ∀ x ∈ l, x ∈ L)
    (hr1 : r.1 = none → r.2 = none)
    (hr2 : ∀ t, r.1 = some t → t ∈ L ∧ 0 < A.getD t 0)
    (hex : r.1 ≠ none ∨ ∃ x ∈ l, 0 < A.getD x 0) :
    ∃ t, (l.foldl (smallestStep A) r).1 = some t ∧ t ∈ L ∧ 0 < A.getD t 0 := by
  induction l generalizing r with
  | nil =>
    rcases hex with hex | ⟨x, hx, _⟩
    · cases h : r.1 with
      | none => exact absurd h hex
      | some t => exact ⟨t, by simpa using h, hr2 t h⟩
    · simp at hx
  | cons x rest ih =>
    rw [List.foldl_cons]
    apply ih
    · intro y hy
      exact hsub y (List.mem_cons_of_mem _ hy)
    · unfold smallestStep
      split_ifs with hc
      · intro h; simp at h
      · exact hr1
    · intro t
      unfold smallestStep
      split_ifs with hc
      · intro h
        simp only [Option.some.injEq] at h
        subst h
        exact ⟨hsub _ (List.mem_cons_self _ _), hc.1⟩
      · exact hr2 t
    · by_cases hn : r.1 = none
      · rcases hex with hex | ⟨y, hy, hpos⟩
        · exact absurd hn hex
        · rw [List.mem_cons] at hy
          rcases hy with hy | hy
          · subst hy
            left
            unfold smallestStep
            have : belowMin (A.getD y 0) r.2 = true := by
              rw [hr1 hn]; rfl
            rw [if_pos ⟨hpos, this⟩]
            simp
          · right
            exact ⟨y, hy, hpos⟩
      · left
        unfold smallestStep
        split_ifs with hc
        · simp
        · exact hn

theorem findSmallest_some (A : List ℚ) (l : List ℕ) (hex : ∃ x ∈ l, 0 < A.getD x 0) :
    ∃ t, (findSmallest A l).1 = some t ∧ t ∈ l ∧ 0 < A.getD t 0 := by
  rw [findSmallest_eq]
  apply smallest_fold A l l (none, none) (fun x hx => hx) (fun _ => rfl)
  · intro t h; simp at h
  · right; exact hex

theorem posCount_pos (A : List ℚ) (l : List ℕ) (h : 0 < posCount A l) :
    ∃ x ∈ l, 0 < A.getD x 0 := by
  unfold posCount at h
  obtain ⟨x, hx⟩ := List.exists_mem_of_length_pos h
  rw [List.mem_filter] at hx
  exact ⟨x, hx.1, of_decide_eq_true hx.2⟩

theorem posCount_cons (A : List ℚ) (x : ℕ) (rest : List ℕ) :
    posCount A (x :: rest) = (if 0 < A.getD x 0 then 1 else 0) + posCount A rest := by
  unfold posCount
  rw [List.filter_cons]
  by_cases hp : 0 < A.getD x 0
  · have : decide (A.getD x 0 > 0) = true := decide_eq_true hp
    rw [this, if_pos hp]
    simp only [if_true, List.length_cons]
    omega
  · have : decide (A.getD x 0 > 0) = false := decide_eq_false hp
    rw [this, if_neg hp]
    simp only [Bool.false_eq_true, if_false]
    omega

theorem posCount_set (A : List ℚ) (l : List ℕ) (t : ℕ) (ht : t < A.length)
    (hpos : 0 < A.getD t 0) :
    posCount (A.set t (-1)) l + l.count t = posCount A l := by
  induction l with
  | nil => simp [posCount]
  | cons x rest ih =>
    rw [posCount_cons, posCount_cons, List.count_cons]
    by_cases hx : x = t
    · subst hx
      have e : (A.set x (-1)).getD x 0 = -1 := by rw [getD_set, if_pos ⟨rfl, ht⟩]
      have h1 : ¬ (0 < (-1 : ℚ)) := by norm_num
      have hb : (x == x) = true := by simp
      rw [e, if_neg h1, if_pos hpos, hb, if_pos rfl]
      omega
    · have hx' : ¬ t = x := fun e => hx e.symm
      have e : (A.set t (-1)).getD x 0 = A.getD x 0 := by
        rw [getD_set, if_neg (fun h => hx' h.1)]
      have hb : (x == t) = false := by simpa using hx
      rw [e, hb]
      simp only [Bool.false_eq_true, if_false]
      omega

theorem markSmallest_spec (ts : List Vector3i) (k : ℕ) (l : List ℕ) (A : List ℚ)
    (hlen : A.length = ts.length) (hl : ∀ x ∈ l, x < ts.length)
    (hcnt : ∀ x, 0 < A.getD x 0 → l.count x ≤ 1)
    (hk : k + 2 ≤ posCount A l) :
    ∃ A', markSmallest k l A = some A' ∧ A'.length = A.length ∧
      (∀ i, A'.getD i 0 = A.getD i 0 ∨ A'.getD i 0 = -1) ∧
      (1 ≤ k → ∃ i, i < A.length ∧ A'.getD i 0 ≤ 0) := by
  induction k generalizing A with
  | zero =>
    refine ⟨A, rfl, rfl, fun i => Or.inl rfl, ?_⟩
    intro h; omega
  | succ k ih =>
    obtain ⟨t, ht1, ht2, ht3⟩ := findSmallest_some A l (posCount_pos A l (by omega))
    have htl : t < A.length := by rw [hlen]; exact hl t ht2
    have hc1 : l.count t = 1 := by
      have h1 := hcnt t ht3
      have h2 : 0 < l.count t := List.count_pos_iff.mpr ht2
      omega
    have hps := posCount_set A l t htl ht3
    have hmono : ∀ i, (A.set t (-1)).getD i 0 = A.getD i 0 ∨ (A.set t (-1)).getD i 0 = -1 := by
      intro i
      rw [getD_set]
      by_cases e : t = i
      · right; rw [if_pos ⟨e, htl⟩]
      · left; rw [if_neg (fun h => e h.1)]
    obtain ⟨A', h1, h2, h3, _⟩ := ih (A.set t (-1)) (by simpa using hlen)
      (by
        intro x hx
        apply hcnt
        rcases hmono x with e | e
        · rw [← e]; exact hx
        · rw [e] at hx; norm_num at hx)
      (by omega)
    refine ⟨A', ?_, by simpa using h2, ?_, ?_⟩
    · unfold markSmallest
      rw [ht1]
      exact h1
    · intro i
      rcases h3 i with e | e
      · rcases hmono i with e2 | e2
        · left; rw [e, e2]
        · right; rw [e, e2]
      · right; exact e
    · intro _
      refine ⟨t, htl, ?_⟩
      have e0 : (A.set t (-1)).getD t 0 = -1 := by
        rw [getD_set, if_pos ⟨rfl, htl⟩]
      rcases h3 t with e | e
      · rw [e, e0]; norm_num
      · rw [e]; norm_num

theorem posCount_lt_length (A : List ℚ) (l : List ℕ) (h : posCount A l < l.length) :
    ∃ x ∈ l, A.getD x 0 ≤ 0 := by
  unfold posCount at h
  obtain ⟨x, hx, hp⟩ := List.length_filter_lt_length_iff_exists.mp h
  refine ⟨x, hx, ?_⟩
  have : ¬ (A.getD x 0 > 0) := by simpa using hp
  exact not_lt.mp this

theorem edgeStep_spec (ts : List Vector3i) (A0 : List ℚ) (st : Bool × List ℚ)
    (kv : Vector2i × List ℕ) (hlen : A0.length = ts.length)
    (hnd : ∀ i, 0 < A0.getD i 0 → NonDegenerate (ts.getD i default))
    (hst : PassInv A0 st) (hkv : GoodEntry ts kv) :
    ∃ st', edgeStep st kv = some st' ∧ PassInv A0 st' ∧
      (st'.1 = true → st.1 = true ∧ (kv.2.length = 1 ∨ kv.2.length = 2)) := by
  obtain ⟨p1, p2, p3, p4⟩ := hst
  obtain ⟨g1, g2, g3⟩ := hkv
  unfold edgeStep
  simp only []
  by_cases hman : kv.2.length = 1 ∨ kv.2.length = 2
  · rw [if_pos hman]
    exact ⟨st, rfl, ⟨p1, p2, p3, p4⟩, fun h => ⟨h, hman⟩⟩
  · rw [if_neg hman]
    have hlen3 : 3 ≤ kv.2.length := by
      have : kv.2.length ≠ 0 := fun h => g1 (List.length_eq_zero.mp h)
      omega
    have hpos0 : ∀ x, 0 < st.2.getD x 0 → 0 < A0.getD x 0 := by
      intro x hx
      rcases p2 x with e | e
      · rw [← e]; exact hx
      · rw [e] at hx; norm_num at hx
    change ∃ st', (match markSmallest (posCount st.2 kv.2 - 2) kv.2 st.2 with
      | none => none
      | some triangle_areas => some (false, triangle_areas)) = some st' ∧ _
    by_cases hk : posCount st.2 kv.2 ≤ 2
    · have hk0 : posCount st.2 kv.2 - 2 = 0 := by omega
      rw [hk0]
      refine ⟨(false, st.2), rfl, ⟨p1, p2, fun h => by simp at h, fun _ => ?_⟩,
        fun h => by simp at h⟩
      obtain ⟨x, hx, hx0⟩ := posCount_lt_length st.2 kv.2 (by omega)
      exact ⟨x, by rw [hlen]; exact g2 x hx, hx0⟩
    · obtain ⟨A', h1, h2, h3, h4⟩ := markSmallest_spec ts (posCount st.2 kv.2 - 2) kv.2 st.2
        (by rw [p1, hlen]) g2 (fun x hx => g3 x (hnd x (hpos0 x hx))) (by omega)
      rw [h1]
      refine ⟨(false, A'), rfl, ⟨by rw [h2, p1], ?_, fun h => by simp at h, fun _ => ?_⟩,
        fun h => by simp at h⟩
      · intro i
        rcases h3 i with e | e
        · rcases p2 i with e2 | e2
          · left; rw [e, e2]
          · right; rw [e, e2]
        · right; exact e
      · obtain ⟨i, hi, hi0⟩ := h4 (by omega)
        exact ⟨i, by rw [← p1]; exact hi, hi0⟩

theorem edgeLoop_spec (ts : List Vector3i) (A0 : List ℚ) (kvs : List (Vector2i × List ℕ))
    (st : Bool × List ℚ) (hlen : A0.length = ts.length)
    (hnd : ∀ i, 0 < A0.getD i 0 → NonDegenerate (ts.getD i default))
    (hst : PassInv A0 st) (hkvs : ∀ kv ∈ kvs, GoodEntry ts kv) :
    ∃ st', edgeLoop kvs st = some st' ∧ PassInv A0 st' ∧
      (st'.1 = true → st.1 = true ∧ ∀ kv ∈ kvs, kv.2.length = 1 ∨ kv.2.length = 2) := by
  induction kvs generalizing st with
  | nil => exact ⟨st, rfl, hst, fun h => ⟨h, fun kv hkv => by simp at hkv⟩⟩
  | cons kv rest ih =>
    obtain ⟨st1, e1, i1, c1⟩ := edgeStep_spec ts A0 st kv hlen hnd hst
      (hkvs kv (List.mem_cons_self _ _))
    obtain ⟨st2, e2, i2, c2⟩ := ih st1 i1 (fun kv' h => hkvs kv' (List.mem_cons_of_mem _ h))
    refine ⟨st2, ?_, i2, ?_⟩
    · unfold edgeLoop
      rw [e1]
      exact e2
    · intro h
      obtain ⟨h1, h2⟩ := c2 h
      obtain ⟨h3, h4⟩ := c1 h1
      refine ⟨h3, ?_⟩
      intro kv' hkv'
      rw [List.mem_cons] at hkv'
      rcases hkv' with e | e
      · rw [e]; exact h4
      · exact h2 kv' e

/-! ## RemoveNonManifoldEdges: deleting the marked triangles -/

theorem compact_inv (m : TriangleMesh) (A : List ℚ) (hA : A.length = m.triangles_.length) :
    CompactInv m A m.triangles_.length
      ((List.range m.triangles_.length).foldl (compactStep (HasTriangleNormals m))
        { triangles_ := m.triangles_
          triangle_areas := A
          triangle_normals_ := m.triangle_normals_
          to_tidx := 0 }) := by
  apply foldl_range_inv (compactStep (HasTriangleNormals m)) _ (CompactInv m A)
  · exact ⟨ArrInv_init _ _, ArrInv_init _ _, OptArrInv_init _ _ _, rfl⟩
  · intro i hi s hs
    obtain ⟨h1, h2, h3, h4⟩ := hs
    unfold CompactInv nmKept at *
    rw [keptBelow_succ]
    have hread : s.triangle_areas.getD i 0 = A.getD i 0 := h2.2.1 i (Nat.le_refl i)
    have hkl := keptBelow_length_le (fun j => decide (A.getD j 0 > 0)) i
    unfold compactStep
    by_cases hp : A.getD i 0 > 0
    · have hp' : s.triangle_areas.getD i 0 > 0 := by rw [hread]; exact hp
      rw [if_pos hp']
      simp only [hp, decide_True, if_true]
      rw [h4]
      exact ⟨ArrInv_keep _ _ _ _ _ h1 hkl hi,
        ArrInv_keep _ _ _ _ _ h2 hkl (by rw [hA]; exact hi),
        OptArrInv_keep _ _ _ _ _ _ h3 hkl (by
          intro hh
          simp only [HasTriangleNormals, beq_iff_eq] at hh
          omega), by simp⟩
    · have hp' : ¬ s.triangle_areas.getD i 0 > 0 := by rw [hread]; exact hp
      rw [if_neg hp']
      simp only [hp, decide_False, Bool.false_eq_true, if_false, List.append_nil]
      exact ⟨ArrInv_skip _ _ _ _ _ h1, ArrInv_skip _ _ _ _ _ h2,
        OptArrInv_skip _ _ _ _ _ _ h3, h4⟩

theorem deleteMarked_eq (m : TriangleMesh) (A : List ℚ) (hA : A.length = m.triangles_.length) :
    deleteMarked m A =
      (nmMesh m A, (nmKept A m.triangles_.length).map fun j => A.getD j 0) := by
  obtain ⟨h1, h2, h3, h4⟩ := compact_inv m A hA
  have hkl : (nmKept A m.triangles_.length).length ≤ m.triangles_.length :=
    keptBelow_length_le _ _
  have e1 := ArrInv_final _ _ _ _ _ h1 hkl
  have e2 := ArrInv_final _ _ _ _ _ h2 (by rw [hA]; exact hkl)
  have e3 := OptArrInv_final _ _ _ _ _ _ h3 (by
    intro hh
    simp only [HasTriangleNormals, beq_iff_eq] at hh
    rw [hh]; exact hkl)
  unfold deleteMarked nmMesh
  simp only []
  rw [h4, e1, e2, e3]

theorem map_kept_sublist {α : Type} (l : List α) (d : α) (p : ℕ → Bool) (i : ℕ)
    (hi : i ≤ l.length) :
    List.Sublist ((keptBelow p i).map fun j => l.getD j d) (l.take i) := by
  induction i with
  | zero => simp [keptBelow_zero]
  | succ i ih =>
    have hlt : i < l.length := hi
    rw [keptBelow_succ, take_succ_of_lt l d i hlt, List.map_append]
    apply List.Sublist.append (ih (Nat.le_of_succ_le hi))
    split_ifs
    · simp
    · simp

theorem edgeCount_sublist_le (ts ts' : List Vector3i) (e : Vector2i)
    (h : List.Sublist ts' ts) : edgeCount ts' e ≤ edgeCount ts e := by
  unfold edgeCount
  apply List.Sublist.sum_le_sum
  · exact List.Sublist.map _ h
  · intro a _
    exact Nat.zero_le a

theorem area_degenerate (root : ℚ → ℚ) (hroot : root 0 = 0) (m : TriangleMesh) (i : ℕ)
    (h : ¬ NonDegenerate (m.triangles_.getD i default)) : GetTriangleArea root m i = 0 := by
  unfold NonDegenerate at h
  have h' : (m.triangles_.getD i default).1 = (m.triangles_.getD i default).2.1 ∨
      (m.triangles_.getD i default).2.1 = (m.triangles_.getD i default).2.2 ∨
      (m.triangles_.getD i default).2.2 = (m.triangles_.getD i default).1 := by
    by_contra hc
    simp only [not_or] at hc
    exact h ⟨hc.1, hc.2.1, hc.2.2⟩
  unfold GetTriangleArea ComputeTriangleArea
  simp only []
  have key : squaredNorm (cross
      (vsub (m.vertices_.getD (m.triangles_.getD i default).1 default)
        (m.vertices_.getD (m.triangles_.getD i default).2.1 default))
      (vsub (m.vertices_.getD (m.triangles_.getD i default).1 default)
        (m.vertices_.getD (m.triangles_.getD i default).2.2 default))) = 0 := by
    rcases h' with e | e | e
    · rw [e]
      unfold squaredNorm cross vsub
      simp only []
      ring
    · rw [e]
      unfold squaredNorm cross vsub
      simp only []
      ring
    · rw [e]
      unfold squaredNorm cross vsub
      simp only []
      ring
  rw [key, hroot]
  norm_num

theorem areaInv_nondegenerate (root : ℚ → ℚ) (hroot : root 0 = 0) (m : TriangleMesh)
    (A : List ℚ) (hA : AreaInv root m A) (i : ℕ) (hi : 0 < A.getD i 0) :
    NonDegenerate (m.triangles_.getD i default) := by
  by_cases hlt : i < m.triangles_.length
  · by_contra hc
    have := area_degenerate root hroot m i hc
    rw [hA.2 i hlt hi, this] at hi
    exact lt_irrefl _ hi
  · rw [List.getD_eq_default _ _ (by rw [hA.1]; omega)] at hi
    exact absurd hi (lt_irrefl _)

theorem areaInv_init (root : ℚ → ℚ) (m : TriangleMesh) :
    AreaInv root m (GetTriangleAreas root m) := by
  unfold AreaInv GetTriangleAreas
  refine ⟨by simp, ?_⟩
  intro i hi _
  simp [List.getD_eq_getElem?_getD, List.getElem?_map, List.getElem?_range hi]

theorem edgeMap_good (m : TriangleMesh) (kv : Vector2i × List ℕ)
    (h : kv ∈ GetEdgeToTrianglesMap m) : GoodEntry m.triangles_ kv := by
  obtain ⟨he, hne⟩ := (edgeMap_mem m kv).mp h
  refine ⟨hne, ?_, ?_⟩
  · intro x hx
    rw [he] at hx
    exact incident_lt _ _ _ _ hx
  · intro x hx
    rw [he, incident_count]
    split_ifs
    · exact sideHits_le_one _ _ hx
    · omega

theorem nmKept_getD (A : List ℚ) (n i : ℕ) (hi : i < (nmKept A n).length) :
    (nmKept A n).getD i 0 < n ∧ 0 < A.getD ((nmKept A n).getD i 0) 0 := by
  unfold nmKept at *
  obtain ⟨k1, k2, _⟩ := keptBelow_getD _ _ i hi
  exact ⟨k1, of_decide_eq_true k2⟩

theorem nmMesh_areaInv (root : ℚ → ℚ) (m : TriangleMesh) (A0 A : List ℚ)
    (hA0 : AreaInv root m A0)
    (hmono : ∀ i, A.getD i 0 = A0.getD i 0 ∨ A.getD i 0 = -1) :
    AreaInv root (nmMesh m A) ((nmKept A m.triangles_.length).map fun j => A.getD j 0) ∧
    ∀ i, i < (nmMesh m A).triangles_.length → 0 < GetTriangleArea root (nmMesh m A) i := by
  have hcore : ∀ i, i < (nmKept A m.triangles_.length).length →
      0 < ((nmKept A m.triangles_.length).map fun j => A.getD j 0).getD i 0 ∧
      ((nmKept A m.triangles_.length).map fun j => A.getD j 0).getD i 0 =
        GetTriangleArea root (nmMesh m A) i := by
    intro i hi
    obtain ⟨k1, hpos⟩ := nmKept_getD A _ i hi
    rw [getD_map_kept A 0 _ i hi]
    refine ⟨hpos, ?_⟩
    have e0 : A.getD ((nmKept A m.triangles_.length).getD i 0) 0 =
        A0.getD ((nmKept A m.triangles_.length).getD i 0) 0 := by
      rcases hmono ((nmKept A m.triangles_.length).getD i 0) with e | e
      · exact e
      · rw [e] at hpos; norm_num at hpos
    rw [e0, hA0.2 _ k1 (by rw [← e0]; exact hpos)]
    unfold GetTriangleArea nmMesh
    simp only []
    rw [getD_map_kept m.triangles_ default _ i hi]
  constructor
  · refine ⟨by simp [nmMesh], ?_⟩
    intro i hi _
    have hi' : i < (nmKept A m.triangles_.length).length := by simpa [nmMesh] using hi
    exact (hcore i hi').2
  · intro i hi
    have hi' : i < (nmKept A m.triangles_.length).length := by simpa [nmMesh] using hi
    rw [← (hcore i hi').2]
    exact (hcore i hi').1
/-! ## RemoveNonManifoldEdges: the passes -/

theorem edgeLoop_manifold (kvs : List (Vector2i × List ℕ)) (st : Bool × List ℚ)
    (h : ∀ kv ∈ kvs, kv.2.length = 1 ∨ kv.2.length = 2) : edgeLoop kvs st = some st := by
  induction kvs with
  | nil => rfl
  | cons kv rest ih =>
    unfold edgeLoop edgeStep
    simp only []
    rw [if_pos (h kv (List.mem_cons_self _ _))]
    exact ih (fun kv' h' => h kv' (List.mem_cons_of_mem _ h'))

theorem nmMesh_manifold (m : TriangleMesh) (A : List ℚ)
    (h : ∀ kv ∈ GetEdgeToTrianglesMap m, kv.2.length = 1 ∨ kv.2.length = 2) :
    ∀ kv ∈ GetEdgeToTrianglesMap (nmMesh m A), kv.2.length = 1 ∨ kv.2.length = 2 := by
  intro kv hkv
  obtain ⟨he, hne⟩ := (edgeMap_mem _ kv).mp hkv
  have hpos : 0 < kv.2.length := List.length_pos.mpr hne
  have hl1 : kv.2.length = edgeCount (nmMesh m A).triangles_ kv.1 := by
    rw [he, incident_length _ _ _ (Nat.le_refl _), List.take_length]
  have hsub : List.Sublist (nmMesh m A).triangles_ m.triangles_ := by
    have := map_kept_sublist m.triangles_ default (fun j => decide (A.getD j 0 > 0))
      m.triangles_.length (Nat.le_refl _)
    rw [List.take_length] at this
    exact this
  have hle := edgeCount_sublist_le _ _ kv.1 hsub
  have hl2 : (incident m.triangles_ kv.1 m.triangles_.length).length =
      edgeCount m.triangles_ kv.1 := by
    rw [incident_length _ _ _ (Nat.le_refl _), List.take_length]
  have hne2 : incident m.triangles_ kv.1 m.triangles_.length ≠ [] := by
    intro hc
    rw [hc] at hl2
    simp only [List.length_nil] at hl2
    omega
  have hmem : (kv.1, incident m.triangles_ kv.1 m.triangles_.length) ∈
      GetEdgeToTrianglesMap m := (edgeMap_mem m _).mpr ⟨rfl, hne2⟩
  have := h _ hmem
  simp only [] at this
  omega

theorem nonManifoldLoop_spec (root : ℚ → ℚ) (hroot : root 0 = 0)
    (order : List (Vector2i × List ℕ) → List (Vector2i × List ℕ))
    (horder : ∀ l, (order l).Perm l) (fuel : ℕ) (m : TriangleMesh) (A : List ℚ)
    (hA : AreaInv root m A) (hfuel : m.triangles_.length < fuel) :
    ∃ r, nonManifoldLoop order fuel m A = some r ∧ NonManifoldResult root m r := by
  induction fuel generalizing m A with
  | zero => omega
  | succ fuel ih =>
    have hgood : ∀ kv ∈ order (GetEdgeToTrianglesMap m), GoodEntry m.triangles_ kv :=
      fun kv hkv => edgeMap_good m kv ((horder _).mem_iff.mp hkv)
    obtain ⟨st, e1, ⟨p1, p2, p3, p4⟩, c1⟩ := edgeLoop_spec m.triangles_ A
      (order (GetEdgeToTrianglesMap m)) (true, A) hA.1
      (areaInv_nondegenerate root hroot m A hA)
      ⟨rfl, fun i => Or.inl rfl, fun _ => rfl, fun h => by simp at h⟩ hgood
    have hdel := deleteMarked_eq m st.2 (by rw [p1, hA.1])
    obtain ⟨hA1, hpos1⟩ := nmMesh_areaInv root m A st.2 hA p2
    have hsubset : ∀ t ∈ (nmMesh m st.2).triangles_, t ∈ m.triangles_ :=
      fun t ht => mem_map_kept _ _ _ _ ht
    unfold nonManifoldLoop
    rw [e1]
    simp only []
    rw [hdel]
    by_cases hflag : st.1 = true
    · rw [if_pos hflag]
      refine ⟨nmMesh m st.2, rfl, rfl, rfl, rfl, rfl, hsubset, ?_, hpos1⟩
      apply nmMesh_manifold
      intro kv hkv
      exact (c1 hflag).2 kv ((horder _).mem_iff.mpr hkv)
    · rw [if_neg hflag]
      have hf : st.1 = false := by simpa using hflag
      obtain ⟨i, hi, hi0⟩ := p4 hf
      have hless : (nmMesh m st.2).triangles_.length < m.triangles_.length := by
        by_contra hc
        have hc' : ¬ (keptBelow (fun j => decide (st.2.getD j 0 > 0))
            m.triangles_.length).length < m.triangles_.length := by
          simpa [nmMesh, nmKept] using hc
        have := keptBelow_all_of_length _ _ hc' i (by rw [← hA.1]; exact hi)
        have hp : st.2.getD i 0 > 0 := of_decide_eq_true this
        exact absurd hp (not_lt.mpr hi0)
      obtain ⟨r, hr, q1, q2, q3, q4, q5, q6, q7⟩ := ih (nmMesh m st.2) _ hA1 (by omega)
      exact ⟨r, hr, q1, q2, q3, q4, fun t ht => hsubset t (q5 t ht), q6, q7⟩

theorem removeNonManifoldEdges_result (root : ℚ → ℚ) (hroot : root 0 = 0)
    (order : List (Vector2i × List ℕ) → List (Vector2i × List ℕ))
    (horder : ∀ l, (order l).Perm l) (m : TriangleMesh) :
    ∃ r, RemoveNonManifoldEdges root order m = some r ∧ NonManifoldResult root m r :=
  nonManifoldLoop_spec root hroot order horder _ m _ (areaInv_init root m)
    (Nat.lt_succ_self _)

theorem isEdgeManifold_iff (m : TriangleMesh) :
    IsEdgeManifold m true = true ↔
      ∀ kv ∈ GetEdgeToTrianglesMap m, kv.2.length = 1 ∨ kv.2.length = 2 := by
  unfold IsEdgeManifold edgeIsNonManifold
  rw [List.all_eq_true]
  constructor
  · intro h kv hkv
    have := h kv hkv
    simp only [Bool.true_and, Bool.not_true, Bool.false_and, Bool.or_false, Bool.not_eq_true',
      Bool.or_eq_false_iff, decide_eq_false_iff_not] at this
    omega
  · intro h kv hkv
    have := h kv hkv
    simp only [Bool.true_and, Bool.not_true, Bool.false_and, Bool.or_false, Bool.not_eq_true',
      Bool.or_eq_false_iff, decide_eq_false_iff_not]
    omega

/-- C1: on a well-formed mesh `RemoveNonManifoldEdges` returns, and on the mesh it
returns `IsEdgeManifold(true)` is true: every edge has exactly one or two incident
triangles. -/
theorem removeNonManifoldEdges_edge_manifold (root : ℚ → ℚ) (hroot : root 0 = 0)
    (order : List (Vector2i × List ℕ) → List (Vector2i × List ℕ))
    (horder : ∀ l, (order l).Perm l) (m : TriangleMesh) (hwf : WellFormed m) :
    ∃ r, RemoveNonManifoldEdges root order m = some r ∧ WellFormed r ∧
      IsEdgeManifold r true = true ∧
      ∀ kv ∈ GetEdgeToTrianglesMap r, kv.2.length = 1 ∨ kv.2.length = 2 := by
  obtain ⟨r, hr, q1, _, _, _, q5, q6, _⟩ := removeNonManifoldEdges_result root hroot order horder m
  exact ⟨r, hr, wellFormed_of_eq m r (by rw [q1]) q5 hwf, (isEdgeManifold_iff r).mpr q6, q6⟩

theorem removeNonManifoldEdges_edge_manifold_witness :
    WellFormed sampleMesh ∧
      ∃ r, RemoveNonManifoldEdges id id sampleMesh = some r ∧ WellFormed r ∧
        IsEdgeManifold r true = true ∧
        ∀ kv ∈ GetEdgeToTrianglesMap r, kv.2.length = 1 ∨ kv.2.length = 2 :=
  ⟨by decide, removeNonManifoldEdges_edge_manifold id rfl id (fun l => List.Perm.refl l)
    sampleMesh (by decide)⟩

/-! ## Idempotence and well-formedness of the clean-ups -/

theorem nmMesh_fixed (m : TriangleMesh) (A : List ℚ)
    (h : ∀ j, j < m.triangles_.length → 0 < A.getD j 0) : nmMesh m A = m := by
  have hk : nmKept A m.triangles_.length = List.range m.triangles_.length := by
    unfold nmKept
    apply keptBelow_all
    intro j hj
    exact decide_eq_true (h j hj)
  unfold nmMesh
  rw [hk, map_getD_range, opt_map_range _ _ _ _ (by
    intro hh
    simpa [HasTriangleNormals] using hh)]

theorem removeNonManifoldEdges_fixed (root : ℚ → ℚ)
    (order : List (Vector2i × List ℕ) → List (Vector2i × List ℕ))
    (horder : ∀ l, (order l).Perm l) (m : TriangleMesh)
    (hman : ∀ kv ∈ GetEdgeToTrianglesMap m, kv.2.length = 1 ∨ kv.2.length = 2)
    (hpos : ∀ i, i < m.triangles_.length → 0 < GetTriangleArea root m i) :
    RemoveNonManifoldEdges root order m = some m := by
  have hA := areaInv_init root m
  have hApos : ∀ j, j < m.triangles_.length → 0 < (GetTriangleAreas root m).getD j 0 := by
    intro j hj
    have : (GetTriangleAreas root m).getD j 0 = GetTriangleArea root m j := by
      unfold GetTriangleAreas
      simp [List.getD_eq_getElem?_getD, List.getElem?_map, List.getElem?_range hj]
    rw [this]
    exact hpos j hj
  unfold RemoveNonManifoldEdges nonManifoldLoop
  rw [edgeLoop_manifold _ _ (fun kv hkv => hman kv ((horder _).mem_iff.mp hkv))]
  simp only [if_true]
  rw [deleteMarked_eq m _ hA.1, nmMesh_fixed m _ hApos]

/-- C5: each of the five clean-up operations is idempotent on a well-formed mesh:
running it on its own result returns that result unchanged. -/
theorem cleanup_idempotent (root : ℚ → ℚ) (hroot : root 0 = 0)
    (order : List (Vector2i × List ℕ) → List (Vector2i × List ℕ))
    (horder : ∀ l, (order l).Perm l) (m : TriangleMesh) (hwf : WellFormed m) :
    RemoveDuplicatedVertices (RemoveDuplicatedVertices m) = RemoveDuplicatedVertices m ∧
    RemoveDuplicatedTriangles (RemoveDuplicatedTriangles m) = RemoveDuplicatedTriangles m ∧
    RemoveUnreferencedVertices (RemoveUnreferencedVertices m) =
      RemoveUnreferencedVertices m ∧
    RemoveDegenerateTriangles (RemoveDegenerateTriangles m) = RemoveDegenerateTriangles m ∧
    ∃ r, RemoveNonManifoldEdges root order m = some r ∧
      RemoveNonManifoldEdges root order r = some r := by
  refine ⟨dupVert_idem m hwf, dupTri_idem m, unref_idem m hwf, degTri_idem m, ?_⟩
  obtain ⟨r, hr, _, _, _, _, _, q6, q7⟩ :=
    removeNonManifoldEdges_result root hroot order horder m
  exact ⟨r, hr, removeNonManifoldEdges_fixed root order horder r q6 q7⟩

theorem cleanup_idempotent_witness :
    WellFormed sampleMesh ∧
      RemoveDuplicatedVertices (RemoveDuplicatedVertices sampleMesh) =
        RemoveDuplicatedVertices sampleMesh :=
  ⟨by decide, (cleanup_idempotent id rfl id (fun l => List.Perm.refl l) sampleMesh
    (by decide)).1⟩

/-- C6: every clean-up operation keeps a well-formed mesh well formed: afterwards
every triangle index is below the new vertex count. -/
theorem cleanup_preserves_wellFormed (root : ℚ → ℚ) (hroot : root 0 = 0)
    (order : List (Vector2i × List ℕ) → List (Vector2i × List ℕ))
    (horder : ∀ l, (order l).Perm l) (m : TriangleMesh) (hwf : WellFormed m) :
    WellFormed (RemoveDuplicatedVertices m) ∧ WellFormed (RemoveDuplicatedTriangles m) ∧
    WellFormed (RemoveUnreferencedVertices m) ∧ WellFormed (RemoveDegenerateTriangles m) ∧
    ∃ r, RemoveNonManifoldEdges root order m = some r ∧ WellFormed r := by
  refine ⟨dupVert_wf m hwf, dupTri_wf m hwf, unref_wf m hwf, degTri_wf m hwf, ?_⟩
  obtain ⟨r, hr, q1, _, _, _, q5, _, _⟩ :=
    removeNonManifoldEdges_result root hroot order horder m
  exact ⟨r, hr, wellFormed_of_eq m r (by rw [q1]) q5 hwf⟩

theorem cleanup_preserves_wellFormed_witness :
    WellFormed sampleMesh ∧ WellFormed (RemoveUnreferencedVertices sampleMesh) :=
  ⟨by decide, (cleanup_preserves_wellFormed id rfl id (fun l => List.Perm.refl l) sampleMesh
    (by decide)).2.2.1⟩

/-! ## RemoveDuplicatedTriangles and the winding of a triangle -/

/-- C10 (the code at the failing input): `RemoveDuplicatedTriangles` keeps both
`(0, 1, 2)` and `(0, 2, 1)`, two triangles on the same three vertices, and it keeps
both `(0, 1, 0)` and `(1, 0, 0)`, which are rotations of each other. -/
theorem removeDuplicatedTriangles_keeps_reversed :
    (RemoveDuplicatedTriangles reversedPairMesh).triangles_ = [(0, 1, 2), (0, 2, 1)] ∧
    (RemoveDuplicatedTriangles
      { reversedPairMesh with triangles_ := [(0, 1, 0), (1, 0, 0)] }).triangles_ =
        [(0, 1, 0), (1, 0, 0)] := by
  decide

/-! ## RemoveDuplicatedVertices and the Euler characteristic -/

theorem euler_eq (m : TriangleMesh) :
    EulerPoincareCharacteristic m =
      (m.vertices_.length : ℤ) + (m.triangles_.length : ℤ) -
        ((eulerEdges m.triangles_).card : ℤ) := rfl

theorem mem_eulerFold (ts : List Vector3i) (S : Finset Vector2i) (e : Vector2i) :
    e ∈ ts.foldl
        (fun edges triangle =>
          let edges := insert (min triangle.1 triangle.2.1, max triangle.1 triangle.2.1) edges
          let edges := insert (min triangle.1 triangle.2.2, max triangle.1 triangle.2.2) edges
          insert (min triangle.2.1 triangle.2.2, max triangle.2.1 triangle.2.2) edges)
        S ↔
      e ∈ S ∨ ∃ t ∈ ts, e = (min t.1 t.2.1, max t.1 t.2.1) ∨
        e = (min t.1 t.2.2, max t.1 t.2.2) ∨ e = (min t.2.1 t.2.2, max t.2.1 t.2.2) := by
  induction ts generalizing S with
  | nil => simp
  | cons t ts ih =>
    rw [List.foldl_cons, ih]
    simp only [Finset.mem_insert, List.mem_cons, exists_eq_or_imp]
    constructor
    · rintro ((h | h | h | h) | ⟨t', ht', h⟩)
      · exact Or.inr (Or.inl (Or.inr (Or.inr h)))
      · exact Or.inr (Or.inl (Or.inr (Or.inl h)))
      · exact Or.inr (Or.inl (Or.inl h))
      · exact Or.inl h
      · exact Or.inr (Or.inr ⟨t', ht', h⟩)
    · rintro (h | (h | h | h) | ⟨t', ht', h⟩)
      · exact Or.inl (Or.inr (Or.inr (Or.inr h)))
      · exact Or.inl (Or.inr (Or.inr (Or.inl h)))
      · exact Or.inl (Or.inr (Or.inl h))
      · exact Or.inl (Or.inl h)
      · exact Or.inr ⟨t', ht', h⟩

theorem mem_eulerEdges (ts : List Vector3i) (e : Vector2i) :
    e ∈ eulerEdges ts ↔
      ∃ t ∈ ts, e = (min t.1 t.2.1, max t.1 t.2.1) ∨
        e = (min t.1 t.2.2, max t.1 t.2.2) ∨ e = (min t.2.1 t.2.2, max t.2.1 t.2.2) := by
  unfold eulerEdges
  rw [mem_eulerFold]
  simp

theorem minmax_map (ν : ℕ → ℕ) (a b : ℕ) :
    (min (ν (min a b)) (ν (max a b)), max (ν (min a b)) (ν (max a b))) =
      (min (ν a) (ν b), max (ν a) (ν b)) := by
  rcases Nat.le_total a b with h | h
  · rw [Nat.min_eq_left h, Nat.max_eq_right h]
  · rw [Nat.min_eq_right h, Nat.max_eq_left h, Nat.min_comm, Nat.max_comm]

theorem eulerEdges_map_card_le (ts : List Vector3i) (ν : ℕ → ℕ) :
    (eulerEdges (ts.map fun t => (ν t.1, ν t.2.1, ν t.2.2))).card ≤ (eulerEdges ts).card := by
  have hsub : eulerEdges (ts.map fun t => (ν t.1, ν t.2.1, ν t.2.2)) ⊆
      (eulerEdges ts).image (fun e => (min (ν e.1) (ν e.2), max (ν e.1) (ν e.2))) := by
    intro e he
    rw [mem_eulerEdges] at he
    obtain ⟨t', ht', h⟩ := he
    rw [List.mem_map] at ht'
    obtain ⟨t, ht, rfl⟩ := ht'
    rw [Finset.mem_image]
    simp only [] at h
    rcases h with h | h | h
    · exact ⟨(min t.1 t.2.1, max t.1 t.2.1),
        (mem_eulerEdges ts _).mpr ⟨t, ht, Or.inl rfl⟩, by rw [h]; exact minmax_map ν _ _⟩
    · exact ⟨(min t.1 t.2.2, max t.1 t.2.2),
        (mem_eulerEdges ts _).mpr ⟨t, ht, Or.inr (Or.inl rfl)⟩,
        by rw [h]; exact minmax_map ν _ _⟩
    · exact ⟨(min t.2.1 t.2.2, max t.2.1 t.2.2),
        (mem_eulerEdges ts _).mpr ⟨t, ht, Or.inr (Or.inr rfl)⟩,
        by rw [h]; exact minmax_map ν _ _⟩
  exact (Finset.card_le_card hsub).trans Finset.card_image_le

/-- C9 fails as stated: on the well-formed mesh `duplicatedPairMesh`, whose two
triangles share an edge through duplicated vertices, the Euler characteristic is `2`
before `RemoveDuplicatedVertices` and `1` after it. -/
theorem removeDuplicatedVertices_changes_euler :
    WellFormed duplicatedPairMesh ∧
      EulerPoincareCharacteristic duplicatedPairMesh = 2 ∧
      EulerPoincareCharacteristic (RemoveDuplicatedVertices duplicatedPairMesh) = 1 := by
  decide

/-- C9 as amended: on a well-formed mesh `RemoveDuplicatedVertices` keeps the number
of triangles, lowers the number of vertices to the number of distinct coordinate
triples, never raises the number of distinct edges, and so changes the Euler
characteristic `V + F - E` by exactly `(E - E') - (V - V')`; when no two vertices
have the same coordinates the Euler characteristic is unchanged. -/
theorem removeDuplicatedVertices_euler (m : TriangleMesh) (hwf : WellFormed m) :
    (RemoveDuplicatedVertices m).triangles_.length = m.triangles_.length ∧
    (RemoveDuplicatedVertices m).vertices_.length = (firstOccurrences m.vertices_).length ∧
    (RemoveDuplicatedVertices m).vertices_.length ≤ m.vertices_.length ∧
    (eulerEdges (RemoveDuplicatedVertices m).triangles_).card ≤
      (eulerEdges m.triangles_).card ∧
    EulerPoincareCharacteristic (RemoveDuplicatedVertices m) =
      EulerPoincareCharacteristic m -
        ((m.vertices_.length : ℤ) - ((RemoveDuplicatedVertices m).vertices_.length : ℤ)) +
        (((eulerEdges m.triangles_).card : ℤ) -
          ((eulerEdges (RemoveDuplicatedVertices m).triangles_).card : ℤ)) ∧
    (m.vertices_.Nodup →
      EulerPoincareCharacteristic (RemoveDuplicatedVertices m) =
        EulerPoincareCharacteristic m) := by
  have hF := dupVert_triangles_length m hwf
  have hV : (RemoveDuplicatedVertices m).vertices_.length =
      (firstOccurrences m.vertices_).length := by
    rw [(dupVert_vertex_fields m).1, firstOccurrences_eq, List.length_map]
  have hVle : (RemoveDuplicatedVertices m).vertices_.length ≤ m.vertices_.length := by
    rw [(dupVert_vertex_fields m).1, List.length_map]
    exact keptBelow_length_le _ _
  have hE : (eulerEdges (RemoveDuplicatedVertices m).triangles_).card ≤
      (eulerEdges m.triangles_).card := by
    rw [dupVert_triangles m hwf]
    split_ifs
    · exact eulerEdges_map_card_le m.triangles_ (dupVertNew m)
    · exact Nat.le_refl _
  refine ⟨hF, hV, hVle, hE, ?_, ?_⟩
  · rw [euler_eq, euler_eq, hF]
    ring
  · intro hnd
    rw [dupVert_fixed m hwf hnd]

theorem removeDuplicatedVertices_euler_witness :
    WellFormed duplicatedPairMesh ∧
      (RemoveDuplicatedVertices duplicatedPairMesh).vertices_.length =
        (firstOccurrences duplicatedPairMesh.vertices_).length :=
  ⟨by decide, (removeDuplicatedVertices_euler duplicatedPairMesh (by decide)).2.1⟩

/-! ## Orientation: directed edges and their keys -/

theorem mem_dirEdges (t : Vector3i) (d : Vector2i) :
    d ∈ dirEdges t ↔ d = (t.1, t.2.1) ∨ d = (t.2.1, t.2.2) ∨ d = (t.2.2, t.1) := by
  simp [dirEdges]

theorem edgeKey_inj_on (t : Vector3i) (h : NonDegenerate t) (d d' : Vector2i)
    (hd : d ∈ dirEdges t) (hd' : d' ∈ dirEdges t) (hk : edgeKey d = edgeKey d') : d = d' := by
  obtain ⟨a, b, c⟩ := t
  unfold NonDegenerate at h
  simp only [ne_eq] at h
  rw [mem_dirEdges] at hd hd'
  simp only [] at hd hd'
  unfold edgeKey CreateOrderedEdge at hk
  rcases hd with rfl | rfl | rfl <;> rcases hd' with rfl | rfl | rfl <;>
    simp only [Prod.mk.injEq] at hk ⊢ <;> omega

theorem edgeKey_cases (d d' : Vector2i) (hk : edgeKey d = edgeKey d') :
    d' = d ∨ d' = (d.2, d.1) := by
  obtain ⟨a, b⟩ := d
  obtain ⟨a', b'⟩ := d'
  unfold edgeKey CreateOrderedEdge at hk
  simp only [Prod.mk.injEq] at hk ⊢
  omega

theorem dirEdges_ne (t : Vector3i) (h : NonDegenerate t) (d : Vector2i)
    (hd : d ∈ dirEdges t) : d.1 ≠ d.2 := by
  obtain ⟨a, b, c⟩ := t
  unfold NonDegenerate at h
  simp only [ne_eq] at h
  rw [mem_dirEdges] at hd
  simp only [] at hd
  rcases hd with rfl | rfl | rfl <;> simp only [] <;> omega

theorem sideHits_pos_iff (t : Vector3i) (e : Vector2i) :
    1 ≤ sideHits t e ↔ ∃ d ∈ dirEdges t, edgeKey d = e := by
  unfold sideHits edgeKey CreateOrderedEdge dirEdges
  simp only [List.mem_cons, List.mem_singleton, List.not_mem_nil, or_false, exists_eq_or_imp,
    exists_eq_left]
  constructor
  · intro h
    by_contra hc
    simp only [not_or] at hc
    rw [if_neg hc.1, if_neg hc.2.1, if_neg hc.2.2] at h
    omega
  · rintro (h | h | h)
    · rw [if_pos h]; omega
    · rw [if_pos h]; omega
    · rw [if_pos h]; omega

/-! ## Orientation: one triangle -/

theorem verifyAndAdd_true (eo : List (Vector2i × Vector2i)) (x y : ℕ)
    (eo' : List (Vector2i × Vector2i)) (h : VerifyAndAdd eo x y = (true, eo')) :
    (∀ e, edgeKey (x, y) ≠ e → mapFind eo' e = mapFind eo e) ∧
      ((mapFind eo (edgeKey (x, y)) = none ∧ mapFind eo' (edgeKey (x, y)) = some (x, y)) ∨
        ∃ d', mapFind eo (edgeKey (x, y)) = some d' ∧ d'.1 ≠ x ∧
          mapFind eo' (edgeKey (x, y)) = some d') := by
  unfold VerifyAndAdd at h
  simp only [] at h
  unfold edgeKey
  simp only []
  cases hf : mapFind eo (CreateOrderedEdge x y) with
  | none =>
    rw [hf] at h
    simp only [Prod.mk.injEq, true_and] at h
    subst h
    refine ⟨?_, Or.inl ⟨rfl, ?_⟩⟩
    · intro e he
      rw [mapFind_mapSet, if_neg he]
    · rw [mapFind_mapSet, if_pos rfl]
  | some d =>
    rw [hf] at h
    simp only [] at h
    by_cases hd : d.1 = x
    · rw [if_pos hd] at h
      simp at h
    · rw [if_neg hd] at h
      simp only [Prod.mk.injEq, true_and] at h
      subst h
      exact ⟨fun e _ => rfl, Or.inr ⟨d, rfl, hd, hf⟩⟩

theorem keys_distinct (w : Vector3i) (h : NonDegenerate w) :
    edgeKey (w.1, w.2.1) ≠ edgeKey (w.2.1, w.2.2) ∧
    edgeKey (w.2.1, w.2.2) ≠ edgeKey (w.2.2, w.1) ∧
    edgeKey (w.2.2, w.1) ≠ edgeKey (w.1, w.2.1) := by
  obtain ⟨a, b, c⟩ := w
  unfold NonDegenerate at h
  simp only [ne_eq] at h
  unfold edgeKey CreateOrderedEdge
  simp only [ne_eq, Prod.mk.injEq]
  omega

theorem verifyThree_true (eo eo3 : List (Vector2i × Vector2i)) (w : Vector3i)
    (hw : NonDegenerate w) (h : verifyThree eo w = (true, eo3)) : Recorded eo eo3 w := by
  unfold verifyThree at h
  simp only [] at h
  cases h1 : VerifyAndAdd eo w.1 w.2.1 with
  | mk b1 eo1 =>
    rw [h1] at h
    cases b1 with
    | false => simp at h
    | true =>
      simp only [Bool.not_true, Bool.false_eq_true, if_false] at h
      cases h2 : VerifyAndAdd eo1 w.2.1 w.2.2 with
      | mk b2 eo2 =>
        rw [h2] at h
        cases b2 with
        | false => simp at h
        | true =>
          simp only [Bool.not_true, Bool.false_eq_true, if_false] at h
          obtain ⟨a1, a2⟩ := verifyAndAdd_true _ _ _ _ h1
          obtain ⟨b1, b2⟩ := verifyAndAdd_true _ _ _ _ h2
          obtain ⟨c1, c2⟩ := verifyAndAdd_true _ _ _ _ h
          obtain ⟨k1, k2, k3⟩ := keys_distinct w hw
          constructor
          · intro e he
            have e1 := he (w.1, w.2.1) (by simp [dirEdges])
            have e2 := he (w.2.1, w.2.2) (by simp [dirEdges])
            have e3 := he (w.2.2, w.1) (by simp [dirEdges])
            rw [c1 e e3, b1 e e2, a1 e e1]
          · intro d hd
            rw [mem_dirEdges] at hd
            rcases hd with rfl | rfl | rfl
            · rw [c1 _ k3, b1 _ (Ne.symm k1)]
              exact a2
            · rw [c1 _ (Ne.symm k2), ← a1 _ k1]
              exact b2
            · rw [← a1 _ (Ne.symm k3), ← b1 _ k2]
              exact c2

theorem recorded_fresh (eo : List (Vector2i × Vector2i)) (w : Vector3i)
    (hw : NonDegenerate w)
    (h01 : mapFind eo (edgeKey (w.1, w.2.1)) = none)
    (h12 : mapFind eo (edgeKey (w.2.1, w.2.2)) = none)
    (h20 : mapFind eo (edgeKey (w.2.2, w.1)) = none) :
    Recorded eo
      (mapSet (mapSet (mapSet eo (edgeKey (w.1, w.2.1)) (w.1, w.2.1))
        (edgeKey (w.2.1, w.2.2)) (w.2.1, w.2.2)) (edgeKey (w.2.2, w.1)) (w.2.2, w.1)) w := by
  obtain ⟨k1, k2, k3⟩ := keys_distinct w hw
  constructor
  · intro e he
    have e1 := he (w.1, w.2.1) (by simp [dirEdges])
    have e2 := he (w.2.1, w.2.2) (by simp [dirEdges])
    have e3 := he (w.2.2, w.1) (by simp [dirEdges])
    rw [mapFind_mapSet, if_neg e3, mapFind_mapSet, if_neg e2, mapFind_mapSet, if_neg e1]
  · intro d hd
    rw [mem_dirEdges] at hd
    left
    rcases hd with rfl | rfl | rfl
    · refine ⟨h01, ?_⟩
      rw [mapFind_mapSet, if_neg k3, mapFind_mapSet, if_neg (Ne.symm k1), mapFind_mapSet,
        if_pos rfl]
    · refine ⟨h12, ?_⟩
      rw [mapFind_mapSet, if_neg (Ne.symm k2), mapFind_mapSet, if_pos rfl]
    · refine ⟨h20, ?_⟩
      rw [mapFind_mapSet, if_pos rfl]

theorem swapTriangleOrder_getD (T : List Vector3i) (tidx a b i : ℕ) :
    (SwapTriangleOrder T tidx a b).length = T.length ∧
    (i ≠ tidx → (SwapTriangleOrder T tidx a b).getD i default = T.getD i default) := by
  unfold SwapTriangleOrder
  simp only []
  refine ⟨by simp, ?_⟩
  intro hi
  rw [getD_set, if_neg (fun h => hi h.1.symm)]

theorem swapTriangleOrder_at (T : List Vector3i) (tidx : ℕ) (h : tidx < T.length) :
    (SwapTriangleOrder T tidx 0 1).getD tidx default =
      ((T.getD tidx default).2.1, (T.getD tidx default).1, (T.getD tidx default).2.2) ∧
    (SwapTriangleOrder T tidx 1 2).getD tidx default =
      ((T.getD tidx default).1, (T.getD tidx default).2.2, (T.getD tidx default).2.1) ∧
    (SwapTriangleOrder T tidx 2 0).getD tidx default =
      ((T.getD tidx default).2.2, (T.getD tidx default).2.1, (T.getD tidx default).1) := by
  unfold SwapTriangleOrder
  simp only []
  rw [getD_set, if_pos ⟨rfl, h⟩, getD_set, if_pos ⟨rfl, h⟩, getD_set, if_pos ⟨rfl, h⟩]
  exact ⟨rfl, rfl, rfl⟩

theorem orientFlip_spec (eo : List (Vector2i × Vector2i)) (T : List Vector3i) (tidx : ℕ)
    (h : tidx < T.length) (hnd : NonDegenerate (T.getD tidx default)) :
    (orientFlip SwapTriangleOrder eo T tidx (T.getD tidx default).1
        (T.getD tidx default).2.1 (T.getD tidx default).2.2).2.length = T.length ∧
    (orientFlip SwapTriangleOrder eo T tidx (T.getD tidx default).1
        (T.getD tidx default).2.1 (T.getD tidx default).2.2).2.getD tidx default =
      (orientFlip SwapTriangleOrder eo T tidx (T.getD tidx default).1
        (T.getD tidx default).2.1 (T.getD tidx default).2.2).1 ∧
    (∀ i, i ≠ tidx →
      (orientFlip SwapTriangleOrder eo T tidx (T.getD tidx default).1
        (T.getD tidx default).2.1 (T.getD tidx default).2.2).2.getD i default =
        T.getD i default) ∧
    NonDegenerate (orientFlip SwapTriangleOrder eo T tidx (T.getD tidx default).1
        (T.getD tidx default).2.1 (T.getD tidx default).2.2).1 := by
  obtain ⟨s01, s12, s20⟩ := swapTriangleOrder_at T tidx h
  unfold NonDegenerate at hnd ⊢
  unfold orientFlip
  split_ifs
  · exact ⟨(swapTriangleOrder_getD T tidx 0 1 0).1, s01,
      fun i hi => (swapTriangleOrder_getD T tidx 0 1 i).2 hi,
      ⟨Ne.symm hnd.1, Ne.symm hnd.2.2, Ne.symm hnd.2.1⟩⟩
  · exact ⟨(swapTriangleOrder_getD T tidx 1 2 0).1, s12,
      fun i hi => (swapTriangleOrder_getD T tidx 1 2 i).2 hi,
      ⟨Ne.symm hnd.2.2, Ne.symm hnd.2.1, Ne.symm hnd.1⟩⟩
  · exact ⟨(swapTriangleOrder_getD T tidx 2 0 0).1, s20,
      fun i hi => (swapTriangleOrder_getD T tidx 2 0 i).2 hi,
      ⟨Ne.symm hnd.2.1, Ne.symm hnd.1, Ne.symm hnd.2.2⟩⟩
  · exact ⟨rfl, rfl, fun i _ => rfl, hnd⟩

theorem orientVisit_true (order : List ℕ → List ℕ) (adj : List (Vector2i × List ℕ))
    (s s' : OrientState) (tidx : ℕ) (h : tidx < s.triangles.length)
    (hnd : NonDegenerate (s.triangles.getD tidx default))
    (hv : orientVisit SwapTriangleOrder order adj s tidx = (true, s')) :
    s'.unvisited_triangles = s.unvisited_triangles ∧
    s'.triangles.length = s.triangles.length ∧
    (∀ i, i ≠ tidx → s'.triangles.getD i default = s.triangles.getD i default) ∧
    NonDegenerate (s'.triangles.getD tidx default) ∧
    Recorded s.edge_to_orientation s'.edge_to_orientation (s'.triangles.getD tidx default) := by
  unfold orientVisit at hv
  simp only [] at hv
  split_ifs at hv with hA hB
  · -- no edge of the triangle has a direction yet
    simp only [Prod.mk.injEq, true_and] at hv
    subst hv
    simp only [Bool.not_eq_true', Bool.or_eq_false_iff] at hA
    have n01 := Option.not_isSome_iff_eq_none.mp (by rw [hA.1.1]; simp)
    have n12 := Option.not_isSome_iff_eq_none.mp (by rw [hA.1.2]; simp)
    have n20 := Option.not_isSome_iff_eq_none.mp (by rw [hA.2]; simp)
    exact ⟨rfl, rfl, fun i _ => rfl, hnd, recorded_fresh _ _ hnd n01 n12 n20⟩
  · simp at hv
  · simp only [Prod.mk.injEq, true_and] at hv
    subst hv
    obtain ⟨f1, f2, f3, f4⟩ := orientFlip_spec s.edge_to_orientation s.triangles tidx h hnd
    refine ⟨rfl, f1, f3, by rw [f2]; exact f4, ?_⟩
    rw [f2]
    apply verifyThree_true _ _ _ f4
    have hb : (verifyThree s.edge_to_orientation
        (orientFlip SwapTriangleOrder s.edge_to_orientation s.triangles tidx
          (s.triangles.getD tidx default).1 (s.triangles.getD tidx default).2.1
          (s.triangles.getD tidx default).2.2).1).1 = true := by
      simpa using hB
    exact Prod.ext hb rfl

/-! ## Orientation: the invariant of the main loop -/

theorem recorded_persist (eo eo' : List (Vector2i × Vector2i)) (w : Vector3i)
    (hr : Recorded eo eo' w) (e d : Vector2i) (h : mapFind eo e = some d) :
    mapFind eo' e = some d := by
  by_cases hk : ∃ dw ∈ dirEdges w, edgeKey dw = e
  · obtain ⟨dw, hdw, rfl⟩ := hk
    rcases hr.2 dw hdw with ⟨h1, _⟩ | ⟨d', h1, _, h3⟩
    · rw [h1] at h; exact Option.noConfusion h
    · rw [h1] at h
      rw [h3, h]
  · rw [hr.1 e (fun dw hdw he => hk ⟨dw, hdw, he⟩)]
    exact h

theorem recorded_origin (eo eo' : List (Vector2i × Vector2i)) (w : Vector3i)
    (hr : Recorded eo eo' w) (e d : Vector2i) (h : mapFind eo' e = some d) :
    mapFind eo e = some d ∨ (d ∈ dirEdges w ∧ edgeKey d = e ∧ mapFind eo e = none) := by
  by_cases hk : ∃ dw ∈ dirEdges w, edgeKey dw = e
  · obtain ⟨dw, hdw, rfl⟩ := hk
    rcases hr.2 dw hdw with ⟨h1, h2⟩ | ⟨d', h1, _, h3⟩
    · rw [h2] at h
      have := Option.some.inj h
      subst this
      exact Or.inr ⟨hdw, rfl, h1⟩
    · rw [h3] at h
      rw [h1, h]
      exact Or.inl rfl
  · rw [hr.1 e (fun dw hdw he => hk ⟨dw, hdw, he⟩)] at h
    exact Or.inl h

theorem orientInv_visit (n : ℕ) (order : List ℕ → List ℕ) (adj : List (Vector2i × List ℕ))
    (s s3 : OrientState) (q : List ℕ) (tidx : ℕ) (hinv : OrientInv n s)
    (hmem : tidx ∈ s.unvisited_triangles)
    (hv : orientVisit SwapTriangleOrder order adj
      { s with triangle_queue := q,
               unvisited_triangles := s.unvisited_triangles.erase tidx } tidx = (true, s3)) :
    OrientInv n s3 := by
  obtain ⟨i0, i1, i2, i3, i4, i5, i6⟩ := hinv
  have htn : tidx < n := i2 tidx hmem
  obtain ⟨v1, v2, v3, v4, v5⟩ := orientVisit_true order adj
    { s with triangle_queue := q,
             unvisited_triangles := s.unvisited_triangles.erase tidx } s3 tidx
    (by simpa [i0] using htn) (i3 tidx htn) hv
  simp only [] at v1 v2 v3 v5
  have hU : ∀ i, i ∉ s3.unvisited_triangles ↔ (i ∉ s.unvisited_triangles ∨ i = tidx) := by
    intro i
    rw [v1, i1.mem_erase_iff]
    constructor
    · intro h
      by_cases e : i = tidx
      · exact Or.inr e
      · exact Or.inl (fun hm => h ⟨e, hm⟩)
    · rintro (h | h) ⟨h1, h2⟩
      · exact h h2
      · exact h1 h
  have hold : ∀ i, i ∉ s.unvisited_triangles → i ≠ tidx := by
    intro i hi e
    exact hi (e ▸ hmem)
  have hnew : tidx ∉ s3.unvisited_triangles := (hU tidx).mpr (Or.inr rfl)
  refine ⟨by rw [v2]; exact i0, by rw [v1]; exact i1.erase _, ?_, ?_, ?_, ?_, ?_⟩
  · intro i hi
    rw [v1] at hi
    exact i2 i (List.mem_of_mem_erase hi)
  · intro i hi
    by_cases e : i = tidx
    · rw [e]; exact v4
    · rw [v3 i e]; exact i3 i hi
  · intro e d hd
    rcases recorded_origin _ _ _ v5 e d hd with h | ⟨h1, h2, _⟩
    · obtain ⟨a1, i, a2, a3, a4⟩ := i4 e d h
      exact ⟨a1, i, a2, (hU i).mpr (Or.inl a3), by rw [v3 i (hold i a3)]; exact a4⟩
    · exact ⟨h2, tidx, htn, hnew, h1⟩
  · intro i j d hi hiu hj hju hdi hdj hm
    rw [hU] at hiu hju
    by_cases ei : i = tidx
    · by_cases ej : j = tidx
      · rw [ei, ej]
      · exfalso
        have hju' : j ∉ s.unvisited_triangles := by
          rcases hju with h | h
          · exact h
          · exact absurd h ej
        rw [v3 j ej] at hdj
        rw [ei] at hdi
        obtain ⟨d', hd'⟩ := i6 j hj hju' d hdj
        rcases v5.2 d hdi with ⟨h1, _⟩ | ⟨d'', _, h2, h3⟩
        · rw [h1] at hd'; exact Option.noConfusion hd'
        · rw [h3] at hm
          have := Option.some.inj hm
          exact h2 (by rw [this])
    · have hiu' : i ∉ s.unvisited_triangles := by
        rcases hiu with h | h
        · exact h
        · exact absurd h ei
      rw [v3 i ei] at hdi
      obtain ⟨d', hd'⟩ := i6 i hi hiu' d hdi
      by_cases ej : j = tidx
      · exfalso
        rw [ej] at hdj
        rcases v5.2 d hdj with ⟨h1, _⟩ | ⟨d'', _, h2, h3⟩
        · rw [h1] at hd'; exact Option.noConfusion hd'
        · rw [h3] at hm
          have := Option.some.inj hm
          exact h2 (by rw [this])
      · have hju' : j ∉ s.unvisited_triangles := by
          rcases hju with h | h
          · exact h
          · exact absurd h ej
        rw [v3 j ej] at hdj
        have hp := recorded_persist _ _ _ v5 _ _ hd'
        rw [hm] at hp
        have hdd : d = d' := Option.some.inj hp
        rw [← hdd] at hd'
        exact i5 i j d hi hiu' hj hju' hdi hdj hd'
  · intro i hi hiu d hd
    rw [hU] at hiu
    by_cases ei : i = tidx
    · rw [ei] at hd
      rcases v5.2 d hd with ⟨_, h2⟩ | ⟨d', _, _, h3⟩
      · exact ⟨d, h2⟩
      · exact ⟨d', h3⟩
    · have hiu' : i ∉ s.unvisited_triangles := by
        rcases hiu with h | h
        · exact h
        · exact absurd h ei
      rw [v3 i ei] at hd
      obtain ⟨d', hd'⟩ := i6 i hi hiu' d hd
      exact ⟨d', recorded_persist _ _ _ v5 _ _ hd'⟩

theorem orientLoop_inv (n : ℕ) (order : List ℕ → List ℕ) (adj : List (Vector2i × List ℕ))
    (fuel : ℕ) (s : OrientState) (Tf : List Vector3i) (hinv : OrientInv n s)
    (h : orientLoop SwapTriangleOrder order adj fuel s = some (true, Tf)) :
    ∃ sf, OrientInv n sf ∧ sf.unvisited_triangles = [] ∧ sf.triangles = Tf := by
  induction fuel generalizing s with
  | zero => simp [orientLoop] at h
  | succ fuel ih =>
    unfold orientLoop at h
    simp only [] at h
    split_ifs at h with hE hM
    · simp only [Option.some.injEq, Prod.mk.injEq, true_and] at h
      exact ⟨s, hinv, List.isEmpty_iff.mp hE, h⟩
    · split at h
      · simp at h
      · rename_i s3 hv
        exact ih s3 (orientInv_visit n order adj s s3 _ _ hinv hM hv) h
    · exact ih { s with triangle_queue := s.triangle_queue.tail } hinv h

theorem edgeKey_eq (d e : Vector2i) (h : edgeKey d = e) (hne : d.1 ≠ d.2) :
    (d = (e.1, e.2) ∧ (d.2, d.1) = (e.2, e.1)) ∨ (d = (e.2, e.1) ∧ (d.2, d.1) = (e.1, e.2)) := by
  obtain ⟨a, b⟩ := d
  obtain ⟨x, y⟩ := e
  unfold edgeKey CreateOrderedEdge at h
  simp only [Prod.mk.injEq] at h hne ⊢
  omega

theorem count_pair (i j o : ℕ) :
    [i, j].count o = (if i = o then 1 else 0) + (if j = o then 1 else 0) := by
  rw [List.count_cons, List.count_cons, List.count_nil]
  by_cases h1 : i = o <;> by_cases h2 : j = o <;> simp [h1, h2]

theorem orient_final (n : ℕ) (sf : OrientState) (hinv : OrientInv n sf)
    (hU : sf.unvisited_triangles = []) (m : TriangleMesh) (hm : m.triangles_ = sf.triangles)
    (kv : Vector2i × List ℕ) (hkv : kv ∈ GetEdgeToTrianglesMap m) (hlen : kv.2.length = 2) :
    ∃ i j, kv.2 = [i, j] ∧ i ≠ j ∧
      (((kv.1.1, kv.1.2) ∈ dirEdges (m.triangles_.getD i default) ∧
          (kv.1.2, kv.1.1) ∈ dirEdges (m.triangles_.getD j default)) ∨
        ((kv.1.2, kv.1.1) ∈ dirEdges (m.triangles_.getD i default) ∧
          (kv.1.1, kv.1.2) ∈ dirEdges (m.triangles_.getD j default))) := by
  obtain ⟨i0, _, _, i3, i4, i5, i6⟩ := hinv
  have hn : m.triangles_.length = n := by rw [hm]; exact i0
  have hvis : ∀ i, i ∉ sf.unvisited_triangles := by
    intro i; rw [hU]; simp
  obtain ⟨he, _⟩ := (edgeMap_mem m kv).mp hkv
  obtain ⟨i, j, hij⟩ : ∃ i j, kv.2 = [i, j] := by
    match hk : kv.2, hlen with
    | [i, j], _ => exact ⟨i, j, rfl⟩
  have hcount : ∀ o, kv.2.count o = if o < n then sideHits (m.triangles_.getD o default) kv.1
      else 0 := by
    intro o
    rw [he, incident_count, hn]
  have hlt : ∀ o ∈ kv.2, o < n := by
    intro o ho
    rw [he] at ho
    have := incident_lt _ _ _ _ ho
    omega
  have hi : i < n := hlt i (by rw [hij]; simp)
  have hj : j < n := hlt j (by rw [hij]; simp)
  have ndi := i3 i hi
  have ndj := i3 j hj
  rw [← hm] at ndi ndj
  have hci := hcount i
  have hcj := hcount j
  rw [if_pos hi] at hci
  rw [if_pos hj] at hcj
  rw [hij, count_pair] at hci hcj
  have hne : i ≠ j := by
    intro e
    subst e
    have := sideHits_le_one _ kv.1 ndi
    rw [if_pos rfl] at hci
    omega
  have hsi : 1 ≤ sideHits (m.triangles_.getD i default) kv.1 := by
    rw [if_pos rfl] at hci
    omega
  have hsj : 1 ≤ sideHits (m.triangles_.getD j default) kv.1 := by
    rw [if_pos rfl] at hcj
    omega
  obtain ⟨di, hdi, hki⟩ := (sideHits_pos_iff _ _).mp hsi
  obtain ⟨dj, hdj, hkj⟩ := (sideHits_pos_iff _ _).mp hsj
  obtain ⟨d, hd⟩ := i6 i hi (hvis i) di (by rw [← hm]; exact hdi)
  rw [hki] at hd
  obtain ⟨hkd, o, ho, _, hdo⟩ := i4 _ _ hd
  rw [← hm] at hdo
  have hso : 1 ≤ sideHits (m.triangles_.getD o default) kv.1 :=
    (sideHits_pos_iff _ _).mpr ⟨d, hdo, hkd⟩
  have hoij : o = i ∨ o = j := by
    have hco := hcount o
    rw [if_pos ho, hij, count_pair] at hco
    by_contra hc
    simp only [not_or] at hc
    have h1 : ¬ i = o := fun e => hc.1 e.symm
    have h2 : ¬ j = o := fun e => hc.2 e.symm
    rw [if_neg h1, if_neg h2] at hco
    omega
  have hdne : d.1 ≠ d.2 := dirEdges_ne _ (by rw [hm]; exact i3 o ho) d hdo
  have hcases := edgeKey_eq d kv.1 hkd hdne
  have hmd : mapFind sf.edge_to_orientation (edgeKey d) = some d := by rw [hkd]; exact hd
  refine ⟨i, j, hij, hne, ?_⟩
  rcases hoij with e | e
  · -- triangle `i` has the stored direction, triangle `j` the opposite one
    rw [e] at hdo
    have hdid : di = d := edgeKey_inj_on _ ndi di d hdi hdo (by rw [hki, hkd])
    have hdjd : dj = (d.2, d.1) := by
      rcases edgeKey_cases d dj (by rw [hkd, hkj]) with h | h
      · exfalso
        apply hne
        apply i5 i j d hi (hvis i) hj (hvis j) (by rw [← hm]; exact hdo)
          (by rw [← hm, ← h]; exact hdj) hmd
      · exact h
    rw [hdjd] at hdj
    rcases hcases with ⟨c1, c2⟩ | ⟨c1, c2⟩
    · left; exact ⟨by rw [← c1]; exact hdo, by rw [← c2]; exact hdj⟩
    · right; exact ⟨by rw [← c1]; exact hdo, by rw [← c2]; exact hdj⟩
  · rw [e] at hdo
    have hdjd : dj = d := edgeKey_inj_on _ ndj dj d hdj hdo (by rw [hkj, hkd])
    have hdid : di = (d.2, d.1) := by
      rcases edgeKey_cases d di (by rw [hkd, hki]) with h | h
      · exfalso
        apply hne
        apply i5 i j d hi (hvis i) hj (hvis j) (by rw [← hm, ← h]; exact hdi)
          (by rw [← hm]; exact hdo) hmd
      · exact h
    rw [hdid] at hdi
    rcases hcases with ⟨c1, c2⟩ | ⟨c1, c2⟩
    · right; exact ⟨by rw [← c2]; exact hdi, by rw [← c1]; exact hdo⟩
    · left; exact ⟨by rw [← c2]; exact hdi, by rw [← c1]; exact hdo⟩
/-! ## Orientation: `IsOrientable` and `OrientTriangles` decide alike -/

theorem orientFlip_fst (swap swap' : List Vector3i → ℕ → ℕ → ℕ → List Vector3i)
    (eo : List (Vector2i × Vector2i)) (T T' : List Vector3i) (tidx v0 v1 v2 : ℕ) :
    (orientFlip swap eo T tidx v0 v1 v2).1 = (orientFlip swap' eo T' tidx v0 v1 v2).1 := by
  unfold orientFlip
  split_ifs <;> rfl

theorem orientFlip_swap_other (eo : List (Vector2i × Vector2i)) (T : List Vector3i)
    (tidx v0 v1 v2 i : ℕ) (hi : i ≠ tidx) :
    (orientFlip SwapTriangleOrder eo T tidx v0 v1 v2).2.getD i default = T.getD i default := by
  unfold orientFlip
  split_ifs
  · exact (swapTriangleOrder_getD T tidx 0 1 i).2 hi
  · exact (swapTriangleOrder_getD T tidx 1 2 i).2 hi
  · exact (swapTriangleOrder_getD T tidx 2 0 i).2 hi
  · rfl

theorem orientFlip_noOp (eo : List (Vector2i × Vector2i)) (T : List Vector3i)
    (tidx v0 v1 v2 : ℕ) : (orientFlip NoOp eo T tidx v0 v1 v2).2 = T := by
  unfold orientFlip NoOp
  split_ifs <;> rfl

theorem orientVisit_sim (order : List ℕ → List ℕ) (adj : List (Vector2i × List ℕ))
    (T T' : List Vector3i) (eo : List (Vector2i × Vector2i)) (U q : List ℕ) (tidx : ℕ)
    (ht : T.getD tidx default = T'.getD tidx default) :
    (orientVisit SwapTriangleOrder order adj
      { triangles := T, edge_to_orientation := eo, unvisited_triangles := U,
        triangle_queue := q } tidx).1 =
    (orientVisit NoOp order adj
      { triangles := T', edge_to_orientation := eo, unvisited_triangles := U,
        triangle_queue := q } tidx).1 ∧
    (orientVisit SwapTriangleOrder order adj
      { triangles := T, edge_to_orientation := eo, unvisited_triangles := U,
        triangle_queue := q } tidx).2.edge_to_orientation =
    (orientVisit NoOp order adj
      { triangles := T', edge_to_orientation := eo, unvisited_triangles := U,
        triangle_queue := q } tidx).2.edge_to_orientation ∧
    (orientVisit SwapTriangleOrder order adj
      { triangles := T, edge_to_orientation := eo, unvisited_triangles := U,
        triangle_queue := q } tidx).2.unvisited_triangles = U ∧
    (orientVisit NoOp order adj
      { triangles := T', edge_to_orientation := eo, unvisited_triangles := U,
        triangle_queue := q } tidx).2.unvisited_triangles = U ∧
    (orientVisit SwapTriangleOrder order adj
      { triangles := T, edge_to_orientation := eo, unvisited_triangles := U,
        triangle_queue := q } tidx).2.triangle_queue =
    (orientVisit NoOp order adj
      { triangles := T', edge_to_orientation := eo, unvisited_triangles := U,
        triangle_queue := q } tidx).2.triangle_queue ∧
    (∀ i, i ≠ tidx →
      (orientVisit SwapTriangleOrder order adj
        { triangles := T, edge_to_orientation := eo, unvisited_triangles := U,
          triangle_queue := q } tidx).2.triangles.getD i default = T.getD i default) ∧
    (orientVisit NoOp order adj
      { triangles := T', edge_to_orientation := eo, unvisited_triangles := U,
        triangle_queue := q } tidx).2.triangles = T' := by
  unfold orientVisit
  simp only []
  rw [← ht]
  rw [orientFlip_fst NoOp SwapTriangleOrder eo T' T]
  split_ifs
  · exact ⟨rfl, rfl, rfl, rfl, rfl, fun i _ => rfl, rfl⟩
  · exact ⟨rfl, rfl, rfl, rfl, rfl, fun i hi => orientFlip_swap_other _ _ _ _ _ _ i hi,
      orientFlip_noOp _ _ _ _ _ _⟩
  · exact ⟨rfl, rfl, rfl, rfl, rfl, fun i hi => orientFlip_swap_other _ _ _ _ _ _ i hi,
      orientFlip_noOp _ _ _ _ _ _⟩

theorem orientLoop_sim (order : List ℕ → List ℕ) (adj : List (Vector2i × List ℕ))
    (fuel : ℕ) (T T' : List Vector3i) (eo : List (Vector2i × Vector2i)) (U q : List ℕ)
    (hU : U.Nodup) (ht : ∀ i ∈ U, T.getD i default = T'.getD i default) :
    (orientLoop SwapTriangleOrder order adj fuel
      { triangles := T, edge_to_orientation := eo, unvisited_triangles := U,
        triangle_queue := q }).map Prod.fst =
    (orientLoop NoOp order adj fuel
      { triangles := T', edge_to_orientation := eo, unvisited_triangles := U,
        triangle_queue := q }).map Prod.fst := by
  induction fuel generalizing T T' eo U q with
  | zero => rfl
  | succ fuel ih =>
    unfold orientLoop
    simp only []
    by_cases hE : U.isEmpty = true
    · rw [if_pos hE, if_pos hE]
      rfl
    · rw [if_neg hE, if_neg hE]
      generalize nextTriangle order U q = tidx
      by_cases hM : tidx ∈ U
      · rw [if_pos hM, if_pos hM]
        obtain ⟨s1, s2, s3, s4, s5, s6, s7⟩ := orientVisit_sim order adj T T' eo
          (U.erase tidx) q.tail tidx (ht _ hM)
        cases hr : orientVisit SwapTriangleOrder order adj
            { triangles := T, edge_to_orientation := eo,
              unvisited_triangles := U.erase tidx, triangle_queue := q.tail } tidx with
        | mk b sa =>
          cases hr' : orientVisit NoOp order adj
              { triangles := T', edge_to_orientation := eo,
                unvisited_triangles := U.erase tidx, triangle_queue := q.tail } tidx with
          | mk b' sb =>
            rw [hr, hr'] at s1 s2 s5
            rw [hr] at s3 s6
            rw [hr'] at s4 s7
            simp only [] at s1 s2 s3 s4 s5 s6 s7
            subst s1
            cases b with
            | false => rfl
            | true =>
              simp only []
              obtain ⟨Ta, eoa, Ua, qa⟩ := sa
              obtain ⟨Tb, eob, Ub, qb⟩ := sb
              simp only [] at s2 s3 s4 s5 s6 s7
              subst s2 s3 s4 s5 s7
              apply ih
              · exact hU.erase _
              · intro i hi
                have hne : i ≠ tidx := ((hU.mem_erase_iff).mp hi).1
                rw [s6 i hne]
                exact ht i (List.mem_of_mem_erase hi)
      · rw [if_neg hM, if_neg hM]
        exact ih T T' eo U q.tail hU ht

theorem orientTriangles_of_isOrientable (order : List ℕ → List ℕ) (m : TriangleMesh)
    (h : IsOrientable order m = some true) :
    ∃ Tf, OrientTriangleHelper SwapTriangleOrder order m.triangles_ = some (true, Tf) := by
  unfold IsOrientable OrientTriangleHelper at h
  have hs := orientLoop_sim order (buildAdjacentTriangles m.triangles_)
    (orientFuel m.triangles_.length) m.triangles_ m.triangles_ []
    (List.range m.triangles_.length) [] (List.nodup_range _) (fun _ _ => rfl)
  rw [h] at hs
  unfold OrientTriangleHelper
  cases hr : orientLoop SwapTriangleOrder order (buildAdjacentTriangles m.triangles_)
      (orientFuel m.triangles_.length)
      { triangles := m.triangles_, edge_to_orientation := [],
        unvisited_triangles := List.range m.triangles_.length, triangle_queue := [] } with
  | none => rw [hr] at hs; simp at hs
  | some r =>
    rw [hr] at hs
    simp only [Option.map_some', Option.some.injEq] at hs
    exact ⟨r.2, by rw [← hs]⟩

theorem orientInv_init (ts : List Vector3i) (hnd : ∀ t ∈ ts, NonDegenerate t) :
    OrientInv ts.length
      { triangles := ts, edge_to_orientation := [],
        unvisited_triangles := List.range ts.length, triangle_queue := [] } := by
  refine ⟨rfl, List.nodup_range _, fun i hi => List.mem_range.mp hi, ?_, ?_, ?_, ?_⟩
  · intro i hi
    apply hnd
    rw [List.getD_eq_getElem?_getD, List.getElem?_eq_getElem hi]
    exact List.getElem_mem _
  · intro e d h
    simp [mapFind] at h
  · intro i j d hi hiu
    exact absurd (List.mem_range.mpr hi) hiu
  · intro i hi hiu
    exact absurd (List.mem_range.mpr hi) hiu

/-- C2: on a mesh without degenerate triangles, if `IsOrientable()` is true then
`OrientTriangles()` returns true and afterwards every edge with exactly two
incident triangles is traversed by them in opposite directions: one triangle has
the directed edge `(a, b)`, the other `(b, a)`. -/
theorem orientTriangles_opposite (order : List ℕ → List ℕ) (m : TriangleMesh)
    (hnd : ∀ t ∈ m.triangles_, NonDegenerate t) (hori : IsOrientable order m = some true) :
    ∃ r, OrientTriangles order m = some (true, r) ∧ r.vertices_ = m.vertices_ ∧
      r.triangles_.length = m.triangles_.length ∧
      ∀ kv ∈ GetEdgeToTrianglesMap r, kv.2.length = 2 →
        ∃ i j, kv.2 = [i, j] ∧ i ≠ j ∧
          (((kv.1.1, kv.1.2) ∈ dirEdges (r.triangles_.getD i default) ∧
              (kv.1.2, kv.1.1) ∈ dirEdges (r.triangles_.getD j default)) ∨
            ((kv.1.2, kv.1.1) ∈ dirEdges (r.triangles_.getD i default) ∧
              (kv.1.1, kv.1.2) ∈ dirEdges (r.triangles_.getD j default))) := by
  obtain ⟨Tf, hTf⟩ := orientTriangles_of_isOrientable order m hori
  have hTf' := hTf
  unfold OrientTriangleHelper at hTf'
  obtain ⟨sf, hinv, hU, hT⟩ := orientLoop_inv m.triangles_.length order _ _ _ Tf
    (orientInv_init m.triangles_ hnd) hTf'
  refine ⟨{ m with triangles_ := Tf }, ?_, rfl, ?_, ?_⟩
  · unfold OrientTriangles
    rw [hTf]
    rfl
  · rw [← hT]
    exact hinv.1
  · intro kv hkv hlen
    exact orient_final m.triangles_.length sf hinv hU { m with triangles_ := Tf } hT.symm kv hkv
      hlen

theorem orientTriangles_opposite_witness :
    (∀ t ∈ twoTriangleMesh.triangles_, NonDegenerate t) ∧
    IsOrientable id twoTriangleMesh = some true ∧
    ∃ r, OrientTriangles id twoTriangleMesh = some (true, r) ∧
      r.vertices_ = twoTriangleMesh.vertices_ ∧
      r.triangles_.length = twoTriangleMesh.triangles_.length ∧
      ∀ kv ∈ GetEdgeToTrianglesMap r, kv.2.length = 2 →
        ∃ i j, kv.2 = [i, j] ∧ i ≠ j ∧
          (((kv.1.1, kv.1.2) ∈ dirEdges (r.triangles_.getD i default) ∧
              (kv.1.2, kv.1.1) ∈ dirEdges (r.triangles_.getD j default)) ∨
            ((kv.1.2, kv.1.1) ∈ dirEdges (r.triangles_.getD i default) ∧
              (kv.1.1, kv.1.2) ∈ dirEdges (r.triangles_.getD j default))) :=
  ⟨by decide, by decide, orientTriangles_opposite id twoTriangleMesh (by decide) (by decide)⟩

/-! ## C11, C12: what the two compactions keep -/

theorem degTri_other_fields (m : TriangleMesh) :
    (RemoveDegenerateTriangles m).triangle_normals_ =
      (if HasTriangleNormals m then
        (degKept m).map (fun j => m.triangle_normals_.getD j default)
      else m.triangle_normals_) ∧
    (RemoveDegenerateTriangles m).vertex_normals_ = m.vertex_normals_ ∧
    (RemoveDegenerateTriangles m).vertex_colors_ = m.vertex_colors_ := by
  rw [RemoveDegenerateTriangles_eq]
  simp only []
  split_ifs <;> exact ⟨rfl, rfl, rfl⟩

/-- C12: after `RemoveDegenerateTriangles` the triangle list is the sublist of the
input triangles whose three indices are pairwise distinct, in their original order;
the triangle normals, when present, are those at the kept positions (and are left
alone when absent), and the vertices with their normals and colours are unchanged. -/
theorem removeDegenerateTriangles_spec (m : TriangleMesh) :
    (RemoveDegenerateTriangles m).triangles_ =
      m.triangles_.filter (fun t => decide (t.1 ≠ t.2.1 ∧ t.2.1 ≠ t.2.2 ∧ t.2.2 ≠ t.1)) ∧
    (RemoveDegenerateTriangles m).triangles_ =
      ((List.range m.triangles_.length).filter
        (fun j => decide (NonDegenerate (m.triangles_.getD j default)))).map
        (fun j => m.triangles_.getD j default) ∧
    (RemoveDegenerateTriangles m).triangle_normals_ =
      (if HasTriangleNormals m then
        ((List.range m.triangles_.length).filter
          (fun j => decide (NonDegenerate (m.triangles_.getD j default)))).map
          (fun j => m.triangle_normals_.getD j default)
      else m.triangle_normals_) ∧
    (RemoveDegenerateTriangles m).vertices_ = m.vertices_ ∧
    (RemoveDegenerateTriangles m).vertex_normals_ = m.vertex_normals_ ∧
    (RemoveDegenerateTriangles m).vertex_colors_ = m.vertex_colors_ :=
  ⟨degTri_triangles m, (degTri_fields m).2, (degTri_other_fields m).1, (degTri_fields m).1,
    (degTri_other_fields m).2.1, (degTri_other_fields m).2.2⟩

theorem unrefKept_eq (m : TriangleMesh) (hwf : WellFormed m) :
    unrefKept m = (List.range m.vertices_.length).filter
      (fun j => decide (∃ t ∈ m.triangles_, IsCorner t j)) := by
  unfold unrefKept keptBelow
  apply List.filter_congr
  intro j _
  by_cases h : ∃ t ∈ m.triangles_, IsCorner t j
  · rw [decide_eq_true h]
    exact (markReferenced_getD m hwf j).mpr h
  · rw [decide_eq_false h]
    cases hb : (markReferenced m).getD j false
    · rfl
    · exact absurd ((markReferenced_getD m hwf j).mp hb) h

theorem unref_triangles_length (m : TriangleMesh) (hwf : WellFormed m) :
    (RemoveUnreferencedVertices m).triangles_.length = m.triangles_.length := by
  rw [unref_triangles m hwf]
  split_ifs
  · simp [unrefTriangles]
  · rfl

theorem unref_corner (m : TriangleMesh) (hwf : WellFormed m) (tidx : ℕ)
    (ht : tidx < m.triangles_.length) :
    (RemoveUnreferencedVertices m).vertices_.getD
        ((RemoveUnreferencedVertices m).triangles_.getD tidx default).1 default =
      m.vertices_.getD (m.triangles_.getD tidx default).1 default ∧
    (RemoveUnreferencedVertices m).vertices_.getD
        ((RemoveUnreferencedVertices m).triangles_.getD tidx default).2.1 default =
      m.vertices_.getD (m.triangles_.getD tidx default).2.1 default ∧
    (RemoveUnreferencedVertices m).vertices_.getD
        ((RemoveUnreferencedVertices m).triangles_.getD tidx default).2.2 default =
      m.vertices_.getD (m.triangles_.getD tidx default).2.2 default := by
  have hmem : m.triangles_.getD tidx default ∈ m.triangles_ := by
    rw [List.getD_eq_getElem?_getD, List.getElem?_eq_getElem ht]
    exact List.getElem_mem _
  have hw := hwf _ hmem
  have href : ∀ j, IsCorner (m.triangles_.getD tidx default) j →
      ((unrefKept m).map (fun j => m.vertices_.getD j default)).getD (unrefNew m j) default
        = m.vertices_.getD j default := by
    intro j hc
    have hj : j < m.vertices_.length := by
      unfold IsCorner at hc
      rcases hc with hc | hc | hc
      · rw [hc]; exact hw.1
      · rw [hc]; exact hw.2.1
      · rw [hc]; exact hw.2.2
    obtain ⟨h1, h2⟩ := unrefNew_spec m j hj ((markReferenced_getD m hwf j).mpr ⟨_, hmem, hc⟩)
    rw [getD_map_kept _ _ _ _ h1, h2]
  rw [(unref_vertex_fields m).1, unref_triangles m hwf]
  by_cases hk : (unrefKept m).length < m.vertices_.length
  · rw [if_pos hk]
    have e : (unrefTriangles m).getD tidx default =
        (unrefNew m (m.triangles_.getD tidx default).1,
         unrefNew m (m.triangles_.getD tidx default).2.1,
         unrefNew m (m.triangles_.getD tidx default).2.2) := by
      unfold unrefTriangles
      rw [List.getD_eq_getElem?_getD, List.getElem?_map, List.getElem?_eq_getElem ht,
        List.getD_eq_getElem?_getD, List.getElem?_eq_getElem ht]
      rfl
    rw [e]
    exact ⟨href _ (Or.inl rfl), href _ (Or.inr (Or.inl rfl)), href _ (Or.inr (Or.inr rfl))⟩
  · rw [if_neg hk]
    have hr := keptBelow_eq_range_of_length
      (fun j => (markReferenced m).getD j false) m.vertices_.length hk
    unfold unrefKept
    rw [hr, map_getD_range]
    exact ⟨rfl, rfl, rfl⟩

/-- C11: after `RemoveUnreferencedVertices` on a well-formed mesh the vertex list
holds exactly the input vertices whose index is a corner of some triangle, in
their original order, with the normals and colours (when present) of the same
positions; every remaining vertex is a corner of some triangle of the result; the
triangle count is unchanged and every corner of every triangle refers to the same
coordinates as before. -/
theorem removeUnreferencedVertices_spec (m : TriangleMesh) (hwf : WellFormed m) :
    (RemoveUnreferencedVertices m).vertices_ =
      ((List.range m.vertices_.length).filter
        (fun j => decide (∃ t ∈ m.triangles_, IsCorner t j))).map
        (fun j => m.vertices_.getD j default) ∧
    (RemoveUnreferencedVertices m).vertex_normals_ =
      (if HasVertexNormals m then
        ((List.range m.vertices_.length).filter
          (fun j => decide (∃ t ∈ m.triangles_, IsCorner t j))).map
          (fun j => m.vertex_normals_.getD j default)
      else m.vertex_normals_) ∧
    (RemoveUnreferencedVertices m).vertex_colors_ =
      (if HasVertexColors m then
        ((List.range m.vertices_.length).filter
          (fun j => decide (∃ t ∈ m.triangles_, IsCorner t j))).map
          (fun j => m.vertex_colors_.getD j default)
      else m.vertex_colors_) ∧
    (∀ j, j < (RemoveUnreferencedVertices m).vertices_.length →
      ∃ t ∈ (RemoveUnreferencedVertices m).triangles_, IsCorner t j) ∧
    (RemoveUnreferencedVertices m).triangles_.length = m.triangles_.length ∧
    (∀ tidx, tidx < m.triangles_.length →
      (RemoveUnreferencedVertices m).vertices_.getD
          ((RemoveUnreferencedVertices m).triangles_.getD tidx default).1 default =
        m.vertices_.getD (m.triangles_.getD tidx default).1 default ∧
      (RemoveUnreferencedVertices m).vertices_.getD
          ((RemoveUnreferencedVertices m).triangles_.getD tidx default).2.1 default =
        m.vertices_.getD (m.triangles_.getD tidx default).2.1 default ∧
      (RemoveUnreferencedVertices m).vertices_.getD
          ((RemoveUnreferencedVertices m).triangles_.getD tidx default).2.2 default =
        m.vertices_.getD (m.triangles_.getD tidx default).2.2 default) := by
  obtain ⟨e1, e2, e3⟩ := unref_vertex_fields m
  rw [unrefKept_eq m hwf] at e1 e2 e3
  refine ⟨e1, e2, e3, ?_, unref_triangles_length m hwf, unref_corner m hwf⟩
  intro j hj
  exact (markReferenced_getD _ (unref_wf m hwf) j).mp (unref_clean m hwf j hj)

theorem removeUnreferencedVertices_spec_witness :
    WellFormed sampleMesh ∧
      (RemoveUnreferencedVertices sampleMesh).vertices_ =
        ((List.range sampleMesh.vertices_.length).filter
          (fun j => decide (∃ t ∈ sampleMesh.triangles_, IsCorner t j))).map
          (fun j => sampleMesh.vertices_.getD j default) :=
  ⟨by decide, (removeUnreferencedVertices_spec sampleMesh (by decide)).1⟩

/-! ## C20: the Euler characteristic and the keys of the edge map -/

theorem edgeCount_pos_iff (ts : List Vector3i) (e : Vector2i) :
    1 ≤ edgeCount ts e ↔ ∃ t ∈ ts, 1 ≤ sideHits t e := by
  unfold edgeCount
  induction ts with
  | nil => simp
  | cons t ts ih =>
    rw [List.map_cons, List.sum_cons]
    constructor
    · intro h
      by_cases h1 : 1 ≤ sideHits t e
      · exact ⟨t, List.mem_cons_self _ _, h1⟩
      · obtain ⟨t', ht', h'⟩ := ih.mp (by omega)
        exact ⟨t', List.mem_cons_of_mem _ ht', h'⟩
    · rintro ⟨t', ht', h'⟩
      rw [List.mem_cons] at ht'
      rcases ht' with ht' | ht'
      · subst ht'; omega
      · have := ih.mpr ⟨t', ht', h'⟩
        omega

theorem edgeMap_length (m : TriangleMesh) (kv : Vector2i × List ℕ)
    (h : kv ∈ GetEdgeToTrianglesMap m) :
    kv.2.length = edgeCount m.triangles_ kv.1 ∧ 1 ≤ edgeCount m.triangles_ kv.1 := by
  obtain ⟨h1, h2⟩ := (edgeMap_mem m kv).mp h
  have hl : kv.2.length = edgeCount m.triangles_ kv.1 := by
    rw [h1, incident_length _ _ _ (Nat.le_refl _), List.take_length]
  refine ⟨hl, ?_⟩
  rw [← hl]
  exact List.length_pos.mpr h2

theorem mem_edgeMap_keys (m : TriangleMesh) (e : Vector2i) :
    e ∈ (GetEdgeToTrianglesMap m).map Prod.fst ↔ 1 ≤ edgeCount m.triangles_ e := by
  rw [List.mem_map]
  constructor
  · rintro ⟨kv, hkv, rfl⟩
    exact (edgeMap_length m kv hkv).2
  · intro h
    refine ⟨(e, incident m.triangles_ e m.triangles_.length), ?_, rfl⟩
    rw [edgeMap_mem]
    refine ⟨rfl, ?_⟩
    apply List.length_pos.mp
    rw [incident_length _ _ _ (Nat.le_refl _), List.take_length]
    exact h

theorem sideHits_pos_cases (t : Vector3i) (e : Vector2i) :
    1 ≤ sideHits t e ↔
      e = (min t.1 t.2.1, max t.1 t.2.1) ∨ e = (min t.1 t.2.2, max t.1 t.2.2) ∨
        e = (min t.2.1 t.2.2, max t.2.1 t.2.2) := by
  obtain ⟨a, b, c⟩ := t
  obtain ⟨x, y⟩ := e
  unfold sideHits
  simp only [Prod.mk.injEq]
  constructor
  · intro h
    by_contra hc
    simp only [not_or] at hc
    have h1 : ¬ (min a b = x ∧ max a b = y) := fun h' => hc.1 ⟨h'.1.symm, h'.2.symm⟩
    have h2 : ¬ (min b c = x ∧ max b c = y) := fun h' => hc.2.2 ⟨h'.1.symm, h'.2.symm⟩
    have h3 : ¬ (min c a = x ∧ max c a = y) := fun h' =>
      hc.2.1 ⟨by rw [← h'.1, Nat.min_comm], by rw [← h'.2, Nat.max_comm]⟩
    rw [if_neg h1, if_neg h2, if_neg h3] at h
    omega
  · rintro (h | h | h)
    · rw [if_pos ⟨h.1.symm, h.2.symm⟩]; omega
    · rw [if_pos (⟨by rw [h.1, Nat.min_comm], by rw [h.2, Nat.max_comm]⟩ :
        min c a = x ∧ max c a = y)]
      omega
    · rw [if_pos (⟨h.1.symm, h.2.symm⟩ : min b c = x ∧ max b c = y)]; omega

theorem edgeMap_keys_toFinset (m : TriangleMesh) :
    ((GetEdgeToTrianglesMap m).map Prod.fst).toFinset = eulerEdges m.triangles_ := by
  ext e
  rw [List.mem_toFinset, mem_edgeMap_keys, edgeCount_pos_iff, mem_eulerEdges]
  constructor
  · rintro ⟨t, ht, h⟩
    exact ⟨t, ht, (sideHits_pos_cases t e).mp h⟩
  · rintro ⟨t, ht, h⟩
    exact ⟨t, ht, (sideHits_pos_cases t e).mpr h⟩

theorem eulerEdges_card (m : TriangleMesh) :
    (eulerEdges m.triangles_).card = (GetEdgeToTrianglesMap m).length := by
  rw [← edgeMap_keys_toFinset, List.toFinset_card_of_nodup (edgeMap_inv m).1, List.length_map]

theorem sym2_minmax (a b : ℕ) : s(min a b, max a b) = s(a, b) := by
  rcases Nat.le_total a b with h | h
  · rw [Nat.min_eq_left h, Nat.max_eq_right h]
  · rw [Nat.min_eq_right h, Nat.max_eq_left h, Sym2.eq_swap]

theorem undirectedEdges_eq (ts : List Vector3i) :
    undirectedEdges ts = (eulerEdges ts).image (fun e => s(e.1, e.2)) := by
  ext z
  unfold undirectedEdges
  rw [List.mem_toFinset, List.mem_flatMap, Finset.mem_image]
  constructor
  · rintro ⟨t, ht, hz⟩
    simp only [List.mem_cons, List.mem_singleton, List.not_mem_nil, or_false] at hz
    rcases hz with hz | hz | hz
    · exact ⟨_, (mem_eulerEdges ts _).mpr ⟨t, ht, Or.inl rfl⟩, by rw [hz, sym2_minmax]⟩
    · exact ⟨_, (mem_eulerEdges ts _).mpr ⟨t, ht, Or.inr (Or.inr rfl)⟩, by
        rw [hz, sym2_minmax]⟩
    · exact ⟨_, (mem_eulerEdges ts _).mpr ⟨t, ht, Or.inr (Or.inl rfl)⟩, by
        rw [hz, sym2_minmax, Sym2.eq_swap]⟩
  · rintro ⟨e, he, rfl⟩
    obtain ⟨t, ht, h⟩ := (mem_eulerEdges ts e).mp he
    refine ⟨t, ht, ?_⟩
    simp only [List.mem_cons, List.mem_singleton, List.not_mem_nil, or_false]
    rcases h with h | h | h
    · left; rw [h, sym2_minmax]
    · right; right; rw [h, sym2_minmax, Sym2.eq_swap]
    · right; left; rw [h, sym2_minmax]

theorem eulerEdges_sorted (ts : List Vector3i) (e : Vector2i) (he : e ∈ eulerEdges ts) :
    e.1 ≤ e.2 := by
  obtain ⟨t, _, h⟩ := (mem_eulerEdges ts e).mp he
  rcases h with h | h | h <;> rw [h] <;> simp only [] <;> omega

theorem undirectedEdges_card (ts : List Vector3i) :
    (undirectedEdges ts).card = (eulerEdges ts).card := by
  rw [undirectedEdges_eq]
  apply Finset.card_image_of_injOn
  intro e he e' he' h
  have h1 := eulerEdges_sorted ts e he
  have h2 := eulerEdges_sorted ts e' he'
  obtain ⟨a, b⟩ := e
  obtain ⟨a', b'⟩ := e'
  simp only [Sym2.eq_iff] at h
  simp only [] at h1 h2
  rcases h with ⟨h3, h4⟩ | ⟨h3, h4⟩
  · rw [h3, h4]
  · have : a = a' := by omega
    have : b = b' := by omega
    subst_vars
    rfl

/-- C20: `EulerPoincareCharacteristic` returns `V + F - E`, where `E` is the number
of distinct undirected edges (unordered pairs of vertex indices that are a side of
some triangle), and `E` is the number of keys of `GetEdgeToTrianglesMap`. -/
theorem eulerPoincareCharacteristic_spec (m : TriangleMesh) :
    EulerPoincareCharacteristic m =
      (m.vertices_.length : ℤ) + (m.triangles_.length : ℤ) -
        ((undirectedEdges m.triangles_).card : ℤ) ∧
    (undirectedEdges m.triangles_).card = (GetEdgeToTrianglesMap m).length ∧
    ((GetEdgeToTrianglesMap m).map Prod.fst).Nodup := by
  refine ⟨?_, ?_, (edgeMap_inv m).1⟩
  · rw [euler_eq, undirectedEdges_card]
  · rw [undirectedEdges_card, eulerEdges_card]

/-! ## C17: GetNonManifoldEdges -/

theorem foldl_push_filter {α β : Type} (p : α → Bool) (f : α → β) (l : List α) (init : List β) :
    l.foldl (fun acc x => if p x then acc ++ [f x] else acc) init =
      init ++ (l.filter p).map f := by
  induction l generalizing init with
  | nil => simp
  | cons x rest ih =>
    rw [List.foldl_cons, ih]
    cases hp : p x
    · simp [hp]
    · simp [hp]

theorem GetNonManifoldEdges_eq (order : List (Vector2i × List ℕ) → List (Vector2i × List ℕ))
    (m : TriangleMesh) (allow : Bool) :
    GetNonManifoldEdges order m allow =
      ((order (GetEdgeToTrianglesMap m)).filter (edgeIsNonManifold allow)).map Prod.fst := by
  unfold GetNonManifoldEdges
  simp only []
  rw [foldl_push_filter (edgeIsNonManifold allow) Prod.fst]
  rfl

theorem edgeIsNonManifold_iff (allow : Bool) (kv : Vector2i × List ℕ) (h : 1 ≤ kv.2.length) :
    edgeIsNonManifold allow kv = true ↔
      (allow = true → 2 < kv.2.length) ∧ (allow = false → kv.2.length ≠ 2) := by
  unfold edgeIsNonManifold
  cases allow
  · simp
  · simp only [Bool.true_and, Bool.not_true, Bool.false_and, Bool.or_false, Bool.or_eq_true,
      decide_eq_true_eq, forall_const, Bool.true_eq_false, false_implies, and_true]
    omega

theorem edgeCount_eq_incidentTriangles (ts : List Vector3i) (e : Vector2i)
    (h : ∀ t ∈ ts, NonDegenerate t) :
    edgeCount ts e = (incidentTriangles ts e).length := by
  have e1 : (incidentTriangles ts e).length =
      (ts.filter fun t => decide (1 ≤ sideHits t e)).length := by
    have := map_keptBelow_eq_filter ts default (fun t => decide (1 ≤ sideHits t e)) ts.length
      (Nat.le_refl _)
    rw [List.take_length] at this
    rw [← this, List.length_map]
    rfl
  rw [e1]
  unfold edgeCount
  clear e1
  induction ts with
  | nil => rfl
  | cons t ts ih =>
    have h1 := sideHits_le_one t e (h t (List.mem_cons_self _ _))
    have ih := ih (fun t' ht' => h t' (List.mem_cons_of_mem _ ht'))
    rw [List.map_cons, List.sum_cons, ih, List.filter_cons]
    by_cases hp : 1 ≤ sideHits t e
    · rw [decide_eq_true hp, if_pos rfl, List.length_cons]
      omega
    · rw [decide_eq_false hp]
      simp only [Bool.false_eq_true, if_false]
      omega

/-- C17 as stated fails on a triangle with a repeated index: in `foldedMesh` the
edge `(0, 1)` has two incident triangles, and `GetNonManifoldEdges(true)` returns
it, because the first triangle `(0, 0, 1)` is listed twice for that edge. -/
theorem getNonManifoldEdges_counts_sides :
    incidentTriangles foldedMesh.triangles_ (0, 1) = [0, 1] ∧
      GetNonManifoldEdges id foldedMesh true = [(0, 1)] ∧
      ¬ ((0, 1) ∈ GetNonManifoldEdges id foldedMesh true ↔
        2 < (incidentTriangles foldedMesh.triangles_ (0, 1)).length) := by
  decide

/-- C17, amended: for every iteration order of the edge map, `GetNonManifoldEdges`
returns each edge at most once, as a `(min, max)` pair, and returns exactly the
edges of the mesh whose number of incident triangle sides (a triangle counts once
for each of its sides that lies on the edge) is greater than 2 when
`allow_boundary_edges` is true and different from 2 when it is false;
`IsEdgeManifold` is true iff that list is empty; on a mesh without triangles with a
repeated index the number of sides is the number of incident triangles. -/
theorem getNonManifoldEdges_spec (order : List (Vector2i × List ℕ) → List (Vector2i × List ℕ))
    (horder : ∀ l, (order l).Perm l) (m : TriangleMesh) (allow : Bool) :
    (GetNonManifoldEdges order m allow).Nodup ∧
    (∀ e ∈ GetNonManifoldEdges order m allow, e.1 ≤ e.2) ∧
    (∀ e, e ∈ GetNonManifoldEdges order m allow ↔
      1 ≤ edgeCount m.triangles_ e ∧
        (allow = true → 2 < edgeCount m.triangles_ e) ∧
        (allow = false → edgeCount m.triangles_ e ≠ 2)) ∧
    (IsEdgeManifold m allow = true ↔ GetNonManifoldEdges order m allow = []) ∧
    ((∀ t ∈ m.triangles_, NonDegenerate t) →
      ∀ e, edgeCount m.triangles_ e = (incidentTriangles m.triangles_ e).length) := by
  have hmem : ∀ e, e ∈ GetNonManifoldEdges order m allow ↔
      1 ≤ edgeCount m.triangles_ e ∧
        (allow = true → 2 < edgeCount m.triangles_ e) ∧
        (allow = false → edgeCount m.triangles_ e ≠ 2) := by
    intro e
    rw [GetNonManifoldEdges_eq, List.mem_map]
    constructor
    · rintro ⟨kv, hkv, rfl⟩
      rw [List.mem_filter, (horder _).mem_iff] at hkv
      obtain ⟨hl, h1⟩ := edgeMap_length m kv hkv.1
      have := (edgeIsNonManifold_iff allow kv (by omega)).mp hkv.2
      rw [hl] at this
      exact ⟨h1, this⟩
    · rintro ⟨h1, h2⟩
      have hk := (mem_edgeMap_keys m e).mpr h1
      rw [List.mem_map] at hk
      obtain ⟨kv, hkv, rfl⟩ := hk
      obtain ⟨hl, _⟩ := edgeMap_length m kv hkv
      refine ⟨kv, ?_, rfl⟩
      rw [List.mem_filter, (horder _).mem_iff]
      refine ⟨hkv, (edgeIsNonManifold_iff allow kv (by omega)).mpr ?_⟩
      rw [hl]
      exact h2
  refine ⟨?_, ?_, hmem, ?_, fun h e => edgeCount_eq_incidentTriangles _ e h⟩
  · rw [GetNonManifoldEdges_eq]
    have hs : (((order (GetEdgeToTrianglesMap m)).filter (edgeIsNonManifold allow)).map
        Prod.fst).Sublist ((order (GetEdgeToTrianglesMap m)).map Prod.fst) :=
      List.Sublist.map _ (List.filter_sublist _)
    apply hs.nodup
    exact ((horder _).map Prod.fst).nodup_iff.mpr (edgeMap_inv m).1
  · intro e he
    obtain ⟨h1, _⟩ := (hmem e).mp he
    obtain ⟨t, _, ht⟩ := (edgeCount_pos_iff _ _).mp h1
    rcases (sideHits_pos_cases t e).mp ht with h | h | h <;> rw [h] <;> simp only [] <;> omega
  · rw [GetNonManifoldEdges_eq]
    unfold IsEdgeManifold
    rw [List.all_eq_true, List.map_eq_nil_iff, List.filter_eq_nil_iff]
    constructor
    · intro h kv hkv
      have := h kv ((horder _).mem_iff.mp hkv)
      simpa using this
    · intro h kv hkv
      have := h kv ((horder _).mem_iff.mpr hkv)
      simpa using this

theorem getNonManifoldEdges_spec_witness :
    (∀ l : List (Vector2i × List ℕ), (id l).Perm l) ∧
      (GetNonManifoldEdges id sampleMesh true).Nodup :=
  ⟨fun l => List.Perm.refl l, (getNonManifoldEdges_spec id (fun l => List.Perm.refl l)
    sampleMesh true).1⟩

/-- C13 fails in the code: `flatMesh` is well formed and edge manifold, its only
triangle has area zero, and `RemoveNonManifoldEdges` deletes it, because the
compaction keeps a triangle only when its stored area is `> 0`. -/
theorem removeNonManifoldEdges_drops_zero_area :
    WellFormed flatMesh ∧ IsEdgeManifold flatMesh true = true ∧
      GetNonManifoldEdges id flatMesh true = [] ∧
      GetTriangleAreas id flatMesh = [0] ∧
      RemoveNonManifoldEdges id id flatMesh = some { flatMesh with triangles_ := [] } := by
  decide!

/-- C16 fails in the code: on `fanMesh` with its adjacency list computed,
`RemoveNonManifoldEdges` deletes the triangle `(0, 1, 2)` and leaves the adjacency
list as it was: it still has one entry per vertex and still lists the neighbours
`0` and `1` of vertex `2`, which the recomputed adjacency list no longer has. -/
theorem removeNonManifoldEdges_stale_adjacency :
    WellFormed (ComputeAdjacencyList fanMesh) ∧
      HasAdjacencyList (ComputeAdjacencyList fanMesh) = true ∧
      ∃ r, RemoveNonManifoldEdges id id (ComputeAdjacencyList fanMesh) = some r ∧
        r.triangles_ = [(0, 1, 3), (0, 1, 4)] ∧
        HasAdjacencyList r = true ∧
        r.adjacency_list_ = (ComputeAdjacencyList fanMesh).adjacency_list_ ∧
        r.adjacency_list_.getD 2 ∅ = {0, 1} ∧
        (ComputeAdjacencyList r).adjacency_list_.getD 2 ∅ = ∅ ∧
        r.adjacency_list_ ≠ (ComputeAdjacencyList r).adjacency_list_ := by
  refine ⟨by decide, by decide,
    { ComputeAdjacencyList fanMesh with triangles_ := [(0, 1, 3), (0, 1, 4)] }, ?_, rfl, ?_, ?_, ?_,
    ?_, ?_⟩
  · decide!
  · decide
  · rfl
  · decide
  · decide
  · decide

/-! ## C15: the clean-ups do not leave a stale adjacency list -/

theorem fresh_computed (r : TriangleMesh) : AdjacencyFresh (ComputeAdjacencyList r) :=
  Or.inr rfl

theorem fresh_absent (r : TriangleMesh) (h : ¬ HasAdjacencyList r = true) :
    AdjacencyFresh r := by
  left
  simpa [HasAdjacencyList] using h

theorem fresh_of_same (m r : TriangleMesh)
    (hadj : m.adjacency_list_ = (ComputeAdjacencyList m).adjacency_list_)
    (ht : r.triangles_ = m.triangles_) (ha : r.adjacency_list_ = m.adjacency_list_) :
    AdjacencyFresh r := by
  have hlen : m.adjacency_list_.length = m.vertices_.length := by
    rw [hadj]
    unfold ComputeAdjacencyList
    simp only []
    rw [foldl_adjTriangle_length]
    simp [resize]
  by_cases hv : r.vertices_.length = m.vertices_.length
  · right
    rw [ha, hadj]
    unfold ComputeAdjacencyList
    simp only []
    rw [ht, hv]
  · left
    rw [ha, hlen]
    exact fun h => hv h.symm

theorem fresh_vertex_cleanup (m m1 m2 : TriangleMesh) (c : Prop) [Decidable c]
    (hadj : m.adjacency_list_ = (ComputeAdjacencyList m).adjacency_list_)
    (ht : m1.triangles_ = m.triangles_) (ha : m1.adjacency_list_ = m.adjacency_list_) :
    AdjacencyFresh
      (if c then (if HasAdjacencyList m2 then ComputeAdjacencyList m2 else m2) else m1) := by
  by_cases h1 : c
  · rw [if_pos h1]
    by_cases h2 : HasAdjacencyList m2 = true
    · rw [if_pos h2]
      exact fresh_computed _
    · rw [if_neg h2]
      exact fresh_absent _ h2
  · rw [if_neg h1]
    exact fresh_of_same m _ hadj ht ha

theorem dupVert_fresh (m : TriangleMesh)
    (hadj : m.adjacency_list_ = (ComputeAdjacencyList m).adjacency_list_) :
    AdjacencyFresh (RemoveDuplicatedVertices m) := by
  unfold RemoveDuplicatedVertices
  exact fresh_vertex_cleanup m _ _ _ hadj rfl rfl

theorem unref_fresh (m : TriangleMesh)
    (hadj : m.adjacency_list_ = (ComputeAdjacencyList m).adjacency_list_) :
    AdjacencyFresh (RemoveUnreferencedVertices m) := by
  unfold RemoveUnreferencedVertices
  exact fresh_vertex_cleanup m _ _ _ hadj rfl rfl

theorem fresh_triangle_cleanup (m m1 : TriangleMesh) (b : Bool)
    (hadj : m.adjacency_list_ = (ComputeAdjacencyList m).adjacency_list_)
    (ha : m1.adjacency_list_ = m.adjacency_list_)
    (ht : b = false → m1.triangles_ = m.triangles_) :
    AdjacencyFresh (if (b && HasAdjacencyList m1) = true then ComputeAdjacencyList m1 else m1) := by
  by_cases h1 : (b && HasAdjacencyList m1) = true
  · rw [if_pos h1]
    exact fresh_computed _
  · rw [if_neg h1]
    rw [Bool.and_eq_true, not_and_or] at h1
    rcases h1 with h1 | h1
    · exact fresh_of_same m _ hadj (ht (by simpa using h1)) ha
    · exact fresh_absent _ h1

theorem dupTri_fresh (m : TriangleMesh)
    (hadj : m.adjacency_list_ = (ComputeAdjacencyList m).adjacency_list_) :
    AdjacencyFresh (RemoveDuplicatedTriangles m) := by
  rw [RemoveDuplicatedTriangles_eq]
  refine fresh_triangle_cleanup m _ _ hadj rfl ?_
  intro h1
  have h1' : ¬ (dupTriKept m).length < m.triangles_.length := by simpa using h1
  have hr := keptBelow_eq_range_of_length (dupTriFirst m) m.triangles_.length h1'
  show (dupTriKept m).map (fun j => m.triangles_.getD j default) = m.triangles_
  unfold dupTriKept
  rw [hr, map_getD_range]

theorem degTri_fresh (m : TriangleMesh)
    (hadj : m.adjacency_list_ = (ComputeAdjacencyList m).adjacency_list_) :
    AdjacencyFresh (RemoveDegenerateTriangles m) := by
  rw [RemoveDegenerateTriangles_eq]
  refine fresh_triangle_cleanup m _ _ hadj rfl ?_
  intro h1
  have h1' : ¬ (degKept m).length < m.triangles_.length := by simpa using h1
  have hr := keptBelow_eq_range_of_length
    (fun j => decide (NonDegenerate (m.triangles_.getD j default))) m.triangles_.length h1'
  show (degKept m).map (fun j => m.triangles_.getD j default) = m.triangles_
  unfold degKept
  rw [hr, map_getD_range]

/-- C15: if the adjacency list is present (one entry per vertex) and is the one
`ComputeAdjacencyList` builds, then after each of `RemoveDuplicatedVertices`,
`RemoveDuplicatedTriangles`, `RemoveUnreferencedVertices` and
`RemoveDegenerateTriangles` the adjacency list is absent (its length is not the
vertex count) or is the one `ComputeAdjacencyList` builds for the result. -/
theorem cleanups_adjacency_fresh (m : TriangleMesh)
    (_ : HasAdjacencyList m = true)
    (hadj : m.adjacency_list_ = (ComputeAdjacencyList m).adjacency_list_) :
    AdjacencyFresh (RemoveDuplicatedVertices m) ∧
    AdjacencyFresh (RemoveDuplicatedTriangles m) ∧
    AdjacencyFresh (RemoveUnreferencedVertices m) ∧
    AdjacencyFresh (RemoveDegenerateTriangles m) :=
  ⟨dupVert_fresh m hadj, dupTri_fresh m hadj, unref_fresh m hadj, degTri_fresh m hadj⟩

theorem cleanups_adjacency_fresh_witness :
    HasAdjacencyList (ComputeAdjacencyList sampleMesh) = true ∧
      (ComputeAdjacencyList sampleMesh).adjacency_list_ =
        (ComputeAdjacencyList (ComputeAdjacencyList sampleMesh)).adjacency_list_ ∧
      AdjacencyFresh (RemoveDuplicatedVertices (ComputeAdjacencyList sampleMesh)) ∧
      AdjacencyFresh (RemoveDuplicatedTriangles (ComputeAdjacencyList sampleMesh)) ∧
      AdjacencyFresh (RemoveUnreferencedVertices (ComputeAdjacencyList sampleMesh)) ∧
      AdjacencyFresh (RemoveDegenerateTriangles (ComputeAdjacencyList sampleMesh)) :=
  ⟨by decide, rfl, cleanups_adjacency_fresh (ComputeAdjacencyList sampleMesh) (by decide) rfl⟩

/-! ## C19: OrientTriangles returns and only exchanges corners -/

theorem setInsert_inv (l : List ℕ) (x i : ℕ) (h1 : l.Nodup) (h2 : ∀ y ∈ l, y < i) :
    (setInsert l x).Nodup ∧ ∀ y ∈ setInsert l x, y < i ∨ y = x := by
  unfold setInsert
  split_ifs with h
  · exact ⟨h1, fun y hy => Or.inl (h2 y hy)⟩
  · refine ⟨?_, ?_⟩
    · rw [List.nodup_append]
      refine ⟨h1, List.nodup_singleton _, ?_⟩
      intro y hy hy2
      rw [List.mem_singleton] at hy2
      exact h (hy2 ▸ hy)
    · intro y hy
      rw [List.mem_append, List.mem_singleton] at hy
      rcases hy with hy | hy
      · exact Or.inl (h2 y hy)
      · exact Or.inr hy

theorem adjAdd_inv (i : ℕ) (a : List (Vector2i × List ℕ)) (key : Vector2i)
    (h : ∀ k, ((mapFind a k).getD []).Nodup ∧ ∀ x ∈ (mapFind a k).getD [], x < i + 1) :
    ∀ k, ((mapFind (mapSet a key (setInsert ((mapFind a key).getD []) i)) k).getD []).Nodup ∧
      ∀ x ∈ (mapFind (mapSet a key (setInsert ((mapFind a key).getD []) i)) k).getD [],
        x < i + 1 := by
  intro k
  rw [mapFind_mapSet]
  by_cases hk : key = k
  · rw [if_pos hk]
    simp only [Option.getD_some]
    obtain ⟨n1, n2⟩ := setInsert_inv _ i (i + 1) (h key).1 (h key).2
    refine ⟨n1, ?_⟩
    intro x hx
    rcases n2 x hx with h' | h'
    · exact h'
    · omega
  · rw [if_neg hk]
    exact h k

theorem buildAdjacentTriangles_inv (T : List Vector3i) :
    AdjTrianglesInv T.length (buildAdjacentTriangles T) := by
  unfold buildAdjacentTriangles
  apply foldl_range_inv _ _ AdjTrianglesInv
  · intro key
    simp [mapFind]
  · intro i _ a ha
    have h0 : ∀ k, ((mapFind a k).getD []).Nodup ∧ ∀ x ∈ (mapFind a k).getD [], x < i + 1 :=
      fun k => ⟨(ha k).1, fun x hx => Nat.lt_succ_of_lt ((ha k).2 x hx)⟩
    simp only []
    exact adjAdd_inv i _ _ (adjAdd_inv i _ _ (adjAdd_inv i _ _ h0))

theorem nodup_bounded_length (l : List ℕ) (n : ℕ) (h1 : l.Nodup) (h2 : ∀ x ∈ l, x < n) :
    l.length ≤ n := by
  have hs : l.toFinset ⊆ Finset.range n := by
    intro x hx
    rw [List.mem_toFinset] at hx
    exact Finset.mem_range.mpr (h2 x hx)
  have := Finset.card_le_card hs
  rw [List.toFinset_card_of_nodup h1, Finset.card_range] at this
  exact this

theorem adjacent_length_le (T : List Vector3i) (key : Vector2i) :
    ((mapFind (buildAdjacentTriangles T) key).getD []).length ≤ T.length :=
  nodup_bounded_length _ _ (buildAdjacentTriangles_inv T key).1
    (buildAdjacentTriangles_inv T key).2

theorem addNbs_length (order : List ℕ → List ℕ) (horder : ∀ l, (order l).Perm l)
    (T : List Vector3i) (q : List ℕ) (key : Vector2i) :
    (AddTriangleNbsToQueue order (buildAdjacentTriangles T) q key).length ≤
      q.length + T.length := by
  unfold AddTriangleNbsToQueue
  rw [List.length_append, (horder _).length_eq]
  have := adjacent_length_le T key
  omega

theorem orientVisit_queue (swap : List Vector3i → ℕ → ℕ → ℕ → List Vector3i)
    (order : List ℕ → List ℕ) (horder : ∀ l, (order l).Perm l) (T : List Vector3i)
    (s : OrientState) (tidx : ℕ) :
    (orientVisit swap order (buildAdjacentTriangles T) s tidx).2.unvisited_triangles =
      s.unvisited_triangles ∧
    (orientVisit swap order (buildAdjacentTriangles T) s tidx).2.triangle_queue.length ≤
      s.triangle_queue.length + 3 * T.length := by
  have hq : ∀ (q : List ℕ) (k1 k2 k3 : Vector2i),
      (AddTriangleNbsToQueue order (buildAdjacentTriangles T)
        (AddTriangleNbsToQueue order (buildAdjacentTriangles T)
          (AddTriangleNbsToQueue order (buildAdjacentTriangles T) q k1) k2) k3).length ≤
        q.length + 3 * T.length := by
    intro q k1 k2 k3
    have a1 := addNbs_length order horder T q k1
    have a2 := addNbs_length order horder T
      (AddTriangleNbsToQueue order (buildAdjacentTriangles T) q k1) k2
    have a3 := addNbs_length order horder T
      (AddTriangleNbsToQueue order (buildAdjacentTriangles T)
        (AddTriangleNbsToQueue order (buildAdjacentTriangles T) q k1) k2) k3
    omega
  unfold orientVisit
  simp only []
  split_ifs
  · exact ⟨rfl, hq _ _ _ _⟩
  · exact ⟨rfl, by simp only []; omega⟩
  · exact ⟨rfl, hq _ _ _ _⟩

theorem swapOf_flip (eo : List (Vector2i × Vector2i)) (T : List Vector3i) (tidx : ℕ)
    (h : tidx < T.length) (v0 v1 v2 : ℕ) :
    (orientFlip SwapTriangleOrder eo T tidx v0 v1 v2).2.length = T.length ∧
    SwapOf (T.getD tidx default)
      ((orientFlip SwapTriangleOrder eo T tidx v0 v1 v2).2.getD tidx default) := by
  obtain ⟨s01, s12, s20⟩ := swapTriangleOrder_at T tidx h
  unfold orientFlip
  split_ifs
  · exact ⟨(swapTriangleOrder_getD T tidx 0 1 0).1, Or.inr (Or.inl s01)⟩
  · exact ⟨(swapTriangleOrder_getD T tidx 1 2 0).1, Or.inr (Or.inr (Or.inl s12))⟩
  · exact ⟨(swapTriangleOrder_getD T tidx 2 0 0).1, Or.inr (Or.inr (Or.inr s20))⟩
  · exact ⟨rfl, Or.inl rfl⟩

theorem orientVisit_triangles (order : List ℕ → List ℕ) (adj : List (Vector2i × List ℕ))
    (s : OrientState) (tidx : ℕ) (h : tidx < s.triangles.length) :
    (orientVisit SwapTriangleOrder order adj s tidx).2.triangles.length = s.triangles.length ∧
    SwapOf (s.triangles.getD tidx default)
      ((orientVisit SwapTriangleOrder order adj s tidx).2.triangles.getD tidx default) ∧
    ∀ i, i ≠ tidx →
      (orientVisit SwapTriangleOrder order adj s tidx).2.triangles.getD i default =
        s.triangles.getD i default := by
  unfold orientVisit
  simp only []
  split_ifs
  · exact ⟨rfl, Or.inl rfl, fun _ _ => rfl⟩
  · exact ⟨(swapOf_flip _ _ _ h _ _ _).1, (swapOf_flip _ _ _ h _ _ _).2,
      fun i hi => orientFlip_swap_other _ _ _ _ _ _ i hi⟩
  · exact ⟨(swapOf_flip _ _ _ h _ _ _).1, (swapOf_flip _ _ _ h _ _ _).2,
      fun i hi => orientFlip_swap_other _ _ _ _ _ _ i hi⟩
theorem nextTriangle_mem (order : List ℕ → List ℕ) (horder : ∀ l, (order l).Perm l)
    (U : List ℕ) (hU : U ≠ []) : nextTriangle order U [] ∈ U := by
  unfold nextTriangle
  simp only []
  have hne : order U ≠ [] := by
    intro h
    have := (horder U).length_eq
    rw [h] at this
    exact hU (List.length_eq_zero.mp this.symm)
  cases ho : order U with
  | nil => exact absurd ho hne
  | cons x rest =>
    simp only [List.headD_cons]
    apply (horder U).mem_iff.mp
    rw [ho]
    exact List.mem_cons_self _ _

theorem orientLoop_swap (order : List ℕ → List ℕ) (horder : ∀ l, (order l).Perm l)
    (T0 : List Vector3i) (fuel : ℕ) (s : OrientState) (hinv : SwapInv T0 s)
    (hfuel : orientMeasure T0.length s < fuel) :
    ∃ b Tf, orientLoop SwapTriangleOrder order (buildAdjacentTriangles T0) fuel s =
        some (b, Tf) ∧
      Tf.length = T0.length ∧ ∀ i, SwapOf (T0.getD i default) (Tf.getD i default) := by
  induction fuel generalizing s with
  | zero => omega
  | succ fuel ih =>
    obtain ⟨T, eo, U, q⟩ := s
    obtain ⟨h1, h2, h3, h4⟩ := hinv
    simp only [] at h1 h2 h3 h4
    unfold orientMeasure at hfuel
    simp only [] at hfuel
    unfold orientLoop
    simp only []
    by_cases hE : U.isEmpty = true
    · rw [if_pos hE]
      exact ⟨true, T, rfl, h1, h4⟩
    · rw [if_neg hE]
      have hUne : U ≠ [] := by
        intro h
        exact hE (by rw [h]; rfl)
      have hnext : q = [] → nextTriangle order U q ∈ U := by
        intro hq
        rw [hq]
        exact nextTriangle_mem order horder U hUne
      generalize nextTriangle order U q = tidx at hnext
      by_cases hM : tidx ∈ U
      · rw [if_pos hM]
        have hlt : tidx < T.length := by rw [h1]; exact (h3 tidx hM).1
        obtain ⟨v1, v2, v3⟩ := orientVisit_triangles order (buildAdjacentTriangles T0)
          { triangles := T, edge_to_orientation := eo,
            unvisited_triangles := U.erase tidx, triangle_queue := q.tail } tidx hlt
        obtain ⟨w1, w2⟩ := orientVisit_queue SwapTriangleOrder order horder T0
          { triangles := T, edge_to_orientation := eo,
            unvisited_triangles := U.erase tidx, triangle_queue := q.tail } tidx
        have hswap : ∀ i, SwapOf (T0.getD i default)
            ((orientVisit SwapTriangleOrder order (buildAdjacentTriangles T0)
              { triangles := T, edge_to_orientation := eo,
                unvisited_triangles := U.erase tidx, triangle_queue := q.tail }
              tidx).2.triangles.getD i default) := by
          intro i
          by_cases hi : i = tidx
          · subst hi
            have := v2
            simp only [] at this
            rw [(h3 i hM).2] at this
            exact this
          · rw [v3 i hi]
            exact h4 i
        cases hr : orientVisit SwapTriangleOrder order (buildAdjacentTriangles T0)
            { triangles := T, edge_to_orientation := eo,
              unvisited_triangles := U.erase tidx, triangle_queue := q.tail } tidx with
        | mk b sa =>
          rw [hr] at v1 v3 w1 w2 hswap
          simp only [] at v1 v3 w1 w2 hswap
          cases b with
          | false => exact ⟨false, sa.triangles, rfl, by rw [v1, h1], hswap⟩
          | true =>
            simp only []
            apply ih
            · refine ⟨by rw [v1, h1], by rw [w1]; exact h2.erase _, ?_, hswap⟩
              intro i hi
              rw [w1] at hi
              have hne : i ≠ tidx := ((h2.mem_erase_iff).mp hi).1
              have hiU := List.mem_of_mem_erase hi
              rw [v3 i hne]
              exact h3 i hiU
            · unfold orientMeasure
              rw [w1]
              have e1 : U.length = (U.erase tidx).length + 1 := by
                rw [List.length_erase_of_mem hM]
                have := List.length_pos_of_mem hM
                omega
              have e2 : q.tail.length ≤ q.length := by simp
              rw [e1, Nat.add_mul, Nat.one_mul] at hfuel
              generalize (U.erase tidx).length * (3 * T0.length + 1) = X at hfuel ⊢
              omega
      · rw [if_neg hM]
        have hq : q ≠ [] := fun h => hM (hnext h)
        apply ih
        · exact ⟨h1, h2, h3, h4⟩
        · unfold orientMeasure
          simp only []
          have : q.tail.length + 1 = q.length := by
            cases q with
            | nil => exact absurd rfl hq
            | cons x rest => simp
          omega

theorem swapOf_cornerMultiset (t t' : Vector3i) (h : SwapOf t t') :
    cornerMultiset t' = cornerMultiset t := by
  obtain ⟨a, b, c⟩ := t
  unfold SwapOf at h
  unfold cornerMultiset
  rcases h with h | h | h | h <;> rw [h] <;> simp only []
  · rw [Multiset.insert_eq_cons, Multiset.insert_eq_cons, Multiset.insert_eq_cons,
      Multiset.insert_eq_cons, Multiset.cons_swap]
  · rw [Multiset.insert_eq_cons, Multiset.insert_eq_cons, Multiset.insert_eq_cons,
      Multiset.insert_eq_cons, Multiset.cons_inj_right]
    exact Multiset.cons_swap _ _ _
  · rw [Multiset.insert_eq_cons, Multiset.insert_eq_cons, Multiset.insert_eq_cons,
      Multiset.insert_eq_cons, ← Multiset.cons_zero a, ← Multiset.cons_zero c,
      Multiset.cons_swap c b, Multiset.cons_swap c a, Multiset.cons_swap b a]

/-- C19: for every iteration order of the hash sets, `OrientTriangles` returns
(`true` or `false`), and in both cases the triangle count and order are unchanged,
every triangle is its original with at most one exchange of two corners, so it
references the same multiset of three indices, and the vertices and all other
fields are unchanged. -/
theorem orientTriangles_permutes (order : List ℕ → List ℕ) (horder : ∀ l, (order l).Perm l)
    (m : TriangleMesh) :
    ∃ b r, OrientTriangles order m = some (b, r) ∧
      r.triangles_.length = m.triangles_.length ∧
      (∀ i, i < m.triangles_.length →
        SwapOf (m.triangles_.getD i default) (r.triangles_.getD i default) ∧
        cornerMultiset (r.triangles_.getD i default) =
          cornerMultiset (m.triangles_.getD i default)) ∧
      r.vertices_ = m.vertices_ ∧ r.vertex_normals_ = m.vertex_normals_ ∧
      r.vertex_colors_ = m.vertex_colors_ ∧ r.triangle_normals_ = m.triangle_normals_ ∧
      r.adjacency_list_ = m.adjacency_list_ := by
  obtain ⟨b, Tf, hr, hl, hs⟩ := orientLoop_swap order horder m.triangles_
    (orientFuel m.triangles_.length)
    { triangles := m.triangles_, edge_to_orientation := [],
      unvisited_triangles := List.range m.triangles_.length, triangle_queue := [] }
    ⟨rfl, List.nodup_range _, fun i hi => ⟨List.mem_range.mp hi, rfl⟩, fun _ => Or.inl rfl⟩
    (by unfold orientMeasure orientFuel; simp)
  refine ⟨b, { m with triangles_ := Tf }, ?_, hl, ?_, rfl, rfl, rfl, rfl, rfl⟩
  · unfold OrientTriangles OrientTriangleHelper
    rw [hr]
    rfl
  · intro i _
    exact ⟨hs i, swapOf_cornerMultiset _ _ (hs i)⟩

theorem orientTriangles_permutes_witness :
    (∀ l : List ℕ, (id l).Perm l) ∧
      ∃ b r, OrientTriangles id sampleMesh = some (b, r) ∧
        r.triangles_.length = sampleMesh.triangles_.length ∧
        (∀ i, i < sampleMesh.triangles_.length →
          SwapOf (sampleMesh.triangles_.getD i default) (r.triangles_.getD i default) ∧
          cornerMultiset (r.triangles_.getD i default) =
            cornerMultiset (sampleMesh.triangles_.getD i default)) ∧
        r.vertices_ = sampleMesh.vertices_ ∧ r.vertex_normals_ = sampleMesh.vertex_normals_ ∧
        r.vertex_colors_ = sampleMesh.vertex_colors_ ∧
        r.triangle_normals_ = sampleMesh.triangle_normals_ ∧
        r.adjacency_list_ = sampleMesh.adjacency_list_ :=
  ⟨fun l => List.Perm.refl l, orientTriangles_permutes id (fun l => List.Perm.refl l) sampleMesh⟩

/-! ## C14: a fan of triangles around one edge -/

theorem fan_side_shared (a b c : ℕ) (hca : c ≠ a) (hcb : c ≠ b) :
    sideHits (a, b, c) (min a b, max a b) = 1 := by
  unfold sideHits
  simp only [Prod.mk.injEq]
  split_ifs <;> omega

theorem minmax_ends (u v x y : ℕ) (h : min u v = x ∧ max u v = y) :
    (x = u ∧ y = v) ∨ (x = v ∧ y = u) := by
  rcases Nat.le_total u v with huv | huv
  · rw [Nat.min_eq_left huv, Nat.max_eq_right huv] at h
    exact Or.inl ⟨h.1.symm, h.2.symm⟩
  · rw [Nat.min_eq_right huv, Nat.max_eq_left huv] at h
    exact Or.inr ⟨h.1.symm, h.2.symm⟩

theorem fan_side_ends (a b c : ℕ) (e : Vector2i) (he : e ≠ (min a b, max a b))
    (h : 1 ≤ sideHits (a, b, c) e) :
    (e.1 = b ∧ e.2 = c) ∨ (e.1 = c ∧ e.2 = b) ∨ (e.1 = c ∧ e.2 = a) ∨ (e.1 = a ∧ e.2 = c) := by
  obtain ⟨x, y⟩ := e
  have he' : ¬ (min a b = x ∧ max a b = y) := by
    intro h'
    apply he
    rw [h'.1, h'.2]
  unfold sideHits at h
  simp only [Prod.mk.injEq] at h
  rw [if_neg he'] at h
  simp only []
  by_cases h1 : min b c = x ∧ max b c = y
  · rcases minmax_ends b c x y h1 with h' | h'
    · exact Or.inl h'
    · exact Or.inr (Or.inl h')
  · by_cases h2 : min c a = x ∧ max c a = y
    · rcases minmax_ends c a x y h2 with h' | h'
      · exact Or.inr (Or.inr (Or.inl h'))
      · exact Or.inr (Or.inr (Or.inr h'))
    · rw [if_neg h1, if_neg h2] at h
      omega

theorem fan_side_other (a b c c' : ℕ) (e : Vector2i) (hab : a ≠ b) (hca : c ≠ a)
    (hcb : c ≠ b) (hca' : c' ≠ a) (hcb' : c' ≠ b) (hcc : c ≠ c')
    (he : e ≠ (min a b, max a b)) :
    sideHits (a, b, c) e + sideHits (a, b, c') e ≤ 1 := by
  have l1 := sideHits_le_one (a, b, c) e ⟨hab, fun h => hcb h.symm, hca⟩
  have l2 := sideHits_le_one (a, b, c') e ⟨hab, fun h => hcb' h.symm, hca'⟩
  by_contra hc
  have h1 := fan_side_ends a b c e he (by omega)
  have h2 := fan_side_ends a b c' e he (by omega)
  omega

theorem fan_side_le (a b c : ℕ) (e : Vector2i) (hab : a ≠ b) (hca : c ≠ a) (hcb : c ≠ b) :
    sideHits (a, b, c) e ≤ 1 :=
  sideHits_le_one (a, b, c) e ⟨hab, fun h => hcb h.symm, hca⟩

theorem fan_edgeCount_shared (a b : ℕ) (cs : List ℕ)
    (hcs : ∀ c ∈ cs, c ≠ a ∧ c ≠ b) :
    edgeCount (fanTriangles a b cs) (min a b, max a b) = cs.length := by
  unfold edgeCount fanTriangles
  induction cs with
  | nil => rfl
  | cons c cs ih =>
    have hc := hcs c (List.mem_cons_self _ _)
    rw [List.map_cons, List.map_cons, List.sum_cons,
      ih (fun c' h => hcs c' (List.mem_cons_of_mem _ h)), fan_side_shared a b c hc.1 hc.2,
      List.length_cons]
    omega

theorem fan_edgeCount_other_aux (a b : ℕ) (cs : List ℕ) (e : Vector2i) (hab : a ≠ b)
    (hcs : ∀ c ∈ cs, c ≠ a ∧ c ≠ b) (hnd : cs.Nodup) (he : e ≠ (min a b, max a b)) :
    edgeCount (fanTriangles a b cs) e ≤ 1 ∧
      ∀ c0, c0 ≠ a → c0 ≠ b → c0 ∉ cs →
        sideHits (a, b, c0) e + edgeCount (fanTriangles a b cs) e ≤ 1 := by
  induction cs with
  | nil =>
    refine ⟨by simp [edgeCount, fanTriangles], ?_⟩
    intro c0 h1 h2 _
    have := fan_side_le a b c0 e hab h1 h2
    simpa [edgeCount, fanTriangles] using this
  | cons c cs ih =>
    have hc := hcs c (List.mem_cons_self _ _)
    rw [List.nodup_cons] at hnd
    obtain ⟨_, ih2⟩ := ih (fun c' h => hcs c' (List.mem_cons_of_mem _ h)) hnd.2
    have e1 : edgeCount (fanTriangles a b (c :: cs)) e =
        sideHits (a, b, c) e + edgeCount (fanTriangles a b cs) e := by
      unfold edgeCount fanTriangles
      rw [List.map_cons, List.map_cons, List.sum_cons]
    have hcc := ih2 c hc.1 hc.2 hnd.1
    refine ⟨by rw [e1]; exact hcc, ?_⟩
    intro c0 h1 h2 h3
    rw [List.mem_cons, not_or] at h3
    have h0 := ih2 c0 h1 h2 h3.2
    have hp := fan_side_other a b c0 c e hab h1 h2 hc.1 hc.2 h3.1 he
    rw [e1]
    omega

theorem fan_incident_shared (a b : ℕ) (cs : List ℕ)
    (hcs : ∀ c ∈ cs, c ≠ a ∧ c ≠ b) (i : ℕ) (hi : i ≤ cs.length) :
    incident (fanTriangles a b cs) (min a b, max a b) i = List.range i := by
  induction i with
  | zero => rfl
  | succ i ih =>
    have hlt : i < cs.length := hi
    have ht : (fanTriangles a b cs).getD i default = (a, b, cs.getD i 0) := by
      unfold fanTriangles
      rw [List.getD_eq_getElem?_getD, List.getElem?_map, List.getElem?_eq_getElem hlt,
        List.getD_eq_getElem?_getD, List.getElem?_eq_getElem hlt]
      rfl
    have hc : cs.getD i 0 ∈ cs := by
      rw [List.getD_eq_getElem?_getD, List.getElem?_eq_getElem hlt]
      exact List.getElem_mem _
    rw [incident_succ, ih (Nat.le_of_succ_le hi), ht,
      fan_side_shared a b _ (hcs _ hc).1 (hcs _ hc).2, List.range_succ]
    rfl

theorem fan_edgeMap (m : TriangleMesh) (a b : ℕ) (cs : List ℕ)
    (hts : m.triangles_ = fanTriangles a b cs) (hab : a ≠ b)
    (hcs : ∀ c ∈ cs, c ≠ a ∧ c ≠ b) (hnd : cs.Nodup) (kv : Vector2i × List ℕ)
    (hkv : kv ∈ GetEdgeToTrianglesMap m) :
    (kv.1 = (min a b, max a b) → kv.2 = List.range cs.length) ∧
    (kv.1 ≠ (min a b, max a b) → kv.2.length = 1) := by
  obtain ⟨h1, _⟩ := (edgeMap_mem m kv).mp hkv
  obtain ⟨h3, h4⟩ := edgeMap_length m kv hkv
  have hlen : m.triangles_.length = cs.length := by rw [hts]; simp [fanTriangles]
  constructor
  · intro he
    rw [h1, he, hlen, hts]
    exact fan_incident_shared a b cs hcs _ (Nat.le_refl _)
  · intro he
    have := (fan_edgeCount_other_aux a b cs kv.1 hab hcs hnd he).1
    rw [hts] at h3 h4
    omega

theorem fan_shared_mem (m : TriangleMesh) (a b : ℕ) (cs : List ℕ)
    (hts : m.triangles_ = fanTriangles a b cs)
    (hcs : ∀ c ∈ cs, c ≠ a ∧ c ≠ b) (hpos : 0 < cs.length) :
    ((min a b, max a b), List.range cs.length) ∈ GetEdgeToTrianglesMap m := by
  have hlen : m.triangles_.length = cs.length := by rw [hts]; simp [fanTriangles]
  rw [edgeMap_mem]
  simp only []
  rw [hlen, hts, fan_incident_shared a b cs hcs _ (Nat.le_refl _)]
  refine ⟨rfl, ?_⟩
  intro h
  have := List.range_eq_nil.mp h
  omega

theorem smallest_fold_min (A : List ℚ) (P l : List ℕ) (r : Option ℕ × Option ℚ)
    (hr : (r = (none, none) ∧ ∀ x ∈ P, ¬ 0 < A.getD x 0) ∨
      ∃ t, r = (some t, some (A.getD t 0)) ∧ t ∈ P ∧ 0 < A.getD t 0 ∧
        ∀ x ∈ P, 0 < A.getD x 0 → A.getD t 0 ≤ A.getD x 0) :
    (l.foldl (smallestStep A) r = (none, none) ∧ ∀ x ∈ P ++ l, ¬ 0 < A.getD x 0) ∨
      ∃ t, l.foldl (smallestStep A) r = (some t, some (A.getD t 0)) ∧ t ∈ P ++ l ∧
        0 < A.getD t 0 ∧ ∀ x ∈ P ++ l, 0 < A.getD x 0 → A.getD t 0 ≤ A.getD x 0 := by
  induction l generalizing P r with
  | nil => simpa using hr
  | cons y rest ih =>
    rw [List.foldl_cons]
    have hP : P ++ y :: rest = (P ++ [y]) ++ rest := by simp
    rw [hP]
    apply ih
    unfold smallestStep
    rcases hr with ⟨hr1, hr2⟩ | ⟨t, hr1, hr2, hr3, hr4⟩
    · subst hr1
      by_cases hy : A.getD y 0 > 0
      · right
        rw [if_pos ⟨hy, rfl⟩]
        refine ⟨y, rfl, by simp, hy, ?_⟩
        intro x hx hx0
        rw [List.mem_append, List.mem_singleton] at hx
        rcases hx with hx | hx
        · exact absurd hx0 (hr2 x hx)
        · rw [hx]
      · left
        rw [if_neg (fun h => hy h.1)]
        refine ⟨rfl, ?_⟩
        intro x hx
        rw [List.mem_append, List.mem_singleton] at hx
        rcases hx with hx | hx
        · exact hr2 x hx
        · rw [hx]; exact hy
    · subst hr1
      right
      by_cases hy : A.getD y 0 > 0 ∧ belowMin (A.getD y 0) (some (A.getD t 0)) = true
      · rw [if_pos hy]
        have hlt : A.getD y 0 < A.getD t 0 := by
          have := hy.2
          unfold belowMin at this
          exact of_decide_eq_true this
        refine ⟨y, rfl, by simp, hy.1, ?_⟩
        intro x hx hx0
        rw [List.mem_append, List.mem_singleton] at hx
        rcases hx with hx | hx
        · exact le_trans (le_of_lt hlt) (hr4 x hx hx0)
        · rw [hx]
      · rw [if_neg hy]
        refine ⟨t, rfl, by simp [hr2], hr3, ?_⟩
        intro x hx hx0
        rw [List.mem_append, List.mem_singleton] at hx
        rcases hx with hx | hx
        · exact hr4 x hx hx0
        · subst hx
          by_contra hc
          apply hy
          refine ⟨hx0, ?_⟩
          unfold belowMin
          exact decide_eq_true (lt_of_not_le hc)

theorem findSmallest_min (A : List ℚ) (l : List ℕ) (hex : ∃ x ∈ l, 0 < A.getD x 0) :
    ∃ t, (findSmallest A l).1 = some t ∧ t ∈ l ∧ 0 < A.getD t 0 ∧
      ∀ x ∈ l, 0 < A.getD x 0 → A.getD t 0 ≤ A.getD x 0 := by
  rw [findSmallest_eq]
  have := smallest_fold_min A [] l (none, none) (Or.inl ⟨rfl, by simp⟩)
  simp only [List.nil_append] at this
  rcases this with ⟨_, h2⟩ | ⟨t, h1, h2, h3, h4⟩
  · obtain ⟨x, hx, hx0⟩ := hex
    exact absurd hx0 (h2 x hx)
  · exact ⟨t, by rw [h1], h2, h3, h4⟩

theorem markSmallest_fan (A0 : List ℚ) (tris : List ℕ)
    (hpos : ∀ i ∈ tris, i < A0.length ∧ 0 < A0.getD i 0)
    (hdist : ∀ i ∈ tris, ∀ j ∈ tris, i ≠ j → A0.getD i 0 ≠ A0.getD j 0)
    (n : ℕ) (D : Finset ℕ) (A : List ℚ) (hinv : MarkInv A0 tris D A)
    (hn : D.card + n ≤ tris.toFinset.card) :
    ∃ D' A', markSmallest n tris A = some A' ∧ MarkInv A0 tris D' A' ∧
      D'.card = D.card + n := by
  induction n generalizing D A with
  | zero => exact ⟨D, A, rfl, hinv, rfl⟩
  | succ n ih =>
    obtain ⟨i1, i2, i3, i4, i5⟩ := hinv
    have hex : ∃ x ∈ tris, 0 < A.getD x 0 := by
      have hlt : D.card < tris.toFinset.card := by omega
      have hx' : ∃ x ∈ tris.toFinset, x ∉ D := by
        by_contra hc
        simp only [not_exists, not_and, not_not] at hc
        have := Finset.card_le_card (show tris.toFinset ⊆ D from hc)
        omega
      obtain ⟨x, hx, hxD⟩ := hx'
      rw [List.mem_toFinset] at hx
      exact ⟨x, hx, by rw [i4 x hxD]; exact (hpos x hx).2⟩
    obtain ⟨t, ht1, ht2, ht3, ht4⟩ := findSmallest_min A tris hex
    have htD : t ∉ D := by
      intro h
      rw [i3 t h] at ht3
      exact absurd ht3 (by norm_num)
    have htl : t < A.length := by rw [i2]; exact (hpos t ht2).1
    have hinv' : MarkInv A0 tris (insert t D) (A.set t (-1)) := by
      refine ⟨?_, by simp [i2], ?_, ?_, ?_⟩
      · intro x hx
        rw [Finset.mem_insert] at hx
        rcases hx with hx | hx
        · rw [hx, List.mem_toFinset]; exact ht2
        · exact i1 hx
      · intro i hi
        rw [getD_set]
        rw [Finset.mem_insert] at hi
        by_cases he : t = i
        · rw [if_pos ⟨he, htl⟩]
        · rw [if_neg (fun h => he h.1)]
          rcases hi with hi | hi
          · exact absurd hi.symm he
          · exact i3 i hi
      · intro i hi
        rw [Finset.mem_insert, not_or] at hi
        rw [getD_set, if_neg (fun h => hi.1 h.1.symm)]
        exact i4 i hi.2
      · intro i hi j hj hjD
        rw [Finset.mem_insert, not_or] at hjD
        rw [Finset.mem_insert] at hi
        rcases hi with hi | hi
        · subst hi
          have hj0 : 0 < A.getD j 0 := by rw [i4 j hjD.2]; exact (hpos j hj).2
          have hle := ht4 j hj hj0
          rw [i4 i htD, i4 j hjD.2] at hle
          exact lt_of_le_of_ne hle (hdist i ht2 j hj (fun h => hjD.1 h.symm))
        · exact i5 i hi j hj hjD.2
    obtain ⟨D', A', e1, e2, e3⟩ := ih (insert t D) (A.set t (-1)) hinv' (by
      rw [Finset.card_insert_of_not_mem htD]; omega)
    refine ⟨D', A', ?_, e2, ?_⟩
    · unfold markSmallest
      rw [ht1]
      exact e1
    · rw [e3, Finset.card_insert_of_not_mem htD]
      omega

theorem edgeLoop_single (e0 : Vector2i) (v0 : List ℕ) (L : List (Vector2i × List ℕ))
    (st : Bool × List ℚ) (hnd : (L.map Prod.fst).Nodup)
    (hman : ∀ kv ∈ L, kv.1 ≠ e0 → kv.2.length = 1 ∨ kv.2.length = 2)
    (hmem : (e0, v0) ∈ L) : edgeLoop L st = edgeStep st (e0, v0) := by
  induction L with
  | nil => simp at hmem
  | cons kv rest ih =>
    rw [List.map_cons, List.nodup_cons] at hnd
    rw [List.mem_cons] at hmem
    by_cases hk : kv.1 = e0
    · have hkv : kv = (e0, v0) := by
        rcases hmem with h | h
        · exact h.symm
        · exfalso
          apply hnd.1
          rw [hk]
          exact List.mem_map.mpr ⟨(e0, v0), h, rfl⟩
      have hrest : ∀ kv' ∈ rest, kv'.2.length = 1 ∨ kv'.2.length = 2 := by
        intro kv' h'
        apply hman kv' (List.mem_cons_of_mem _ h')
        intro he
        apply hnd.1
        rw [hk, ← he]
        exact List.mem_map.mpr ⟨kv', h', rfl⟩
      unfold edgeLoop
      rw [hkv]
      cases h : edgeStep st (e0, v0) with
      | none => rfl
      | some st1 => exact edgeLoop_manifold rest st1 hrest
    · have hin : (e0, v0) ∈ rest := by
        rcases hmem with h | h
        · exact absurd (by rw [← h]) hk
        · exact h
      have hs : edgeStep st kv = some st := by
        unfold edgeStep
        simp only []
        rw [if_pos (hman kv (List.mem_cons_self _ _) hk)]
      unfold edgeLoop
      rw [hs]
      exact ih hnd.2 (fun kv' h' => hman kv' (List.mem_cons_of_mem _ h')) hin

theorem nonManifoldLoop_fixed (order : List (Vector2i × List ℕ) → List (Vector2i × List ℕ))
    (horder : ∀ l, (order l).Perm l) (fuel : ℕ) (m : TriangleMesh) (A : List ℚ)
    (hlen : A.length = m.triangles_.length)
    (hman : ∀ kv ∈ GetEdgeToTrianglesMap m, kv.2.length = 1 ∨ kv.2.length = 2)
    (hApos : ∀ j, j < m.triangles_.length → 0 < A.getD j 0) :
    nonManifoldLoop order (fuel + 1) m A = some m := by
  unfold nonManifoldLoop
  rw [edgeLoop_manifold _ _ (fun kv hkv => hman kv ((horder _).mem_iff.mp hkv))]
  simp only [if_true]
  rw [deleteMarked_eq m _ hlen, nmMesh_fixed m _ hApos]

theorem keptBelow_pair (p : ℕ → Bool) (n i j : ℕ) (hij : i < j) (hj : j < n)
    (hp : ∀ x, x < n → (p x = true ↔ x = i ∨ x = j)) : keptBelow p n = [i, j] := by
  have hs1 : List.Sorted (· < ·) (keptBelow p n) :=
    List.Pairwise.sublist (List.filter_sublist _) (List.pairwise_lt_range n)
  have hs2 : List.Sorted (· < ·) [i, j] := by simp [hij]
  apply List.eq_of_perm_of_sorted _ hs1 hs2
  apply (List.perm_ext_iff_of_nodup (keptBelow_nodup p n) (by simp; omega)).mpr
  intro x
  rw [mem_keptBelow]
  simp only [List.mem_cons, List.mem_singleton, List.not_mem_nil, or_false]
  constructor
  · rintro ⟨h1, h2⟩
    exact (hp x h1).mp h2
  · intro h
    have hx : x < n := by omega
    exact ⟨hx, (hp x hx).mpr h⟩

theorem nodup_eq_singleton {α : Type} (l : List α) (a : α) (hnd : l.Nodup)
    (h : ∀ x, x ∈ l ↔ x = a) : l = [a] := by
  cases l with
  | nil => exact absurd ((h a).mpr rfl) (List.not_mem_nil a)
  | cons x rest =>
    have hx : x = a := (h x).mp (List.mem_cons_self _ _)
    subst hx
    rw [List.nodup_cons] at hnd
    cases rest with
    | nil => rfl
    | cons y rest' =>
      have hy : y = x := (h y).mp (List.mem_cons_of_mem _ (List.mem_cons_self _ _))
      exact absurd (hy ▸ List.mem_cons_self _ _) hnd.1

theorem getNonManifoldEdges_nil (order : List (Vector2i × List ℕ) → List (Vector2i × List ℕ))
    (horder : ∀ l, (order l).Perm l) (m : TriangleMesh)
    (hman : ∀ kv ∈ GetEdgeToTrianglesMap m, kv.2.length = 1 ∨ kv.2.length = 2) :
    GetNonManifoldEdges order m true = [] := by
  rw [GetNonManifoldEdges_eq, List.map_eq_nil_iff, List.filter_eq_nil_iff]
  intro kv hkv
  have := hman kv ((horder _).mem_iff.mp hkv)
  unfold edgeIsNonManifold
  simp only [Bool.true_and, Bool.not_true, Bool.false_and, Bool.or_false, Bool.or_eq_true,
    decide_eq_true_eq]
  omega

theorem getTriangleAreas_getD (root : ℚ → ℚ) (m : TriangleMesh) (j : ℕ)
    (hj : j < m.triangles_.length) :
    (GetTriangleAreas root m).getD j 0 = GetTriangleArea root m j := by
  unfold GetTriangleAreas
  simp [List.getD_eq_getElem?_getD, List.getElem?_map, List.getElem?_range hj]

theorem fanTriangles_getD (a b : ℕ) (cs : List ℕ) (i : ℕ) (hi : i < cs.length) :
    (fanTriangles a b cs).getD i default = (a, b, cs.getD i 0) ∧ cs.getD i 0 ∈ cs := by
  constructor
  · unfold fanTriangles
    rw [List.getD_eq_getElem?_getD, List.getElem?_map, List.getElem?_eq_getElem hi,
      List.getD_eq_getElem?_getD, List.getElem?_eq_getElem hi]
    rfl
  · rw [List.getD_eq_getElem?_getD, List.getElem?_eq_getElem hi]
    exact List.getElem_mem _

theorem fan_getNonManifoldEdges
    (order : List (Vector2i × List ℕ) → List (Vector2i × List ℕ))
    (horder : ∀ l, (order l).Perm l) (m : TriangleMesh) (a b : ℕ) (cs : List ℕ)
    (hk : 3 ≤ cs.length) (hts : m.triangles_ = fanTriangles a b cs) (hab : a ≠ b)
    (hcs : ∀ c ∈ cs, c ≠ a ∧ c ≠ b) (hnd : cs.Nodup) :
    GetNonManifoldEdges order m true = [(min a b, max a b)] := by
  rw [GetNonManifoldEdges_eq]
  have hL : (order (GetEdgeToTrianglesMap m)).Nodup :=
    List.Nodup.of_map Prod.fst (((horder _).map Prod.fst).nodup_iff.mpr (edgeMap_inv m).1)
  have hf : (order (GetEdgeToTrianglesMap m)).filter (edgeIsNonManifold true) =
      [((min a b, max a b), List.range cs.length)] := by
    apply nodup_eq_singleton _ _ (hL.filter _)
    intro kv
    rw [List.mem_filter, (horder _).mem_iff]
    constructor
    · rintro ⟨h1, h2⟩
      obtain ⟨f1, f2⟩ := fan_edgeMap m a b cs hts hab hcs hnd kv h1
      by_cases he : kv.1 = (min a b, max a b)
      · exact Prod.ext he (f1 he)
      · exfalso
        have := f2 he
        unfold edgeIsNonManifold at h2
        simp only [Bool.true_and, Bool.not_true, Bool.false_and, Bool.or_false,
          Bool.or_eq_true, decide_eq_true_eq] at h2
        omega
    · intro h
      subst h
      refine ⟨fan_shared_mem m a b cs hts hcs (by omega), ?_⟩
      unfold edgeIsNonManifold
      simp only [Bool.true_and, Bool.not_true, Bool.false_and, Bool.or_false, Bool.or_eq_true,
        decide_eq_true_eq, List.length_range]
      omega
  rw [hf]
  rfl

theorem fan_nondegenerate (root : ℚ → ℚ) (hroot : root 0 = 0) (m : TriangleMesh) (a b : ℕ)
    (cs : List ℕ) (hk : 3 ≤ cs.length) (hts : m.triangles_ = fanTriangles a b cs)
    (hpos : ∀ i, i < cs.length → 0 < GetTriangleArea root m i) :
    a ≠ b ∧ ∀ c ∈ cs, c ≠ a ∧ c ≠ b := by
  have hnd : ∀ i, i < cs.length → a ≠ b ∧ cs.getD i 0 ≠ a ∧ cs.getD i 0 ≠ b := by
    intro i hi
    have h1 : NonDegenerate (m.triangles_.getD i default) := by
      by_contra hc
      have := area_degenerate root hroot m i hc
      have := hpos i hi
      linarith
    rw [hts, (fanTriangles_getD a b cs i hi).1] at h1
    exact ⟨h1.1, h1.2.2, fun h => h1.2.1 h.symm⟩
  refine ⟨(hnd 0 (by omega)).1, ?_⟩
  intro c hc
  obtain ⟨i, hi, rfl⟩ := List.getElem_of_mem hc
  have := hnd i hi
  rw [List.getD_eq_getElem?_getD, List.getElem?_eq_getElem hi] at this
  exact this.2

theorem fan_two_manifold (r : TriangleMesh) (a b c c' : ℕ) (hab : a ≠ b)
    (hc : c ≠ a ∧ c ≠ b) (hc' : c' ≠ a ∧ c' ≠ b) (hcc : c ≠ c')
    (hts : r.triangles_ = [(a, b, c), (a, b, c')]) :
    ∀ kv ∈ GetEdgeToTrianglesMap r, kv.2.length = 1 ∨ kv.2.length = 2 := by
  intro kv hkv
  have hcs : ∀ x ∈ [c, c'], x ≠ a ∧ x ≠ b := by
    intro x hx
    simp only [List.mem_cons, List.mem_singleton, List.not_mem_nil, or_false] at hx
    rcases hx with hx | hx <;> rw [hx]
    · exact hc
    · exact hc'
  obtain ⟨f1, f2⟩ := fan_edgeMap r a b [c, c'] hts hab hcs (by simp [hcc]) kv hkv
  by_cases he : kv.1 = (min a b, max a b)
  · right
    rw [f1 he]
    rfl
  · left
    exact f2 he

theorem fan_first_pass (root : ℚ → ℚ)
    (order : List (Vector2i × List ℕ) → List (Vector2i × List ℕ))
    (horder : ∀ l, (order l).Perm l) (m : TriangleMesh) (a b : ℕ) (cs : List ℕ)
    (hk : 3 ≤ cs.length) (hts : m.triangles_ = fanTriangles a b cs) (hnd : cs.Nodup)
    (hab : a ≠ b) (hcs : ∀ c ∈ cs, c ≠ a ∧ c ≠ b)
    (hpos : ∀ i, i < cs.length → 0 < GetTriangleArea root m i)
    (hdist : ∀ i, i < cs.length → ∀ j, j < cs.length → i ≠ j →
      GetTriangleArea root m i ≠ GetTriangleArea root m j) :
    ∃ D A', edgeLoop (order (GetEdgeToTrianglesMap m)) (true, GetTriangleAreas root m) =
        some (false, A') ∧
      MarkInv (GetTriangleAreas root m) (List.range cs.length) D A' ∧
      D.card = cs.length - 2 := by
  have hlen : m.triangles_.length = cs.length := by rw [hts]; simp [fanTriangles]
  have hAlen : (GetTriangleAreas root m).length = cs.length := by
    unfold GetTriangleAreas
    rw [List.length_map, List.length_range, hlen]
  have hAget : ∀ i, i < cs.length →
      (GetTriangleAreas root m).getD i 0 = GetTriangleArea root m i :=
    fun i hi => getTriangleAreas_getD root m i (by rw [hlen]; exact hi)
  obtain ⟨D, A', e1, inv, hc⟩ := markSmallest_fan (GetTriangleAreas root m)
    (List.range cs.length)
    (fun i hi => by
      rw [List.mem_range] at hi
      exact ⟨by rw [hAlen]; exact hi, by rw [hAget i hi]; exact hpos i hi⟩)
    (fun i hi j hj hij => by
      rw [List.mem_range] at hi hj
      rw [hAget i hi, hAget j hj]
      exact hdist i hi j hj hij)
    (cs.length - 2) ∅ (GetTriangleAreas root m)
    ⟨Finset.empty_subset _, rfl, by simp, fun _ _ => rfl, by simp⟩
    (by
      rw [List.toFinset_card_of_nodup (List.nodup_range _), List.length_range]
      simp)
  refine ⟨D, A', ?_, inv, by simpa using hc⟩
  rw [edgeLoop_single (min a b, max a b) (List.range cs.length) _ _
    (((horder _).map Prod.fst).nodup_iff.mpr (edgeMap_inv m).1)
    (fun kv hkv he => Or.inl
      ((fan_edgeMap m a b cs hts hab hcs hnd kv ((horder _).mem_iff.mp hkv)).2 he))
    ((horder _).mem_iff.mpr (fan_shared_mem m a b cs hts hcs (by omega)))]
  have hfil : ((List.range cs.length).filter
      (fun tidx => decide ((GetTriangleAreas root m).getD tidx 0 > 0))).length = cs.length := by
    rw [List.filter_eq_self.mpr, List.length_range]
    intro i hi
    rw [List.mem_range] at hi
    apply decide_eq_true
    rw [hAget i hi]
    exact hpos i hi
  unfold edgeStep
  simp only [List.length_range]
  rw [if_neg (by omega), hfil, e1]

theorem fan_survivors (k : ℕ) (D : Finset ℕ) (hk : 3 ≤ k)
    (hD : D ⊆ (List.range k).toFinset) (hc : D.card = k - 2) :
    ∃ i j, i < j ∧ j < k ∧ i ∉ D ∧ j ∉ D ∧ ∀ x, x < k → (x ∉ D ↔ x = i ∨ x = j) := by
  have hcard : ((List.range k).toFinset \ D).card = 2 := by
    rw [Finset.card_sdiff hD, List.toFinset_card_of_nodup (List.nodup_range _),
      List.length_range, hc]
    omega
  obtain ⟨x, y, hxy, hS⟩ := Finset.card_eq_two.mp hcard
  have hmem : ∀ z, (z < k ∧ z ∉ D) ↔ z = x ∨ z = y := by
    intro z
    have : z ∈ (List.range k).toFinset \ D ↔ z ∈ ({x, y} : Finset ℕ) := by rw [hS]
    rw [Finset.mem_sdiff, List.mem_toFinset, List.mem_range, Finset.mem_insert,
      Finset.mem_singleton] at this
    exact this
  have hx := (hmem x).mpr (Or.inl rfl)
  have hy := (hmem y).mpr (Or.inr rfl)
  rcases Nat.lt_or_gt_of_ne hxy with h | h
  · refine ⟨x, y, h, hy.1, hx.2, hy.2, ?_⟩
    intro z hz
    constructor
    · intro hzD
      exact (hmem z).mp ⟨hz, hzD⟩
    · intro hz'
      exact ((hmem z).mpr hz').2
  · refine ⟨y, x, h, hx.1, hy.2, hx.2, ?_⟩
    intro z hz
    constructor
    · intro hzD
      exact ((hmem z).mp ⟨hz, hzD⟩).symm
    · intro hz'
      exact ((hmem z).mpr hz'.symm).2

/-- C14: a mesh of `k ≥ 3` triangles `(a, b, c)` around one edge, with pairwise
distinct apexes `c` and pairwise distinct positive areas.  `GetNonManifoldEdges(true)`
returns exactly the edge `(min a b, max a b)`; `RemoveNonManifoldEdges` returns and
leaves exactly two triangles, in their original order, each of larger area than
every deleted triangle; `GetNonManifoldEdges(true)` is then empty. -/
theorem fan_removeNonManifoldEdges (root : ℚ → ℚ) (hroot : root 0 = 0)
    (order : List (Vector2i × List ℕ) → List (Vector2i × List ℕ))
    (horder : ∀ l, (order l).Perm l) (m : TriangleMesh) (a b : ℕ) (cs : List ℕ)
    (hk : 3 ≤ cs.length) (hts : m.triangles_ = fanTriangles a b cs) (hnd : cs.Nodup)
    (hpos : ∀ i, i < cs.length → 0 < GetTriangleArea root m i)
    (hdist : ∀ i, i < cs.length → ∀ j, j < cs.length → i ≠ j →
      GetTriangleArea root m i ≠ GetTriangleArea root m j) :
    GetNonManifoldEdges order m true = [(min a b, max a b)] ∧
    ∃ r i j, RemoveNonManifoldEdges root order m = some r ∧ i < j ∧ j < cs.length ∧
      r.triangles_ = [m.triangles_.getD i default, m.triangles_.getD j default] ∧
      (∀ l, l < cs.length → l ≠ i → l ≠ j →
        GetTriangleArea root m l < GetTriangleArea root m i ∧
        GetTriangleArea root m l < GetTriangleArea root m j) ∧
      GetNonManifoldEdges order r true = [] := by
  obtain ⟨hab, hcs⟩ := fan_nondegenerate root hroot m a b cs hk hts hpos
  refine ⟨fan_getNonManifoldEdges order horder m a b cs hk hts hab hcs hnd, ?_⟩
  have hlen : m.triangles_.length = cs.length := by rw [hts]; simp [fanTriangles]
  have hAget : ∀ i, i < cs.length →
      (GetTriangleAreas root m).getD i 0 = GetTriangleArea root m i :=
    fun i hi => getTriangleAreas_getD root m i (by rw [hlen]; exact hi)
  obtain ⟨D, A', hloop, ⟨i1, i2, i3, i4, i5⟩, hc⟩ :=
    fan_first_pass root order horder m a b cs hk hts hnd hab hcs hpos hdist
  obtain ⟨i, j, hij, hj, hiD, hjD, hS⟩ := fan_survivors cs.length D hk i1 hc
  have hi : i < cs.length := by omega
  have hA'len : A'.length = m.triangles_.length := by
    rw [i2, hlen]
    unfold GetTriangleAreas
    rw [List.length_map, List.length_range, hlen]
  have hA'pos : ∀ x, x < cs.length → x ∉ D → 0 < A'.getD x 0 := by
    intro x hx hxD
    rw [i4 x hxD, hAget x hx]
    exact hpos x hx
  have hkept : nmKept A' m.triangles_.length = [i, j] := by
    rw [hlen]
    unfold nmKept
    apply keptBelow_pair _ _ i j hij hj
    intro x hx
    rw [← hS x hx, decide_eq_true_iff]
    constructor
    · intro h hxD
      rw [i3 x hxD] at h
      exact absurd h (by norm_num)
    · exact hA'pos x hx
  have hrt : (nmMesh m A').triangles_ =
      [m.triangles_.getD i default, m.triangles_.getD j default] := by
    unfold nmMesh
    simp only []
    rw [hkept]
    rfl
  have hman : ∀ kv ∈ GetEdgeToTrianglesMap (nmMesh m A'),
      kv.2.length = 1 ∨ kv.2.length = 2 := by
    apply fan_two_manifold (nmMesh m A') a b (cs.getD i 0) (cs.getD j 0) hab
      (hcs _ (fanTriangles_getD a b cs i hi).2) (hcs _ (fanTriangles_getD a b cs j hj).2)
    · intro h
      rw [List.getD_eq_getElem?_getD, List.getElem?_eq_getElem hi, List.getD_eq_getElem?_getD,
        List.getElem?_eq_getElem hj] at h
      have := (hnd.getElem_inj_iff).mp (Option.some.inj (congrArg some h))
      omega
    · rw [hrt, hts, (fanTriangles_getD a b cs i hi).1, (fanTriangles_getD a b cs j hj).1]
  have hfix := nonManifoldLoop_fixed order horder (m.triangles_.length - 1) (nmMesh m A')
    ((nmKept A' m.triangles_.length).map fun x => A'.getD x 0)
    (by rw [hrt, hkept]; rfl) hman (by
      intro x hx
      rw [hrt] at hx
      rw [hkept]
      simp only [List.length_cons, List.length_nil] at hx
      have hx' : x = 0 ∨ x = 1 := by omega
      rcases hx' with hx' | hx' <;> subst hx'
      · exact hA'pos i hi hiD
      · exact hA'pos j hj hjD)
  rw [Nat.sub_add_cancel (by omega)] at hfix
  refine ⟨nmMesh m A', i, j, ?_, hij, hj, hrt, ?_,
    getNonManifoldEdges_nil order horder _ hman⟩
  · unfold RemoveNonManifoldEdges nonManifoldLoop
    rw [hloop]
    simp only [Bool.false_eq_true, if_false]
    rw [deleteMarked_eq m A' hA'len]
    exact hfix
  · intro l hl hli hlj
    have hlD : l ∈ D := by
      by_contra hc'
      rcases (hS l hl).mp hc' with h | h
      · exact hli h
      · exact hlj h
    have h1 := i5 l hlD i (List.mem_range.mpr hi) hiD
    have h2 := i5 l hlD j (List.mem_range.mpr hj) hjD
    rw [hAget l hl, hAget i hi] at h1
    rw [hAget l hl, hAget j hj] at h2
    exact ⟨h1, h2⟩

theorem fan_removeNonManifoldEdges_witness :
    (∀ i, i < [2, 3, 4].length → 0 < GetTriangleArea id fanMesh i) ∧
      (∀ i, i < [2, 3, 4].length → ∀ j, j < [2, 3, 4].length → i ≠ j →
        GetTriangleArea id fanMesh i ≠ GetTriangleArea id fanMesh j) ∧
      GetNonManifoldEdges id fanMesh true = [(min 0 1, max 0 1)] ∧
      ∃ r i j, RemoveNonManifoldEdges id id fanMesh = some r ∧ i < j ∧ j < [2, 3, 4].length ∧
        r.triangles_ = [fanMesh.triangles_.getD i default, fanMesh.triangles_.getD j default] ∧
        (∀ l, l < [2, 3, 4].length → l ≠ i → l ≠ j →
          GetTriangleArea id fanMesh l < GetTriangleArea id fanMesh i ∧
          GetTriangleArea id fanMesh l < GetTriangleArea id fanMesh j) ∧
        GetNonManifoldEdges id r true = [] :=
  ⟨by decide!, by decide!,
    fan_removeNonManifoldEdges id rfl id (fun l => List.Perm.refl l) fanMesh 0 1 [2, 3, 4]
      (by decide) rfl (by decide) (by decide!) (by decide!)⟩

/-! ## C18: GetNonManifoldVertices -/

theorem mem_setInsert (l : List ℕ) (x y : ℕ) : y ∈ setInsert l x ↔ y ∈ l ∨ y = x := by
  unfold setInsert
  split_ifs with h
  · constructor
    · exact Or.inl
    · rintro (h' | h')
      · exact h'
      · rw [h']; exact h
  · simp

theorem nodup_setInsert (l : List ℕ) (x : ℕ) (h : l.Nodup) : (setInsert l x).Nodup := by
  unfold setInsert
  split_ifs with hx
  · exact h
  · rw [List.nodup_append]
    refine ⟨h, List.nodup_singleton _, ?_⟩
    intro y hy hy2
    rw [List.mem_singleton] at hy2
    exact hx (hy2 ▸ hy)

theorem vertInsert_spec (V : List (List ℕ)) (vidx tidx : ℕ) (hv : vidx < V.length)
    (hnd : ∀ v, (V.getD v []).Nodup) :
    (vertInsert V vidx tidx).length = V.length ∧
    (∀ v, ((vertInsert V vidx tidx).getD v []).Nodup) ∧
    ∀ v x, x ∈ (vertInsert V vidx tidx).getD v [] ↔ x ∈ V.getD v [] ∨ (v = vidx ∧ x = tidx) := by
  unfold vertInsert
  refine ⟨by simp, ?_, ?_⟩
  · intro v
    rw [getD_set]
    split_ifs
    · exact nodup_setInsert _ _ (hnd vidx)
    · exact hnd v
  · intro v x
    rw [getD_set]
    by_cases h : vidx = v
    · subst h
      rw [if_pos ⟨rfl, hv⟩, mem_setInsert]
      constructor
      · rintro (h' | h')
        · exact Or.inl h'
        · exact Or.inr ⟨rfl, h'⟩
      · rintro (h' | h')
        · exact Or.inl h'
        · exact Or.inr h'.2
    · rw [if_neg (fun h' => h h'.1)]
      constructor
      · exact Or.inl
      · rintro (h' | h')
        · exact h'
        · exact absurd h'.1.symm h

theorem vertToTriangles_spec (m : TriangleMesh) (hwf : WellFormed m) :
    (vertToTriangles m).length = m.vertices_.length ∧
    (∀ v, ((vertToTriangles m).getD v []).Nodup) ∧
    ∀ v x, x ∈ (vertToTriangles m).getD v [] ↔
      x < m.triangles_.length ∧ IsCorner (m.triangles_.getD x default) v := by
  unfold vertToTriangles
  apply foldl_range_inv _ _ (fun i (V : List (List ℕ)) =>
    V.length = m.vertices_.length ∧ (∀ v, (V.getD v []).Nodup) ∧
    ∀ v x, x ∈ V.getD v [] ↔ x < i ∧ IsCorner (m.triangles_.getD x default) v)
  · refine ⟨by simp, ?_, ?_⟩
    · intro v
      simp [List.getD_eq_getElem?_getD, List.getElem?_replicate]
      split_ifs <;> simp
    · intro v x
      simp only [List.getD_eq_getElem?_getD, List.getElem?_replicate]
      split_ifs <;> simp
  · intro i hi V hV
    obtain ⟨h1, h2, h3⟩ := hV
    have hmem : m.triangles_.getD i default ∈ m.triangles_ := by
      rw [List.getD_eq_getElem?_getD, List.getElem?_eq_getElem hi]
      exact List.getElem_mem _
    have hw := hwf _ hmem
    simp only []
    obtain ⟨a1, a2, a3⟩ := vertInsert_spec V (m.triangles_.getD i default).1 i
      (by rw [h1]; exact hw.1) h2
    obtain ⟨b1, b2, b3⟩ := vertInsert_spec _ (m.triangles_.getD i default).2.1 i
      (by rw [a1, h1]; exact hw.2.1) a2
    obtain ⟨c1, c2, c3⟩ := vertInsert_spec _ (m.triangles_.getD i default).2.2 i
      (by rw [b1, a1, h1]; exact hw.2.2) b2
    refine ⟨by rw [c1, b1, a1, h1], c2, ?_⟩
    intro v x
    rw [c3, b3, a3, h3]
    unfold IsCorner
    constructor
    · rintro (((⟨h, hc⟩ | ⟨h, h'⟩) | ⟨h, h'⟩) | ⟨h, h'⟩)
      · exact ⟨by omega, hc⟩
      · subst h'; exact ⟨by omega, Or.inl h⟩
      · subst h'; exact ⟨by omega, Or.inr (Or.inl h)⟩
      · subst h'; exact ⟨by omega, Or.inr (Or.inr h)⟩
    · rintro ⟨h, hc⟩
      by_cases hx : x = i
      · subst hx
        rcases hc with hc | hc | hc
        · exact Or.inl (Or.inl (Or.inr ⟨hc, rfl⟩))
        · exact Or.inl (Or.inr ⟨hc, rfl⟩)
        · exact Or.inr ⟨hc, rfl⟩
      · exact Or.inl (Or.inl (Or.inl ⟨by omega, hc⟩))

theorem linkInsert_spec (E : List (ℕ × List ℕ)) (u w : ℕ) (h : MapOK E) :
    MapOK (linkInsert E u w) ∧
    ∀ a b, MapAdj (linkInsert E u w) a b ↔ MapAdj E a b ∨ (a = u ∧ b = w) := by
  obtain ⟨h1, h2, h3⟩ := h
  have hadj : ∀ a b, MapAdj (linkInsert E u w) a b ↔ MapAdj E a b ∨ (a = u ∧ b = w) := by
    intro a b
    unfold MapAdj linkInsert
    rw [mapFind_mapSet]
    by_cases hu : u = a
    · subst hu
      rw [if_pos rfl]
      simp only [Option.getD_some]
      rw [mem_setInsert]
      constructor
      · rintro (h' | h')
        · exact Or.inl h'
        · exact Or.inr ⟨trivial, h'⟩
      · rintro (h' | h')
        · exact Or.inl h'
        · exact Or.inr h'.2
    · rw [if_neg hu]
      constructor
      · exact Or.inl
      · rintro (h' | h')
        · exact h'
        · exact absurd h'.1.symm hu
  refine ⟨⟨?_, ?_, ?_⟩, hadj⟩
  · exact mapSet_keys_nodup _ _ _ h1
  · intro a
    unfold linkInsert
    rw [mapFind_mapSet]
    split_ifs
    · simp only [Option.getD_some]
      exact nodup_setInsert _ _ (h2 u)
    · exact h2 a
  · intro a
    have hk : a ∈ (linkInsert E u w).map Prod.fst ↔ a ∈ E.map Prod.fst ∨ a = u := by
      unfold linkInsert
      rw [mapSet_keys]
      split_ifs with hin
      · constructor
        · exact Or.inl
        · rintro (h' | h')
          · exact h'
          · rw [h']; exact hin
      · simp
    rw [hk, h3]
    constructor
    · rintro (⟨b, hb⟩ | h')
      · exact ⟨b, (hadj a b).mpr (Or.inl hb)⟩
      · exact ⟨w, (hadj a w).mpr (Or.inr ⟨h', rfl⟩)⟩
    · rintro ⟨b, hb⟩
      rcases (hadj a b).mp hb with h' | h'
      · exact Or.inl ⟨b, h'⟩
      · exact Or.inr h'.1

theorem linkStep_eq (ts : List Vector3i) (v : ℕ) (E : List (ℕ × List ℕ)) (tidx : ℕ) :
    linkStep ts v E tidx =
      match linkPair (ts.getD tidx default) v with
      | none => E
      | some p => linkInsert (linkInsert E p.1 p.2) p.2 p.1 := by
  unfold linkStep linkPair
  simp only []
  split_ifs <;> rfl

theorem linkStep_inv (ts : List Vector3i) (v : ℕ) (P : List ℕ) (E : List (ℕ × List ℕ))
    (tidx : ℕ) (h : LinkInv ts v P E) : LinkInv ts v (P ++ [tidx]) (linkStep ts v E tidx) := by
  obtain ⟨h1, h2⟩ := h
  rw [linkStep_eq]
  cases hp : linkPair (ts.getD tidx default) v with
  | none =>
    refine ⟨h1, ?_⟩
    intro a b
    rw [h2]
    constructor
    · rintro ⟨x, hx, p, hp', hab⟩
      exact ⟨x, List.mem_append_left _ hx, p, hp', hab⟩
    · rintro ⟨x, hx, p, hp', hab⟩
      rw [List.mem_append, List.mem_singleton] at hx
      rcases hx with hx | hx
      · exact ⟨x, hx, p, hp', hab⟩
      · subst hx
        rw [hp] at hp'
        exact absurd hp' (by simp)
  | some p =>
    obtain ⟨a1, a2⟩ := linkInsert_spec E p.1 p.2 h1
    obtain ⟨b1, b2⟩ := linkInsert_spec _ p.2 p.1 a1
    refine ⟨b1, ?_⟩
    intro a b
    simp only []
    rw [b2, a2, h2]
    constructor
    · rintro ((⟨x, hx, q, hq, hab⟩ | ⟨ha, hb⟩) | ⟨ha, hb⟩)
      · exact ⟨x, List.mem_append_left _ hx, q, hq, hab⟩
      · exact ⟨tidx, by simp, p, hp, Or.inl (by rw [ha, hb])⟩
      · exact ⟨tidx, by simp, p, hp, Or.inr (by rw [ha, hb])⟩
    · rintro ⟨x, hx, q, hq, hab⟩
      rw [List.mem_append, List.mem_singleton] at hx
      rcases hx with hx | hx
      · exact Or.inl (Or.inl ⟨x, hx, q, hq, hab⟩)
      · subst hx
        rw [hp] at hq
        have hq' := Option.some.inj hq
        subst hq'
        rcases hab with hab | hab
        · left; right
          exact ⟨(congrArg Prod.fst hab), (congrArg Prod.snd hab)⟩
        · right
          exact ⟨(congrArg Prod.snd hab), (congrArg Prod.fst hab)⟩

theorem linkFold_inv (ts : List Vector3i) (v : ℕ) (L P : List ℕ) (E : List (ℕ × List ℕ))
    (h : LinkInv ts v P E) : LinkInv ts v (P ++ L) (L.foldl (linkStep ts v) E) := by
  induction L generalizing P E with
  | nil => simpa using h
  | cons x rest ih =>
    rw [List.foldl_cons]
    have hP : P ++ x :: rest = (P ++ [x]) ++ rest := by simp
    rw [hP]
    exact ih _ _ (linkStep_inv ts v P E x h)

theorem linkInv_nil (ts : List Vector3i) (v : ℕ) : LinkInv ts v [] [] := by
  refine ⟨⟨by simp, ?_, ?_⟩, ?_⟩
  · intro a; simp [mapFind]
  · intro a; simp [MapAdj, mapFind]
  · intro a b; simp [MapAdj, mapFind]

theorem linkPair_corner (x y z : ℕ) (hnd : NonDegenerate (x, y, z)) :
    linkPair (x, y, z) x = some (y, z) ∧ linkPair (x, y, z) y = some (x, z) ∧
      linkPair (x, y, z) z = some (x, y) := by
  unfold NonDegenerate at hnd
  simp only [ne_eq] at hnd
  obtain ⟨h1, h2, h3⟩ := hnd
  have h1' : ¬ y = x := fun h => h1 h.symm
  have h2' : ¬ z = y := fun h => h2 h.symm
  have h3' : ¬ x = z := fun h => h3 h.symm
  unfold linkPair
  simp [h1, h2, h3, h1', h2', h3']

theorem triple_inj (a b c a' b' c' : ℕ) (h : (a, b, c) = (a', b', c')) :
    a = a' ∧ b = b' ∧ c = c' := by
  simp only [Prod.mk.injEq] at h
  exact h

theorem linkPair_spec (t : Vector3i) (v a b : ℕ) (hnd : NonDegenerate t)
    (hc : IsCorner t v) :
    (∃ p, linkPair t v = some p ∧ ((a, b) = p ∨ (b, a) = p)) ↔
      (t = (v, a, b) ∨ t = (v, b, a) ∨ t = (a, v, b) ∨ t = (b, v, a) ∨
        t = (a, b, v) ∨ t = (b, a, v)) := by
  obtain ⟨x, y, z⟩ := t
  obtain ⟨e1, e2, e3⟩ := linkPair_corner x y z hnd
  unfold NonDegenerate at hnd
  simp only [ne_eq] at hnd
  unfold IsCorner at hc
  simp only [] at hc
  rcases hc with hc | hc | hc
  · subst hc
    rw [e1]
    constructor
    · rintro ⟨p, hp, h | h⟩
      · rw [← Option.some.inj hp] at h
        obtain ⟨h1, h2⟩ := Prod.mk.inj h
        rw [h1, h2]
        exact Or.inl rfl
      · rw [← Option.some.inj hp] at h
        obtain ⟨h1, h2⟩ := Prod.mk.inj h
        rw [h1, h2]
        exact Or.inr (Or.inl rfl)
    · rintro (h | h | h | h | h | h) <;> have h' := triple_inj _ _ _ _ _ _ h
      · exact ⟨(y, z), rfl, Or.inl (by rw [h'.2.1, h'.2.2])⟩
      · exact ⟨(y, z), rfl, Or.inr (by rw [h'.2.1, h'.2.2])⟩
      · exact absurd h'.2.1.symm hnd.1
      · exact absurd h'.2.1.symm hnd.1
      · exact absurd h'.2.2 hnd.2.2
      · exact absurd h'.2.2 hnd.2.2
  · subst hc
    rw [e2]
    constructor
    · rintro ⟨p, hp, h | h⟩
      · rw [← Option.some.inj hp] at h
        obtain ⟨h1, h2⟩ := Prod.mk.inj h
        rw [h1, h2]
        exact Or.inr (Or.inr (Or.inl rfl))
      · rw [← Option.some.inj hp] at h
        obtain ⟨h1, h2⟩ := Prod.mk.inj h
        rw [h1, h2]
        exact Or.inr (Or.inr (Or.inr (Or.inl rfl)))
    · rintro (h | h | h | h | h | h) <;> have h' := triple_inj _ _ _ _ _ _ h
      · exact absurd h'.1 hnd.1
      · exact absurd h'.1 hnd.1
      · exact ⟨(x, z), rfl, Or.inl (by rw [h'.1, h'.2.2])⟩
      · exact ⟨(x, z), rfl, Or.inr (by rw [h'.1, h'.2.2])⟩
      · exact absurd h'.2.2.symm hnd.2.1
      · exact absurd h'.2.2.symm hnd.2.1
  · subst hc
    rw [e3]
    constructor
    · rintro ⟨p, hp, h | h⟩
      · rw [← Option.some.inj hp] at h
        obtain ⟨h1, h2⟩ := Prod.mk.inj h
        rw [h1, h2]
        exact Or.inr (Or.inr (Or.inr (Or.inr (Or.inl rfl))))
      · rw [← Option.some.inj hp] at h
        obtain ⟨h1, h2⟩ := Prod.mk.inj h
        rw [h1, h2]
        exact Or.inr (Or.inr (Or.inr (Or.inr (Or.inr rfl))))
    · rintro (h | h | h | h | h | h) <;> have h' := triple_inj _ _ _ _ _ _ h
      · exact absurd h'.1.symm hnd.2.2
      · exact absurd h'.1.symm hnd.2.2
      · exact absurd h'.2.1 hnd.2.1
      · exact absurd h'.2.1 hnd.2.1
      · exact ⟨(x, y), rfl, Or.inl (by rw [h'.1, h'.2.1])⟩
      · exact ⟨(x, y), rfl, Or.inr (by rw [h'.1, h'.2.1])⟩

theorem visitNbs_spec (nbs next visited : List ℕ) (hnd : visited.Nodup) :
    ∃ new, visitNbs nbs (next, visited) = (next ++ new, visited ++ new) ∧
      (visited ++ new).Nodup ∧ (∀ x ∈ new, x ∈ nbs) ∧ ∀ x ∈ nbs, x ∈ visited ++ new := by
  induction nbs generalizing next visited with
  | nil => exact ⟨[], by simp [visitNbs], by simpa using hnd, by simp, by simp⟩
  | cons nb rest ih =>
    unfold visitNbs
    rw [List.foldl_cons]
    by_cases h : nb ∈ visited
    · rw [if_pos h]
      obtain ⟨new, e1, e2, e3, e4⟩ := ih next visited hnd
      refine ⟨new, e1, e2, fun x hx => List.mem_cons_of_mem _ (e3 x hx), ?_⟩
      intro x hx
      rw [List.mem_cons] at hx
      rcases hx with hx | hx
      · rw [hx]; exact List.mem_append_left _ h
      · exact e4 x hx
    · rw [if_neg h]
      have hnd' : (visited ++ [nb]).Nodup := by
        rw [List.nodup_append]
        refine ⟨hnd, List.nodup_singleton _, ?_⟩
        intro y hy hy2
        rw [List.mem_singleton] at hy2
        exact h (hy2 ▸ hy)
      obtain ⟨new, e1, e2, e3, e4⟩ := ih (next ++ [nb]) (visited ++ [nb]) hnd'
      refine ⟨nb :: new, ?_, ?_, ?_, ?_⟩
      · simp only [] at e1 ⊢
        unfold visitNbs at e1
        rw [e1]
        simp
      · simpa using e2
      · intro x hx
        rw [List.mem_cons] at hx
        rcases hx with hx | hx
        · rw [hx]; exact List.mem_cons_self _ _
        · exact List.mem_cons_of_mem _ (e3 x hx)
      · intro x hx
        rw [List.mem_cons] at hx
        rcases hx with hx | hx
        · rw [hx]; simp
        · have := e4 x hx
          simpa using this

theorem mapFind_of_key {κ ν : Type} [DecidableEq κ] (l : List (κ × ν)) (k : κ)
    (h : k ∈ l.map Prod.fst) : ∃ v, mapFind l k = some v := by
  induction l with
  | nil => simp at h
  | cons x rest ih =>
    obtain ⟨a, w⟩ := x
    unfold mapFind
    by_cases e : a = k
    · exact ⟨w, by rw [if_pos e]⟩
    · rw [if_neg e]
      apply ih
      rw [List.map_cons, List.mem_cons] at h
      rcases h with h | h
      · exact absurd h.symm e
      · exact h

theorem linkSearch_spec (order : List ℕ → List ℕ) (horder : ∀ l, (order l).Perm l)
    (E : List (ℕ × List ℕ))
    (hkey : ∀ a b, MapAdj E a b → b ∈ E.map Prod.fst) (start : ℕ) (fuel : ℕ)
    (s : LinkSearch) (hinv : SearchInv E start s)
    (hfuel : (E.length - s.visited.length) + s.next.length < fuel) :
    ∃ s', linkSearch order fuel s = some s' ∧ SearchInv E start s' ∧ s'.next = [] := by
  induction fuel generalizing s with
  | zero => omega
  | succ fuel ih =>
    obtain ⟨Es, next, visited⟩ := s
    obtain ⟨h1, h2, h3, h4, h5, h6, h7⟩ := hinv
    simp only [] at h1 h2 h3 h4 h5 h6 h7 hfuel
    subst h1
    unfold linkSearch
    cases next with
    | nil => exact ⟨_, rfl, ⟨rfl, h2, h3, h4, h5, h6, h7⟩, rfl⟩
    | cons vert rest =>
      simp only []
      have hv : vert ∈ visited := h3 vert (List.mem_cons_self _ _)
      obtain ⟨nbs, hnbs⟩ := mapFind_of_key Es vert (h7 vert hv)
      have hidx : mapIndex Es vert = (Es, nbs) := by
        unfold mapIndex
        rw [hnbs]
      rw [hidx]
      simp only []
      have hadj : ∀ w, MapAdj Es vert w ↔ w ∈ order nbs := by
        intro w
        unfold MapAdj
        rw [hnbs, (horder nbs).mem_iff]
        rfl
      obtain ⟨new, e1, e2, e3, e4⟩ := visitNbs_spec (order nbs) rest visited h2
      rw [e1]
      simp only []
      have hkeys : ∀ x ∈ visited ++ new, x ∈ Es.map Prod.fst := by
        intro x hx
        rw [List.mem_append] at hx
        rcases hx with hx | hx
        · exact h7 x hx
        · exact hkey vert x ((hadj x).mpr (e3 x hx))
      have hlen : (visited ++ new).length ≤ Es.length := by
        have := (e2.subperm hkeys).length_le
        rwa [List.length_map] at this
      apply ih
      · refine ⟨rfl, e2, ?_, ?_, List.mem_append_left _ h5, ?_, hkeys⟩
        · intro x hx
          rw [List.mem_append] at hx ⊢
          rcases hx with hx | hx
          · exact Or.inl (h3 x (List.mem_cons_of_mem _ hx))
          · exact Or.inr hx
        · intro x hx
          rw [List.mem_append] at hx
          rcases hx with hx | hx
          · exact h4 x hx
          · exact Relation.ReflTransGen.tail (h4 vert hv) ((hadj x).mpr (e3 x hx))
        · intro x hx hxn w hw
          simp only [List.mem_append, not_or] at hxn
          rw [List.mem_append] at hx
          have hxv : x ∈ visited := by
            rcases hx with hx | hx
            · exact hx
            · exact absurd hx hxn.2
          by_cases hxe : x = vert
          · subst hxe
            exact e4 w ((hadj w).mp hw)
          · apply List.mem_append_left
            apply h6 x hxv _ w hw
            intro hc
            rw [List.mem_cons] at hc
            rcases hc with hc | hc
            · exact hxe hc
            · exact hxn.1 hc
      · simp only [List.length_append, List.length_cons] at hfuel hlen ⊢
        omega

theorem search_closed (E : List (ℕ × List ℕ)) (start : ℕ) (s : LinkSearch)
    (hinv : SearchInv E start s) (hn : s.next = []) (a : ℕ)
    (h : Relation.ReflTransGen (MapAdj E) start a) : a ∈ s.visited := by
  obtain ⟨_, _, _, _, h5, h6, _⟩ := hinv
  induction h with
  | refl => exact h5
  | tail _ hbc ih => exact h6 _ ih (by rw [hn]; simp) _ hbc

theorem search_length (E : List (ℕ × List ℕ)) (hE : MapOK E) (start : ℕ) (s : LinkSearch)
    (hinv : SearchInv E start s) (hn : s.next = []) :
    s.visited.length = s.edges.length ↔
      ∀ a ∈ E.map Prod.fst, Relation.ReflTransGen (MapAdj E) start a := by
  have hcl := search_closed E start s hinv hn
  obtain ⟨h1, h2, _, h4, _, _, h7⟩ := hinv
  have hsub := h2.subperm h7
  rw [h1]
  constructor
  · intro hlen a ha
    have hperm := hsub.perm_of_length_le (by rw [List.length_map, hlen])
    exact h4 a (hperm.mem_iff.mpr ha)
  · intro hall
    have h1' := hsub.length_le
    have h2' := (hE.1.subperm (fun a ha => hcl a (hall a ha))).length_le
    rw [List.length_map] at h1' h2'
    omega

theorem linkAdj_symm (ts : List Vector3i) (v a b : ℕ) (h : LinkAdj ts v a b) :
    LinkAdj ts v b a := by
  obtain ⟨t, ht, h⟩ := h
  refine ⟨t, ht, ?_⟩
  rcases h with h | h | h | h | h | h
  · exact Or.inr (Or.inl h)
  · exact Or.inl h
  · exact Or.inr (Or.inr (Or.inr (Or.inl h)))
  · exact Or.inr (Or.inr (Or.inl h))
  · exact Or.inr (Or.inr (Or.inr (Or.inr (Or.inr h))))
  · exact Or.inr (Or.inr (Or.inr (Or.inr (Or.inl h))))

theorem linkAdj_corner (t : Vector3i) (v a b : ℕ)
    (h : t = (v, a, b) ∨ t = (v, b, a) ∨ t = (a, v, b) ∨ t = (b, v, a) ∨
      t = (a, b, v) ∨ t = (b, a, v)) : IsCorner t v := by
  unfold IsCorner
  rcases h with h | h | h | h | h | h <;> rw [h] <;> simp

theorem linkEdges_adj (order : List ℕ → List ℕ) (horder : ∀ l, (order l).Perm l)
    (ts : List Vector3i) (hnd : ∀ t ∈ ts, NonDegenerate t) (v : ℕ) (l : List ℕ)
    (hl : ∀ x, x ∈ l ↔ x < ts.length ∧ IsCorner (ts.getD x default) v) :
    MapOK ((order l).foldl (linkStep ts v) []) ∧
    ∀ a b, MapAdj ((order l).foldl (linkStep ts v) []) a b ↔ LinkAdj ts v a b := by
  obtain ⟨h1, h2⟩ := linkFold_inv ts v (order l) [] [] (linkInv_nil ts v)
  refine ⟨h1, ?_⟩
  intro a b
  rw [h2]
  simp only [List.nil_append]
  constructor
  · rintro ⟨tidx, ht, hp⟩
    obtain ⟨hlt, hc⟩ := (hl tidx).mp ((horder l).mem_iff.mp ht)
    have hmem : ts.getD tidx default ∈ ts := by
      rw [List.getD_eq_getElem?_getD, List.getElem?_eq_getElem hlt]
      exact List.getElem_mem _
    exact ⟨_, hmem, (linkPair_spec _ v a b (hnd _ hmem) hc).mp hp⟩
  · rintro ⟨t, ht, h⟩
    obtain ⟨tidx, hlt, rfl⟩ := List.getElem_of_mem ht
    have hg : ts.getD tidx default = ts[tidx] := by
      rw [List.getD_eq_getElem?_getD, List.getElem?_eq_getElem hlt]
      rfl
    have hc := linkAdj_corner _ v a b h
    refine ⟨tidx, (horder l).mem_iff.mpr ((hl tidx).mpr ⟨hlt, by rw [hg]; exact hc⟩), ?_⟩
    rw [hg]
    exact (linkPair_spec _ v a b (hnd _ ht) hc).mpr h

theorem vertexIsNonManifold_spec (order : List ℕ → List ℕ) (horder : ∀ l, (order l).Perm l)
    (ts : List Vector3i) (hnd : ∀ t ∈ ts, NonDegenerate t) (v : ℕ) (l : List ℕ)
    (hl : ∀ x, x ∈ l ↔ x < ts.length ∧ IsCorner (ts.getD x default) v) (hne : l ≠ []) :
    ∃ b, vertexIsNonManifold order ts v l = some b ∧ (b = true ↔ ¬ LinkConnected ts v) := by
  obtain ⟨hE, hadj⟩ := linkEdges_adj order horder ts hnd v l hl
  have hrel : MapAdj ((order l).foldl (linkStep ts v) []) = LinkAdj ts v := by
    funext a b
    exact propext (hadj a b)
  have hkeyiff : ∀ a, a ∈ ((order l).foldl (linkStep ts v) []).map Prod.fst ↔
      LinkVertex ts v a := by
    intro a
    rw [hE.2.2]
    unfold LinkVertex
    rw [hrel]
  have hkey : ∀ a b, MapAdj ((order l).foldl (linkStep ts v) []) a b →
      b ∈ ((order l).foldl (linkStep ts v) []).map Prod.fst := by
    intro a b hab
    rw [hkeyiff]
    rw [hrel] at hab
    exact ⟨a, linkAdj_symm ts v a b hab⟩
  have hex : ∃ a, LinkVertex ts v a := by
    obtain ⟨x, hx⟩ := List.exists_mem_of_ne_nil l hne
    obtain ⟨hlt, hc⟩ := (hl x).mp hx
    have hmem : ts.getD x default ∈ ts := by
      rw [List.getD_eq_getElem?_getD, List.getElem?_eq_getElem hlt]
      exact List.getElem_mem _
    have hndx := hnd _ hmem
    obtain ⟨c0, c1, c2⟩ := linkPair_corner (ts.getD x default).1 (ts.getD x default).2.1
      (ts.getD x default).2.2 hndx
    unfold IsCorner at hc
    rcases hc with hc | hc | hc
    · exact ⟨_, _, _, hmem, (linkPair_spec _ v _ _ hndx (Or.inl hc)).mp
        ⟨_, by rw [hc]; exact c0, Or.inl rfl⟩⟩
    · exact ⟨_, _, _, hmem, (linkPair_spec _ v _ _ hndx (Or.inr (Or.inl hc))).mp
        ⟨_, by rw [hc]; exact c1, Or.inl rfl⟩⟩
    · exact ⟨_, _, _, hmem, (linkPair_spec _ v _ _ hndx (Or.inr (Or.inr hc))).mp
        ⟨_, by rw [hc]; exact c2, Or.inl rfl⟩⟩
  unfold vertexIsNonManifold
  simp only []
  generalize hEq : (order l).foldl (linkStep ts v) [] = E at hE hadj hrel hkeyiff hkey
  cases ho : order (E.map Prod.fst) with
  | nil =>
    exfalso
    obtain ⟨a, ha⟩ := hex
    have := (horder _).mem_iff.mpr ((hkeyiff a).mpr ha)
    rw [ho] at this
    exact List.not_mem_nil _ this
  | cons start rest =>
    simp only []
    have hstart : start ∈ E.map Prod.fst := by
      apply (horder _).mem_iff.mp
      rw [ho]
      exact List.mem_cons_self _ _
    have hpos : 0 < E.length := by
      have := List.length_pos_of_mem hstart
      rwa [List.length_map] at this
    obtain ⟨s', e1, e2, e3⟩ := linkSearch_spec order horder E hkey start (E.length + 1)
      { edges := E, next := [start], visited := [start] }
      ⟨rfl, List.nodup_singleton _, fun x hx => hx,
        fun x hx => by
          rw [List.mem_singleton] at hx
          rw [hx],
        List.mem_singleton_self _,
        fun x hx hxn => absurd hx hxn,
        fun x hx => by
          rw [List.mem_singleton] at hx
          rw [hx]; exact hstart⟩
      (by simp only [List.length_singleton]; omega)
    rw [e1]
    refine ⟨_, rfl, ?_⟩
    have hlen := search_length E hE start s' e2 e3
    rw [bne_iff_ne, ne_eq, hlen, hrel]
    apply not_congr
    constructor
    · intro hall a b ha hb
      have h1 := hall a ((hkeyiff a).mpr ha)
      have h2 := hall b ((hkeyiff b).mpr hb)
      have hsymm : Symmetric (LinkAdj ts v) := fun x y hxy => linkAdj_symm ts v x y hxy
      exact Relation.ReflTransGen.trans (Relation.ReflTransGen.symmetric hsymm h1) h2
    · intro hcon a ha
      exact hcon start a ((hkeyiff start).mp hstart) ((hkeyiff a).mp ha)

theorem getNonManifoldVertices_eq (order : List ℕ → List ℕ) (m : TriangleMesh)
    (h : ∀ v, v < m.vertices_.length → ((vertToTriangles m).getD v []).length ≠ 0 →
      ∃ b, vertexIsNonManifold order m.triangles_ v ((vertToTriangles m).getD v []) = some b) :
    GetNonManifoldVertices order m =
      some ((List.range m.vertices_.length).filter fun v =>
        decide (((vertToTriangles m).getD v []).length ≠ 0) &&
          decide (vertexIsNonManifold order m.triangles_ v ((vertToTriangles m).getD v []) =
            some true)) := by
  unfold GetNonManifoldVertices
  simp only []
  apply foldl_range_inv _ _ (fun i (acc : Option (List ℕ)) =>
    acc = some ((List.range i).filter fun v =>
      decide (((vertToTriangles m).getD v []).length ≠ 0) &&
        decide (vertexIsNonManifold order m.triangles_ v ((vertToTriangles m).getD v []) =
          some true)))
  · rfl
  · intro i hi acc hacc
    rw [hacc]
    simp only []
    rw [List.range_succ, List.filter_append]
    by_cases hz : ((vertToTriangles m).getD i []).length = 0
    · rw [if_pos hz]
      have hp : (decide (((vertToTriangles m).getD i []).length ≠ 0) &&
          decide (vertexIsNonManifold order m.triangles_ i ((vertToTriangles m).getD i []) =
            some true)) = false := by
        rw [decide_eq_false (fun h => h hz)]
        rfl
      simp only [List.filter_cons, List.filter_nil, hp, Bool.false_eq_true, if_false,
        List.append_nil]
    · rw [if_neg hz]
      obtain ⟨b, hb⟩ := h i hi hz
      rw [hb]
      cases b with
      | true =>
        have hp : (decide (((vertToTriangles m).getD i []).length ≠ 0) &&
            decide (vertexIsNonManifold order m.triangles_ i ((vertToTriangles m).getD i []) =
              some true)) = true := by
          rw [decide_eq_true hz, decide_eq_true hb]
          rfl
        simp only [List.filter_cons, List.filter_nil, hp, if_true]
      | false =>
        have hp : (decide (((vertToTriangles m).getD i []).length ≠ 0) &&
            decide (vertexIsNonManifold order m.triangles_ i ((vertToTriangles m).getD i []) =
              some true)) = false := by
          have h2 : decide (vertexIsNonManifold order m.triangles_ i
              ((vertToTriangles m).getD i []) = some true) = false :=
            decide_eq_false (by rw [hb]; exact fun h => Bool.noConfusion (Option.some.inj h))
          rw [h2]
          exact Bool.and_false _
        simp only [List.filter_cons, List.filter_nil, hp, Bool.false_eq_true, if_false,
          List.append_nil]

/-- C18: on a well-formed mesh without degenerate triangles, for every iteration
order of the hash containers, `GetNonManifoldVertices` returns a list in ascending
index order that holds exactly the vertices that are a corner of some triangle and
whose link graph (for every incident triangle an edge between its two other
corners) is not a single connected component; a vertex without incident triangle
is never in it, and `IsVertexManifold` returns true iff the list is empty. -/
theorem getNonManifoldVertices_spec (order : List ℕ → List ℕ)
    (horder : ∀ l, (order l).Perm l) (m : TriangleMesh) (hwf : WellFormed m)
    (hnd : ∀ t ∈ m.triangles_, NonDegenerate t) :
    ∃ l, GetNonManifoldVertices order m = some l ∧ l.Sorted (· < ·) ∧
      (∀ v, v ∈ l ↔
        (∃ t ∈ m.triangles_, IsCorner t v) ∧ ¬ LinkConnected m.triangles_ v) ∧
      (∀ v ∈ l, v < m.vertices_.length) ∧
      ∃ b, IsVertexManifold order m = some b ∧ (b = true ↔ l = []) := by
  obtain ⟨v1, _, v3⟩ := vertToTriangles_spec m hwf
  have hne : ∀ v, ((vertToTriangles m).getD v []).length ≠ 0 ↔
      ∃ t ∈ m.triangles_, IsCorner t v := by
    intro v
    rw [ne_eq, List.length_eq_zero, ← ne_eq]
    constructor
    · intro h
      obtain ⟨x, hx⟩ := List.exists_mem_of_ne_nil _ h
      obtain ⟨hlt, hc⟩ := (v3 v x).mp hx
      refine ⟨m.triangles_.getD x default, ?_, hc⟩
      rw [List.getD_eq_getElem?_getD, List.getElem?_eq_getElem hlt]
      exact List.getElem_mem _
    · rintro ⟨t, ht, hc⟩
      obtain ⟨x, hlt, rfl⟩ := List.getElem_of_mem ht
      have hx : x ∈ (vertToTriangles m).getD v [] := by
        rw [v3]
        refine ⟨hlt, ?_⟩
        rw [List.getD_eq_getElem?_getD, List.getElem?_eq_getElem hlt]
        exact hc
      exact List.ne_nil_of_mem hx
  have hspec : ∀ v, ((vertToTriangles m).getD v []).length ≠ 0 →
      ∃ b, vertexIsNonManifold order m.triangles_ v ((vertToTriangles m).getD v []) = some b ∧
        (b = true ↔ ¬ LinkConnected m.triangles_ v) := by
    intro v hv
    apply vertexIsNonManifold_spec order horder m.triangles_ hnd v _ (v3 v)
    rw [ne_eq, ← List.length_eq_zero]
    exact hv
  have heq := getNonManifoldVertices_eq order m (fun v _ hv => by
    obtain ⟨b, hb, _⟩ := hspec v hv
    exact ⟨b, hb⟩)
  have hmem : ∀ v, v ∈ (List.range m.vertices_.length).filter (fun v =>
      decide (((vertToTriangles m).getD v []).length ≠ 0) &&
        decide (vertexIsNonManifold order m.triangles_ v ((vertToTriangles m).getD v []) =
          some true)) ↔
      (∃ t ∈ m.triangles_, IsCorner t v) ∧ ¬ LinkConnected m.triangles_ v := by
    intro v
    rw [List.mem_filter, List.mem_range, Bool.and_eq_true, decide_eq_true_iff,
      decide_eq_true_iff, hne]
    constructor
    · rintro ⟨_, hc, hb⟩
      obtain ⟨b, hb', hiff⟩ := hspec v ((hne v).mpr hc)
      rw [hb'] at hb
      exact ⟨hc, hiff.mp (Option.some.inj hb)⟩
    · rintro ⟨hc, hcon⟩
      obtain ⟨t, ht, hct⟩ := hc
      have hlt : v < m.vertices_.length := by
        have hw := hwf t ht
        unfold IsCorner at hct
        rcases hct with h | h | h <;> rw [h]
        · exact hw.1
        · exact hw.2.1
        · exact hw.2.2
      obtain ⟨b, hb', hiff⟩ := hspec v ((hne v).mpr ⟨t, ht, hct⟩)
      refine ⟨hlt, ⟨t, ht, hct⟩, ?_⟩
      rw [hb', hiff.mpr hcon]
  refine ⟨_, heq, ?_, hmem, ?_, ?_⟩
  · exact List.Pairwise.sublist (List.filter_sublist _) (List.pairwise_lt_range _)
  · intro v hv
    exact List.mem_range.mp (List.mem_filter.mp hv).1
  · unfold IsVertexManifold
    rw [heq]
    exact ⟨_, rfl, List.isEmpty_iff⟩

theorem getNonManifoldVertices_spec_witness :
    (∀ l : List ℕ, (id l).Perm l) ∧ WellFormed bowtieMesh ∧
      (∀ t ∈ bowtieMesh.triangles_, NonDegenerate t) ∧
      ∃ l, GetNonManifoldVertices id bowtieMesh = some l ∧ l.Sorted (· < ·) ∧
        (∀ v, v ∈ l ↔
          (∃ t ∈ bowtieMesh.triangles_, IsCorner t v) ∧
            ¬ LinkConnected bowtieMesh.triangles_ v) ∧
        (∀ v ∈ l, v < bowtieMesh.vertices_.length) ∧
        ∃ b, IsVertexManifold id bowtieMesh = some b ∧ (b = true ↔ l = []) :=
  ⟨fun l => List.Perm.refl l, by decide, by decide,
    getNonManifoldVertices_spec id (fun l => List.Perm.refl l) bowtieMesh (by decide)
      (by decide)⟩

/-- The vertex `0` of `bowtieMesh` is the only one that `GetNonManifoldVertices`
returns, and no vertex of `fanMesh` is returned. -/
theorem getNonManifoldVertices_examples :
    GetNonManifoldVertices id bowtieMesh = some [0] ∧
      IsVertexManifold id bowtieMesh = some false ∧
      GetNonManifoldVertices id fanMesh = some [] ∧
      IsVertexManifold id fanMesh = some true := by
  decide

/-! ## C22: the edge map -/

theorem incident_sorted (ts : List Vector3i) (e : Vector2i) (i : ℕ) :
    (incident ts e i).Pairwise (· ≤ ·) := by
  induction i with
  | zero => simp [incident]
  | succ i ih =>
    rw [incident_succ, List.pairwise_append]
    refine ⟨ih, ?_, ?_⟩
    · rw [List.pairwise_replicate]
      right
      exact Nat.le_refl i
    · intro a ha b hb
      have := incident_lt ts e i a ha
      rw [List.mem_replicate] at hb
      omega

theorem lenSum_mapSet (mp : List (Vector2i × List ℕ)) (k : Vector2i) (x : ℕ) :
    ((mapSet mp k ((mapFind mp k).getD [] ++ [x])).map fun kv => kv.2.length).sum =
      (mp.map fun kv => kv.2.length).sum + 1 := by
  induction mp with
  | nil => simp [mapSet, mapFind]
  | cons kv rest ih =>
    obtain ⟨a, w⟩ := kv
    unfold mapSet mapFind
    by_cases h : a = k
    · rw [if_pos h, if_pos h]
      simp only [Option.getD_some, List.map_cons, List.sum_cons, List.length_append,
        List.length_singleton]
      omega
    · rw [if_neg h, if_neg h]
      simp only [List.map_cons, List.sum_cons]
      rw [ih]
      omega

theorem lenSum_addEdge (mp : List (Vector2i × List ℕ)) (a b t : ℕ) :
    ((AddEdge mp a b t).map fun kv => kv.2.length).sum =
      (mp.map fun kv => kv.2.length).sum + 1 := by
  unfold AddEdge
  exact lenSum_mapSet mp _ t

theorem edgeMap_lenSum (m : TriangleMesh) :
    ((GetEdgeToTrianglesMap m).map fun kv => kv.2.length).sum = 3 * m.triangles_.length := by
  unfold GetEdgeToTrianglesMap
  apply foldl_range_inv _ _
    (fun i (mp : List (Vector2i × List ℕ)) => (mp.map fun kv => kv.2.length).sum = 3 * i)
  · rfl
  · intro i _ mp h
    simp only []
    rw [lenSum_addEdge, lenSum_addEdge, lenSum_addEdge, h]
    omega

/-- C22: in the map returned by `GetEdgeToTrianglesMap` the keys are pairwise
distinct pairs `(a, b)` with `a ≤ b`; a triangle index `t` occurs in the list of a
key as many times as triangle `t` has sides with these end points; every list is
in non-decreasing order and non-empty; and the lengths of all lists sum to three
times the triangle count. -/
theorem getEdgeToTrianglesMap_spec (m : TriangleMesh) :
    ((GetEdgeToTrianglesMap m).map Prod.fst).Nodup ∧
    (∀ kv ∈ GetEdgeToTrianglesMap m,
      kv.1.1 ≤ kv.1.2 ∧
      (∀ t, kv.2.count t =
        if t < m.triangles_.length then sideHits (m.triangles_.getD t default) kv.1 else 0) ∧
      kv.2.Pairwise (· ≤ ·) ∧ kv.2 ≠ []) ∧
    ((GetEdgeToTrianglesMap m).map fun kv => kv.2.length).sum = 3 * m.triangles_.length := by
  refine ⟨(edgeMap_inv m).1, ?_, edgeMap_lenSum m⟩
  intro kv hkv
  obtain ⟨h1, h2⟩ := (edgeMap_mem m kv).mp hkv
  refine ⟨?_, ?_, ?_, h2⟩
  · obtain ⟨t, _, ht⟩ := (edgeCount_pos_iff _ _).mp (edgeMap_length m kv hkv).2
    rcases (sideHits_pos_cases t kv.1).mp ht with h | h | h <;> rw [h] <;> simp only [] <;> omega
  · intro t
    rw [h1]
    exact incident_count _ _ _ _
  · rw [h1]
    exact incident_sorted _ _ _

/-! ## C26, C27, C29: FilterSharpen and FilterSmoothSimple -/

theorem setAll_succ (g : ℕ → Vector3d) (n : ℕ) (l : List Vector3d) :
    setAll g (n + 1) l = (setAll g n l).set n (g n) := by
  unfold setAll
  rw [List.range_succ, List.foldl_append]
  rfl

theorem setAll_length (g : ℕ → Vector3d) (n : ℕ) (l : List Vector3d) :
    (setAll g n l).length = l.length := by
  induction n with
  | zero => rfl
  | succ n ih => rw [setAll_succ, List.length_set, ih]

theorem setAll_getD (g : ℕ → Vector3d) (n : ℕ) (l : List Vector3d) (j : ℕ) (d : Vector3d) :
    (setAll g n l).getD j d = if j < n ∧ j < l.length then g j else l.getD j d := by
  induction n with
  | zero => simp [setAll]
  | succ n ih =>
    rw [setAll_succ, getD_set, setAll_length, ih]
    by_cases h1 : n = j
    · subst h1
      by_cases h2 : n < l.length
      · rw [if_pos ⟨rfl, h2⟩, if_pos ⟨Nat.lt_succ_self n, h2⟩]
      · rw [if_neg (fun h => h2 h.2), if_neg (fun h => h2 h.2), if_neg (fun h => h2 h.2)]
    · rw [if_neg (fun h => h1 h.1)]
      by_cases h3 : j < n ∧ j < l.length
      · rw [if_pos h3, if_pos ⟨by omega, h3.2⟩]
      · rw [if_neg h3, if_neg (fun h => h3 ⟨by omega, h.2⟩)]

theorem setAll_eq_map (g : ℕ → Vector3d) (l : List Vector3d) :
    setAll g l.length l = (List.range l.length).map g := by
  apply List.ext_getElem
  · simp [setAll_length]
  · intro j h1 h2
    have hj : j < l.length := by rwa [setAll_length] at h1
    have := setAll_getD g l.length l j default
    rw [if_pos ⟨hj, hj⟩, List.getD_eq_getElem?_getD, List.getElem?_eq_getElem h1] at this
    simp only [Option.getD_some] at this
    rw [this]
    simp

theorem setAll_self (l : List Vector3d) (n : ℕ) :
    setAll (fun i => l.getD i default) n l = l := by
  apply List.ext_getElem
  · simp [setAll_length]
  · intro j h1 h2
    have := setAll_getD (fun i => l.getD i default) n l j default
    rw [List.getD_eq_getElem?_getD, List.getElem?_eq_getElem h1] at this
    simp only [Option.getD_some] at this
    rw [this]
    split_ifs
    · rw [List.getD_eq_getElem?_getD, List.getElem?_eq_getElem h2]; rfl
    · rw [List.getD_eq_getElem?_getD, List.getElem?_eq_getElem h2]; rfl

theorem sharpenStep_eq (strength : ℚ) (fv fn fc : Bool) (pv pn pc : List Vector3d)
    (m : TriangleMesh) (vidx : ℕ) :
    sharpenStep strength fv fn fc pv pn pc m vidx =
      { m with
        vertices_ :=
          if fv then m.vertices_.set vidx (sharpenNew strength m.adjacency_list_ pv vidx)
          else m.vertices_
        vertex_normals_ :=
          if fn then m.vertex_normals_.set vidx (sharpenNew strength m.adjacency_list_ pn vidx)
          else m.vertex_normals_
        vertex_colors_ :=
          if fc then m.vertex_colors_.set vidx (sharpenNew strength m.adjacency_list_ pc vidx)
          else m.vertex_colors_ } := by
  unfold sharpenStep sharpenNew sharpenValue
  cases fv <;> cases fn <;> cases fc <;> rfl

theorem sharpenIter_eq (strength : ℚ) (fv fn fc : Bool) (m : TriangleMesh) :
    sharpenIter strength fv fn fc m =
      { m with
        vertices_ :=
          if fv then
            (List.range m.vertices_.length).map (sharpenNew strength m.adjacency_list_ m.vertices_)
          else m.vertices_
        vertex_normals_ :=
          if fn then
            setAll (sharpenNew strength m.adjacency_list_ m.vertex_normals_) m.vertices_.length
              m.vertex_normals_
          else m.vertex_normals_
        vertex_colors_ :=
          if fc then
            setAll (sharpenNew strength m.adjacency_list_ m.vertex_colors_) m.vertices_.length
              m.vertex_colors_
          else m.vertex_colors_ } := by
  rw [← setAll_eq_map]
  unfold sharpenIter
  apply foldl_range_inv _ _ (fun i (st : TriangleMesh) => st =
    { m with
      vertices_ :=
        if fv then setAll (sharpenNew strength m.adjacency_list_ m.vertices_) i m.vertices_
        else m.vertices_
      vertex_normals_ :=
        if fn then setAll (sharpenNew strength m.adjacency_list_ m.vertex_normals_) i
          m.vertex_normals_
        else m.vertex_normals_
      vertex_colors_ :=
        if fc then setAll (sharpenNew strength m.adjacency_list_ m.vertex_colors_) i
          m.vertex_colors_
        else m.vertex_colors_ })
  · cases fv <;> cases fn <;> cases fc <;> rfl
  · intro i _ st hst
    rw [hst, sharpenStep_eq]
    cases fv <;> cases fn <;> cases fc <;> simp only [setAll_succ, if_true, if_false,
      Bool.false_eq_true]

theorem smoothSimpleStep_eq (fv fn fc : Bool) (pv pn pc : List Vector3d)
    (m : TriangleMesh) (vidx : ℕ) :
    smoothSimpleStep fv fn fc pv pn pc m vidx =
      { m with
        vertices_ :=
          if fv then m.vertices_.set vidx (smoothSimpleNew m.adjacency_list_ pv vidx)
          else m.vertices_
        vertex_normals_ :=
          if fn then m.vertex_normals_.set vidx (smoothSimpleNew m.adjacency_list_ pn vidx)
          else m.vertex_normals_
        vertex_colors_ :=
          if fc then m.vertex_colors_.set vidx (smoothSimpleNew m.adjacency_list_ pc vidx)
          else m.vertex_colors_ } := by
  unfold smoothSimpleStep smoothSimpleNew
  cases fv <;> cases fn <;> cases fc <;> rfl

theorem smoothSimpleIter_eq (fv fn fc : Bool) (m : TriangleMesh) :
    smoothSimpleIter fv fn fc m =
      { m with
        vertices_ :=
          if fv then
            (List.range m.vertices_.length).map (smoothSimpleNew m.adjacency_list_ m.vertices_)
          else m.vertices_
        vertex_normals_ :=
          if fn then
            setAll (smoothSimpleNew m.adjacency_list_ m.vertex_normals_) m.vertices_.length
              m.vertex_normals_
          else m.vertex_normals_
        vertex_colors_ :=
          if fc then
            setAll (smoothSimpleNew m.adjacency_list_ m.vertex_colors_) m.vertices_.length
              m.vertex_colors_
          else m.vertex_colors_ } := by
  rw [← setAll_eq_map]
  unfold smoothSimpleIter
  apply foldl_range_inv _ _ (fun i (st : TriangleMesh) => st =
    { m with
      vertices_ :=
        if fv then setAll (smoothSimpleNew m.adjacency_list_ m.vertices_) i m.vertices_
        else m.vertices_
      vertex_normals_ :=
        if fn then setAll (smoothSimpleNew m.adjacency_list_ m.vertex_normals_) i
          m.vertex_normals_
        else m.vertex_normals_
      vertex_colors_ :=
        if fc then setAll (smoothSimpleNew m.adjacency_list_ m.vertex_colors_) i
          m.vertex_colors_
        else m.vertex_colors_ })
  · cases fv <;> cases fn <;> cases fc <;> rfl
  · intro i _ st hst
    rw [hst, smoothSimpleStep_eq]
    cases fv <;> cases fn <;> cases fc <;> simp only [setAll_succ, if_true, if_false,
      Bool.false_eq_true]
theorem iterKeeps_refl (fv fn fc : Bool) (m : TriangleMesh) : IterKeeps fv fn fc m m :=
  ⟨rfl, rfl, rfl, fun _ => rfl, fun _ => rfl, fun _ => rfl, rfl, rfl, rfl⟩

theorem iterKeeps_trans (fv fn fc : Bool) (a b c : TriangleMesh)
    (h1 : IterKeeps fv fn fc a b) (h2 : IterKeeps fv fn fc b c) : IterKeeps fv fn fc a c := by
  obtain ⟨a1, a2, a3, a4, a5, a6, a7, a8, a9⟩ := h1
  obtain ⟨b1, b2, b3, b4, b5, b6, b7, b8, b9⟩ := h2
  exact ⟨b1.trans a1, b2.trans a2, b3.trans a3, fun h => (b4 h).trans (a4 h),
    fun h => (b5 h).trans (a5 h), fun h => (b6 h).trans (a6 h), b7.trans a7, b8.trans a8,
    b9.trans a9⟩

theorem iterKeeps_iterate (fv fn fc : Bool) (f : TriangleMesh → TriangleMesh)
    (hf : ∀ m, IterKeeps fv fn fc m (f m)) (k : ℕ) (m : TriangleMesh) :
    IterKeeps fv fn fc m (f^[k] m) := by
  induction k generalizing m with
  | zero => exact iterKeeps_refl fv fn fc m
  | succ k ih =>
    rw [Function.iterate_succ_apply]
    exact iterKeeps_trans fv fn fc _ _ _ (hf m) (ih (f m))

theorem sharpenIter_keeps (strength : ℚ) (fv fn fc : Bool) (m : TriangleMesh) :
    IterKeeps fv fn fc m (sharpenIter strength fv fn fc m) := by
  rw [sharpenIter_eq]
  refine ⟨?_, ?_, ?_, ?_, ?_, ?_, rfl, rfl, rfl⟩
  · simp only []; split_ifs <;> simp
  · simp only []; split_ifs <;> simp [setAll_length]
  · simp only []; split_ifs <;> simp [setAll_length]
  · intro h; simp only [h]; rfl
  · intro h; simp only [h]; rfl
  · intro h; simp only [h]; rfl

theorem smoothSimpleIter_keeps (fv fn fc : Bool) (m : TriangleMesh) :
    IterKeeps fv fn fc m (smoothSimpleIter fv fn fc m) := by
  rw [smoothSimpleIter_eq]
  refine ⟨?_, ?_, ?_, ?_, ?_, ?_, rfl, rfl, rfl⟩
  · simp only []; split_ifs <;> simp
  · simp only []; split_ifs <;> simp [setAll_length]
  · simp only []; split_ifs <;> simp [setAll_length]
  · intro h; simp only [h]; rfl
  · intro h; simp only [h]; rfl
  · intro h; simp only [h]; rfl

theorem ensureAdjacency_fields (m : TriangleMesh) :
    (ensureAdjacency m).vertices_ = m.vertices_ ∧
    (ensureAdjacency m).vertex_normals_ = m.vertex_normals_ ∧
    (ensureAdjacency m).vertex_colors_ = m.vertex_colors_ ∧
    (ensureAdjacency m).triangles_ = m.triangles_ ∧
    (ensureAdjacency m).triangle_normals_ = m.triangle_normals_ ∧
    HasVertexNormals (ensureAdjacency m) = HasVertexNormals m ∧
    HasVertexColors (ensureAdjacency m) = HasVertexColors m ∧
    HasAdjacencyList (ensureAdjacency m) = true := by
  unfold ensureAdjacency
  by_cases h : HasAdjacencyList m = true
  · rw [h]
    exact ⟨rfl, rfl, rfl, rfl, rfl, rfl, rfl, h⟩
  · have h' : HasAdjacencyList m = false := by simpa using h
    rw [h']
    refine ⟨rfl, rfl, rfl, rfl, rfl, rfl, rfl, ?_⟩
    show HasAdjacencyList (ComputeAdjacencyList m) = true
    unfold HasAdjacencyList ComputeAdjacencyList
    simp only [beq_iff_eq]
    rw [foldl_adjTriangle_length]
    simp [resize]

theorem ensureAdjacency_of_has (m : TriangleMesh) (h : HasAdjacencyList m = true) :
    ensureAdjacency m = m := by
  unfold ensureAdjacency
  simp [h]

theorem iterKeeps_has (fv fn fc : Bool) (m r : TriangleMesh) (h : IterKeeps fv fn fc m r) :
    HasVertexNormals r = HasVertexNormals m ∧ HasVertexColors r = HasVertexColors m ∧
      HasAdjacencyList r = HasAdjacencyList m := by
  obtain ⟨h1, h2, h3, _, _, _, h7, _, _⟩ := h
  unfold HasVertexNormals HasVertexColors HasAdjacencyList
  rw [h1, h2, h3, h7]
  exact ⟨rfl, rfl, rfl⟩

theorem filterFrame_of_keeps (scope : FilterScope) (m r : TriangleMesh)
    (h : IterKeeps (scope == FilterScope.All || scope == FilterScope.Vertex)
      ((scope == FilterScope.All || scope == FilterScope.Normal) &&
        HasVertexNormals (ensureAdjacency m))
      ((scope == FilterScope.All || scope == FilterScope.Color) &&
        HasVertexColors (ensureAdjacency m)) (ensureAdjacency m) r) :
    FilterFrame scope m r := by
  obtain ⟨e1, e2, e3, e4, e5, e6, e7, e8⟩ := ensureAdjacency_fields m
  obtain ⟨_, _, _, h4, h5, h6, _, h8, h9⟩ := h
  rw [e6] at h5
  rw [e7] at h6
  rw [e1] at h4
  rw [e2] at h5
  rw [e3] at h6
  refine ⟨?_, ?_, ?_, ?_, ?_, h8.trans e4, h9.trans e5⟩
  · intro hs; subst hs
    exact ⟨h5 rfl, h6 rfl⟩
  · intro hs; subst hs
    exact ⟨h4 rfl, h6 rfl⟩
  · intro hs; subst hs
    exact ⟨h4 rfl, h5 rfl⟩
  · intro hn
    apply h5
    rw [hn]
    exact Bool.and_false _
  · intro hn
    apply h6
    rw [hn]
    exact Bool.and_false _

theorem FilterSharpen_eq (m : TriangleMesh) (k : ℤ) (strength : ℚ) (scope : FilterScope) :
    FilterSharpen m k strength scope =
      (sharpenIter strength (scope == FilterScope.All || scope == FilterScope.Vertex)
        ((scope == FilterScope.All || scope == FilterScope.Normal) &&
          HasVertexNormals (ensureAdjacency m))
        ((scope == FilterScope.All || scope == FilterScope.Color) &&
          HasVertexColors (ensureAdjacency m)))^[k.toNat] (ensureAdjacency m) := rfl

theorem FilterSmoothSimple_eq (m : TriangleMesh) (k : ℤ) (scope : FilterScope) :
    FilterSmoothSimple m k scope =
      (smoothSimpleIter (scope == FilterScope.All || scope == FilterScope.Vertex)
        ((scope == FilterScope.All || scope == FilterScope.Normal) &&
          HasVertexNormals (ensureAdjacency m))
        ((scope == FilterScope.All || scope == FilterScope.Color) &&
          HasVertexColors (ensureAdjacency m)))^[k.toNat] (ensureAdjacency m) := rfl

theorem filterSharpen_frame (m : TriangleMesh) (k : ℤ) (strength : ℚ) (scope : FilterScope) :
    FilterFrame scope m (FilterSharpen m k strength scope) := by
  rw [FilterSharpen_eq]
  exact filterFrame_of_keeps scope m _
    (iterKeeps_iterate _ _ _ _ (sharpenIter_keeps strength _ _ _) _ _)

theorem filterSmoothSimple_frame (m : TriangleMesh) (k : ℤ) (scope : FilterScope) :
    FilterFrame scope m (FilterSmoothSimple m k scope) := by
  rw [FilterSmoothSimple_eq]
  exact filterFrame_of_keeps scope m _
    (iterKeeps_iterate _ _ _ _ (smoothSimpleIter_keeps _ _ _) _ _)

theorem sharpenNew_zero (adj : List (Finset ℕ)) (prev : List Vector3d) :
    sharpenNew 0 adj prev = fun i => prev.getD i default := by
  funext i
  unfold sharpenNew
  rw [zero_smul, add_zero]

theorem sharpenIter_zero (fv fn fc : Bool) (m : TriangleMesh) :
    sharpenIter 0 fv fn fc m = m := by
  rw [sharpenIter_eq]
  simp only [sharpenNew_zero, setAll_self, map_getD_range, ite_self]

/-- C27: one iteration of `FilterSharpen` with the vertex channel enabled (scope
`All` or `Vertex`) sets every vertex `i` to
`p_i + strength * (p_i * |adjacency[i]| - sum of p_n over n in adjacency[i])`, where
`p` are the positions before the iteration and `adjacency` is the adjacency list
(computed first when absent); with `strength = 0` every number of iterations leaves
every position, normal and colour unchanged. -/
theorem filterSharpen_spec (m : TriangleMesh) (strength : ℚ) (scope : FilterScope)
    (hs : scope = FilterScope.All ∨ scope = FilterScope.Vertex) :
    (FilterSharpen m 1 strength scope).vertices_ =
      (List.range m.vertices_.length).map (fun i =>
        m.vertices_.getD i default +
          strength • ((((ensureAdjacency m).adjacency_list_.getD i ∅).card : ℚ) •
              m.vertices_.getD i default -
            ((ensureAdjacency m).adjacency_list_.getD i ∅).sum fun n =>
              m.vertices_.getD n default)) ∧
    ∀ k : ℤ, (FilterSharpen m k 0 scope).vertices_ = m.vertices_ ∧
      (FilterSharpen m k 0 scope).vertex_normals_ = m.vertex_normals_ ∧
      (FilterSharpen m k 0 scope).vertex_colors_ = m.vertex_colors_ := by
  obtain ⟨e1, e2, e3, _, _, _, _, _⟩ := ensureAdjacency_fields m
  constructor
  · have hfv : (scope == FilterScope.All || scope == FilterScope.Vertex) = true := by
      rcases hs with h | h <;> subst h <;> rfl
    rw [FilterSharpen_eq, hfv]
    show (sharpenIter strength true _ _ (ensureAdjacency m)).vertices_ = _
    rw [sharpenIter_eq]
    simp only [if_true]
    rw [e1]
    rfl
  · intro k
    rw [FilterSharpen_eq]
    have hfix : ∀ j : ℕ, (sharpenIter 0 (scope == FilterScope.All || scope == FilterScope.Vertex)
        ((scope == FilterScope.All || scope == FilterScope.Normal) &&
          HasVertexNormals (ensureAdjacency m))
        ((scope == FilterScope.All || scope == FilterScope.Color) &&
          HasVertexColors (ensureAdjacency m)))^[j] (ensureAdjacency m) = ensureAdjacency m := by
      intro j
      apply Function.iterate_fixed
      exact sharpenIter_zero _ _ _ _
    rw [hfix]
    exact ⟨e1, e2, e3⟩

theorem filterSharpen_spec_witness :
    (FilterScope.All = FilterScope.All ∨ FilterScope.All = FilterScope.Vertex) ∧
      ∀ k : ℤ, (FilterSharpen fanMesh k 0 FilterScope.All).vertices_ = fanMesh.vertices_ ∧
        (FilterSharpen fanMesh k 0 FilterScope.All).vertex_normals_ = fanMesh.vertex_normals_ ∧
        (FilterSharpen fanMesh k 0 FilterScope.All).vertex_colors_ = fanMesh.vertex_colors_ :=
  ⟨Or.inl rfl, (filterSharpen_spec fanMesh 0 FilterScope.All (Or.inl rfl)).2⟩

theorem smoothSimple_iterate_has (scope : FilterScope) (m : TriangleMesh) (j : ℕ) :
    IterKeeps (scope == FilterScope.All || scope == FilterScope.Vertex)
      ((scope == FilterScope.All || scope == FilterScope.Normal) &&
        HasVertexNormals (ensureAdjacency m))
      ((scope == FilterScope.All || scope == FilterScope.Color) &&
        HasVertexColors (ensureAdjacency m)) (ensureAdjacency m)
      (FilterSmoothSimple m j scope) := by
  rw [FilterSmoothSimple_eq]
  exact iterKeeps_iterate _ _ _ _ (smoothSimpleIter_keeps _ _ _) _ _

/-- C26: one iteration of `FilterSmoothSimple` with the vertex channel enabled (scope
`All` or `Vertex`) sets every vertex `i` to
`(p_i + sum of p_n over n in adjacency[i]) / (|adjacency[i]| + 1)`, where `p` are the
positions before the iteration (the values written in the pass are not read) and
`adjacency` is the adjacency list (computed first when absent); `j + k` iterations
are `j` iterations followed by `k` iterations, so `k + 1` iterations are `k`
iterations followed by this step. -/
theorem filterSmoothSimple_spec (m : TriangleMesh) (scope : FilterScope)
    (hs : scope = FilterScope.All ∨ scope = FilterScope.Vertex) :
    (FilterSmoothSimple m 1 scope).vertices_ =
      (List.range m.vertices_.length).map (fun i =>
        vdiv (m.vertices_.getD i default +
            ((ensureAdjacency m).adjacency_list_.getD i ∅).sum fun n =>
              m.vertices_.getD n default)
          (1 + (((ensureAdjacency m).adjacency_list_.getD i ∅).card : ℚ))) ∧
    (∀ j k : ℕ, FilterSmoothSimple m ((j : ℤ) + (k : ℤ)) scope =
      FilterSmoothSimple (FilterSmoothSimple m j scope) k scope) ∧
    ∀ k : ℕ, FilterSmoothSimple m ((k : ℤ) + 1) scope =
      FilterSmoothSimple (FilterSmoothSimple m k scope) 1 scope := by
  obtain ⟨e1, _, _, _, _, _, _, e8⟩ := ensureAdjacency_fields m
  have hcomp : ∀ j k : ℕ, FilterSmoothSimple m ((j : ℤ) + (k : ℤ)) scope =
      FilterSmoothSimple (FilterSmoothSimple m j scope) k scope := by
    intro j k
    have hk := smoothSimple_iterate_has scope m j
    obtain ⟨c1, c2, c3⟩ := iterKeeps_has _ _ _ _ _ hk
    have hens : ensureAdjacency (FilterSmoothSimple m j scope) = FilterSmoothSimple m j scope :=
      ensureAdjacency_of_has _ (by rw [c3]; exact e8)
    rw [FilterSmoothSimple_eq (FilterSmoothSimple m j scope), hens, c1, c2,
      FilterSmoothSimple_eq m j, FilterSmoothSimple_eq m]
    have : ((j : ℤ) + (k : ℤ)).toNat = k + j := by omega
    rw [this, Function.iterate_add_apply]
    rfl
  refine ⟨?_, hcomp, fun k => hcomp k 1⟩
  have hfv : (scope == FilterScope.All || scope == FilterScope.Vertex) = true := by
    rcases hs with h | h <;> subst h <;> rfl
  rw [FilterSmoothSimple_eq, hfv]
  show (smoothSimpleIter true _ _ (ensureAdjacency m)).vertices_ = _
  rw [smoothSimpleIter_eq]
  simp only [if_true]
  rw [e1]
  rfl

theorem filterSmoothSimple_spec_witness :
    (FilterScope.Vertex = FilterScope.All ∨ FilterScope.Vertex = FilterScope.Vertex) ∧
      ∀ k : ℕ, FilterSmoothSimple fanMesh ((k : ℤ) + 1) FilterScope.Vertex =
        FilterSmoothSimple (FilterSmoothSimple fanMesh k FilterScope.Vertex) 1
          FilterScope.Vertex :=
  ⟨Or.inr rfl, (filterSmoothSimple_spec fanMesh FilterScope.Vertex (Or.inr rfl)).2.2⟩

/-! ## C28, C29: FilterSmoothLaplacian -/

theorem laplacianStep_keeps (root : ℚ → ℚ) (lambda : ℚ) (fv fn fc : Bool)
    (pv pn pc : List Vector3d) (m r : TriangleMesh) (vidx : ℕ)
    (h : laplacianStep root lambda fv fn fc pv pn pc m vidx = some r) :
    IterKeeps fv fn fc m r := by
  unfold laplacianStep divWeight at h
  simp only [] at h
  by_cases htw : ((m.adjacency_list_.getD vidx ∅).sum (laplacianWeight root pv vidx)) = 0
  · simp only [if_pos htw] at h
    cases fv <;> cases fn <;> cases fc <;>
      simp only [Bool.false_eq_true, if_false, if_true, Option.map_none', Option.bind_none,
        Option.bind_some, reduceCtorEq] at h
    have := Option.some.inj h
    subst this
    exact iterKeeps_refl _ _ _ _
  · simp only [if_neg htw] at h
    cases fv <;> cases fn <;> cases fc <;>
      simp only [Bool.false_eq_true, if_false, if_true, Option.map_some', Option.bind_some] at h <;>
      have h' := Option.some.inj h <;> subst h' <;>
      refine ⟨?_, ?_, ?_, ?_, ?_, ?_, rfl, rfl, rfl⟩ <;>
      first
        | exact List.length_set _ _ _
        | rfl
        | (intro _; rfl)
        | (intro hc; exact absurd hc (by decide))

theorem laplacianIter_keeps (root : ℚ → ℚ) (lambda : ℚ) (fv fn fc : Bool)
    (m r : TriangleMesh) (h : laplacianIter root lambda fv fn fc m = some r) :
    IterKeeps fv fn fc m r := by
  have key : ∀ s, laplacianIter root lambda fv fn fc m = some s → IterKeeps fv fn fc m s := by
    unfold laplacianIter
    apply foldl_range_inv _ _ (fun _ (acc : Option TriangleMesh) =>
      ∀ s, acc = some s → IterKeeps fv fn fc m s)
    · intro s hs
      rw [← Option.some.inj hs]
      exact iterKeeps_refl _ _ _ _
    · intro i _ acc hacc s hs
      cases acc with
      | none => simp at hs
      | some a =>
        have hs' : laplacianStep root lambda fv fn fc m.vertices_ m.vertex_normals_
            m.vertex_colors_ a i = some s := hs
        exact iterKeeps_trans _ _ _ _ _ _ (hacc a rfl) (laplacianStep_keeps _ _ _ _ _ _ _ _ _ _ _ hs')
  exact key r h

theorem optIterate_keeps (fv fn fc : Bool) (f : TriangleMesh → Option TriangleMesh)
    (hf : ∀ m r, f m = some r → IterKeeps fv fn fc m r) (k : ℕ) (m r : TriangleMesh)
    (h : (fun (acc : Option TriangleMesh) => acc.bind f)^[k] (some m) = some r) :
    IterKeeps fv fn fc m r := by
  induction k generalizing m with
  | zero =>
    rw [Function.iterate_zero, id] at h
    rw [← Option.some.inj h]
    exact iterKeeps_refl _ _ _ _
  | succ k ih =>
    rw [Function.iterate_succ_apply] at h
    have hb : (some m).bind f = f m := rfl
    rw [hb] at h
    cases hm : f m with
    | none =>
      rw [hm] at h
      have hnone : ∀ j : ℕ, (fun (acc : Option TriangleMesh) => acc.bind f)^[j] none = none := by
        intro j
        exact Function.iterate_fixed rfl j
      rw [hnone] at h
      exact absurd h (by simp)
    | some a =>
      rw [hm] at h
      exact iterKeeps_trans _ _ _ _ _ _ (hf m a hm) (ih a h)

theorem FilterSmoothLaplacian_eq (root : ℚ → ℚ) (m : TriangleMesh) (k : ℤ) (lambda : ℚ)
    (scope : FilterScope) :
    FilterSmoothLaplacian root m k lambda scope =
      (fun (acc : Option TriangleMesh) =>
        acc.bind (laplacianIter root lambda
          (scope == FilterScope.All || scope == FilterScope.Vertex)
          ((scope == FilterScope.All || scope == FilterScope.Normal) &&
            HasVertexNormals (ensureAdjacency m))
          ((scope == FilterScope.All || scope == FilterScope.Color) &&
            HasVertexColors (ensureAdjacency m))))^[k.toNat] (some (ensureAdjacency m)) := rfl

theorem filterSmoothLaplacian_frame (root : ℚ → ℚ) (m r : TriangleMesh) (k : ℤ) (lambda : ℚ)
    (scope : FilterScope) (h : FilterSmoothLaplacian root m k lambda scope = some r) :
    FilterFrame scope m r := by
  rw [FilterSmoothLaplacian_eq] at h
  exact filterFrame_of_keeps scope m r
    (optIterate_keeps _ _ _ _ (laplacianIter_keeps root lambda _ _ _) _ _ _ h)

theorem laplacianStep_some (root : ℚ → ℚ) (lambda : ℚ) (fv fn fc : Bool)
    (pv pn pc : List Vector3d) (m : TriangleMesh) (vidx : ℕ)
    (htw : ((m.adjacency_list_.getD vidx ∅).sum (laplacianWeight root pv vidx)) ≠ 0) :
    ∃ r, laplacianStep root lambda fv fn fc pv pn pc m vidx = some r := by
  unfold laplacianStep divWeight
  simp only [if_neg htw]
  cases fv <;> cases fn <;> cases fc <;> exact ⟨_, rfl⟩

theorem laplacianWeight_pos (root : ℚ → ℚ) (hroot : ∀ x, 0 ≤ root x) (pv : List Vector3d)
    (vidx nbidx : ℕ) : 0 < laplacianWeight root pv vidx nbidx := by
  unfold laplacianWeight
  simp only []
  apply one_div_pos.mpr
  have := hroot (squaredNorm (pv.getD vidx default - pv.getD nbidx default))
  have h2 : (0 : ℚ) < 1 / 1000000000000 := by norm_num
  linarith

theorem laplacianIter_some (root : ℚ → ℚ) (hroot : ∀ x, 0 ≤ root x) (lambda : ℚ)
    (fv fn fc : Bool) (m : TriangleMesh)
    (hadj : ∀ i, i < m.vertices_.length → (m.adjacency_list_.getD i ∅).Nonempty) :
    ∃ r, laplacianIter root lambda fv fn fc m = some r := by
  have key : ∃ s, laplacianIter root lambda fv fn fc m = some s ∧ IterKeeps fv fn fc m s := by
    unfold laplacianIter
    apply foldl_range_inv _ _ (fun _ (acc : Option TriangleMesh) =>
      ∃ s, acc = some s ∧ IterKeeps fv fn fc m s)
    · exact ⟨m, rfl, iterKeeps_refl _ _ _ _⟩
    · rintro i hi acc ⟨s, rfl, hs⟩
      have htw : ((s.adjacency_list_.getD i ∅).sum (laplacianWeight root m.vertices_ i)) ≠ 0 := by
        rw [hs.2.2.2.2.2.2.1]
        exact ne_of_gt (Finset.sum_pos (fun j _ => laplacianWeight_pos root hroot _ _ _)
          (hadj i hi))
      obtain ⟨r, hr⟩ := laplacianStep_some root lambda fv fn fc m.vertices_ m.vertex_normals_
        m.vertex_colors_ s i htw
      exact ⟨r, hr, iterKeeps_trans _ _ _ _ _ _ hs (laplacianStep_keeps _ _ _ _ _ _ _ _ _ _ _ hr)⟩
  obtain ⟨s, hs, _⟩ := key
  exact ⟨s, hs⟩

theorem filterSmoothLaplacian_some (root : ℚ → ℚ) (hroot : ∀ x, 0 ≤ root x)
    (m : TriangleMesh) (k : ℤ) (lambda : ℚ) (scope : FilterScope)
    (hadj : ∀ i, i < m.vertices_.length →
      ((ensureAdjacency m).adjacency_list_.getD i ∅).Nonempty) :
    ∃ r, FilterSmoothLaplacian root m k lambda scope = some r := by
  rw [FilterSmoothLaplacian_eq]
  generalize (scope == FilterScope.All || scope == FilterScope.Vertex) = fv
  generalize ((scope == FilterScope.All || scope == FilterScope.Normal) &&
    HasVertexNormals (ensureAdjacency m)) = fn
  generalize ((scope == FilterScope.All || scope == FilterScope.Color) &&
    HasVertexColors (ensureAdjacency m)) = fc
  have key : ∀ j : ℕ, ∃ s, (fun (acc : Option TriangleMesh) =>
      acc.bind (laplacianIter root lambda fv fn fc))^[j] (some (ensureAdjacency m)) = some s ∧
      IterKeeps fv fn fc (ensureAdjacency m) s := by
    intro j
    induction j with
    | zero => exact ⟨_, rfl, iterKeeps_refl _ _ _ _⟩
    | succ j ih =>
      obtain ⟨s, hs, hk⟩ := ih
      rw [Function.iterate_succ_apply', hs]
      obtain ⟨r, hr⟩ := laplacianIter_some root hroot lambda fv fn fc s (by
        intro i hi
        rw [hk.2.2.2.2.2.2.1]
        apply hadj
        rw [hk.1, (ensureAdjacency_fields m).1] at hi
        exact hi)
      exact ⟨r, hr, iterKeeps_trans _ _ _ _ _ _ hk (laplacianIter_keeps _ _ _ _ _ _ _ hr)⟩
  obtain ⟨s, hs, _⟩ := key k.toNat
  exact ⟨s, hs⟩

/-- C28 fails in the code: `FilterSmoothLaplacian` has no guard.  On `pointMesh`, a
single vertex without neighbours, one iteration with an enabled vertex channel
divides by the total weight `0`, for every `lambda`: the vertex does not keep its
position. -/
theorem filterSmoothLaplacian_isolated_vertex (root : ℚ → ℚ) (lambda : ℚ) :
    (ensureAdjacency pointMesh).adjacency_list_ = [∅] ∧
      FilterSmoothLaplacian root pointMesh 1 lambda FilterScope.All = none ∧
      FilterSmoothLaplacian root pointMesh 1 lambda FilterScope.Vertex = none := by
  refine ⟨by decide, ?_, ?_⟩
  · rfl
  · rfl

theorem laplacianStepTotal_keeps (quot : Vector3d → ℚ → Vector3d) (root : ℚ → ℚ)
    (lambda : ℚ) (fv fn fc : Bool) (pv pn pc : List Vector3d) (m : TriangleMesh) (vidx : ℕ) :
    IterKeeps fv fn fc m (laplacianStepTotal quot root lambda fv fn fc pv pn pc m vidx) := by
  unfold laplacianStepTotal
  simp only []
  cases fv <;> cases fn <;> cases fc <;>
    simp only [Bool.false_eq_true, if_false, if_true] <;>
    refine ⟨?_, ?_, ?_, ?_, ?_, ?_, rfl, rfl, rfl⟩ <;>
    first
      | exact List.length_set _ _ _
      | rfl
      | (intro _; rfl)
      | (intro hc; exact absurd hc (by decide))

theorem laplacianIterTotal_keeps (quot : Vector3d → ℚ → Vector3d) (root : ℚ → ℚ)
    (lambda : ℚ) (fv fn fc : Bool) (m : TriangleMesh) :
    IterKeeps fv fn fc m (laplacianIterTotal quot root lambda fv fn fc m) := by
  unfold laplacianIterTotal
  apply foldl_range_inv _ _ (fun _ (s : TriangleMesh) => IterKeeps fv fn fc m s)
  · exact iterKeeps_refl _ _ _ _
  · intro i _ s hs
    exact iterKeeps_trans _ _ _ _ _ _ hs (laplacianStepTotal_keeps _ _ _ _ _ _ _ _ _ _ _)

theorem FilterSmoothLaplacianTotal_eq (quot : Vector3d → ℚ → Vector3d) (root : ℚ → ℚ)
    (m : TriangleMesh) (k : ℤ) (lambda : ℚ) (scope : FilterScope) :
    FilterSmoothLaplacianTotal quot root m k lambda scope =
      (laplacianIterTotal quot root lambda
        (scope == FilterScope.All || scope == FilterScope.Vertex)
        ((scope == FilterScope.All || scope == FilterScope.Normal) &&
          HasVertexNormals (ensureAdjacency m))
        ((scope == FilterScope.All || scope == FilterScope.Color) &&
          HasVertexColors (ensureAdjacency m)))^[k.toNat] (ensureAdjacency m) := rfl

theorem filterSmoothLaplacianTotal_frame (quot : Vector3d → ℚ → Vector3d) (root : ℚ → ℚ)
    (m : TriangleMesh) (k : ℤ) (lambda : ℚ) (scope : FilterScope) :
    FilterFrame scope m (FilterSmoothLaplacianTotal quot root m k lambda scope) := by
  rw [FilterSmoothLaplacianTotal_eq]
  exact filterFrame_of_keeps scope m _
    (iterKeeps_iterate _ _ _ _ (laplacianIterTotal_keeps quot root lambda _ _ _) _ _)

theorem laplacianStep_total (quot : Vector3d → ℚ → Vector3d)
    (hquot : ∀ v tw, tw ≠ 0 → quot v tw = vdiv v tw) (root : ℚ → ℚ) (lambda : ℚ)
    (fv fn fc : Bool) (pv pn pc : List Vector3d) (m r : TriangleMesh) (vidx : ℕ)
    (h : laplacianStep root lambda fv fn fc pv pn pc m vidx = some r) :
    laplacianStepTotal quot root lambda fv fn fc pv pn pc m vidx = r := by
  unfold laplacianStep divWeight at h
  unfold laplacianStepTotal
  simp only [] at h ⊢
  by_cases htw : ((m.adjacency_list_.getD vidx ∅).sum (laplacianWeight root pv vidx)) = 0
  · simp only [if_pos htw] at h
    cases fv <;> cases fn <;> cases fc <;>
      simp only [Bool.false_eq_true, if_false, if_true, Option.map_none', Option.bind_none,
        Option.bind_some, reduceCtorEq] at h
    simp only [Bool.false_eq_true, if_false]
    exact Option.some.inj h
  · simp only [if_neg htw] at h
    have hq : ∀ v, quot v ((m.adjacency_list_.getD vidx ∅).sum (laplacianWeight root pv vidx)) =
        vdiv v ((m.adjacency_list_.getD vidx ∅).sum (laplacianWeight root pv vidx)) :=
      fun v => hquot v _ htw
    simp only [hq]
    cases fv <;> cases fn <;> cases fc <;>
      simp only [Bool.false_eq_true, if_false, if_true, Option.map_some', Option.bind_some]
        at h ⊢ <;>
      exact Option.some.inj h

theorem laplacianIter_total (quot : Vector3d → ℚ → Vector3d)
    (hquot : ∀ v tw, tw ≠ 0 → quot v tw = vdiv v tw) (root : ℚ → ℚ) (lambda : ℚ)
    (fv fn fc : Bool) (m r : TriangleMesh)
    (h : laplacianIter root lambda fv fn fc m = some r) :
    laplacianIterTotal quot root lambda fv fn fc m = r := by
  unfold laplacianIter at h
  unfold laplacianIterTotal
  generalize m.vertices_.length = n at h ⊢
  induction n generalizing r with
  | zero =>
    simp only [List.range_zero, List.foldl_nil] at h ⊢
    exact Option.some.inj h
  | succ n ih =>
    rw [List.range_succ, List.foldl_append] at h ⊢
    simp only [List.foldl_cons, List.foldl_nil] at h ⊢
    cases ha : (List.range n).foldl
        (fun (acc : Option TriangleMesh) vidx =>
          acc.bind fun s =>
            laplacianStep root lambda fv fn fc m.vertices_ m.vertex_normals_ m.vertex_colors_
              s vidx)
        (some m) with
    | none =>
      rw [ha] at h
      exact absurd h (by simp)
    | some a =>
      rw [ha] at h
      rw [ih a ha]
      exact laplacianStep_total quot hquot root lambda fv fn fc _ _ _ a r n h

theorem optIterate_total (f : TriangleMesh → Option TriangleMesh)
    (g : TriangleMesh → TriangleMesh) (hfg : ∀ m r, f m = some r → g m = r) (k : ℕ)
    (m r : TriangleMesh)
    (h : (fun (acc : Option TriangleMesh) => acc.bind f)^[k] (some m) = some r) :
    g^[k] m = r := by
  induction k generalizing m with
  | zero =>
    rw [Function.iterate_zero, id] at h
    exact Option.some.inj h
  | succ k ih =>
    rw [Function.iterate_succ_apply] at h ⊢
    have hb : (some m).bind f = f m := rfl
    rw [hb] at h
    cases hm : f m with
    | none =>
      rw [hm] at h
      have hnone : ∀ j : ℕ, (fun (acc : Option TriangleMesh) => acc.bind f)^[j] none = none := by
        intro j
        exact Function.iterate_fixed rfl j
      rw [hnone] at h
      exact absurd h (by simp)
    | some a =>
      rw [hm] at h
      rw [hfg m a hm]
      exact ih a h

theorem filterSmoothLaplacian_total (quot : Vector3d → ℚ → Vector3d)
    (hquot : ∀ v tw, tw ≠ 0 → quot v tw = vdiv v tw) (root : ℚ → ℚ) (m r : TriangleMesh)
    (k : ℤ) (lambda : ℚ) (scope : FilterScope)
    (h : FilterSmoothLaplacian root m k lambda scope = some r) :
    FilterSmoothLaplacianTotal quot root m k lambda scope = r := by
  rw [FilterSmoothLaplacian_eq] at h
  rw [FilterSmoothLaplacianTotal_eq]
  exact optIterate_total _ _
    (fun a b hab => laplacianIter_total quot hquot root lambda _ _ _ a b hab) _ _ _ h

/-- C29: for `FilterSharpen`, `FilterSmoothSimple` and `FilterSmoothLaplacian` with
any iteration count, on every mesh, a channel that the scope does not enable is left
unchanged (scope `Vertex`: normals and colours; scope `Normal`: positions and
colours; scope `Color`: positions and normals), an absent normal or colour channel
is left unchanged, and so are the triangles.  For `FilterSmoothLaplacian` this holds
for the run that goes on after a quotient by a zero total weight, whatever value
`quot` the division then has, so also on meshes with isolated vertices; this run is
the mesh that `FilterSmoothLaplacian` returns whenever no such quotient occurs, which
is the case when every vertex has a neighbour. -/
theorem filters_frame (quot : Vector3d → ℚ → Vector3d) (root : ℚ → ℚ) (m : TriangleMesh)
    (k : ℤ) (strength lambda : ℚ) (scope : FilterScope) :
    FilterFrame scope m (FilterSharpen m k strength scope) ∧
    FilterFrame scope m (FilterSmoothSimple m k scope) ∧
    FilterFrame scope m (FilterSmoothLaplacianTotal quot root m k lambda scope) ∧
    ((∀ v tw, tw ≠ 0 → quot v tw = vdiv v tw) →
      ∀ r, FilterSmoothLaplacian root m k lambda scope = some r →
        FilterSmoothLaplacianTotal quot root m k lambda scope = r) ∧
    (∀ r, FilterSmoothLaplacian root m k lambda scope = some r → FilterFrame scope m r) ∧
    ((∀ x, 0 ≤ root x) →
      (∀ i, i < m.vertices_.length →
        ((ensureAdjacency m).adjacency_list_.getD i ∅).Nonempty) →
      ∃ r, FilterSmoothLaplacian root m k lambda scope = some r) :=
  ⟨filterSharpen_frame m k strength scope, filterSmoothSimple_frame m k scope,
    filterSmoothLaplacianTotal_frame quot root m k lambda scope,
    fun hquot r h => filterSmoothLaplacian_total quot hquot root m r k lambda scope h,
    fun r h => filterSmoothLaplacian_frame root m r k lambda scope h,
    fun hroot hadj => filterSmoothLaplacian_some root hroot m k lambda scope hadj⟩

theorem filters_frame_witness :
    (∀ (v : Vector3d) (tw : ℚ), tw ≠ 0 → vdiv v tw = vdiv v tw) ∧ (∀ x : ℚ, 0 ≤ |x|) ∧
      (∀ i, i < fanMesh.vertices_.length →
        ((ensureAdjacency fanMesh).adjacency_list_.getD i ∅).Nonempty) ∧
      ∃ r, FilterSmoothLaplacian (fun x => |x|) fanMesh 2 (1 / 2) FilterScope.Vertex = some r ∧
        FilterSmoothLaplacianTotal vdiv (fun x => |x|) fanMesh 2 (1 / 2) FilterScope.Vertex =
          r ∧
        FilterFrame FilterScope.Vertex fanMesh r := by
  have hquot : ∀ (v : Vector3d) (tw : ℚ), tw ≠ 0 → vdiv v tw = vdiv v tw := fun _ _ _ => rfl
  have hroot : ∀ x : ℚ, 0 ≤ |x| := fun x => abs_nonneg x
  have hadj : ∀ i, i < fanMesh.vertices_.length →
      ((ensureAdjacency fanMesh).adjacency_list_.getD i ∅).Nonempty := by decide
  obtain ⟨_, _, _, h4, h5, h6⟩ :=
    filters_frame vdiv (fun x => |x|) fanMesh 2 1 (1 / 2) FilterScope.Vertex
  obtain ⟨r, hr⟩ := h6 hroot hadj
  exact ⟨hquot, hroot, hadj, r, hr, h4 hquot r hr, h5 r hr⟩

theorem computeVertexNormals_false (NormalizeNormals : TriangleMesh → TriangleMesh)
    (m : TriangleMesh) :
    ComputeVertexNormals NormalizeNormals m false = ComputeVertexNormals id m false := rfl

/-- C30 fails in the code: `staleNormalsMesh` holds the vertex normals `(1, 1, 1)`
before the call and its only triangle has the normal `(0, 0, 1)`; after
`ComputeVertexNormals(false)` every vertex normal is `(1, 1, 2)`, the old normal
plus the triangle normal, and not the sum `(0, 0, 1)` of the triangle normals. -/
theorem computeVertexNormals_keeps_old (NormalizeNormals : TriangleMesh → TriangleMesh) :
    WellFormed staleNormalsMesh ∧
    (ComputeVertexNormals NormalizeNormals staleNormalsMesh false).triangle_normals_ =
      [(0, 0, 1)] ∧
    (ComputeVertexNormals NormalizeNormals staleNormalsMesh false).vertex_normals_ =
      [(1, 1, 2), (1, 1, 2), (1, 1, 2)] ∧
    normalSum staleNormalsMesh 0 staleNormalsMesh.triangles_.length = (0, 0, 1) := by
  rw [computeVertexNormals_false]
  refine ⟨by decide, ?_, ?_, ?_⟩
  · decide!
  · decide!
  · decide!

theorem addNormal_spec (vn : List Vector3d) (vidx : ℕ) (x : Vector3d) (h : vidx < vn.length)
    (v : ℕ) :
    (addNormal vn vidx x).length = vn.length ∧
    (addNormal vn vidx x).getD v default =
      vn.getD v default + (if vidx = v then (1 : ℚ) else 0) • x := by
  unfold addNormal
  refine ⟨List.length_set _ _ _, ?_⟩
  rw [getD_set]
  by_cases hv : vidx = v
  · subst hv
    rw [if_pos ⟨rfl, h⟩, if_pos rfl, one_smul]
  · rw [if_neg (fun hh => hv hh.1), if_neg hv, zero_smul, add_zero]

theorem computeTriangleNormals_spec (NormalizeNormals : TriangleMesh → TriangleMesh)
    (m : TriangleMesh) :
    (ComputeTriangleNormals NormalizeNormals m false).vertices_ = m.vertices_ ∧
    (ComputeTriangleNormals NormalizeNormals m false).vertex_normals_ = m.vertex_normals_ ∧
    (ComputeTriangleNormals NormalizeNormals m false).triangles_ = m.triangles_ ∧
    (ComputeTriangleNormals NormalizeNormals m false).triangle_normals_.length =
      m.triangles_.length ∧
    ∀ i, i < m.triangles_.length →
      (ComputeTriangleNormals NormalizeNormals m false).triangle_normals_.getD i default =
        cross
          (vsub (m.vertices_.getD (m.triangles_.getD i default).2.1 default)
            (m.vertices_.getD (m.triangles_.getD i default).1 default))
          (vsub (m.vertices_.getD (m.triangles_.getD i default).2.2 default)
            (m.vertices_.getD (m.triangles_.getD i default).1 default)) := by
  unfold ComputeTriangleNormals
  simp only [Bool.false_eq_true, if_false]
  apply foldl_range_inv _ _ (fun k (st : TriangleMesh) =>
    st.vertices_ = m.vertices_ ∧ st.vertex_normals_ = m.vertex_normals_ ∧
    st.triangles_ = m.triangles_ ∧ st.triangle_normals_.length = m.triangles_.length ∧
    ∀ i, i < k → st.triangle_normals_.getD i default =
      cross
        (vsub (m.vertices_.getD (m.triangles_.getD i default).2.1 default)
          (m.vertices_.getD (m.triangles_.getD i default).1 default))
        (vsub (m.vertices_.getD (m.triangles_.getD i default).2.2 default)
          (m.vertices_.getD (m.triangles_.getD i default).1 default)))
  · refine ⟨rfl, rfl, rfl, ?_, ?_⟩
    · simp only [resize, List.length_append, List.length_take, List.length_replicate]
      omega
    · intro i hi
      exact absurd hi (Nat.not_lt_zero i)
  · rintro k hk st ⟨h1, h2, h3, h4, h5⟩
    refine ⟨h1, h2, h3, by simp only [List.length_set]; exact h4, ?_⟩
    intro i hi
    simp only []
    rw [getD_set]
    by_cases hik : k = i
    · subst hik
      rw [if_pos ⟨rfl, by rw [h4]; exact hk⟩, h1, h3]
    · rw [if_neg (fun hh => hik hh.1)]
      exact h5 i (by omega)

theorem normalSum_succ (m : TriangleMesh) (v k : ℕ) :
    normalSum m v (k + 1) =
      normalSum m v k +
        (cornerCount (m.triangles_.getD k default) v : ℚ) • usedTriangleNormal m k := by
  unfold normalSum
  rw [List.range_succ, List.map_append, List.sum_append]
  simp

theorem computeVertexNormals_accumulates (NormalizeNormals : TriangleMesh → TriangleMesh)
    (m : TriangleMesh) (hwf : WellFormed m) (v : ℕ) :
    (ComputeVertexNormals NormalizeNormals m false).vertex_normals_.length =
      m.vertices_.length ∧
    (ComputeVertexNormals NormalizeNormals m false).vertex_normals_.getD v default =
      (resize m.vertex_normals_ m.vertices_.length 0).getD v default +
        normalSum m v m.triangles_.length := by
  have hm1 : ∃ m1 : TriangleMesh,
      (if HasTriangleNormals m == false then ComputeTriangleNormals NormalizeNormals m false
        else m) = m1 ∧ m1.vertices_ = m.vertices_ ∧ m1.vertex_normals_ = m.vertex_normals_ ∧
      m1.triangles_ = m.triangles_ ∧
      ∀ i, i < m.triangles_.length →
        m1.triangle_normals_.getD i default = usedTriangleNormal m i := by
    by_cases h : HasTriangleNormals m = true
    · refine ⟨m, by simp [h], rfl, rfl, rfl, ?_⟩
      intro i _
      unfold usedTriangleNormal
      rw [if_pos h]
    · have h' : HasTriangleNormals m = false := by simpa using h
      obtain ⟨c1, c2, c3, _, c5⟩ := computeTriangleNormals_spec NormalizeNormals m
      refine ⟨_, by simp [h'], c1, c2, c3, ?_⟩
      intro i hi
      unfold usedTriangleNormal
      rw [if_neg h]
      exact c5 i hi
  obtain ⟨m1, e0, e1, e2, e3, e4⟩ := hm1
  unfold ComputeVertexNormals
  simp only [Bool.false_eq_true, if_false]
  rw [e0]
  show (List.foldl vertexNormalStep ({ m1 with vertex_normals_ := resize m1.vertex_normals_ m1.vertices_.length 0 } : TriangleMesh) (List.range m1.triangles_.length)).vertex_normals_.length = m.vertices_.length ∧ (List.foldl vertexNormalStep ({ m1 with vertex_normals_ := resize m1.vertex_normals_ m1.vertices_.length 0 } : TriangleMesh) (List.range m1.triangles_.length)).vertex_normals_.getD v default = _
  have key := foldl_range_inv
    vertexNormalStep
    ({ m1 with vertex_normals_ := resize m1.vertex_normals_ m1.vertices_.length 0 } : TriangleMesh)
    (fun k (st : TriangleMesh) =>
      st.triangles_ = m.triangles_ ∧ st.triangle_normals_ = m1.triangle_normals_ ∧
      st.vertex_normals_.length = m.vertices_.length ∧
      ∀ w, st.vertex_normals_.getD w default =
        (resize m.vertex_normals_ m.vertices_.length 0).getD w default + normalSum m w k)
    m1.triangles_.length
    (by
      rw [e1, e2]
      refine ⟨e3, rfl, ?_, ?_⟩
      · simp only [resize, List.length_append, List.length_take, List.length_replicate]
        omega
      · intro w
        simp [normalSum])
    (by
      rintro k hk st ⟨h1, h2, h3, h4⟩
      rw [e3] at hk
      have hmem : m.triangles_.getD k default ∈ m.triangles_ := by
        rw [List.getD_eq_getElem?_getD, List.getElem?_eq_getElem hk]
        exact List.getElem_mem _
      have hw := hwf _ hmem
      unfold vertexNormalStep
      simp only []
      rw [h1, h2, e4 k hk]
      have a1 := fun w => addNormal_spec st.vertex_normals_ (m.triangles_.getD k default).1
        (usedTriangleNormal m k) (by rw [h3]; exact hw.1) w
      have a2 := fun w => addNormal_spec _ (m.triangles_.getD k default).2.1
        (usedTriangleNormal m k) (by rw [(a1 0).1, h3]; exact hw.2.1) w
      have a3 := fun w => addNormal_spec _ (m.triangles_.getD k default).2.2
        (usedTriangleNormal m k) (by rw [(a2 0).1, (a1 0).1, h3]; exact hw.2.2) w
      refine ⟨rfl, rfl, by rw [(a3 0).1, (a2 0).1, (a1 0).1, h3], ?_⟩
      intro w
      rw [(a3 w).2, (a2 w).2, (a1 w).2, h4 w, normalSum_succ]
      unfold cornerCount
      push_cast
      rw [add_smul, add_smul]
      abel)
  exact ⟨key.2.2.1, (key.2.2.2 v).trans (by rw [e3])⟩

theorem computeVertexNormals_fresh (NormalizeNormals : TriangleMesh → TriangleMesh)
    (m : TriangleMesh) (hwf : WellFormed m) (hno : m.vertex_normals_ = []) (v : ℕ) :
    (ComputeVertexNormals NormalizeNormals m false).vertex_normals_.getD v default =
      normalSum m v m.triangles_.length := by
  rw [(computeVertexNormals_accumulates NormalizeNormals m hwf v).2, hno]
  have : (resize ([] : List Vector3d) m.vertices_.length 0).getD v default = 0 := by
    rw [resize_nil, List.getD_eq_getElem?_getD, List.getElem?_replicate]
    split_ifs <;> rfl
  rw [this, zero_add]

/-! ## C35: first occurrences and rotations -/

theorem triangleKey_rotation (a b c d e f : ℕ)
    (hs : a ≠ b ∧ b ≠ c ∧ c ≠ a) (ht : d ≠ e ∧ e ≠ f ∧ f ≠ d) :
    triangleKey (a, b, c) = triangleKey (d, e, f) ↔
      ((d = a ∧ e = b ∧ f = c) ∨ (d = b ∧ e = c ∧ f = a) ∨ (d = c ∧ e = a ∧ f = b)) := by
  obtain ⟨h1, h2, h3⟩ := hs
  obtain ⟨h4, h5, h6⟩ := ht
  unfold triangleKey
  simp only []
  by_cases c1 : a ≤ b <;> by_cases c2 : a ≤ c <;> by_cases c3 : b ≤ c <;>
    by_cases c4 : d ≤ e <;> by_cases c5 : d ≤ f <;> by_cases c6 : e ≤ f <;>
    simp only [c1, c2, c3, c4, c5, c6, if_true, if_false, Prod.mk.injEq] <;>
    omega

theorem dupTriKept_mem (m : TriangleMesh) (i : ℕ) :
    i ∈ dupTriKept m ↔
      i < m.triangles_.length ∧
        ∀ j, j < i → triangleKey (m.triangles_.getD j default) ≠
          triangleKey (m.triangles_.getD i default) := by
  unfold dupTriKept keptBelow
  rw [List.mem_filter, List.mem_range, dupTriFirst_eq]
  constructor
  · rintro ⟨hi, hn⟩
    refine ⟨hi, fun j hj he => hn ?_⟩
    rw [List.mem_map]
    refine ⟨m.triangles_.getD j default, ?_, he⟩
    rw [List.mem_iff_getElem]
    refine ⟨j, by rw [List.length_take]; omega, ?_⟩
    rw [List.getElem_take, List.getD_eq_getElem?_getD, List.getElem?_eq_getElem (by omega)]
    rfl
  · rintro ⟨hi, hn⟩
    refine ⟨hi, fun hmem => ?_⟩
    rw [List.mem_map] at hmem
    obtain ⟨t, ht, he⟩ := hmem
    rw [List.mem_iff_getElem] at ht
    obtain ⟨j, hj, hjt⟩ := ht
    rw [List.length_take] at hj
    rw [List.getElem_take] at hjt
    apply hn j (by omega)
    rw [List.getD_eq_getElem?_getD, List.getElem?_eq_getElem (by omega)]
    show triangleKey m.triangles_[j] = _
    rw [hjt, he]

/-- C35: `RemoveDuplicatedTriangles` keeps, unchanged and in the original order,
exactly the triangles `i` for which no earlier triangle `j < i` has the same key
`triangleKey`; and two triangles with pairwise distinct indices have the same key
if and only if one is a cyclic rotation of the other. -/
theorem removeDuplicatedTriangles_first (m : TriangleMesh) :
    (RemoveDuplicatedTriangles m).triangles_ =
      (dupTriKept m).map (fun i => m.triangles_.getD i default) ∧
    (dupTriKept m).Pairwise (· < ·) ∧
    (∀ i, i ∈ dupTriKept m ↔
      i < m.triangles_.length ∧
        ∀ j, j < i → triangleKey (m.triangles_.getD j default) ≠
          triangleKey (m.triangles_.getD i default)) ∧
    ∀ s t : Vector3i, NonDegenerate s → NonDegenerate t →
      (triangleKey s = triangleKey t ↔
        (t = s ∨ t = (s.2.1, s.2.2, s.1) ∨ t = (s.2.2, s.1, s.2.1))) := by
  refine ⟨(dupTri_fields m).2, ?_, dupTriKept_mem m, ?_⟩
  · unfold dupTriKept keptBelow
    exact List.Pairwise.filter _ (List.pairwise_lt_range _)
  · rintro ⟨a, b, c⟩ ⟨d, e, f⟩ hs ht
    rw [triangleKey_rotation a b c d e f hs ht]
    simp only [Prod.mk.injEq]

theorem removeDuplicatedTriangles_first_witness :
    NonDegenerate ((0, 1, 2) : Vector3i) ∧ NonDegenerate ((2, 0, 1) : Vector3i) ∧
      (triangleKey (0, 1, 2) = triangleKey (2, 0, 1) ↔
        (((2, 0, 1) : Vector3i) = (0, 1, 2) ∨ ((2, 0, 1) : Vector3i) = (1, 2, 0) ∨
          ((2, 0, 1) : Vector3i) = (2, 0, 1))) :=
  ⟨by decide, by decide,
    (removeDuplicatedTriangles_first sampleMesh).2.2.2 (0, 1, 2) (2, 0, 1) (by decide)
      (by decide)⟩

/-! ## C32: the passes of RemoveNonManifoldEdges -/

theorem nonManifoldPass_spec (root : ℚ → ℚ) (hroot : root 0 = 0)
    (order : List (Vector2i × List ℕ) → List (Vector2i × List ℕ))
    (horder : ∀ l, (order l).Perm l) (p : TriangleMesh) (A : List ℚ)
    (hA : AreaInv root p A) :
    ∃ st, edgeLoop (order (GetEdgeToTrianglesMap p)) (true, A) = some st ∧
      (st.1 = true ↔ ∀ kv ∈ GetEdgeToTrianglesMap p, kv.2.length = 1 ∨ kv.2.length = 2) ∧
      (st.1 = true →
        ∀ fuel, nonManifoldLoop order (fuel + 1) p A = some (deleteMarked p st.2).1) ∧
      (st.1 = false →
        (deleteMarked p st.2).1.triangles_.length < p.triangles_.length ∧
        AreaInv root (deleteMarked p st.2).1 (deleteMarked p st.2).2 ∧
        ∀ fuel, nonManifoldLoop order (fuel + 1) p A =
          nonManifoldLoop order fuel (deleteMarked p st.2).1 (deleteMarked p st.2).2) := by
  have hgood : ∀ kv ∈ order (GetEdgeToTrianglesMap p), GoodEntry p.triangles_ kv :=
    fun kv hkv => edgeMap_good p kv ((horder _).mem_iff.mp hkv)
  obtain ⟨st, e1, ⟨p1, p2, p3, p4⟩, c1⟩ := edgeLoop_spec p.triangles_ A
    (order (GetEdgeToTrianglesMap p)) (true, A) hA.1
    (areaInv_nondegenerate root hroot p A hA)
    ⟨rfl, fun i => Or.inl rfl, fun _ => rfl, fun h => by simp at h⟩ hgood
  have hdel := deleteMarked_eq p st.2 (by rw [p1, hA.1])
  obtain ⟨hA1, _⟩ := nmMesh_areaInv root p A st.2 hA p2
  refine ⟨st, e1, ?_, ?_, ?_⟩
  · constructor
    · intro hflag kv hkv
      exact (c1 hflag).2 kv ((horder _).mem_iff.mpr hkv)
    · intro hall
      have := edgeLoop_manifold (order (GetEdgeToTrianglesMap p)) (true, A)
        (fun kv hkv => hall kv ((horder _).mem_iff.mp hkv))
      rw [e1] at this
      rw [Option.some.inj this]
  · intro hflag fuel
    unfold nonManifoldLoop
    rw [e1]
    simp only []
    rw [if_pos hflag]
  · intro hf
    refine ⟨?_, ?_, ?_⟩
    · rw [hdel]
      obtain ⟨i, hi, hi0⟩ := p4 hf
      by_contra hc
      have hc' : ¬ (keptBelow (fun j => decide (st.2.getD j 0 > 0))
          p.triangles_.length).length < p.triangles_.length := by
        simpa [nmMesh, nmKept] using hc
      have := keptBelow_all_of_length _ _ hc' i (by rw [← hA.1]; exact hi)
      have hp : st.2.getD i 0 > 0 := of_decide_eq_true this
      exact absurd hp (not_lt.mpr hi0)
    · rw [hdel]
      exact hA1
    · intro fuel
      have hflag : ¬ st.1 = true := by rw [hf]; decide
      conv_lhs => unfold nonManifoldLoop
      rw [e1]
      simp only []
      rw [if_neg hflag]

/-- C32: `RemoveNonManifoldEdges` returns on every mesh, with exact areas
(`root 0 = 0`) and every iteration order of the edge map.  The areas belong to the
triangles at the start (`AreaInv`), and from every state `(p, A)` with this property
a pass of the outer loop completes its loop over the edges (the search for the
smallest triangle never leaves `min_tidx` at `-1`); the flag it ends with is true
exactly when every edge of `p` has one or two incident triangles, and then the pass
is the last one; otherwise the pass ends with strictly fewer triangles, in a state
with the same property, from which the loop goes on. -/
theorem removeNonManifoldEdges_terminates (root : ℚ → ℚ) (hroot : root 0 = 0)
    (order : List (Vector2i × List ℕ) → List (Vector2i × List ℕ))
    (horder : ∀ l, (order l).Perm l) (m : TriangleMesh) :
    AreaInv root m (GetTriangleAreas root m) ∧
    (∀ (p : TriangleMesh) (A : List ℚ), AreaInv root p A →
      ∃ st, edgeLoop (order (GetEdgeToTrianglesMap p)) (true, A) = some st ∧
        (st.1 = true ↔ ∀ kv ∈ GetEdgeToTrianglesMap p, kv.2.length = 1 ∨ kv.2.length = 2) ∧
        (st.1 = true →
          ∀ fuel, nonManifoldLoop order (fuel + 1) p A = some (deleteMarked p st.2).1) ∧
        (st.1 = false →
          (deleteMarked p st.2).1.triangles_.length < p.triangles_.length ∧
          AreaInv root (deleteMarked p st.2).1 (deleteMarked p st.2).2 ∧
          ∀ fuel, nonManifoldLoop order (fuel + 1) p A =
            nonManifoldLoop order fuel (deleteMarked p st.2).1 (deleteMarked p st.2).2)) ∧
    ∃ r, RemoveNonManifoldEdges root order m = some r := by
  refine ⟨areaInv_init root m, fun p A hA => nonManifoldPass_spec root hroot order horder p A hA,
    ?_⟩
  obtain ⟨r, hr, _⟩ := removeNonManifoldEdges_result root hroot order horder m
  exact ⟨r, hr⟩

theorem removeNonManifoldEdges_terminates_witness :
    (id (0 : ℚ) = 0) ∧ (∀ l : List (Vector2i × List ℕ), (id l).Perm l) ∧
      ∃ r, RemoveNonManifoldEdges id id sampleMesh = some r :=
  ⟨rfl, fun l => List.Perm.refl l,
    (removeNonManifoldEdges_terminates id rfl id (fun l => List.Perm.refl l) sampleMesh).2.2⟩

/-! ## C31, C39: GetSelfIntersectingTriangles -/

theorem selfIntersectInner_spec (P : TrianglePredicate) (m : TriangleMesh) (tidx0 : ℕ)
    (l : List ℕ) (hl : ∀ j ∈ l, j < m.triangles_.length) (acc : List Vector2i) :
    selfIntersectInner P m tidx0 (m.triangles_.getD tidx0 default) l acc =
      some (acc ++ (l.filter fun j => intersectingPair P m tidx0 j).map fun j => (tidx0, j)) := by
  induction l generalizing acc with
  | nil => simp [selfIntersectInner]
  | cons j rest ih =>
    have hj := hl j (List.mem_cons_self _ _)
    have hrest : ∀ x ∈ rest, x < m.triangles_.length :=
      fun x hx => hl x (List.mem_cons_of_mem _ hx)
    have hq : m.triangles_.getD j default = m.triangles_[j] := by
      rw [List.getD_eq_getElem?_getD, List.getElem?_eq_getElem hj]
      rfl
    unfold selfIntersectInner
    rw [List.getElem?_eq_getElem hj]
    simp only []
    rw [← hq]
    by_cases hs : sharesVertex (m.triangles_.getD tidx0 default) (m.triangles_.getD j default)
        = true
    · rw [if_pos hs, ih hrest]
      have : intersectingPair P m tidx0 j = false := by
        unfold intersectingPair
        rw [hs]
        rfl
      rw [List.filter_cons_of_neg (by rw [this]; decide)]
    · rw [if_neg hs]
      have hs' : sharesVertex (m.triangles_.getD tidx0 default) (m.triangles_.getD j default)
          = false := by simpa using hs
      by_cases hp : intersectingPair P m tidx0 j = true
      · have hp' := hp
        unfold intersectingPair at hp'
        rw [hs'] at hp'
        simp only [Bool.not_false, Bool.true_and] at hp'
        rw [if_pos hp', ih hrest, List.filter_cons_of_pos hp]
        simp
      · have hp' := hp
        unfold intersectingPair at hp'
        rw [hs'] at hp'
        simp only [Bool.not_false, Bool.true_and] at hp'
        rw [if_neg hp', ih hrest, List.filter_cons_of_neg hp]

theorem selfIntersectOuter_spec (P : TrianglePredicate) (m : TriangleMesh) (bound : ℕ)
    (hb : bound ≤ m.triangles_.length) (k : ℕ) :
    ∀ (fuel tidx0 : ℕ) (acc : List Vector2i), tidx0 + k = bound → k < fuel →
      selfIntersectOuter P m bound fuel tidx0 acc =
        some (acc ++ (List.range' tidx0 k).flatMap (intersectingRow P m)) := by
  induction k with
  | zero =>
    intro fuel tidx0 acc h hf
    obtain ⟨f, rfl⟩ : ∃ f, fuel = f + 1 := ⟨fuel - 1, by omega⟩
    unfold selfIntersectOuter
    rw [if_neg (by omega)]
    simp
  | succ k ih =>
    intro fuel tidx0 acc h hf
    obtain ⟨f, rfl⟩ : ∃ f, fuel = f + 1 := ⟨fuel - 1, by omega⟩
    have ht : tidx0 < m.triangles_.length := by omega
    have hp : m.triangles_.getD tidx0 default = m.triangles_[tidx0] := by
      rw [List.getD_eq_getElem?_getD, List.getElem?_eq_getElem ht]
      rfl
    unfold selfIntersectOuter
    rw [if_pos (by omega), List.getElem?_eq_getElem ht]
    simp only []
    rw [← hp, selfIntersectInner_spec P m tidx0 _ (by
      intro j hj
      rw [List.mem_range'_1] at hj
      omega)]
    simp only []
    rw [ih f (tidx0 + 1) _ (by omega) (by omega), List.range'_succ, List.flatMap_cons,
      List.append_assoc]
    rfl

theorem getSelfIntersectingTriangles_eq (P : TrianglePredicate) (m : TriangleMesh)
    (h1 : 1 ≤ m.triangles_.length) (h2 : m.triangles_.length < 2 ^ 64) :
    GetSelfIntersectingTriangles P m =
      some ((List.range (m.triangles_.length - 1)).flatMap (intersectingRow P m)) := by
  unfold GetSelfIntersectingTriangles
  have hb : (m.triangles_.length + 2 ^ 64 - 1) % 2 ^ 64 = m.triangles_.length - 1 := by
    have : m.triangles_.length + 2 ^ 64 - 1 = (m.triangles_.length - 1) + 2 ^ 64 := by omega
    rw [this, Nat.add_mod_right, Nat.mod_eq_of_lt (by omega)]
  rw [hb, selfIntersectOuter_spec P m _ (by omega) (m.triangles_.length - 1) _ 0 []
    (by omega) (by omega), List.nil_append, List.range_eq_range']

theorem intersectingRow_mem (P : TrianglePredicate) (m : TriangleMesh) (i : ℕ) (x : Vector2i) :
    x ∈ intersectingRow P m i ↔
      x.1 = i ∧ i < x.2 ∧ x.2 < m.triangles_.length ∧ intersectingPair P m i x.2 = true := by
  unfold intersectingRow
  rw [List.mem_map]
  constructor
  · rintro ⟨j, hj, rfl⟩
    rw [List.mem_filter, List.mem_range'_1] at hj
    exact ⟨rfl, by omega, by omega, hj.2⟩
  · rintro ⟨h1, h2, h3, h4⟩
    refine ⟨x.2, ?_, by rw [← h1]⟩
    rw [List.mem_filter, List.mem_range'_1]
    exact ⟨⟨by omega, by omega⟩, h4⟩

theorem intersectingRows_spec (P : TrianglePredicate) (m : TriangleMesh) :
    ((List.range (m.triangles_.length - 1)).flatMap (intersectingRow P m)).Pairwise lexLt ∧
    ∀ i j, (i, j) ∈ (List.range (m.triangles_.length - 1)).flatMap (intersectingRow P m) ↔
      i < j ∧ j < m.triangles_.length ∧ intersectingPair P m i j = true := by
  constructor
  · rw [List.pairwise_flatMap]
    constructor
    · intro i _
      unfold intersectingRow
      rw [List.pairwise_map]
      apply List.Pairwise.filter
      exact (List.pairwise_lt_range' _ _).imp (fun h => Or.inr ⟨rfl, h⟩)
    · exact (List.pairwise_lt_range _).imp (fun {a b} h x hx y hy => by
        rw [intersectingRow_mem] at hx hy
        exact Or.inl (by rw [hx.1, hy.1]; exact h))
  · intro i j
    rw [List.mem_flatMap]
    constructor
    · rintro ⟨a, _, hx⟩
      rw [intersectingRow_mem] at hx
      obtain ⟨h1, h2, h3, h4⟩ := hx
      simp only [] at h1 h2 h3 h4
      subst h1
      exact ⟨h2, h3, h4⟩
    · rintro ⟨h1, h2, h3⟩
      refine ⟨i, by rw [List.mem_range]; omega, ?_⟩
      rw [intersectingRow_mem]
      exact ⟨rfl, h1, h2, h3⟩

/-- C31: on a mesh with at least one triangle (and fewer than `2 ^ 64`), for every
predicate `P`, `GetSelfIntersectingTriangles` returns a list that is strictly
increasing in the lexicographic order (so no pair occurs twice) and holds exactly
the pairs `(i, j)` with `i < j` below the triangle count such that the triangles `i`
and `j` have no vertex index in common and `P` holds on their corner coordinates;
`IsSelfIntersecting` returns true exactly when this list is not empty. -/
theorem getSelfIntersectingTriangles_spec (P : TrianglePredicate) (m : TriangleMesh)
    (h1 : 1 ≤ m.triangles_.length) (h2 : m.triangles_.length < 2 ^ 64) :
    ∃ l, GetSelfIntersectingTriangles P m = some l ∧ l.Pairwise lexLt ∧
      (∀ i j, (i, j) ∈ l ↔
        i < j ∧ j < m.triangles_.length ∧
          sharesVertex (m.triangles_.getD i default) (m.triangles_.getD j default) = false ∧
          P (m.vertices_.getD (m.triangles_.getD i default).1 default)
            (m.vertices_.getD (m.triangles_.getD i default).2.1 default)
            (m.vertices_.getD (m.triangles_.getD i default).2.2 default)
            (m.vertices_.getD (m.triangles_.getD j default).1 default)
            (m.vertices_.getD (m.triangles_.getD j default).2.1 default)
            (m.vertices_.getD (m.triangles_.getD j default).2.2 default) = true) ∧
      (IsSelfIntersecting P m = some true ↔ l ≠ []) ∧
      (IsSelfIntersecting P m = some false ↔ l = []) := by
  have he := getSelfIntersectingTriangles_eq P m h1 h2
  obtain ⟨hp, hm⟩ := intersectingRows_spec P m
  refine ⟨_, he, hp, ?_, ?_, ?_⟩
  · intro i j
    rw [hm i j]
    unfold intersectingPair
    simp only [Bool.and_eq_true, Bool.not_eq_true']
  · unfold IsSelfIntersecting
    rw [he]
    cases (List.range (m.triangles_.length - 1)).flatMap (intersectingRow P m) <;> simp
  · unfold IsSelfIntersecting
    rw [he]
    cases (List.range (m.triangles_.length - 1)).flatMap (intersectingRow P m) <;> simp

theorem getSelfIntersectingTriangles_spec_witness :
    1 ≤ sampleMesh.triangles_.length ∧ sampleMesh.triangles_.length < 2 ^ 64 ∧
      ∃ l, GetSelfIntersectingTriangles (fun _ _ _ _ _ _ => true) sampleMesh = some l ∧
        l.Pairwise lexLt ∧
        (IsSelfIntersecting (fun _ _ _ _ _ _ => true) sampleMesh = some true ↔ l ≠ []) := by
  have h1 : 1 ≤ sampleMesh.triangles_.length := by decide
  have h2 : sampleMesh.triangles_.length < 2 ^ 64 := by decide
  obtain ⟨l, e, hp, _, hi, _⟩ :=
    getSelfIntersectingTriangles_spec (fun _ _ _ _ _ _ => true) sampleMesh h1 h2
  exact ⟨h1, h2, l, e, hp, hi⟩

/-- C39 fails in the code: on a mesh with zero triangles the bound
`triangles_.size() - 1` of the outer loop is `2 ^ 64 - 1`, so the loop body runs for
`tidx0 = 0` and reads `triangles_[0]`, which is not below the triangle count; the
function does not return the empty list.  On every mesh with at least one triangle
all reads are below the triangle count and the function returns. -/
theorem getSelfIntersectingTriangles_empty_mesh (P : TrianglePredicate) :
    emptyMesh.triangles_.length = 0 ∧
    (emptyMesh.triangles_.length + 2 ^ 64 - 1) % 2 ^ 64 = 2 ^ 64 - 1 ∧
    emptyMesh.triangles_[0]? = none ∧
    GetSelfIntersectingTriangles P emptyMesh = none ∧
    IsSelfIntersecting P emptyMesh = none ∧
    ∀ m : TriangleMesh, 1 ≤ m.triangles_.length → m.triangles_.length < 2 ^ 64 →
      ∃ l, GetSelfIntersectingTriangles P m = some l := by
  refine ⟨rfl, by decide, rfl, ?_, ?_, fun m h1 h2 => ⟨_, getSelfIntersectingTriangles_eq P m h1 h2⟩⟩
  · unfold GetSelfIntersectingTriangles selfIntersectOuter
    rw [if_pos (by decide)]
    rfl
  · unfold IsSelfIntersecting GetSelfIntersectingTriangles selfIntersectOuter
    rw [if_pos (by decide)]
    rfl

theorem getSelfIntersectingTriangles_empty_mesh_witness :
    1 ≤ sampleMesh.triangles_.length ∧ sampleMesh.triangles_.length < 2 ^ 64 ∧
      ∃ l, GetSelfIntersectingTriangles (fun _ _ _ _ _ _ => false) sampleMesh = some l :=
  ⟨by decide, by decide,
    (getSelfIntersectingTriangles_empty_mesh (fun _ _ _ _ _ _ => false)).2.2.2.2.2 sampleMesh
      (by decide) (by decide)⟩

/-! ## C38: GetNonManifoldVertices and degenerate triangles -/

theorem order_singleton (order : List ℕ → List ℕ) (horder : ∀ l, (order l).Perm l) (a : ℕ) :
    order [a] = [a] := List.perm_singleton.mp (horder [a])

theorem order_nil (order : List ℕ → List ℕ) (horder : ∀ l, (order l).Perm l) :
    order [] = [] := List.perm_nil.mp (horder [])

/-- C38 fails in the code: `pinchedMesh` is well formed, its vertex `0` is a corner
of the triangle `(0, 0, 1)`, and for this vertex none of the three branches of the
loop that collects the link edges applies, so `edges` stays empty and
`edges.begin()` is dereferenced on an empty map: `GetNonManifoldVertices` has no
defined result, for every iteration order of the hash containers. -/
theorem getNonManifoldVertices_degenerate :
    WellFormed pinchedMesh ∧
    (vertToTriangles pinchedMesh).getD 0 [] = [0] ∧
    linkStep pinchedMesh.triangles_ 0 [] 0 = [] ∧
    ∀ order : List ℕ → List ℕ, (∀ l, (order l).Perm l) →
      vertexIsNonManifold order pinchedMesh.triangles_ 0 [0] = none ∧
      GetNonManifoldVertices order pinchedMesh = none := by
  refine ⟨by decide, by decide, by decide, ?_⟩
  intro order horder
  have h0 : vertexIsNonManifold order pinchedMesh.triangles_ 0 [0] = none := by
    unfold vertexIsNonManifold
    simp only []
    rw [order_singleton order horder]
    have : List.foldl (linkStep pinchedMesh.triangles_ 0) [] [0] = [] := by decide
    rw [this]
    show (match order [] with
      | [] => none
      | start :: _ => _) = none
    rw [order_nil order horder]
  refine ⟨h0, ?_⟩
  unfold GetNonManifoldVertices
  have hv : vertToTriangles pinchedMesh = [[0], [0]] := by decide
  rw [hv]
  show List.foldl _ (some []) [0, 1] = none
  simp only [List.foldl_cons, List.foldl_nil]
  have hg : ([[0], [0]] : List (List ℕ)).getD 0 [] = [0] := rfl
  rw [hg]
  simp only [List.length_singleton, one_ne_zero, if_false]
  rw [h0]

theorem getNonManifoldVertices_degenerate_witness :
    (∀ l : List ℕ, (id l).Perm l) ∧ GetNonManifoldVertices id pinchedMesh = none :=
  ⟨fun l => List.Perm.refl l,
    (getNonManifoldVertices_degenerate.2.2.2 id (fun l => List.Perm.refl l)).2⟩

/-! ## Orientation: a visit under a consistent choice of reversals -/

theorem sameDirection_iff (eo : List (Vector2i × Vector2i)) (key : Vector2i) (v : ℕ) :
    sameDirection eo key v = true ↔ ∃ d, mapFind eo key = some d ∧ d.1 = v := by
  unfold sameDirection
  cases h : mapFind eo key with
  | none => simp
  | some d => simp

theorem mem_orientedEdges_true (t : Vector3i) (x : Vector2i) :
    x ∈ orientedEdges true t ↔ (x.2, x.1) ∈ dirEdges t := by
  obtain ⟨a, b, c⟩ := t
  obtain ⟨p, q⟩ := x
  unfold orientedEdges dirEdges
  simp only [if_true, List.mem_cons, List.mem_singleton, List.not_mem_nil, or_false,
    Prod.mk.injEq]
  constructor
  · rintro (⟨rfl, rfl⟩ | ⟨rfl, rfl⟩ | ⟨rfl, rfl⟩)
    · exact Or.inl ⟨rfl, rfl⟩
    · exact Or.inr (Or.inl ⟨rfl, rfl⟩)
    · exact Or.inr (Or.inr ⟨rfl, rfl⟩)
  · rintro (⟨rfl, rfl⟩ | ⟨rfl, rfl⟩ | ⟨rfl, rfl⟩)
    · exact Or.inl ⟨rfl, rfl⟩
    · exact Or.inr (Or.inl ⟨rfl, rfl⟩)
    · exact Or.inr (Or.inr ⟨rfl, rfl⟩)

theorem edgeKey_swap (d : Vector2i) : edgeKey (d.2, d.1) = edgeKey d := by
  unfold edgeKey CreateOrderedEdge
  simp only [Prod.mk.injEq]
  omega

theorem stored_direction (T : List Vector3i) (τ : ℕ → Bool) (U : List ℕ)
    (eo : List (Vector2i × Vector2i)) (t : ℕ) (hc : Consistent T τ) (ht : t < T.length)
    (hJ : StoredInv T τ (t :: U) eo) (d d' : Vector2i)
    (hd : d ∈ dirEdges (T.getD t default)) (hf : mapFind eo (edgeKey d) = some d') :
    (τ t = false → d' = (d.2, d.1)) ∧ (τ t = true → d' = d) := by
  obtain ⟨hk, i, hi, hiU, hdi⟩ := hJ _ _ hf
  have hit : i ≠ t := fun h => hiU (by rw [h]; exact List.mem_cons_self _ _)
  have hno := hc i hi t ht hit d' hdi
  rcases edgeKey_cases d d' hk.symm with h | h
  · refine ⟨fun hτ => ?_, fun _ => h⟩
    exfalso
    apply hno
    rw [hτ, h]
    unfold orientedEdges
    rw [if_neg (by decide)]
    exact hd
  · refine ⟨fun _ => h, fun hτ => ?_⟩
    exfalso
    apply hno
    rw [hτ, mem_orientedEdges_true, h]
    exact hd

theorem verifyAndAdd_ok (eo : List (Vector2i × Vector2i)) (x y : ℕ)
    (h : ∀ d', mapFind eo (edgeKey (x, y)) = some d' → d'.1 ≠ x) :
    (VerifyAndAdd eo x y).1 = true := by
  unfold VerifyAndAdd
  simp only []
  cases hf : mapFind eo (CreateOrderedEdge x y) with
  | none => rfl
  | some d =>
    simp only []
    rw [if_neg (h d hf)]

theorem verifyThree_ok (eo : List (Vector2i × Vector2i)) (w : Vector3i)
    (hw : NonDegenerate w)
    (h : ∀ d ∈ dirEdges w, ∀ d', mapFind eo (edgeKey d) = some d' → d'.1 ≠ d.1) :
    (verifyThree eo w).1 = true := by
  obtain ⟨k1, k2, k3⟩ := keys_distinct w hw
  have h01 := verifyAndAdd_ok eo w.1 w.2.1 (h (w.1, w.2.1) (by simp [dirEdges]))
  cases e1 : VerifyAndAdd eo w.1 w.2.1 with
  | mk b1 eo1 =>
    rw [e1] at h01
    simp only [] at h01
    subst h01
    obtain ⟨a1, _⟩ := verifyAndAdd_true _ _ _ _ e1
    have h12 := verifyAndAdd_ok eo1 w.2.1 w.2.2 (by
      intro d' hd'
      rw [a1 _ k1] at hd'
      exact h (w.2.1, w.2.2) (by simp [dirEdges]) d' hd')
    cases e2 : VerifyAndAdd eo1 w.2.1 w.2.2 with
    | mk b2 eo2 =>
      rw [e2] at h12
      simp only [] at h12
      subst h12
      obtain ⟨b1, _⟩ := verifyAndAdd_true _ _ _ _ e2
      have h20 := verifyAndAdd_ok eo2 w.2.2 w.1 (by
        intro d' hd'
        rw [b1 _ k2, a1 _ (Ne.symm k3)] at hd'
        exact h (w.2.2, w.1) (by simp [dirEdges]) d' hd')
      unfold verifyThree
      simp only []
      rw [e1]
      simp only [Bool.not_true, Bool.false_eq_true, if_false]
      rw [e2]
      simp only [Bool.not_true, Bool.false_eq_true, if_false]
      exact h20

theorem storedInv_recorded (T : List Vector3i) (τ : ℕ → Bool) (U : List ℕ)
    (eo eo' : List (Vector2i × Vector2i)) (t : ℕ) (w : Vector3i) (ht : t < T.length)
    (htU : t ∉ U) (hJ : StoredInv T τ (t :: U) eo) (hr : Recorded eo eo' w)
    (hw : ∀ x ∈ dirEdges w, x ∈ orientedEdges (τ t) (T.getD t default)) :
    StoredInv T τ U eo' := by
  intro e d hf
  rcases recorded_origin eo eo' w hr e d hf with h | ⟨h1, h2, _⟩
  · obtain ⟨hk, i, hi, hiU, hdi⟩ := hJ e d h
    exact ⟨hk, i, hi, fun hm => hiU (List.mem_cons_of_mem _ hm), hdi⟩
  · exact ⟨h2, t, ht, htU, hw d h1⟩

theorem orientFlip_none (swap : List Vector3i → ℕ → ℕ → ℕ → List Vector3i)
    (eo : List (Vector2i × Vector2i)) (S : List Vector3i) (t a b c : ℕ)
    (h01 : sameDirection eo (CreateOrderedEdge a b) a = false)
    (h12 : sameDirection eo (CreateOrderedEdge b c) b = false)
    (h20 : sameDirection eo (CreateOrderedEdge c a) c = false) :
    orientFlip swap eo S t a b c = ((a, b, c), S) := by
  unfold orientFlip
  rw [h01, h12, h20]
  rfl

theorem orientFlip_some (swap : List Vector3i → ℕ → ℕ → ℕ → List Vector3i)
    (eo : List (Vector2i × Vector2i)) (S : List Vector3i) (t a b c : ℕ)
    (h : sameDirection eo (CreateOrderedEdge a b) a = true ∨
      sameDirection eo (CreateOrderedEdge b c) b = true ∨
      sameDirection eo (CreateOrderedEdge c a) c = true) :
    (orientFlip swap eo S t a b c).1 = (b, a, c) ∨
      (orientFlip swap eo S t a b c).1 = (a, c, b) ∨
      (orientFlip swap eo S t a b c).1 = (c, b, a) := by
  unfold orientFlip
  by_cases h01 : sameDirection eo (CreateOrderedEdge a b) a = true
  · rw [if_pos h01]
    exact Or.inl rfl
  · rw [if_neg h01]
    by_cases h12 : sameDirection eo (CreateOrderedEdge b c) b = true
    · rw [if_pos h12]
      exact Or.inr (Or.inl rfl)
    · rw [if_neg h12]
      have h20 : sameDirection eo (CreateOrderedEdge c a) c = true := by
        rcases h with h | h | h
        · exact absurd h h01
        · exact absurd h h12
        · exact h
      rw [if_pos h20]
      exact Or.inr (Or.inr rfl)

theorem reversed_dirEdges (w w' : Vector3i) (hw : NonDegenerate w)
    (h : w' = (w.2.1, w.1, w.2.2) ∨ w' = (w.1, w.2.2, w.2.1) ∨ w' = (w.2.2, w.2.1, w.1)) :
    NonDegenerate w' ∧ ∀ x, x ∈ dirEdges w' ↔ x ∈ orientedEdges true w := by
  obtain ⟨a, b, c⟩ := w
  unfold NonDegenerate at hw ⊢
  simp only [] at hw h
  rcases h with rfl | rfl | rfl
  · refine ⟨⟨Ne.symm hw.1, Ne.symm hw.2.2, Ne.symm hw.2.1⟩, ?_⟩
    intro x
    unfold orientedEdges dirEdges
    simp only [if_true, List.mem_cons, List.mem_singleton, List.not_mem_nil, or_false]
    tauto
  · refine ⟨⟨Ne.symm hw.2.2, Ne.symm hw.2.1, Ne.symm hw.1⟩, ?_⟩
    intro x
    unfold orientedEdges dirEdges
    simp only [if_true, List.mem_cons, List.mem_singleton, List.not_mem_nil, or_false]
    tauto
  · refine ⟨⟨Ne.symm hw.2.1, Ne.symm hw.1, Ne.symm hw.2.2⟩, ?_⟩
    intro x
    unfold orientedEdges dirEdges
    simp only [if_true, List.mem_cons, List.mem_singleton, List.not_mem_nil, or_false]
    tauto

theorem flip_verify (swap : List Vector3i → ℕ → ℕ → ℕ → List Vector3i)
    (T S : List Vector3i) (τ : ℕ → Bool) (U : List ℕ) (eo : List (Vector2i × Vector2i))
    (t : ℕ) (hc : Consistent T τ) (ht : t < T.length)
    (hnd : NonDegenerate (T.getD t default)) (hJ : StoredInv T τ (t :: U) eo)
    (hex : ∃ d ∈ dirEdges (T.getD t default), ∃ d', mapFind eo (edgeKey d) = some d') :
    NonDegenerate (orientFlip swap eo S t (T.getD t default).1 (T.getD t default).2.1
        (T.getD t default).2.2).1 ∧
    (verifyThree eo (orientFlip swap eo S t (T.getD t default).1 (T.getD t default).2.1
        (T.getD t default).2.2).1).1 = true ∧
    (∀ x, x ∈ dirEdges (orientFlip swap eo S t (T.getD t default).1 (T.getD t default).2.1
        (T.getD t default).2.2).1 ↔ x ∈ orientedEdges (τ t) (T.getD t default)) ∧
    (τ t = false → (orientFlip swap eo S t (T.getD t default).1 (T.getD t default).2.1
        (T.getD t default).2.2).2 = S) := by
  have hsd := stored_direction T τ U eo t hc ht hJ
  generalize hwdef : T.getD t default = w at hnd hex hsd ⊢
  cases hτ : τ t with
  | false =>
    have hall : ∀ d ∈ dirEdges w, sameDirection eo (edgeKey d) d.1 = false := by
      intro d hd
      cases hs : sameDirection eo (edgeKey d) d.1 with
      | false => rfl
      | true =>
        exfalso
        obtain ⟨d', hf, h1⟩ := (sameDirection_iff _ _ _).mp hs
        have := (hsd d d' hd hf).1 hτ
        rw [this] at h1
        exact dirEdges_ne w hnd d hd h1.symm
    have hflip := orientFlip_none swap eo S t w.1 w.2.1 w.2.2
      (hall (w.1, w.2.1) (by simp [dirEdges])) (hall (w.2.1, w.2.2) (by simp [dirEdges]))
      (hall (w.2.2, w.1) (by simp [dirEdges]))
    rw [hflip]
    refine ⟨hnd, ?_, ?_, fun _ => rfl⟩
    · apply verifyThree_ok eo w hnd
      intro d hd d' hf
      rw [(hsd d d' hd hf).1 hτ]
      exact Ne.symm (dirEdges_ne w hnd d hd)
    · intro x
      unfold orientedEdges
      rw [if_neg (by decide)]
  | true =>
    obtain ⟨d0, hd0, d0', hf0⟩ := hex
    have hs0 : sameDirection eo (edgeKey d0) d0.1 = true := by
      rw [sameDirection_iff]
      exact ⟨d0', hf0, by rw [(hsd d0 d0' hd0 hf0).2 hτ]⟩
    have hany : sameDirection eo (CreateOrderedEdge w.1 w.2.1) w.1 = true ∨
        sameDirection eo (CreateOrderedEdge w.2.1 w.2.2) w.2.1 = true ∨
        sameDirection eo (CreateOrderedEdge w.2.2 w.1) w.2.2 = true := by
      rw [mem_dirEdges] at hd0
      rcases hd0 with h | h | h
      · rw [h] at hs0; exact Or.inl hs0
      · rw [h] at hs0; exact Or.inr (Or.inl hs0)
      · rw [h] at hs0; exact Or.inr (Or.inr hs0)
    have hcase := orientFlip_some swap eo S t w.1 w.2.1 w.2.2 hany
    obtain ⟨hnd', hmem⟩ := reversed_dirEdges w _ hnd hcase
    refine ⟨hnd', ?_, hmem, fun h => by simp at h⟩
    apply verifyThree_ok eo _ hnd'
    intro x hx d' hf
    have hx' : (x.2, x.1) ∈ dirEdges w := (mem_orientedEdges_true w x).mp ((hmem x).mp hx)
    rw [← edgeKey_swap x] at hf
    rw [(hsd (x.2, x.1) d' hx' hf).2 hτ]
    exact Ne.symm (dirEdges_ne _ hnd' x hx)

theorem orientVisit_consistent (swap : List Vector3i → ℕ → ℕ → ℕ → List Vector3i)
    (order : List ℕ → List ℕ) (adj : List (Vector2i × List ℕ)) (T : List Vector3i)
    (τ : ℕ → Bool) (s : OrientState) (t : ℕ) (hc : Consistent T τ) (ht : t < T.length)
    (hw : s.triangles.getD t default = T.getD t default)
    (hnd : NonDegenerate (T.getD t default)) (htU : t ∉ s.unvisited_triangles)
    (hJ : StoredInv T τ (t :: s.unvisited_triangles) s.edge_to_orientation)
    (hfresh : (∀ d ∈ dirEdges (T.getD t default),
      mapFind s.edge_to_orientation (edgeKey d) = none) → τ t = false) :
    ∃ s', orientVisit swap order adj s t = (true, s') ∧
      s'.unvisited_triangles = s.unvisited_triangles ∧
      s'.triangle_queue =
        AddTriangleNbsToQueue order adj
          (AddTriangleNbsToQueue order adj
            (AddTriangleNbsToQueue order adj s.triangle_queue
              (edgeKey ((T.getD t default).1, (T.getD t default).2.1)))
            (edgeKey ((T.getD t default).2.1, (T.getD t default).2.2)))
          (edgeKey ((T.getD t default).2.2, (T.getD t default).1)) ∧
      StoredInv T τ s.unvisited_triangles s'.edge_to_orientation ∧
      (τ t = false → s'.triangles = s.triangles) ∧
      (∀ e d, mapFind s.edge_to_orientation e = some d →
        mapFind s'.edge_to_orientation e = some d) ∧
      ∀ d ∈ dirEdges (T.getD t default),
        ∃ d', mapFind s'.edge_to_orientation (edgeKey d) = some d' := by
  have hstored : ∀ (eo' : List (Vector2i × Vector2i)) (w' : Vector3i),
      Recorded s.edge_to_orientation eo' w' →
      (∀ x, x ∈ dirEdges w' ↔ x ∈ orientedEdges (τ t) (T.getD t default)) →
      StoredInv T τ s.unvisited_triangles eo' ∧
      (∀ e d, mapFind s.edge_to_orientation e = some d → mapFind eo' e = some d) ∧
      ∀ d ∈ dirEdges (T.getD t default), ∃ d', mapFind eo' (edgeKey d) = some d' := by
    intro eo' w' hr hm
    refine ⟨storedInv_recorded T τ _ _ eo' t w' ht htU hJ hr (fun x hx => (hm x).mp hx),
      fun e d h => recorded_persist _ _ _ hr e d h, ?_⟩
    intro d hd
    have hx : ∃ x ∈ dirEdges w', edgeKey x = edgeKey d := by
      cases hτ : τ t with
      | false =>
        refine ⟨d, ?_, rfl⟩
        rw [hm, hτ]
        unfold orientedEdges
        rw [if_neg (by decide)]
        exact hd
      | true =>
        refine ⟨(d.2, d.1), ?_, edgeKey_swap d⟩
        rw [hm, hτ, mem_orientedEdges_true]
        exact hd
    obtain ⟨x, hx, hk⟩ := hx
    rw [← hk]
    rcases hr.2 x hx with ⟨_, h2⟩ | ⟨d', _, _, h3⟩
    · exact ⟨x, h2⟩
    · exact ⟨d', h3⟩
  unfold orientVisit
  simp only []
  rw [hw]
  by_cases hA : (!((mapFind s.edge_to_orientation
      (CreateOrderedEdge (T.getD t default).1 (T.getD t default).2.1)).isSome ||
      (mapFind s.edge_to_orientation
        (CreateOrderedEdge (T.getD t default).2.1 (T.getD t default).2.2)).isSome ||
      (mapFind s.edge_to_orientation
        (CreateOrderedEdge (T.getD t default).2.2 (T.getD t default).1)).isSome)) = true
  · rw [if_pos hA]
    simp only [Bool.not_eq_true', Bool.or_eq_false_iff] at hA
    have n01 : mapFind s.edge_to_orientation
        (edgeKey ((T.getD t default).1, (T.getD t default).2.1)) = none :=
      Option.not_isSome_iff_eq_none.mp (by rw [edgeKey, hA.1.1]; simp)
    have n12 : mapFind s.edge_to_orientation
        (edgeKey ((T.getD t default).2.1, (T.getD t default).2.2)) = none :=
      Option.not_isSome_iff_eq_none.mp (by rw [edgeKey, hA.1.2]; simp)
    have n20 : mapFind s.edge_to_orientation
        (edgeKey ((T.getD t default).2.2, (T.getD t default).1)) = none :=
      Option.not_isSome_iff_eq_none.mp (by rw [edgeKey, hA.2]; simp)
    have hτ : τ t = false := by
      apply hfresh
      intro d hd
      rw [mem_dirEdges] at hd
      rcases hd with rfl | rfl | rfl
      · exact n01
      · exact n12
      · exact n20
    have hr := recorded_fresh s.edge_to_orientation (T.getD t default) hnd n01 n12 n20
    obtain ⟨q1, q2, q3⟩ := hstored _ _ hr (by
      intro x
      rw [hτ]
      unfold orientedEdges
      rw [if_neg (by decide)])
    exact ⟨_, rfl, rfl, rfl, q1, fun _ => rfl, q2, q3⟩
  · rw [if_neg hA]
    have hex : ∃ d ∈ dirEdges (T.getD t default),
        ∃ d', mapFind s.edge_to_orientation (edgeKey d) = some d' := by
      by_contra hcon
      apply hA
      have hnone : ∀ d ∈ dirEdges (T.getD t default),
          (mapFind s.edge_to_orientation (edgeKey d)).isSome = false := by
        intro d hd
        cases hf : mapFind s.edge_to_orientation (edgeKey d) with
        | none => rfl
        | some d' => exact absurd ⟨d, hd, d', hf⟩ hcon
      have h01 := hnone ((T.getD t default).1, (T.getD t default).2.1) (by simp [dirEdges])
      have h12 := hnone ((T.getD t default).2.1, (T.getD t default).2.2) (by simp [dirEdges])
      have h20 := hnone ((T.getD t default).2.2, (T.getD t default).1) (by simp [dirEdges])
      unfold edgeKey at h01 h12 h20
      simp only [] at h01 h12 h20
      rw [h01, h12, h20]
      rfl
    obtain ⟨f1, f2, f3, f4⟩ := flip_verify swap T s.triangles τ s.unvisited_triangles
      s.edge_to_orientation t hc ht hnd hJ hex
    rw [f2]
    simp only [Bool.not_true, Bool.false_eq_true, if_false]
    have hr := verifyThree_true s.edge_to_orientation _ _ f1 (Prod.ext f2 rfl)
    obtain ⟨q1, q2, q3⟩ := hstored _ _ hr f3
    exact ⟨_, rfl, rfl, rfl, q1, f4, q2, q3⟩

/-! ## C37, C34: consistently oriented meshes; `IsOrientable` and `OrientTriangles` -/

theorem orientLoop_fixed (order : List ℕ → List ℕ) (adj : List (Vector2i × List ℕ))
    (T : List Vector3i) (hc : Consistent T fun _ => false)
    (hnd : ∀ i, i < T.length → NonDegenerate (T.getD i default)) (fuel : ℕ) :
    ∀ (s : OrientState) (b : Bool) (Tf : List Vector3i), s.triangles = T →
      s.unvisited_triangles.Nodup → (∀ i ∈ s.unvisited_triangles, i < T.length) →
      StoredInv T (fun _ => false) s.unvisited_triangles s.edge_to_orientation →
      orientLoop SwapTriangleOrder order adj fuel s = some (b, Tf) → b = true ∧ Tf = T := by
  induction fuel with
  | zero =>
    intro s b Tf _ _ _ _ h
    simp [orientLoop] at h
  | succ fuel ih =>
    intro s b Tf hT hU hlt hJ h
    obtain ⟨S, eo, U, q⟩ := s
    simp only [] at hT hU hlt hJ
    subst hT
    unfold orientLoop at h
    simp only [] at h
    by_cases hE : U.isEmpty = true
    · rw [if_pos hE] at h
      simp only [Option.some.injEq, Prod.mk.injEq] at h
      exact ⟨h.1.symm, h.2.symm⟩
    · rw [if_neg hE] at h
      generalize nextTriangle order U q = tidx at h
      by_cases hM : tidx ∈ U
      · rw [if_pos hM] at h
        have hJ' : StoredInv S (fun _ => false) (tidx :: U.erase tidx) eo := by
          intro e d hf
          obtain ⟨hk, i, hi, hiU, hd⟩ := hJ e d hf
          refine ⟨hk, i, hi, ?_, hd⟩
          intro hm
          rcases List.mem_cons.mp hm with h1 | h1
          · exact hiU (by rw [h1]; exact hM)
          · exact hiU (List.mem_of_mem_erase h1)
        obtain ⟨s', hv, v1, _, v3, v4, _, _⟩ := orientVisit_consistent SwapTriangleOrder order
          adj S (fun _ => false)
          { triangles := S, edge_to_orientation := eo, unvisited_triangles := U.erase tidx,
            triangle_queue := q.tail } tidx hc (hlt tidx hM) rfl (hnd tidx (hlt tidx hM))
          (hU.not_mem_erase) hJ' (fun _ => rfl)
        rw [hv] at h
        simp only [] at h
        simp only [] at v1 v3 v4
        apply ih s' b Tf (v4 trivial)
        · rw [v1]
          exact hU.erase _
        · rw [v1]
          intro i hi
          exact hlt i (List.mem_of_mem_erase hi)
        · rw [v1]
          exact v3
        · exact h
      · rw [if_neg hM] at h
        exact ih { triangles := S, edge_to_orientation := eo, unvisited_triangles := U,
                   triangle_queue := q.tail } b Tf rfl hU hlt hJ h

theorem storedInv_nil (T : List Vector3i) (τ : ℕ → Bool) (U : List ℕ) :
    StoredInv T τ U [] := by
  intro e d h
  simp [mapFind] at h

theorem orientHelper_swap_returns (order : List ℕ → List ℕ) (horder : ∀ l, (order l).Perm l)
    (T : List Vector3i) :
    ∃ b Tf, OrientTriangleHelper SwapTriangleOrder order T = some (b, Tf) := by
  obtain ⟨b, Tf, hr, _, _⟩ := orientLoop_swap order horder T (orientFuel T.length)
    { triangles := T, edge_to_orientation := [],
      unvisited_triangles := List.range T.length, triangle_queue := [] }
    ⟨rfl, List.nodup_range _, fun i hi => ⟨List.mem_range.mp hi, rfl⟩, fun _ => Or.inl rfl⟩
    (by unfold orientMeasure orientFuel; simp)
  exact ⟨b, Tf, hr⟩

theorem isOrientable_eq_fst (order : List ℕ → List ℕ) (m : TriangleMesh) :
    IsOrientable order m =
      (OrientTriangleHelper SwapTriangleOrder order m.triangles_).map Prod.fst := by
  unfold IsOrientable OrientTriangleHelper
  exact (orientLoop_sim order (buildAdjacentTriangles m.triangles_)
    (orientFuel m.triangles_.length) m.triangles_ m.triangles_ []
    (List.range m.triangles_.length) [] (List.nodup_range _) (fun _ _ => rfl)).symm

theorem consistent_of_distinct (T : List Vector3i)
    (h : ∀ i, i < T.length → ∀ j, j < T.length → i ≠ j →
      ∀ d ∈ dirEdges (T.getD i default), d ∉ dirEdges (T.getD j default)) :
    Consistent T fun _ => false := by
  intro i hi j hj hij d hd
  unfold orientedEdges at hd ⊢
  simp only [Bool.false_eq_true, if_false] at hd ⊢
  exact h i hi j hj hij d hd

theorem distinct_of_nodup (T : List Vector3i) (h : (T.flatMap dirEdges).Nodup) :
    ∀ i, i < T.length → ∀ j, j < T.length → i ≠ j →
      ∀ d ∈ dirEdges (T.getD i default), d ∉ dirEdges (T.getD j default) := by
  rw [List.nodup_flatMap] at h
  have hp := List.pairwise_iff_getElem.mp h.2
  intro i hi j hj hij d hd hd'
  rw [List.getD_eq_getElem?_getD, List.getElem?_eq_getElem hi] at hd
  rw [List.getD_eq_getElem?_getD, List.getElem?_eq_getElem hj] at hd'
  simp only [Option.getD_some] at hd hd'
  rcases Nat.lt_or_gt_of_ne hij with hlt | hlt
  · exact List.disjoint_left.mp (hp i j hi hj hlt) hd hd'
  · exact List.disjoint_left.mp (hp j i hj hi hlt) hd' hd

theorem nonDegenerate_getD (T : List Vector3i) (hnd : ∀ t ∈ T, NonDegenerate t) (i : ℕ)
    (hi : i < T.length) : NonDegenerate (T.getD i default) := by
  apply hnd
  rw [List.getD_eq_getElem?_getD, List.getElem?_eq_getElem hi]
  exact List.getElem_mem _

theorem orientHelper_fixed (order : List ℕ → List ℕ) (horder : ∀ l, (order l).Perm l)
    (T : List Vector3i) (hnd : ∀ t ∈ T, NonDegenerate t)
    (h : ∀ i, i < T.length → ∀ j, j < T.length → i ≠ j →
      ∀ d ∈ dirEdges (T.getD i default), d ∉ dirEdges (T.getD j default)) :
    OrientTriangleHelper SwapTriangleOrder order T = some (true, T) := by
  obtain ⟨b, Tf, hr⟩ := orientHelper_swap_returns order horder T
  have hr' := hr
  unfold OrientTriangleHelper at hr'
  obtain ⟨hb, hT⟩ := orientLoop_fixed order _ T (consistent_of_distinct T h)
    (nonDegenerate_getD T hnd) _ _ b Tf rfl (List.nodup_range _)
    (fun i hi => List.mem_range.mp hi) (storedInv_nil _ _ _) hr'
  rw [hr, hb, hT]

/-- C37: on a mesh without degenerate triangles in which no directed edge is used
by two different triangles, for every iteration order of the hash sets,
`OrientTriangles` returns true and leaves the mesh, so every triangle, exactly as it
was. -/
theorem orientTriangles_fixed (order : List ℕ → List ℕ) (horder : ∀ l, (order l).Perm l)
    (m : TriangleMesh) (hnd : ∀ t ∈ m.triangles_, NonDegenerate t)
    (h : ∀ i, i < m.triangles_.length → ∀ j, j < m.triangles_.length → i ≠ j →
      ∀ d ∈ dirEdges (m.triangles_.getD i default),
        d ∉ dirEdges (m.triangles_.getD j default)) :
    OrientTriangles order m = some (true, m) := by
  unfold OrientTriangles
  rw [orientHelper_fixed order horder m.triangles_ hnd h]
  rfl

theorem orientTriangles_fixed_witness :
    (∀ l : List ℕ, (id l).Perm l) ∧ (∀ t ∈ bowtieMesh.triangles_, NonDegenerate t) ∧
      (∀ i, i < bowtieMesh.triangles_.length → ∀ j, j < bowtieMesh.triangles_.length → i ≠ j →
        ∀ d ∈ dirEdges (bowtieMesh.triangles_.getD i default),
          d ∉ dirEdges (bowtieMesh.triangles_.getD j default)) ∧
      OrientTriangles id bowtieMesh = some (true, bowtieMesh) :=
  ⟨fun l => List.Perm.refl l, by decide, distinct_of_nodup bowtieMesh.triangles_ (by decide),
    orientTriangles_fixed id (fun l => List.Perm.refl l) bowtieMesh (by decide)
      (distinct_of_nodup bowtieMesh.triangles_ (by decide))⟩

/-- C34: for every mesh and every iteration order of the hash sets,
`OrientTriangles` and `IsOrientable` both return, and the Boolean that
`OrientTriangles` returns is the Boolean that `IsOrientable` returns on the mesh as
it was before the call. -/
theorem orientTriangles_decides_as_isOrientable (order : List ℕ → List ℕ)
    (horder : ∀ l, (order l).Perm l) (m : TriangleMesh) :
    ∃ b r, OrientTriangles order m = some (b, r) ∧ IsOrientable order m = some b := by
  obtain ⟨b, Tf, hr⟩ := orientHelper_swap_returns order horder m.triangles_
  refine ⟨b, { m with triangles_ := Tf }, ?_, ?_⟩
  · unfold OrientTriangles
    rw [hr]
    rfl
  · rw [isOrientable_eq_fst, hr]
    rfl

theorem orientTriangles_decides_as_isOrientable_witness :
    (∀ l : List ℕ, (id l).Perm l) ∧
      ∃ b r, OrientTriangles id sampleMesh = some (b, r) ∧
        IsOrientable id sampleMesh = some b :=
  ⟨fun l => List.Perm.refl l,
    orientTriangles_decides_as_isOrientable id (fun l => List.Perm.refl l) sampleMesh⟩

/-! ## C21: the unit box -/

theorem getNonManifoldVertices_order (o1 o2 : List ℕ → List ℕ)
    (h1 : ∀ l, (o1 l).Perm l) (h2 : ∀ l, (o2 l).Perm l) (m : TriangleMesh)
    (hwf : WellFormed m) (hnd : ∀ t ∈ m.triangles_, NonDegenerate t) :
    GetNonManifoldVertices o1 m = GetNonManifoldVertices o2 m := by
  obtain ⟨_, _, v3⟩ := vertToTriangles_spec m hwf
  have hspec : ∀ (o : List ℕ → List ℕ), (∀ l, (o l).Perm l) → ∀ v,
      ((vertToTriangles m).getD v []).length ≠ 0 →
      ∃ b, vertexIsNonManifold o m.triangles_ v ((vertToTriangles m).getD v []) = some b ∧
        (b = true ↔ ¬ LinkConnected m.triangles_ v) := by
    intro o ho v hv
    apply vertexIsNonManifold_spec o ho m.triangles_ hnd v _ (v3 v)
    rw [ne_eq, ← List.length_eq_zero]
    exact hv
  rw [getNonManifoldVertices_eq o1 m (fun v _ hv => by
      obtain ⟨b, hb, _⟩ := hspec o1 h1 v hv
      exact ⟨b, hb⟩),
    getNonManifoldVertices_eq o2 m (fun v _ hv => by
      obtain ⟨b, hb, _⟩ := hspec o2 h2 v hv
      exact ⟨b, hb⟩)]
  congr 1
  apply List.filter_congr
  intro v _
  by_cases hv : ((vertToTriangles m).getD v []).length ≠ 0
  · obtain ⟨b1, e1, i1⟩ := hspec o1 h1 v hv
    obtain ⟨b2, e2, i2⟩ := hspec o2 h2 v hv
    have hb : b1 = b2 := by
      cases b1 <;> cases b2
      · rfl
      · exact absurd (i1.mpr (i2.mp rfl)) (by decide)
      · exact absurd (i2.mpr (i1.mp rfl)) (by decide)
      · rfl
    rw [e1, e2, hb]
  · rw [decide_eq_false hv]
    rfl

theorem isOrientable_fixed (order : List ℕ → List ℕ) (horder : ∀ l, (order l).Perm l)
    (m : TriangleMesh) (hnd : ∀ t ∈ m.triangles_, NonDegenerate t)
    (h : (m.triangles_.flatMap dirEdges).Nodup) : IsOrientable order m = some true := by
  rw [isOrientable_eq_fst, orientHelper_fixed order horder m.triangles_ hnd
    (distinct_of_nodup m.triangles_ h)]
  rfl

/-- C21: for the unit box mesh with 8 vertices and the 12 triangles of the scenario,
`EulerPoincareCharacteristic` is 2, `IsEdgeManifold(false)` is true, and for every
iteration order of the hash containers `IsVertexManifold` is true and
`IsOrientable` is true. -/
theorem box_scenario :
    EulerPoincareCharacteristic boxMesh = 2 ∧ IsEdgeManifold boxMesh false = true ∧
    ∀ order : List ℕ → List ℕ, (∀ l, (order l).Perm l) →
      IsVertexManifold order boxMesh = some true ∧ IsOrientable order boxMesh = some true := by
  refine ⟨by decide, by decide, ?_⟩
  intro order horder
  constructor
  · unfold IsVertexManifold
    rw [getNonManifoldVertices_order order id horder (fun l => List.Perm.refl l) boxMesh
      (by decide) (by decide)]
    decide
  · exact isOrientable_fixed order horder boxMesh (by decide) (by decide)

theorem box_scenario_witness :
    (∀ l : List ℕ, (id l).Perm l) ∧
      IsVertexManifold id boxMesh = some true ∧ IsOrientable id boxMesh = some true :=
  ⟨fun l => List.Perm.refl l, box_scenario.2.2 id (fun l => List.Perm.refl l)⟩

/-! ## C33: meshes that admit a consistent choice of reversals -/

theorem adjAdd_mem (a : List (Vector2i × List ℕ)) (key k : Vector2i) (i x : ℕ) :
    x ∈ (mapFind (mapSet a key (setInsert ((mapFind a key).getD []) i)) k).getD [] ↔
      x ∈ (mapFind a k).getD [] ∨ (key = k ∧ x = i) := by
  rw [mapFind_mapSet]
  by_cases h : key = k
  · subst h
    rw [if_pos rfl, Option.getD_some, mem_setInsert]
    constructor
    · rintro (h1 | h1)
      · exact Or.inl h1
      · exact Or.inr ⟨rfl, h1⟩
    · rintro (h1 | ⟨_, h1⟩)
      · exact Or.inl h1
      · exact Or.inr h1
  · rw [if_neg h]
    constructor
    · exact Or.inl
    · rintro (h1 | ⟨h1, _⟩)
      · exact h1
      · exact absurd h1 h

theorem key_of_triangle (t : Vector3i) (k : Vector2i) :
    (∃ d ∈ dirEdges t, edgeKey d = k) ↔
      CreateOrderedEdge t.1 t.2.1 = k ∨ CreateOrderedEdge t.2.1 t.2.2 = k ∨
        CreateOrderedEdge t.2.2 t.1 = k := by
  unfold dirEdges edgeKey
  simp only [List.mem_cons, List.mem_singleton, List.not_mem_nil, or_false, exists_eq_or_imp,
    exists_eq_left]

theorem buildAdjacentTriangles_mem (T : List Vector3i) (k : Vector2i) (x : ℕ) :
    x ∈ (mapFind (buildAdjacentTriangles T) k).getD [] ↔
      x < T.length ∧ ∃ d ∈ dirEdges (T.getD x default), edgeKey d = k := by
  have key := foldl_range_inv
    (fun (adjacent_triangles : List (Vector2i × List ℕ)) tidx =>
      mapSet
        (mapSet
          (mapSet adjacent_triangles
            (CreateOrderedEdge (T.getD tidx default).1 (T.getD tidx default).2.1)
            (setInsert ((mapFind adjacent_triangles
              (CreateOrderedEdge (T.getD tidx default).1 (T.getD tidx default).2.1)).getD [])
              tidx))
          (CreateOrderedEdge (T.getD tidx default).2.1 (T.getD tidx default).2.2)
          (setInsert ((mapFind
            (mapSet adjacent_triangles
              (CreateOrderedEdge (T.getD tidx default).1 (T.getD tidx default).2.1)
              (setInsert ((mapFind adjacent_triangles
                (CreateOrderedEdge (T.getD tidx default).1 (T.getD tidx default).2.1)).getD [])
                tidx))
            (CreateOrderedEdge (T.getD tidx default).2.1 (T.getD tidx default).2.2)).getD [])
            tidx))
        (CreateOrderedEdge (T.getD tidx default).2.2 (T.getD tidx default).1)
        (setInsert ((mapFind
          (mapSet
            (mapSet adjacent_triangles
              (CreateOrderedEdge (T.getD tidx default).1 (T.getD tidx default).2.1)
              (setInsert ((mapFind adjacent_triangles
                (CreateOrderedEdge (T.getD tidx default).1 (T.getD tidx default).2.1)).getD [])
                tidx))
            (CreateOrderedEdge (T.getD tidx default).2.1 (T.getD tidx default).2.2)
            (setInsert ((mapFind
              (mapSet adjacent_triangles
                (CreateOrderedEdge (T.getD tidx default).1 (T.getD tidx default).2.1)
                (setInsert ((mapFind adjacent_triangles
                  (CreateOrderedEdge (T.getD tidx default).1
                    (T.getD tidx default).2.1)).getD [])
                  tidx))
              (CreateOrderedEdge (T.getD tidx default).2.1 (T.getD tidx default).2.2)).getD [])
              tidx))
          (CreateOrderedEdge (T.getD tidx default).2.2 (T.getD tidx default).1)).getD [])
          tidx))
    [] (fun i a => ∀ k x, x ∈ (mapFind a k).getD [] ↔
      x < i ∧ ∃ d ∈ dirEdges (T.getD x default), edgeKey d = k)
    T.length
    (by
      intro k x
      simp [mapFind])
    (by
      intro i _ a ha k x
      simp only []
      rw [adjAdd_mem, adjAdd_mem, adjAdd_mem, ha k x]
      constructor
      · rintro (((⟨h1, h2⟩ | ⟨h1, h2⟩) | ⟨h1, h2⟩) | ⟨h1, h2⟩)
        · exact ⟨by omega, h2⟩
        · subst h2
          exact ⟨by omega, (key_of_triangle _ _).mpr (Or.inl h1)⟩
        · subst h2
          exact ⟨by omega, (key_of_triangle _ _).mpr (Or.inr (Or.inl h1))⟩
        · subst h2
          exact ⟨by omega, (key_of_triangle _ _).mpr (Or.inr (Or.inr h1))⟩
      · rintro ⟨h1, h2⟩
        by_cases hx : x = i
        · subst hx
          rcases (key_of_triangle _ _).mp h2 with h | h | h
          · exact Or.inl (Or.inl (Or.inr ⟨h, rfl⟩))
          · exact Or.inl (Or.inr ⟨h, rfl⟩)
          · exact Or.inr ⟨h, rfl⟩
        · exact Or.inl (Or.inl (Or.inl ⟨by omega, h2⟩)))
  exact key k x

theorem orientedEdges_not (r : Bool) (t : Vector3i) (d : Vector2i) :
    d ∈ orientedEdges (!r) t ↔ (d.2, d.1) ∈ orientedEdges r t := by
  cases r with
  | false =>
    rw [Bool.not_false, mem_orientedEdges_true]
    unfold orientedEdges
    simp only [Bool.false_eq_true, if_false]
  | true =>
    rw [Bool.not_true, mem_orientedEdges_true]
    unfold orientedEdges
    simp only [Bool.false_eq_true, if_false]

theorem orientedEdges_key (r : Bool) (t : Vector3i) (x : Vector2i)
    (h : x ∈ orientedEdges r t) : ∃ d ∈ dirEdges t, edgeKey d = edgeKey x := by
  cases r with
  | false =>
    unfold orientedEdges at h
    simp only [Bool.false_eq_true, if_false] at h
    exact ⟨x, h, rfl⟩
  | true =>
    rw [mem_orientedEdges_true] at h
    exact ⟨(x.2, x.1), h, edgeKey_swap x⟩

theorem consistent_flip (T : List Vector3i) (τ : ℕ → Bool) (U : List ℕ)
    (hc : Consistent T τ)
    (hsep : ∀ i, i < T.length → i ∉ U → ∀ j ∈ U, ∀ d ∈ dirEdges (T.getD i default),
      ∀ d2 ∈ dirEdges (T.getD j default), edgeKey d ≠ edgeKey d2) :
    Consistent T (flipUnvisited τ U) := by
  intro i hi j hj hij d hd hd'
  unfold flipUnvisited at hd hd'
  by_cases hiU : i ∈ U
  · by_cases hjU : j ∈ U
    · rw [if_pos hiU, orientedEdges_not] at hd
      rw [if_pos hjU, orientedEdges_not] at hd'
      exact hc i hi j hj hij _ hd hd'
    · rw [if_neg hjU] at hd'
      obtain ⟨d1, h1, k1⟩ := orientedEdges_key _ _ _ hd
      obtain ⟨d2, h2, k2⟩ := orientedEdges_key _ _ _ hd'
      exact hsep j hj hjU i hiU d2 h2 d1 h1 (by rw [k1, k2])
  · by_cases hjU : j ∈ U
    · rw [if_neg hiU] at hd
      obtain ⟨d1, h1, k1⟩ := orientedEdges_key _ _ _ hd
      obtain ⟨d2, h2, k2⟩ := orientedEdges_key _ _ _ hd'
      exact hsep i hi hiU j hjU d1 h1 d2 h2 (by rw [k1, k2])
    · rw [if_neg hiU] at hd
      rw [if_neg hjU] at hd'
      exact hc i hi j hj hij _ hd hd'

theorem mem_addNbs (order : List ℕ → List ℕ) (horder : ∀ l, (order l).Perm l)
    (T : List Vector3i) (q : List ℕ) (k1 k2 k3 : Vector2i) (x : ℕ) :
    x ∈ AddTriangleNbsToQueue order (buildAdjacentTriangles T)
        (AddTriangleNbsToQueue order (buildAdjacentTriangles T)
          (AddTriangleNbsToQueue order (buildAdjacentTriangles T) q k1) k2) k3 ↔
      x ∈ q ∨ (x < T.length ∧ ∃ d ∈ dirEdges (T.getD x default),
        edgeKey d = k1 ∨ edgeKey d = k2 ∨ edgeKey d = k3) := by
  unfold AddTriangleNbsToQueue
  rw [List.mem_append, List.mem_append, List.mem_append, (horder _).mem_iff,
    (horder _).mem_iff, (horder _).mem_iff, buildAdjacentTriangles_mem,
    buildAdjacentTriangles_mem, buildAdjacentTriangles_mem]
  constructor
  · rintro (((h | ⟨h1, d, hd, hk⟩) | ⟨h1, d, hd, hk⟩) | ⟨h1, d, hd, hk⟩)
    · exact Or.inl h
    · exact Or.inr ⟨h1, d, hd, Or.inl hk⟩
    · exact Or.inr ⟨h1, d, hd, Or.inr (Or.inl hk)⟩
    · exact Or.inr ⟨h1, d, hd, Or.inr (Or.inr hk)⟩
  · rintro (h | ⟨h1, d, hd, hk | hk | hk⟩)
    · exact Or.inl (Or.inl (Or.inl h))
    · exact Or.inl (Or.inl (Or.inr ⟨h1, d, hd, hk⟩))
    · exact Or.inl (Or.inr ⟨h1, d, hd, hk⟩)
    · exact Or.inr ⟨h1, d, hd, hk⟩

theorem headD_tail_mem (q : List ℕ) (U : List ℕ) (order : List ℕ → List ℕ) (j : ℕ)
    (hq : j ∈ q) (hne : j ≠ nextTriangle order U q) : j ∈ q.tail := by
  cases q with
  | nil => simp at hq
  | cons x rest =>
    unfold nextTriangle at hne
    simp only [] at hne
    rcases List.mem_cons.mp hq with h | h
    · exact absurd h hne
    · exact h

theorem orientable_visit (order : List ℕ → List ℕ) (horder : ∀ l, (order l).Perm l)
    (T : List Vector3i) (hnd : ∀ i, i < T.length → NonDegenerate (T.getD i default))
    (eo : List (Vector2i × Vector2i)) (U q : List ℕ)
    (hinv : OrientableInv T
      { triangles := T, edge_to_orientation := eo, unvisited_triangles := U,
        triangle_queue := q })
    (hM : nextTriangle order U q ∈ U) :
    ∃ s', orientVisit NoOp order (buildAdjacentTriangles T)
        { triangles := T, edge_to_orientation := eo,
          unvisited_triangles := U.erase (nextTriangle order U q),
          triangle_queue := q.tail } (nextTriangle order U q) = (true, s') ∧
      OrientableInv T s' := by
  obtain ⟨_, hU, hlt, ⟨τ, hc, hJ⟩, hD, hE, hF⟩ := hinv
  simp only [] at hU hlt hJ hD hE hF
  generalize htdef : nextTriangle order U q = t at hM ⊢
  have ht : t < T.length := hlt t hM
  -- the choice of reversals for this visit
  have hτ : ∃ τ', Consistent T τ' ∧ StoredInv T τ' U eo ∧
      (¬ HasStoredKey T eo t → τ' t = false) := by
    by_cases hst : HasStoredKey T eo t
    · exact ⟨τ, hc, hJ, fun h => absurd hst h⟩
    · have hq : q = [] := by
        cases q with
        | nil => rfl
        | cons x rest =>
          exfalso
          have hx : x = t := by
            rw [← htdef]
            rfl
          exact hst (hF t (by rw [← hx]; exact List.mem_cons_self _ _) hM)
      subst hq
      have hnone : ∀ j ∈ U, ¬ HasStoredKey T eo j := by
        intro j hj hs
        have := hE j hj hs
        simp at this
      cases hτt : τ t with
      | false => exact ⟨τ, hc, hJ, fun _ => hτt⟩
      | true =>
        refine ⟨flipUnvisited τ U, ?_, ?_, ?_⟩
        · apply consistent_flip T τ U hc
          intro i hi hiU j hj d hd d2 hd2 hk
          obtain ⟨d', hd'⟩ := hD i hi hiU d hd
          exact hnone j hj ⟨d2, hd2, d', by rw [← hk]; exact hd'⟩
        · intro e d hf
          obtain ⟨hk, i, hi, hiU, hdi⟩ := hJ e d hf
          refine ⟨hk, i, hi, hiU, ?_⟩
          unfold flipUnvisited
          rw [if_neg hiU]
          exact hdi
        · intro _
          unfold flipUnvisited
          rw [if_pos hM, hτt]
          rfl
  obtain ⟨τ', hc', hJ', hfr⟩ := hτ
  have hJ2 : StoredInv T τ' (t :: U.erase t) eo := by
    intro e d hf
    obtain ⟨hk, i, hi, hiU, hd⟩ := hJ' e d hf
    refine ⟨hk, i, hi, ?_, hd⟩
    intro hm
    rcases List.mem_cons.mp hm with h1 | h1
    · exact hiU (by rw [h1]; exact hM)
    · exact hiU (List.mem_of_mem_erase h1)
  obtain ⟨s', hv, v1, v2, v3, _, v5, v6⟩ := orientVisit_consistent NoOp order
    (buildAdjacentTriangles T) T τ'
    { triangles := T, edge_to_orientation := eo, unvisited_triangles := U.erase t,
      triangle_queue := q.tail } t hc' ht rfl (hnd t ht) (hU.not_mem_erase) hJ2
    (by
      intro hall
      apply hfr
      rintro ⟨d, hd, d', hf⟩
      rw [hall d hd] at hf
      exact Option.noConfusion hf)
  have hT : s'.triangles = T := by
    have := (orientVisit_sim order (buildAdjacentTriangles T) T T eo (U.erase t) q.tail t
      rfl).2.2.2.2.2.2
    rw [hv] at this
    exact this
  simp only [] at v1 v2 v3 v5 v6
  have hkeys : ∀ x : Vector2i, x ∈ dirEdges (T.getD t default) →
      edgeKey x = edgeKey ((T.getD t default).1, (T.getD t default).2.1) ∨
      edgeKey x = edgeKey ((T.getD t default).2.1, (T.getD t default).2.2) ∨
      edgeKey x = edgeKey ((T.getD t default).2.2, (T.getD t default).1) := by
    intro x hx
    rw [mem_dirEdges] at hx
    rcases hx with h | h | h
    · exact Or.inl (by rw [h])
    · exact Or.inr (Or.inl (by rw [h]))
    · exact Or.inr (Or.inr (by rw [h]))
  refine ⟨s', hv, hT, ?_, ?_, ⟨τ', hc', by rw [v1]; exact v3⟩, ?_, ?_, ?_⟩
  · rw [v1]
    exact hU.erase _
  · rw [v1]
    intro i hi
    exact hlt i (List.mem_of_mem_erase hi)
  · -- every edge of a visited triangle has a stored direction
    intro i hi hiU d hd
    rw [v1] at hiU
    by_cases hit : i = t
    · subst hit
      exact v6 d hd
    · have hiU' : i ∉ U := fun h => hiU ((List.mem_erase_of_ne hit).mpr h)
      obtain ⟨d', hd'⟩ := hD i hi hiU' d hd
      exact ⟨d', v5 _ _ hd'⟩
  · -- an unvisited triangle with a stored edge is in the queue
    intro j hj hs
    rw [v1] at hj
    have hjU : j ∈ U := List.mem_of_mem_erase hj
    have hjt : j ≠ t := (hU.mem_erase_iff.mp hj).1
    rw [v2, mem_addNbs order horder]
    obtain ⟨d, hd, d', hf⟩ := hs
    obtain ⟨hk, i, hi, hiU, hdi⟩ := v3 _ _ hf
    obtain ⟨x, hx, hxk⟩ := orientedEdges_key _ _ _ hdi
    by_cases hit : i = t
    · subst hit
      right
      refine ⟨hlt j hjU, d, hd, ?_⟩
      rw [← hk, ← hxk]
      exact hkeys x hx
    · left
      have hiU' : i ∉ U := fun h => hiU ((List.mem_erase_of_ne hit).mpr h)
      obtain ⟨d2, hd2⟩ := hD i hi hiU' x hx
      have hjq : j ∈ q := hE j hjU ⟨d, hd, d2, by rw [← hk, ← hxk]; exact hd2⟩
      exact headD_tail_mem q U order j hjq (by rw [htdef]; exact hjt)
  · -- an unvisited triangle in the queue has a stored edge
    intro x hx hxU
    rw [v1] at hxU
    have hxU' : x ∈ U := List.mem_of_mem_erase hxU
    rw [v2, mem_addNbs order horder] at hx
    rcases hx with h | ⟨_, d, hd, hk⟩
    · obtain ⟨d0, hd0, d', hf⟩ := hF x (List.mem_of_mem_tail h) hxU'
      exact ⟨d0, hd0, d', v5 _ _ hf⟩
    · refine ⟨d, hd, ?_⟩
      rcases hk with hk | hk | hk
      · rw [hk]
        exact v6 _ (by simp [dirEdges])
      · rw [hk]
        exact v6 _ (by simp [dirEdges])
      · rw [hk]
        exact v6 _ (by simp [dirEdges])

theorem orientLoop_orientable (order : List ℕ → List ℕ) (horder : ∀ l, (order l).Perm l)
    (T : List Vector3i) (hnd : ∀ i, i < T.length → NonDegenerate (T.getD i default))
    (fuel : ℕ) :
    ∀ (s : OrientState) (b : Bool) (Tf : List Vector3i), OrientableInv T s →
      orientLoop NoOp order (buildAdjacentTriangles T) fuel s = some (b, Tf) → b = true := by
  induction fuel with
  | zero =>
    intro s b Tf _ h
    simp [orientLoop] at h
  | succ fuel ih =>
    intro s b Tf hinv h
    obtain ⟨S, eo, U, q⟩ := s
    have hS : S = T := hinv.1
    subst hS
    unfold orientLoop at h
    simp only [] at h
    by_cases hE : U.isEmpty = true
    · rw [if_pos hE] at h
      simp only [Option.some.injEq, Prod.mk.injEq] at h
      exact h.1.symm
    · rw [if_neg hE] at h
      by_cases hM : nextTriangle order U q ∈ U
      · rw [if_pos hM] at h
        obtain ⟨s', hv, hinv'⟩ := orientable_visit order horder S hnd eo U q hinv hM
        rw [hv] at h
        simp only [] at h
        exact ih s' b Tf hinv' h
      · rw [if_neg hM] at h
        have hq : q ≠ [] := by
          intro hq
          apply hM
          rw [hq]
          apply nextTriangle_mem order horder
          intro hU
          apply hE
          rw [hU]
          rfl
        obtain ⟨_, hU, hlt, hτ, hD, hF1, hF2⟩ := hinv
        simp only [] at hU hlt hτ hD hF1 hF2
        refine ih { triangles := S, edge_to_orientation := eo, unvisited_triangles := U,
                    triangle_queue := q.tail } b Tf ⟨rfl, hU, hlt, hτ, hD, ?_, ?_⟩ h
        · intro j hj hs
          apply headD_tail_mem q U order j (hF1 j hj hs)
          intro hjt
          exact hM (by rw [← hjt]; exact hj)
        · intro x hx hxU
          exact hF2 x (List.mem_of_mem_tail hx) hxU

theorem orientableInv_init (T : List Vector3i) (τ : ℕ → Bool) (hc : Consistent T τ) :
    OrientableInv T
      { triangles := T, edge_to_orientation := [],
        unvisited_triangles := List.range T.length, triangle_queue := [] } := by
  refine ⟨rfl, List.nodup_range _, fun i hi => List.mem_range.mp hi,
    ⟨τ, hc, storedInv_nil _ _ _⟩, ?_, ?_, ?_⟩
  · intro i hi hiU
    exact absurd (List.mem_range.mpr hi) hiU
  · rintro j _ ⟨d, _, d', hf⟩
    simp [mapFind] at hf
  · intro x hx
    simp at hx

theorem isOrientable_of_consistent (order : List ℕ → List ℕ) (horder : ∀ l, (order l).Perm l)
    (m : TriangleMesh) (hnd : ∀ t ∈ m.triangles_, NonDegenerate t) (τ : ℕ → Bool)
    (hc : Consistent m.triangles_ τ) : IsOrientable order m = some true := by
  obtain ⟨b, Tf, hr⟩ := orientHelper_swap_returns order horder m.triangles_
  have hb : IsOrientable order m = some b := by
    rw [isOrientable_eq_fst, hr]
    rfl
  rw [hb]
  unfold IsOrientable OrientTriangleHelper at hb
  cases hl : orientLoop NoOp order (buildAdjacentTriangles m.triangles_)
      (orientFuel m.triangles_.length)
      { triangles := m.triangles_, edge_to_orientation := [],
        unvisited_triangles := List.range m.triangles_.length, triangle_queue := [] } with
  | none =>
    rw [hl] at hb
    simp at hb
  | some r =>
    rw [hl] at hb
    simp only [Option.map_some', Option.some.injEq] at hb
    have := orientLoop_orientable order horder m.triangles_
      (nonDegenerate_getD m.triangles_ hnd) _ _ r.1 r.2
      (orientableInv_init m.triangles_ τ hc) hl
    rw [← hb, this]

theorem key_ends (d e : Vector2i) (h : edgeKey d = e) : d = (e.1, e.2) ∨ d = (e.2, e.1) := by
  obtain ⟨a, b⟩ := d
  obtain ⟨x, y⟩ := e
  unfold edgeKey CreateOrderedEdge at h
  simp only [Prod.mk.injEq] at h ⊢
  omega

theorem oriented_unique (r : Bool) (t : Vector3i) (hnd : NonDegenerate t) (x : Vector2i)
    (h : x ∈ orientedEdges r t) : (x.2, x.1) ∉ orientedEdges r t := by
  have hcore : ∀ y : Vector2i, y ∈ dirEdges t → (y.2, y.1) ∉ dirEdges t := by
    intro y hy hy'
    have := edgeKey_inj_on t hnd y (y.2, y.1) hy hy' (edgeKey_swap y).symm
    have h1 : y.1 = y.2 := by
      have := congrArg Prod.fst this
      exact this
    exact dirEdges_ne t hnd y hy h1
  cases r with
  | false =>
    unfold orientedEdges at h ⊢
    simp only [Bool.false_eq_true, if_false] at h ⊢
    exact hcore x h
  | true =>
    rw [mem_orientedEdges_true] at h ⊢
    exact fun h' => hcore _ h h'

theorem pair_of_mem (l : List ℕ) (i j : ℕ) (hi : i ∈ l) (hj : j ∈ l) (hij : i ≠ j)
    (h : l.length ≤ 2) : l = [i, j] ∨ l = [j, i] := by
  match l, hi, hj, h with
  | [a], hi, hj, _ =>
    simp at hi hj
    omega
  | [a, b], hi, hj, _ =>
    simp at hi hj
    simp
    omega

theorem consistent_of_opposite (m : TriangleMesh) (hnd : ∀ t ∈ m.triangles_, NonDegenerate t)
    (h2 : ∀ kv ∈ GetEdgeToTrianglesMap m, kv.2.length ≤ 2) (τ : ℕ → Bool)
    (hτ : ∀ kv ∈ GetEdgeToTrianglesMap m, kv.2.length = 2 →
      TraversedOpposite m.triangles_ τ kv.1 (kv.2.getD 0 0) (kv.2.getD 1 0)) :
    Consistent m.triangles_ τ := by
  intro i hi j hj hij d hd hd'
  have hndi := nonDegenerate_getD m.triangles_ hnd i hi
  have hndj := nonDegenerate_getD m.triangles_ hnd j hj
  have hsi : 1 ≤ sideHits (m.triangles_.getD i default) (edgeKey d) :=
    (sideHits_pos_iff _ _).mpr (orientedEdges_key _ _ _ hd)
  have hsj : 1 ≤ sideHits (m.triangles_.getD j default) (edgeKey d) :=
    (sideHits_pos_iff _ _).mpr (orientedEdges_key _ _ _ hd')
  have hci := incident_count m.triangles_ (edgeKey d) m.triangles_.length i
  have hcj := incident_count m.triangles_ (edgeKey d) m.triangles_.length j
  rw [if_pos hi] at hci
  rw [if_pos hj] at hcj
  have hmi : i ∈ incident m.triangles_ (edgeKey d) m.triangles_.length :=
    List.count_pos_iff.mp (by omega)
  have hmj : j ∈ incident m.triangles_ (edgeKey d) m.triangles_.length :=
    List.count_pos_iff.mp (by omega)
  have hmem : (edgeKey d, incident m.triangles_ (edgeKey d) m.triangles_.length) ∈
      GetEdgeToTrianglesMap m := (edgeMap_mem m _).mpr ⟨rfl, List.ne_nil_of_mem hmi⟩
  have hlen := h2 _ hmem
  simp only [] at hlen
  have hop := hτ _ hmem
  simp only [] at hop
  have huniq : ∀ x : ℕ, x < m.triangles_.length →
      d ∈ orientedEdges (τ x) (m.triangles_.getD x default) →
      ∀ y, y ∈ orientedEdges (τ x) (m.triangles_.getD x default) → edgeKey y = edgeKey d →
        y = d := by
    intro x hx h0 y hy hk
    rcases edgeKey_cases d y hk.symm with h | h
    · exact h
    · rw [h] at hy
      exact absurd hy (oriented_unique (τ x) _
        (nonDegenerate_getD m.triangles_ hnd x hx) d h0)
  have k1 : edgeKey ((edgeKey d).1, (edgeKey d).2) = edgeKey d := by
    unfold edgeKey CreateOrderedEdge
    simp only [Prod.mk.injEq]
    omega
  have k2 : edgeKey ((edgeKey d).2, (edgeKey d).1) = edgeKey d := by
    rw [edgeKey_swap ((edgeKey d).1, (edgeKey d).2)]
    exact k1
  have hfinal : ((edgeKey d).1, (edgeKey d).2) = d → ((edgeKey d).2, (edgeKey d).1) = d →
      False := by
    intro e1 e2
    have a1 : (edgeKey d).1 = d.1 := congrArg Prod.fst e1
    have a2 : (edgeKey d).2 = d.2 := congrArg Prod.snd e1
    have b1 : (edgeKey d).2 = d.1 := congrArg Prod.fst e2
    have hu := oriented_unique (τ i) _ hndi d hd
    have hdd : (d.2, d.1) = d := Prod.ext (by simp only []; rw [← a2, b1])
      (by simp only []; rw [← b1, a2])
    rw [hdd] at hu
    exact hu hd
  have hcontra : ∀ a b : ℕ, a < m.triangles_.length → b < m.triangles_.length →
      d ∈ orientedEdges (τ a) (m.triangles_.getD a default) →
      d ∈ orientedEdges (τ b) (m.triangles_.getD b default) →
      TraversedOpposite m.triangles_ τ (edgeKey d) a b → False := by
    intro a b ha hb da db hopp
    rcases hopp with ⟨p1, p2⟩ | ⟨p1, p2⟩
    · exact hfinal (huniq a ha da _ p1 k1) (huniq b hb db _ p2 k2)
    · exact hfinal (huniq b hb db _ p2 k1) (huniq a ha da _ p1 k2)
  rcases pair_of_mem _ i j hmi hmj hij hlen with hl | hl
  · have := hop (by rw [hl]; rfl)
    rw [hl] at this
    exact hcontra i j hi hj hd hd' this
  · have := hop (by rw [hl]; rfl)
    rw [hl] at this
    exact hcontra j i hj hi hd' hd this

/-- C33: on a mesh without degenerate triangles in which every edge has at most two
incident triangles, if some choice `τ` of the triangles to reverse makes the two
triangles of every edge with two incident triangles traverse it in opposite
directions, then `IsOrientable` returns true, for every iteration order of the hash
sets. -/
theorem isOrientable_of_orientable (order : List ℕ → List ℕ)
    (horder : ∀ l, (order l).Perm l) (m : TriangleMesh)
    (hnd : ∀ t ∈ m.triangles_, NonDegenerate t)
    (h2 : ∀ kv ∈ GetEdgeToTrianglesMap m, kv.2.length ≤ 2)
    (hτ : ∃ τ : ℕ → Bool, ∀ kv ∈ GetEdgeToTrianglesMap m, kv.2.length = 2 →
      TraversedOpposite m.triangles_ τ kv.1 (kv.2.getD 0 0) (kv.2.getD 1 0)) :
    IsOrientable order m = some true := by
  obtain ⟨τ, hτ⟩ := hτ
  exact isOrientable_of_consistent order horder m hnd τ (consistent_of_opposite m hnd h2 τ hτ)

theorem isOrientable_of_orientable_witness :
    (∀ l : List ℕ, (id l).Perm l) ∧ (∀ t ∈ twoTriangleMesh.triangles_, NonDegenerate t) ∧
      (∀ kv ∈ GetEdgeToTrianglesMap twoTriangleMesh, kv.2.length ≤ 2) ∧
      (∀ kv ∈ GetEdgeToTrianglesMap twoTriangleMesh, kv.2.length = 2 →
        TraversedOpposite twoTriangleMesh.triangles_ (fun i => decide (i = 1)) kv.1
          (kv.2.getD 0 0) (kv.2.getD 1 0)) ∧
      IsOrientable id twoTriangleMesh = some true :=
  ⟨fun l => List.Perm.refl l, by decide, by decide, by decide,
    isOrientable_of_orientable id (fun l => List.Perm.refl l) twoTriangleMesh (by decide)
      (by decide) ⟨fun i => decide (i = 1), by decide⟩⟩

/-! ## C40: the barycentric weights -/

/-- C40: for `s` and `r2` in `[0, 1]` the weights `a = 1 - s`, `b = s * (1 - r2)`,
`c = s * r2` of uniform sampling are non-negative and sum to 1; the point that
`SamplePointsUniformly` writes is the combination of the three corners of the
source triangle with these weights. -/
theorem baryWeights_convex (s r2 : ℚ) (hs0 : 0 ≤ s) (hs1 : s ≤ 1) (hr0 : 0 ≤ r2)
    (hr1 : r2 ≤ 1) :
    0 ≤ (baryWeights s r2).1 ∧ 0 ≤ (baryWeights s r2).2.1 ∧ 0 ≤ (baryWeights s r2).2.2 ∧
    (baryWeights s r2).1 + (baryWeights s r2).2.1 + (baryWeights s r2).2.2 = 1 ∧
    ∀ (root : ℚ → ℚ) (dist : ℕ → ℚ) (input : TriangleMesh) (tidx : ℕ) (pcd : PointCloud)
      (point_idx : ℕ), point_idx < pcd.points_.length →
      root (dist (2 * point_idx)) = s → dist (2 * point_idx + 1) = r2 →
      (sampleWrite root dist input tidx pcd point_idx).points_.getD point_idx default =
        (baryWeights s r2).1 •
            input.vertices_.getD (input.triangles_.getD tidx default).1 default +
          (baryWeights s r2).2.1 •
            input.vertices_.getD (input.triangles_.getD tidx default).2.1 default +
          (baryWeights s r2).2.2 •
            input.vertices_.getD (input.triangles_.getD tidx default).2.2 default := by
  unfold baryWeights
  simp only []
  refine ⟨by linarith, mul_nonneg hs0 (by linarith), mul_nonneg hs0 hr0, by ring, ?_⟩
  intro root dist input tidx pcd point_idx hp h1 h2
  unfold sampleWrite drawWeights baryWeights baryPoint
  simp only []
  rw [getD_set, if_pos ⟨rfl, hp⟩, h1, h2]

theorem baryWeights_convex_witness :
    (0 : ℚ) ≤ 1 / 4 ∧ (1 / 4 : ℚ) ≤ 1 ∧ (0 : ℚ) ≤ 1 / 2 ∧ (1 / 2 : ℚ) ≤ 1 ∧
      (baryWeights (1 / 4) (1 / 2)).1 + (baryWeights (1 / 4) (1 / 2)).2.1 +
        (baryWeights (1 / 4) (1 / 2)).2.2 = 1 :=
  ⟨by decide!, by decide!, by decide!, by decide!,
    (baryWeights_convex (1 / 4) (1 / 2) (by decide!) (by decide!) (by decide!)
      (by decide!)).2.2.2.1⟩

/-! ## C23: SamplePointsUniformly -/

theorem cdfSpec_zero (A : List ℚ) (S : ℚ) : cdfSpec A S 0 = A.getD 0 0 / S := by
  unfold cdfSpec
  rw [show List.range (0 + 1) = [0] from rfl]
  simp

theorem cdfSpec_succ (A : List ℚ) (S : ℚ) (t : ℕ) :
    cdfSpec A S (t + 1) = A.getD (t + 1) 0 / S + cdfSpec A S t := by
  unfold cdfSpec
  rw [List.range_succ, List.map_append, List.sum_append, add_div]
  simp [add_comm]

theorem areasToCdf_spec (A : List ℚ) (S : ℚ) (n : ℕ) (hA : A.length = n) (hn : 1 ≤ n) :
    ∀ t, t < n → (areasToCdf A S n).getD t 0 = cdfSpec A S t := by
  have key := foldl_range_inv
    (fun (triangle_areas : List ℚ) i =>
      triangle_areas.set (i + 1)
        (triangle_areas.getD (i + 1) 0 / S + triangle_areas.getD i 0))
    (A.set 0 (A.getD 0 0 / S))
    (fun i a => a.length = n ∧ (∀ t, t ≤ i → a.getD t 0 = cdfSpec A S t) ∧
      ∀ t, i < t → a.getD t 0 = A.getD t 0)
    (n - 1)
    (by
      refine ⟨by rw [List.length_set, hA], ?_, ?_⟩
      · intro t ht
        have : t = 0 := by omega
        subst this
        rw [getD_set, if_pos ⟨rfl, by omega⟩, cdfSpec_zero]
      · intro t ht
        rw [getD_set, if_neg (by omega)])
    (by
      rintro i hi a ⟨h1, h2, h3⟩
      refine ⟨by rw [List.length_set, h1], ?_, ?_⟩
      · intro t ht
        by_cases hti : t = i + 1
        · subst hti
          rw [getD_set, if_pos ⟨rfl, by omega⟩, h3 (i + 1) (by omega), h2 i (Nat.le_refl i),
            cdfSpec_succ]
        · rw [getD_set, if_neg (by omega)]
          exact h2 t (by omega)
      · intro t ht
        rw [getD_set, if_neg (by omega)]
        exact h3 t (by omega))
  intro t ht
  exact key.2.1 t (by omega)

theorem getSurfaceArea_eq_sum (root : ℚ → ℚ) (m : TriangleMesh) :
    GetSurfaceArea root m = (GetTriangleAreas root m).sum := by
  unfold GetSurfaceArea GetTriangleAreas
  generalize m.triangles_.length = n
  induction n with
  | zero => simp
  | succ n ih =>
    rw [List.range_succ, List.foldl_append, List.map_append, List.sum_append, ih]
    simp

theorem getTriangleAreas_nonneg (root : ℚ → ℚ) (hroot : ∀ x, 0 ≤ root x) (m : TriangleMesh)
    (i : ℕ) : 0 ≤ (GetTriangleAreas root m).getD i 0 := by
  unfold GetTriangleAreas
  rw [List.getD_eq_getElem?_getD, List.getElem?_map]
  cases h : (List.range m.triangles_.length)[i]? with
  | none => simp
  | some x =>
    simp only [Option.map_some', Option.getD_some]
    unfold GetTriangleArea ComputeTriangleArea
    simp only []
    exact mul_nonneg (by norm_num) (hroot _)

theorem partialSum_mono (A : List ℚ) (hA : ∀ i, 0 ≤ A.getD i 0) :
    Monotone fun t => ((List.range (t + 1)).map fun i => A.getD i 0).sum := by
  apply monotone_nat_of_le_succ
  intro t
  rw [List.range_succ (t + 1), List.map_append, List.sum_append]
  simp only [List.map_cons, List.map_nil, List.sum_cons, List.sum_nil, add_zero]
  have := hA (t + 1)
  linarith

theorem sum_range_getD (A : List ℚ) :
    ((List.range A.length).map fun i => A.getD i 0).sum = A.sum := by
  induction A using List.reverseRecOn with
  | nil => simp
  | append_singleton l a ih =>
    rw [List.length_append, List.length_singleton, List.range_succ, List.map_append,
      List.sum_append, List.sum_append]
    have h1 : (List.range l.length).map (fun i => (l ++ [a]).getD i 0) =
        (List.range l.length).map (fun i => l.getD i 0) := by
      apply List.map_congr_left
      intro i hi
      rw [List.mem_range] at hi
      rw [List.getD_eq_getElem?_getD, List.getD_eq_getElem?_getD,
        List.getElem?_append_left hi]
    rw [h1, ih]
    simp [List.getD_eq_getElem?_getD]

theorem cdfSpec_mono (A : List ℚ) (S : ℚ) (hA : ∀ i, 0 ≤ A.getD i 0) (hS : 0 < S) :
    Monotone (cdfSpec A S) := by
  intro a b hab
  unfold cdfSpec
  exact div_le_div_of_nonneg_right (partialSum_mono A hA hab) (le_of_lt hS)

theorem cdfSpec_last (A : List ℚ) (hn : 1 ≤ A.length) (hS : 0 < A.sum) :
    cdfSpec A A.sum (A.length - 1) = 1 := by
  unfold cdfSpec
  have : A.length - 1 + 1 = A.length := by omega
  rw [this, sum_range_getD, div_self (ne_of_gt hS)]

theorem roundToSize_mono : Monotone roundToSize := by
  intro a b hab
  unfold roundToSize
  apply Int.toNat_le_toNat
  apply Int.floor_le_floor
  linarith

theorem roundToSize_nat (n : ℕ) : roundToSize (n : ℚ) = n := by
  unfold roundToSize
  have : ⌊(n : ℚ) + 1 / 2⌋ = (n : ℤ) := by
    rw [Int.floor_eq_iff]
    constructor
    · push_cast
      linarith
    · push_cast
      linarith
  rw [this]
  simp

theorem drawnBefore_mono (A : List ℚ) (S : ℚ) (N : ℕ) (hA : ∀ i, 0 ≤ A.getD i 0)
    (hS : 0 < S) : Monotone (drawnBefore A S N) := by
  apply monotone_nat_of_le_succ
  intro k
  cases k with
  | zero => exact Nat.zero_le _
  | succ k =>
    show roundToSize _ ≤ roundToSize _
    apply roundToSize_mono
    apply mul_le_mul_of_nonneg_right (cdfSpec_mono A S hA hS (Nat.le_succ k))
    exact Nat.cast_nonneg N

theorem drawnBefore_last (A : List ℚ) (N : ℕ) (hn : 1 ≤ A.length) (hS : 0 < A.sum) :
    drawnBefore A A.sum N A.length = N := by
  obtain ⟨k, hk⟩ : ∃ k, A.length = k + 1 := ⟨A.length - 1, by omega⟩
  rw [hk]
  show roundToSize (cdfSpec A A.sum k * N) = N
  have : k = A.length - 1 := by omega
  rw [this, cdfSpec_last A hn hS, one_mul, roundToSize_nat]

theorem drawnBefore_cover (A : List ℚ) (S : ℚ) (N : ℕ) (k p : ℕ)
    (h : p < drawnBefore A S N k) :
    ∃ t, t < k ∧ drawnBefore A S N t ≤ p ∧ p < drawnBefore A S N (t + 1) := by
  induction k with
  | zero => exact absurd h (Nat.not_lt_zero _)
  | succ k ih =>
    by_cases hp : p < drawnBefore A S N k
    · obtain ⟨t, ht, h1, h2⟩ := ih hp
      exact ⟨t, by omega, h1, h2⟩
    · exact ⟨k, by omega, by omega, h⟩

theorem sampleLoop_points (root : ℚ → ℚ) (dist : ℕ → ℚ) (input : TriangleMesh) (tidx : ℕ)
    (len : ℕ) :
    ∀ (a : ℕ) (pcd : PointCloud),
      ((List.range' a len).foldl (sampleWrite root dist input tidx) pcd).points_.length =
        pcd.points_.length ∧
      ∀ p, (a ≤ p → p < a + len → p < pcd.points_.length →
          ((List.range' a len).foldl (sampleWrite root dist input tidx) pcd).points_.getD p
              default =
            baryPoint (drawWeights root dist p) input.vertices_
              (input.triangles_.getD tidx default)) ∧
        (¬ (a ≤ p ∧ p < a + len) →
          ((List.range' a len).foldl (sampleWrite root dist input tidx) pcd).points_.getD p
              default = pcd.points_.getD p default) := by
  induction len with
  | zero =>
    intro a pcd
    refine ⟨rfl, fun p => ⟨fun h1 h2 _ => by omega, fun _ => rfl⟩⟩
  | succ len ih =>
    intro a pcd
    rw [List.range'_succ, List.foldl_cons]
    obtain ⟨i1, i2⟩ := ih (a + 1) (sampleWrite root dist input tidx pcd a)
    have hlen : (sampleWrite root dist input tidx pcd a).points_.length =
        pcd.points_.length := by
      unfold sampleWrite
      simp
    have hat : ∀ p, (sampleWrite root dist input tidx pcd a).points_.getD p default =
        if a = p ∧ a < pcd.points_.length then
          baryPoint (drawWeights root dist a) input.vertices_
            (input.triangles_.getD tidx default)
        else pcd.points_.getD p default := by
      intro p
      unfold sampleWrite
      simp only []
      rw [getD_set]
    refine ⟨by rw [i1, hlen], fun p => ⟨?_, ?_⟩⟩
    · intro h1 h2 h3
      by_cases hp : p = a
      · subst hp
        rw [(i2 p).2 (by omega), hat, if_pos ⟨rfl, h3⟩]
      · exact (i2 p).1 (by omega) (by omega) (by rw [hlen]; exact h3)
    · intro h
      rw [(i2 p).2 (by omega), hat, if_neg (by omega)]

theorem sampleFold_inv (root : ℚ → ℚ) (dist : ℕ → ℚ) (hroot : ∀ x, 0 ≤ root x)
    (m : TriangleMesh) (N : ℕ) (hT : 0 < m.triangles_.length)
    (hS : 0 < GetSurfaceArea root m) (pcd : PointCloud) (hp : pcd.points_.length = N) :
    ((List.range m.triangles_.length).foldl
        (sampleTriangle root dist m N
          (areasToCdf (GetTriangleAreas root m) (GetSurfaceArea root m) m.triangles_.length))
        (pcd, 0)).1.points_.length = N ∧
    ∀ t, t < m.triangles_.length → ∀ p,
      drawnBefore (GetTriangleAreas root m) (GetSurfaceArea root m) N t ≤ p →
      p < drawnBefore (GetTriangleAreas root m) (GetSurfaceArea root m) N (t + 1) →
      ((List.range m.triangles_.length).foldl
        (sampleTriangle root dist m N
          (areasToCdf (GetTriangleAreas root m) (GetSurfaceArea root m) m.triangles_.length))
        (pcd, 0)).1.points_.getD p default =
        baryPoint (drawWeights root dist p) m.vertices_ (m.triangles_.getD t default) := by
  have hlen : (GetTriangleAreas root m).length = m.triangles_.length := by
    unfold GetTriangleAreas
    simp
  have hcdf := areasToCdf_spec (GetTriangleAreas root m) (GetSurfaceArea root m)
    m.triangles_.length hlen hT
  have hmono := drawnBefore_mono (GetTriangleAreas root m) (GetSurfaceArea root m) N
    (getTriangleAreas_nonneg root hroot m) hS
  have hlast : drawnBefore (GetTriangleAreas root m) (GetSurfaceArea root m) N
      m.triangles_.length = N := by
    have := drawnBefore_last (GetTriangleAreas root m) N (by rw [hlen]; exact hT)
      (by rw [← getSurfaceArea_eq_sum]; exact hS)
    rw [← getSurfaceArea_eq_sum, hlen] at this
    exact this
  have key := foldl_range_inv
    (sampleTriangle root dist m N
      (areasToCdf (GetTriangleAreas root m) (GetSurfaceArea root m) m.triangles_.length))
    (pcd, 0)
    (fun k (st : PointCloud × ℕ) =>
      st.2 = drawnBefore (GetTriangleAreas root m) (GetSurfaceArea root m) N k ∧
      st.1.points_.length = N ∧
      ∀ t, t < k → ∀ p,
        drawnBefore (GetTriangleAreas root m) (GetSurfaceArea root m) N t ≤ p →
        p < drawnBefore (GetTriangleAreas root m) (GetSurfaceArea root m) N (t + 1) →
        st.1.points_.getD p default =
          baryPoint (drawWeights root dist p) m.vertices_ (m.triangles_.getD t default))
    m.triangles_.length
    ⟨rfl, hp, fun t ht => absurd ht (Nat.not_lt_zero t)⟩
    (by
      rintro k hk ⟨pc, idx⟩ ⟨h1, h2, h3⟩
      simp only [] at h1 h2 h3
      subst h1
      have hn : roundToSize
          ((areasToCdf (GetTriangleAreas root m) (GetSurfaceArea root m)
            m.triangles_.length).getD k 0 * N) =
          drawnBefore (GetTriangleAreas root m) (GetSurfaceArea root m) N (k + 1) := by
        rw [hcdf k hk]
        rfl
      have hle := hmono (Nat.le_succ k)
      have hleN : drawnBefore (GetTriangleAreas root m) (GetSurfaceArea root m) N (k + 1) ≤
          N := by
        have := hmono (show k + 1 ≤ m.triangles_.length from hk)
        rw [hlast] at this
        exact this
      unfold sampleTriangle
      simp only []
      rw [hn]
      obtain ⟨i1, i2⟩ := sampleLoop_points root dist m k
        (drawnBefore (GetTriangleAreas root m) (GetSurfaceArea root m) N (k + 1) -
          drawnBefore (GetTriangleAreas root m) (GetSurfaceArea root m) N k)
        (drawnBefore (GetTriangleAreas root m) (GetSurfaceArea root m) N k) pc
      refine ⟨Nat.max_eq_right hle, by rw [i1]; exact h2, ?_⟩
      intro t ht p hp1 hp2
      by_cases htk : t = k
      · subst htk
        exact (i2 p).1 hp1 (by omega) (by omega)
      · have hlt : t + 1 ≤ k := by omega
        have := hmono hlt
        rw [(i2 p).2 (by omega)]
        exact h3 t (by omega) p hp1 hp2)
  exact ⟨key.2.1, key.2.2⟩

/-- C23: for `N > 0`, a mesh with at least one triangle and positive total area, and
a square root without negative values, `SamplePointsUniformly` returns exactly `N`
points.  The array `cdf` of the code holds at `t` the sum of the areas of the
triangles `0..t` divided by the total area; the number of points drawn from the
triangles `0..t` is `round(cdf[t] * N)`; the slots from the count before triangle `t`
up to the count after it hold the samples drawn from triangle `t`; and every one of
the `N` slots lies in such a range, so it is assigned a sample. -/
theorem samplePointsUniformly_spec (root : ℚ → ℚ) (dist : ℕ → ℚ) (hroot : ∀ x, 0 ≤ root x)
    (m : TriangleMesh) (N : ℕ) (hN : 0 < N) (hT : 0 < m.triangles_.length)
    (hS : 0 < GetSurfaceArea root m) :
    (SamplePointsUniformly root dist m N).points_.length = N ∧
    (∀ t, t < m.triangles_.length →
      (areasToCdf (GetTriangleAreas root m) (GetSurfaceArea root m)
        m.triangles_.length).getD t 0 =
        cdfSpec (GetTriangleAreas root m) (GetSurfaceArea root m) t) ∧
    (∀ t, drawnBefore (GetTriangleAreas root m) (GetSurfaceArea root m) N (t + 1) =
      roundToSize (cdfSpec (GetTriangleAreas root m) (GetSurfaceArea root m) t * N)) ∧
    drawnBefore (GetTriangleAreas root m) (GetSurfaceArea root m) N 0 = 0 ∧
    drawnBefore (GetTriangleAreas root m) (GetSurfaceArea root m) N m.triangles_.length = N ∧
    (∀ t, t < m.triangles_.length → ∀ p,
      drawnBefore (GetTriangleAreas root m) (GetSurfaceArea root m) N t ≤ p →
      p < drawnBefore (GetTriangleAreas root m) (GetSurfaceArea root m) N (t + 1) →
      (SamplePointsUniformly root dist m N).points_.getD p default =
        baryPoint (drawWeights root dist p) m.vertices_ (m.triangles_.getD t default)) ∧
    ∀ p, p < N → ∃ t, t < m.triangles_.length ∧
      drawnBefore (GetTriangleAreas root m) (GetSurfaceArea root m) N t ≤ p ∧
      p < drawnBefore (GetTriangleAreas root m) (GetSurfaceArea root m) N (t + 1) := by
  have hlen : (GetTriangleAreas root m).length = m.triangles_.length := by
    unfold GetTriangleAreas
    simp
  have hlast : drawnBefore (GetTriangleAreas root m) (GetSurfaceArea root m) N
      m.triangles_.length = N := by
    have := drawnBefore_last (GetTriangleAreas root m) N (by rw [hlen]; exact hT)
      (by rw [← getSurfaceArea_eq_sum]; exact hS)
    rw [← getSurfaceArea_eq_sum, hlen] at this
    exact this
  have heq : SamplePointsUniformly root dist m N =
      ((List.range m.triangles_.length).foldl
        (sampleTriangle root dist m N
          (areasToCdf (GetTriangleAreas root m) (GetSurfaceArea root m) m.triangles_.length))
        ({ points_ := resize [] N default
           normals_ := if HasVertexNormals m then resize [] N default else []
           colors_ := if HasVertexColors m then resize [] N default else [] }, 0)).1 := by
    unfold SamplePointsUniformly
    rw [if_neg (by omega), if_neg (by omega)]
    rfl
  obtain ⟨f1, f2⟩ := sampleFold_inv root dist hroot m N hT hS
    { points_ := resize [] N default
      normals_ := if HasVertexNormals m then resize [] N default else []
      colors_ := if HasVertexColors m then resize [] N default else [] }
    (by simp [resize])
  rw [heq]
  refine ⟨f1, areasToCdf_spec _ _ _ hlen hT, fun _ => rfl, rfl, hlast, f2, ?_⟩
  intro p hp
  exact drawnBefore_cover _ _ N _ p (by rw [hlast]; exact hp)

theorem samplePointsUniformly_spec_witness :
    (∀ x : ℚ, 0 ≤ |x|) ∧ 0 < 5 ∧ 0 < fanMesh.triangles_.length ∧
      0 < GetSurfaceArea (fun x => |x|) fanMesh ∧
      (SamplePointsUniformly (fun x => |x|) (fun _ => 1 / 2) fanMesh 5).points_.length = 5 :=
  ⟨fun x => abs_nonneg x, by decide, by decide, by decide!,
    (samplePointsUniformly_spec (fun x => |x|) (fun _ => 1 / 2) (fun x => abs_nonneg x) fanMesh
      5 (by decide) (by decide) (by decide!)).1⟩

/-! ## C24, C36: the sample elimination of SamplePointsPoissonDisk -/

theorem liveSum_set (deleted : List Bool) (n : ℕ) (g : ℕ → ℕ) (pidx : ℕ) (hp : pidx < n)
    (hlen : deleted.length = n) (hd : deleted.getD pidx false = false) :
    liveSum (deleted.set pidx true) n g + g pidx = liveSum deleted n g := by
  unfold liveSum
  have hmem : pidx ∈ Finset.range n := Finset.mem_range.mpr hp
  rw [← Finset.add_sum_erase _ _ hmem, ← Finset.add_sum_erase _ _ hmem]
  have h1 : (deleted.set pidx true).getD pidx false = true := by
    rw [getD_set, if_pos ⟨rfl, by omega⟩]
  rw [h1, hd]
  simp only [if_true, Bool.false_eq_true, if_false, zero_add]
  rw [add_comm]
  congr 1
  apply Finset.sum_congr rfl
  intro p hp'
  have hne : p ≠ pidx := (Finset.mem_erase.mp hp').1
  have hg : (deleted.set pidx true).getD p false = deleted.getD p false := by
    rw [getD_set]
    exact if_neg (fun h => hne h.1.symm)
  rw [hg]

theorem liveSum_replicate (n : ℕ) (g : ℕ → ℕ) :
    liveSum (List.replicate n false) n g = (Finset.range n).sum g := by
  unfold liveSum
  apply Finset.sum_congr rfl
  intro p hp
  have : (List.replicate n false).getD p false = false := by
    rw [List.getD_eq_getElem?_getD, List.getElem?_replicate]
    split_ifs <;> rfl
  rw [this]
  rfl

theorem queueFold_spec (l : List (ℕ × ℚ)) :
    ∀ best : Option (ℕ × ℚ),
      (best = none ∧ l = [] ∧
        l.foldl (fun (best : Option (ℕ × ℚ)) e =>
          match best with
          | none => some e
          | some b => if b.2 < e.2 then some e else some b) best = none) ∨
      ∃ e, l.foldl (fun (best : Option (ℕ × ℚ)) e =>
          match best with
          | none => some e
          | some b => if b.2 < e.2 then some e else some b) best = some e ∧
        (best = some e ∨ e ∈ l) ∧ (∀ b, best = some b → b.2 ≤ e.2) ∧ ∀ x ∈ l, x.2 ≤ e.2 := by
  induction l with
  | nil =>
    intro best
    cases best with
    | none => exact Or.inl ⟨rfl, rfl, rfl⟩
    | some b =>
      right
      refine ⟨b, rfl, Or.inl rfl, ?_, ?_⟩
      · intro b' hb'
        rw [Option.some.inj hb']
      · intro x hx
        simp at hx
  | cons a rest ih =>
    intro best
    right
    rw [List.foldl_cons]
    cases best with
    | none =>
      simp only []
      rcases ih (some a) with ⟨h, _⟩ | ⟨e, h1, h2, h3, h4⟩
      · exact Option.noConfusion h
      · refine ⟨e, h1, Or.inr ?_, fun b hb => Option.noConfusion hb, ?_⟩
        · rcases h2 with h | h
          · rw [Option.some.inj h]
            exact List.mem_cons_self _ _
          · exact List.mem_cons_of_mem _ h
        · intro x hx
          rcases List.mem_cons.mp hx with h | h
          · rw [h]
            exact h3 a rfl
          · exact h4 x h
    | some b =>
      simp only []
      by_cases hlt : b.2 < a.2
      · rw [if_pos hlt]
        rcases ih (some a) with ⟨h, _⟩ | ⟨e, h1, h2, h3, h4⟩
        · exact Option.noConfusion h
        · refine ⟨e, h1, Or.inr ?_, ?_, ?_⟩
          · rcases h2 with h | h
            · rw [Option.some.inj h]
              exact List.mem_cons_self _ _
            · exact List.mem_cons_of_mem _ h
          · intro b' hb'
            rw [← Option.some.inj hb']
            exact le_trans (le_of_lt hlt) (h3 a rfl)
          · intro x hx
            rcases List.mem_cons.mp hx with h | h
            · rw [h]
              exact h3 a rfl
            · exact h4 x h
      · rw [if_neg hlt]
        rcases ih (some b) with ⟨h, _⟩ | ⟨e, h1, h2, h3, h4⟩
        · exact Option.noConfusion h
        · refine ⟨e, h1, ?_, ?_, ?_⟩
          · rcases h2 with h | h
            · exact Or.inl h
            · exact Or.inr (List.mem_cons_of_mem _ h)
          · intro b' hb'
            rw [← Option.some.inj hb']
            exact h3 b rfl
          · intro x hx
            rcases List.mem_cons.mp hx with h | h
            · rw [h]
              exact le_trans (not_lt.mp hlt) (h3 b rfl)
            · exact h4 x h

theorem queueTop_spec (heapOrder : List (ℕ × ℚ) → List (ℕ × ℚ))
    (hheap : ∀ l, (heapOrder l).Perm l) (queue : List (ℕ × ℚ)) (hne : queue ≠ []) :
    ∃ e, queueTop heapOrder queue = some e ∧ e ∈ queue ∧ ∀ x ∈ queue, x.2 ≤ e.2 := by
  unfold queueTop
  rcases queueFold_spec (heapOrder queue) none with ⟨_, h, _⟩ | ⟨e, h1, h2, _, h4⟩
  · exfalso
    have := (hheap queue).length_eq
    rw [h] at this
    exact hne (List.length_eq_zero.mp this.symm)
  · refine ⟨e, h1, ?_, ?_⟩
    · rcases h2 with h | h
      · exact Option.noConfusion h
      · exact (hheap queue).mem_iff.mp h
    · intro x hx
      exact h4 x ((hheap queue).mem_iff.mpr hx)

theorem computePointWeight_spec (weightFcn : ℚ → ℚ) (nbsOf : ℕ → List (ℕ × ℚ))
    (weights : List ℚ) (deleted : List Bool) (pidx0 : ℕ) :
    (ComputePointWeight weightFcn nbsOf weights deleted pidx0).length = weights.length ∧
    ∀ p, p ≠ pidx0 →
      (ComputePointWeight weightFcn nbsOf weights deleted pidx0).getD p 0 =
        weights.getD p 0 := by
  unfold ComputePointWeight
  refine ⟨List.length_set _ _ _, ?_⟩
  intro p hp
  rw [getD_set, if_neg (fun h => hp h.1.symm)]

theorem reweight_spec (weightFcn : ℚ → ℚ) (nbsOf : ℕ → List (ℕ × ℚ)) (deleted : List Bool)
    (nbs : List (ℕ × ℚ)) :
    ∀ st : List ℚ × List (ℕ × ℚ),
      (reweight weightFcn nbsOf deleted nbs st).1.length = st.1.length ∧
      (reweight weightFcn nbsOf deleted nbs st).2.length = st.2.length + nbs.length ∧
      (∀ e ∈ (reweight weightFcn nbsOf deleted nbs st).2,
        e ∈ st.2 ∨ ∃ nb ∈ nbs, e.1 = nb.1) ∧
      ∀ p, (p, st.1.getD p 0) ∈ st.2 →
        (p, (reweight weightFcn nbsOf deleted nbs st).1.getD p 0) ∈
          (reweight weightFcn nbsOf deleted nbs st).2 := by
  induction nbs with
  | nil =>
    intro st
    exact ⟨rfl, rfl, fun e he => Or.inl he, fun p hp => hp⟩
  | cons nb rest ih =>
    intro st
    unfold reweight
    rw [List.foldl_cons]
    obtain ⟨i1, i2, i3, i4⟩ := ih
      (ComputePointWeight weightFcn nbsOf st.1 deleted nb.1,
        st.2 ++ [(nb.1, (ComputePointWeight weightFcn nbsOf st.1 deleted nb.1).getD nb.1 0)])
    unfold reweight at i1 i2 i3 i4
    obtain ⟨c1, c2⟩ := computePointWeight_spec weightFcn nbsOf st.1 deleted nb.1
    simp only [] at i1 i2 i3 i4 ⊢
    refine ⟨by rw [i1, c1], ?_, ?_, ?_⟩
    · rw [i2, List.length_append, List.length_singleton, List.length_cons]
      omega
    · intro e he
      rcases i3 e he with h | ⟨x, hx, hx'⟩
      · rcases List.mem_append.mp h with h' | h'
        · exact Or.inl h'
        · rw [List.mem_singleton] at h'
          exact Or.inr ⟨nb, List.mem_cons_self _ _, by rw [h']⟩
      · exact Or.inr ⟨x, List.mem_cons_of_mem _ hx, hx'⟩
    · intro p hp
      apply i4 p
      by_cases hpn : p = nb.1
      · rw [hpn]
        exact List.mem_append_right _ (List.mem_singleton_self _)
      · rw [c2 p hpn]
        exact List.mem_append_left _ hp

theorem liveSum_pos (deleted : List Bool) (n : ℕ) (h : 0 < liveSum deleted n (fun _ => 1)) :
    ∃ p, p < n ∧ deleted.getD p false = false := by
  by_contra hc
  have hz : liveSum deleted n (fun _ => 1) = 0 := by
    unfold liveSum
    apply Finset.sum_eq_zero
    intro p hp
    have hp' := Finset.mem_range.mp hp
    cases hd : deleted.getD p false with
    | false => exact absurd ⟨p, hp', hd⟩ hc
    | true => rfl
  omega

theorem poissonStep_spec (weightFcn : ℚ → ℚ) (nbsOf : ℕ → List (ℕ × ℚ))
    (heapOrder : List (ℕ × ℚ) → List (ℕ × ℚ)) (hheap : ∀ l, (heapOrder l).Perm l) (n N : ℕ)
    (hvalid : ∀ p, p < n → ∀ x ∈ nbsOf p, x.1 < n) (s : PoissonState)
    (hinv : PoissonInv n s) (hcur : N < s.current_number_of_points) :
    ∃ e s', queueTop heapOrder s.queue = some e ∧ e ∈ s.queue ∧ e.1 < n ∧
      poissonStep weightFcn nbsOf heapOrder s = some s' ∧ PoissonInv n s' ∧
      poissonMeasure nbsOf n s' + 1 = poissonMeasure nbsOf n s ∧
      ((s.deleted.getD e.1 false = true ∨ e.2 ≠ s.weights.getD e.1 0) →
        s'.weights = s.weights ∧ s'.deleted = s.deleted ∧
        s'.current_number_of_points = s.current_number_of_points) ∧
      (¬ (s.deleted.getD e.1 false = true ∨ e.2 ≠ s.weights.getD e.1 0) →
        s'.deleted = s.deleted.set e.1 true ∧
        s'.current_number_of_points + 1 = s.current_number_of_points ∧
        ∀ p, p < n → s.deleted.getD p false = false →
          s.weights.getD p 0 ≤ s.weights.getD e.1 0) := by
  obtain ⟨h1, h2, h3, h4, h5⟩ := hinv
  obtain ⟨p0, hp0, hd0⟩ := liveSum_pos s.deleted n (by rw [← h3]; omega)
  have hne : s.queue ≠ [] := List.ne_nil_of_mem (h5 p0 hp0 hd0)
  obtain ⟨e, he1, he2, he3⟩ := queueTop_spec heapOrder hheap s.queue hne
  have hen : e.1 < n := h4 e he2
  have hqlen : (s.queue.erase e).length + 1 = s.queue.length := by
    rw [List.length_erase_of_mem he2]
    have := List.length_pos_of_mem he2
    omega
  unfold poissonStep
  rw [he1]
  simp only []
  by_cases hst : s.deleted.getD e.1 false = true ∨ e.2 ≠ s.weights.getD e.1 0
  · rw [if_pos hst]
    refine ⟨e, _, rfl, he2, hen, rfl, ⟨h1, h2, h3, ?_, ?_⟩, ?_, fun _ => ⟨rfl, rfl, rfl⟩,
      fun h => absurd hst h⟩
    · intro x hx
      exact h4 x (List.mem_of_mem_erase hx)
    · intro p hp hd
      have hmem := h5 p hp hd
      apply (List.mem_erase_of_ne ?_).mpr hmem
      intro heq
      rcases hst with h | h
      · rw [← heq] at h
        simp only [] at h
        rw [hd] at h
        exact Bool.noConfusion h
      · apply h
        rw [← heq]
    · unfold poissonMeasure
      simp only []
      omega
  · rw [if_neg hst]
    have hlive : s.deleted.getD e.1 false = false := by
      cases hd : s.deleted.getD e.1 false with
      | false => rfl
      | true => exact absurd (Or.inl hd) hst
    have hw : e.2 = s.weights.getD e.1 0 := by
      by_contra hc
      exact hst (Or.inr hc)
    obtain ⟨r1, r2, r3, r4⟩ := reweight_spec weightFcn nbsOf (s.deleted.set e.1 true)
      (nbsOf e.1) (s.weights, s.queue.erase e)
    simp only [] at r1 r2 r3 r4
    have hsum1 := liveSum_set s.deleted n (fun _ => 1) e.1 hen h2 hlive
    have hsum2 := liveSum_set s.deleted n (fun p => (nbsOf p).length) e.1 hen h2 hlive
    simp only [] at hsum1 hsum2
    refine ⟨e, _, rfl, he2, hen, rfl, ⟨?_, ?_, ?_, ?_, ?_⟩, ?_, fun h => absurd h hst,
      fun _ => ⟨rfl, ?_, ?_⟩⟩
    · rw [r1]
      exact h1
    · simp only [List.length_set]
      exact h2
    · simp only []
      omega
    · intro x hx
      rcases r3 x hx with h | ⟨nb, hnb, hx'⟩
      · exact h4 x (List.mem_of_mem_erase h)
      · rw [hx']
        exact hvalid e.1 hen nb hnb
    · intro p hp hd
      simp only [] at hd
      have hpe : p ≠ e.1 := by
        intro h
        rw [h, getD_set, if_pos ⟨rfl, by omega⟩] at hd
        exact Bool.noConfusion hd
      rw [getD_set, if_neg (fun h => hpe h.1.symm)] at hd
      apply r4 p
      apply (List.mem_erase_of_ne ?_).mpr (h5 p hp hd)
      intro heq
      apply hpe
      rw [← heq]
    · unfold poissonMeasure
      simp only []
      rw [r2]
      omega
    · simp only []
      omega
    · intro p hp hd
      rw [← hw]
      exact he3 _ (h5 p hp hd)

theorem poissonInit_inv (weightFcn : ℚ → ℚ) (nbsOf : ℕ → List (ℕ × ℚ)) (n : ℕ) :
    PoissonInv n (poissonInit weightFcn nbsOf n) ∧
    (poissonInit weightFcn nbsOf n).queue.length = n ∧
    (poissonInit weightFcn nbsOf n).deleted = List.replicate n false ∧
    (poissonInit weightFcn nbsOf n).current_number_of_points = n := by
  have key := foldl_range_inv
    (fun (st : List ℚ × List (ℕ × ℚ)) pidx0 =>
      (ComputePointWeight weightFcn nbsOf st.1 (List.replicate n false) pidx0,
        st.2 ++ [(pidx0, (ComputePointWeight weightFcn nbsOf st.1 (List.replicate n false)
          pidx0).getD pidx0 0)]))
    (List.replicate n 0, [])
    (fun i (st : List ℚ × List (ℕ × ℚ)) =>
      st.1.length = n ∧ st.2.length = i ∧ (∀ e ∈ st.2, e.1 < i) ∧
      ∀ p, p < i → (p, st.1.getD p 0) ∈ st.2)
    n
    ⟨by simp, rfl, fun e he => by simp at he, fun p hp => absurd hp (Nat.not_lt_zero p)⟩
    (by
      rintro i _ ⟨w, q⟩ ⟨h1, h2, h3, h4⟩
      simp only [] at h1 h2 h3 h4
      obtain ⟨c1, c2⟩ := computePointWeight_spec weightFcn nbsOf w (List.replicate n false) i
      refine ⟨by rw [c1]; exact h1, by simp [h2], ?_, ?_⟩
      · intro e he
        rcases List.mem_append.mp he with h | h
        · exact Nat.lt_succ_of_lt (h3 e h)
        · rw [List.mem_singleton] at h
          rw [h]
          exact Nat.lt_succ_self i
      · intro p hp
        by_cases hpi : p = i
        · rw [hpi]
          exact List.mem_append_right _ (List.mem_singleton_self _)
        · simp only []
          rw [c2 p hpi]
          exact List.mem_append_left _ (h4 p (by omega)))
  obtain ⟨k1, k2, k3, k4⟩ := key
  refine ⟨⟨k1, by simp [poissonInit], ?_, k3, fun p hp _ => k4 p hp⟩, k2, rfl, rfl⟩
  show n = liveSum (List.replicate n false) n (fun _ => 1)
  rw [liveSum_replicate]
  simp

/-- C36: in the sample elimination, for every weight function, every radius query
that returns indices below the number `n` of candidates, and every way the queue
orders entries of equal weight: the invariant `PoissonInv` holds at the start and
after every iteration; an iteration whose top entry is stale (its index is deleted,
or its weight differs from the current weight) only removes this entry from the
queue; every other iteration deletes the index `e.1` of the top entry, which was not
deleted, and at this moment its current weight is at least the current weight of
every candidate that is not deleted. -/
theorem poissonStep_deletes_heaviest (weightFcn : ℚ → ℚ) (nbsOf : ℕ → List (ℕ × ℚ))
    (heapOrder : List (ℕ × ℚ) → List (ℕ × ℚ)) (hheap : ∀ l, (heapOrder l).Perm l) (n N : ℕ)
    (hvalid : ∀ p, p < n → ∀ x ∈ nbsOf p, x.1 < n) :
    PoissonInv n (poissonInit weightFcn nbsOf n) ∧
    ∀ s, PoissonInv n s → N < s.current_number_of_points →
      ∃ e s', queueTop heapOrder s.queue = some e ∧
        poissonStep weightFcn nbsOf heapOrder s = some s' ∧ PoissonInv n s' ∧
        ((s.deleted.getD e.1 false = true ∨ e.2 ≠ s.weights.getD e.1 0) →
          s'.weights = s.weights ∧ s'.deleted = s.deleted ∧
          s'.current_number_of_points = s.current_number_of_points ∧
          s'.queue = s.queue.erase e) ∧
        (¬ (s.deleted.getD e.1 false = true ∨ e.2 ≠ s.weights.getD e.1 0) →
          s.deleted.getD e.1 false = false ∧ s'.deleted = s.deleted.set e.1 true ∧
          s'.current_number_of_points + 1 = s.current_number_of_points ∧
          ∀ p, p < n → s.deleted.getD p false = false →
            s.weights.getD p 0 ≤ s.weights.getD e.1 0) := by
  refine ⟨(poissonInit_inv _ _ _).1, ?_⟩
  intro s hinv hcur
  obtain ⟨e, s', h1, _, _, h4, h5, _, h7, h8⟩ := poissonStep_spec weightFcn nbsOf heapOrder
    hheap n N hvalid s hinv hcur
  refine ⟨e, s', h1, h4, h5, ?_, ?_⟩
  · intro hst
    refine ⟨(h7 hst).1, (h7 hst).2.1, (h7 hst).2.2, ?_⟩
    unfold poissonStep at h4
    rw [h1] at h4
    simp only [] at h4
    rw [if_pos hst] at h4
    rw [← Option.some.inj h4]
  · intro hst
    refine ⟨?_, (h8 hst).1, (h8 hst).2.1, (h8 hst).2.2⟩
    cases hd : s.deleted.getD e.1 false with
    | false => rfl
    | true => exact absurd (Or.inl hd) hst

theorem poissonStep_deletes_heaviest_witness :
    (∀ l : List (ℕ × ℚ), (id l).Perm l) ∧
      (∀ p, p < 2 → ∀ x ∈ (fun _ => [((0 : ℕ), (1 : ℚ)), (1, 1)]) p, x.1 < 2) ∧
      PoissonInv 2 (poissonInit id (fun _ => [(0, 1), (1, 1)]) 2) := by
  have hv : ∀ p, p < 2 → ∀ x ∈ (fun _ => [((0 : ℕ), (1 : ℚ)), (1, 1)]) p, x.1 < 2 := by
    intro p _ x hx
    simp only [List.mem_cons, List.mem_singleton, List.not_mem_nil, or_false] at hx
    rcases hx with rfl | rfl <;> decide
  exact ⟨fun l => List.Perm.refl l, hv,
    (poissonStep_deletes_heaviest id (fun _ => [(0, 1), (1, 1)]) id
      (fun l => List.Perm.refl l) 2 1 hv).1⟩

/-! ## C25: the early returns of the sampling functions -/

/-- C25: `SamplePointsUniformly` and `SamplePointsPoissonDisk` return a cloud
without points when `number_of_points` is 0 or the mesh has no triangles;
`SamplePointsPoissonDisk` also when no candidates are passed and `init_factor < 1`,
and when candidates are passed that are fewer than `number_of_points`. -/
theorem sampling_empty_cloud (root : ℚ → ℚ) (pow : ℚ → ℚ → ℚ) (dist : ℕ → ℚ)
    (search : List Vector3d → Vector3d → ℚ → List (ℕ × ℚ))
    (heapOrder : List (ℕ × ℚ) → List (ℕ × ℚ)) (input : TriangleMesh) (N : ℕ)
    (init_factor : ℚ) (pcl_init : Option PointCloud) :
    emptyCloud.points_.length = 0 ∧
    (N = 0 ∨ input.triangles_.length = 0 →
      SamplePointsUniformly root dist input N = emptyCloud ∧
      SamplePointsPoissonDisk root pow dist search heapOrder input N init_factor pcl_init =
        some emptyCloud) ∧
    (pcl_init = none → init_factor < 1 →
      SamplePointsPoissonDisk root pow dist search heapOrder input N init_factor pcl_init =
        some emptyCloud) ∧
    ∀ p, pcl_init = some p → p.points_.length < N →
      SamplePointsPoissonDisk root pow dist search heapOrder input N init_factor pcl_init =
        some emptyCloud := by
  refine ⟨rfl, ?_, ?_, ?_⟩
  · intro h
    constructor
    · unfold SamplePointsUniformly
      by_cases h1 : N ≤ 0
      · rw [if_pos h1]
      · rw [if_neg h1, if_pos (by omega)]
    · unfold SamplePointsPoissonDisk
      by_cases h1 : N ≤ 0
      · rw [if_pos h1]
      · rw [if_neg h1, if_pos (by omega)]
  · intro hn hf
    unfold SamplePointsPoissonDisk
    by_cases h1 : N ≤ 0
    · rw [if_pos h1]
    · rw [if_neg h1]
      by_cases h2 : input.triangles_.length = 0
      · rw [if_pos h2]
      · rw [if_neg h2, if_pos ⟨by rw [hn]; rfl, hf⟩]
  · intro p hp hlt
    unfold SamplePointsPoissonDisk
    by_cases h1 : N ≤ 0
    · rw [if_pos h1]
    · rw [if_neg h1]
      by_cases h2 : input.triangles_.length = 0
      · rw [if_pos h2]
      · rw [if_neg h2]
        by_cases h3 : pcl_init.isNone = true ∧ init_factor < 1
        · rw [if_pos h3]
        · rw [if_neg h3, if_pos (by rw [hp]; simp [tooFewCandidates, hlt])]

theorem sampling_empty_cloud_witness :
    (0 = 0 ∨ fanMesh.triangles_.length = 0) ∧
      SamplePointsUniformly id (fun _ => 0) fanMesh 0 = emptyCloud ∧
      SamplePointsPoissonDisk id (fun x _ => x) (fun _ => 0) allNeighbours id fanMesh 0 5
        none = some emptyCloud :=
  ⟨Or.inl rfl,
    (sampling_empty_cloud id (fun x _ => x) (fun _ => 0) allNeighbours id fanMesh 0 5
      none).2.1 (Or.inl rfl)⟩

end Open3D
